import Mathlib

/-!
# lftree: a dataflow future combinator library

A shallow embedding of `lftree.h`.  The C++ objects live on an explicit heap.
Every `std::shared_ptr` is an address whose target carries a strong count `rc`;
an object whose count reaches zero is destroyed (removed from the heap) and the
strong references it owned are released in turn.  A `std::weak_ptr` is a bare
address, and `lock()` succeeds exactly when the heap still holds the object.

Callbacks (`std::function`) are closures of an abstract type `C`; the program
text `Code` gives each closure its body, a small graph-building program `Prog`,
and the future handles it captured by value.

Heap addresses are natural numbers, and so are the tags `ty` that stand for the
C++ value types `T` indexing the registries.

The field `trace` is ghost state: it records which calls happened and is never
read by the operations.
-/

namespace lftree

/-- Ways in which a run can fail to produce a result. -/
inductive Err where
  | fuel
  | null
  | dangling
  deriving DecidableEq, Repr

/-- Bodies of callbacks: the library calls a callback may make before it
returns a future handle. -/
inductive Prog (C V : Type) where
  | ret (x : Nat)
  | value (v : V) (k : Nat → Prog C V)
  | empty (k : Nat → Prog C V)
  | receive (ty : Nat) (k : Nat → Prog C V)
  | bind (args : List Nat) (f : C) (k : Nat → Prog C V)
  | alt (args : List Nat) (fs : List C) (k : Nat → Prog C V)
  | copy (x : Nat) (k : Prog C V)
  | drop (x : Nat) (k : Prog C V)
  | deliver (ty : Nat) (v : V) (k : Nat → Prog C V)

/-- The program text: for each closure its body and the handles it captured. -/
structure Code (C V : Type) where
  body : C → List V → Prog C V
  captures : C → List Nat

/-- The three classes derived from `Node<T>` with their own members. -/
inductive Kind (C V : Type) where
  | receive
  | bind (ready : List Bool) (args : List V) (f : C)
  | alt (fs : List C)

/-- Heap objects: `Node<T>` (with subclass members in `kind`), `Future<T>::Data`
and `ArgObserver`. -/
inductive Obj (C V : Type) where
  | node (rc : Nat) (kind : Kind C V) (parents : List (Option Nat)) (children : List Nat)
  | data (rc : Nat) (ready : Bool) (value : V) (parent : Option Nat)
  | arg (rc : Nat) (parent : Option Nat) (node : Nat) (idx : Nat)

/-- Ghost events: a `Receive` was constructed and registered, `deliver` found
an entry of its snapshot alive, `propagate` was entered on a node, `set` is
about to be called on a child found alive, a callback is about to be invoked
with the given arguments. -/
inductive Event (V : Type) where
  | created (ty : Nat) (node : Nat)
  | fulfil (ty : Nat) (node : Nat)
  | propagate (node : Nat) (x : Nat)
  | set (obs : Nat) (v : V)
  | call (node : Nat) (idx : Nat) (args : List V)

/-- Program state: the heap, the allocation counter, the per-type registries
`Receive<T>::instances()` and the ghost trace. -/
structure State (C V : Type) where
  heap : Nat → Option (Obj C V)
  next : Nat
  instances : Nat → List Nat
  trace : List (Event V)

/-- The state at program start. -/
def State.init {C V : Type} : State C V :=
  { heap := fun _ => none, next := 0, instances := fun _ => [], trace := [] }

/-- Strong count of an object. -/
def Obj.rc {C V : Type} : Obj C V → Nat
  | .node rc _ _ _ => rc
  | .data rc _ _ _ => rc
  | .arg rc _ _ _ => rc

/-- Replace the strong count of an object. -/
def Obj.setRc {C V : Type} (n : Nat) : Obj C V → Obj C V
  | .node _ k ps cs => .node n k ps cs
  | .data _ r v p => .data n r v p
  | .arg _ p t i => .arg n p t i

/-- Handles captured by the closures stored in a node. -/
def Kind.captures {C V : Type} (code : Code C V) : Kind C V → List Nat
  | .receive => []
  | .bind _ _ f => code.captures f
  | .alt fs => fs.flatMap code.captures

/-- The strong references an object owns; they are released when it dies. -/
def Obj.refs {C V : Type} (code : Code C V) : Obj C V → List Nat
  | .node _ k ps _ => k.captures code ++ ps.filterMap id
  | .data _ _ _ p => p.toList
  | .arg _ p _ _ => p.toList

/-- Store `o` at address `a` (`none` destroys the object). -/
def State.write {C V : Type} (s : State C V) (a : Nat) (o : Option (Obj C V)) : State C V :=
  { s with heap := fun b => if b = a then o else s.heap b }

/-- Allocate a new object (`std::make_shared`). -/
def State.alloc {C V : Type} (s : State C V) (o : Obj C V) : Nat × State C V :=
  (s.next, { s with heap := fun b => if b = s.next then some o else s.heap b, next := s.next + 1 })

/-- Append a ghost event. -/
def State.emit {C V : Type} (s : State C V) (e : Event V) : State C V :=
  { s with trace := s.trace ++ [e] }

/-- Copy a `shared_ptr`: one more strong reference to a live object. -/
def acquire {C V : Type} (a : Nat) (s : State C V) : Except Err (State C V) :=
  match s.heap a with
  | some o => .ok (s.write a (some (o.setRc (o.rc + 1))))
  | none => .error .dangling

/-- Copy a future handle. -/
def Future.copy {C V : Type} (x : Nat) (s : State C V) : Except Err (State C V) :=
  match s.heap x with
  | some (.data rc r v p) => .ok (s.write x (some (.data (rc + 1) r v p)))
  | _ => .error .dangling

/-- Copy each handle of a list. -/
def Future.copyAll {C V : Type} : List Nat → State C V → Except Err (State C V)
  | [], s => .ok s
  | x :: xs, s =>
    match Future.copy x s with
    | .ok s1 => Future.copyAll xs s1
    | .error e => .error e

/-- Destroy `shared_ptr`s: each address in the work list loses one strong
reference; an object that loses its last one is destroyed and the references it
owned join the work list. -/
def release {C V : Type} (code : Code C V) : Nat → List Nat → State C V → Except Err (State C V)
  | _, [], s => .ok s
  | 0, _ :: _, _ => .error .fuel
  | fuel + 1, a :: rest, s =>
    match s.heap a with
    | none => .error .dangling
    | some o =>
      if o.rc ≤ 1 then release code fuel (o.refs code ++ rest) (s.write a none)
      else release code fuel rest (s.write a (some (o.setRc (o.rc - 1))))

/-- A future handle goes out of scope. -/
def Future.drop {C V : Type} (code : Code C V) (fuel : Nat) (x : Nat) (s : State C V) :
    Except Err (State C V) :=
  match s.heap x with
  | some (.data _ _ _ _) => release code fuel [x] s
  | _ => .error .dangling

/-- Each handle of a list goes out of scope. -/
def Future.dropAll {C V : Type} (code : Code C V) (fuel : Nat) :
    List Nat → State C V → Except Err (State C V)
  | [], s => .ok s
  | x :: xs, s =>
    match Future.drop code fuel x s with
    | .ok s1 => Future.dropAll code fuel xs s1
    | .error e => .error e

/-- `Future<T>::ready()`. -/
def Future.ready {C V : Type} (s : State C V) (x : Nat) : Bool :=
  match s.heap x with
  | some (.data _ r _ _) => r
  | _ => false

/-- `Future<T>::get()`. -/
def Future.get {C V : Type} [Inhabited V] (s : State C V) (x : Nat) : V :=
  match s.heap x with
  | some (.data _ _ v _) => v
  | _ => default

/-- `Future<T>::getParent()`: the producer of the cell, `none` for a null pointer. -/
def Future.getParent {C V : Type} (s : State C V) (x : Nat) : Except Err (Option Nat) :=
  match s.heap x with
  | some (.data _ _ _ p) => .ok p
  | _ => .error .dangling

/-- `Future<T>::getParent()` of each handle of a list. -/
def Future.getParents {C V : Type} (s : State C V) : List Nat → Except Err (List (Option Nat))
  | [] => .ok []
  | x :: xs =>
    match Future.getParent s x, Future.getParents s xs with
    | .ok p, .ok ps => .ok (p :: ps)
    | .error e, _ => .error e
    | _, .error e => .error e

/-- `Future<T>(x)`: a cell that starts resolved. -/
def Future.mk {C V : Type} (v : V) (s : State C V) : Nat × State C V :=
  s.alloc (.data 1 true v none)

/-- `Future<T>()`: an empty cell without a producer. -/
def Future.empty {C V : Type} [Inhabited V] (s : State C V) : Nat × State C V :=
  s.alloc (.data 1 false default none)

/-- `Future<T>::create(node)`: an empty cell whose producer is `node`, subscribed
to the node through `Node::connect(weak)`. -/
def Future.create {C V : Type} [Inhabited V] (node : Nat) (s : State C V) :
    Except Err (Nat × State C V) :=
  let (x, s1) := s.alloc (.data 1 false default (some node))
  match s1.heap node with
  | some (.node rc k ps cs) => .ok (x, s1.write node (some (.node (rc + 1) k ps (cs ++ [x]))))
  | _ => .error .dangling

/-- The variadic `Node<T>::connect`: for each producer, from position `i` on, an
`ArgObserver` is made, appended to the producer's children and to the parents
of `node`. -/
def Node.connect {C V : Type} (node : Nat) : Nat → List (Option Nat) → State C V →
    Except Err (State C V)
  | _, [], s => .ok s
  | _, none :: _, _ => .error .null
  | i, some a :: rest, s =>
    let (o, s1) := s.alloc (.arg 1 (some a) node i)
    match s1.heap a with
    | some (.node rc k ps cs) =>
      let s2 := s1.write a (some (.node (rc + 1) k ps (cs ++ [o])))
      match s2.heap node with
      | some (.node rc2 k2 ps2 cs2) =>
        Node.connect node (i + 1) rest (s2.write node (some (.node rc2 k2 (ps2 ++ [some o]) cs2)))
      | _ => .error .dangling
    | _ => .error .dangling

/-- `Receive<T>::create()`. -/
def Receive.create {C V : Type} [Inhabited V] (code : Code C V) (fuel : Nat) (ty : Nat)
    (s : State C V) : Except Err (Nat × State C V) :=
  let (r, s1) := s.alloc (.node 1 .receive [] [])
  let s2 : State C V :=
    { s1 with instances := fun t => if t = ty then s1.instances t ++ [r] else s1.instances t }
  match Future.create r (s2.emit (.created ty r)) with
  | .ok (x, s3) =>
    match release code fuel [r] s3 with
    | .ok s4 => .ok (x, s4)
    | .error e => .error e
  | .error e => .error e

/-- `Bind<T, Args...>::create(args..., f)`. -/
def Bind.create {C V : Type} [Inhabited V] (code : Code C V) (fuel : Nat) (args : List Nat)
    (f : C) (s : State C V) : Except Err (Nat × State C V) :=
  let n := args.length
  let (b, s1) := s.alloc (.node 1 (.bind (List.replicate n false) (List.replicate n default) f) [] [])
  match Future.copyAll (code.captures f) s1 with
  | .ok s2 =>
    match Future.getParents s2 args with
    | .ok ps =>
      match Node.connect b 0 ps s2 with
      | .ok s3 =>
        match Future.create b s3 with
        | .ok (x, s4) =>
          match release code fuel [b] s4 with
          | .ok s5 => .ok (x, s5)
          | .error e => .error e
        | .error e => .error e
      | .error e => .error e
    | .error e => .error e
  | .error e => .error e

/-- `Alt<T, Args...>::create(args..., fs...)`. -/
def Alt.create {C V : Type} [Inhabited V] (code : Code C V) (fuel : Nat) (args : List Nat)
    (fs : List C) (s : State C V) : Except Err (Nat × State C V) :=
  let (a, s1) := s.alloc (.node 1 (.alt fs) [] [])
  match Future.copyAll (fs.flatMap code.captures) s1 with
  | .ok s2 =>
    match Future.getParents s2 args with
    | .ok ps =>
      match Node.connect a 0 ps s2 with
      | .ok s3 =>
        match Future.create a s3 with
        | .ok (x, s4) =>
          match release code fuel [a] s4 with
          | .ok s5 => .ok (x, s5)
          | .error e => .error e
        | .error e => .error e
      | .error e => .error e
    | .error e => .error e
  | .error e => .error e

/-- The loop of the graft branch of `Node<T>::propagate`: every child that is
still alive gets `p` as its parent. -/
def Node.reparent {C V : Type} (code : Code C V) (fuel : Nat) (p : Nat) :
    List Nat → State C V → Except Err (State C V)
  | [], s => .ok s
  | c :: cs, s =>
    match s.heap c with
    | none => Node.reparent code fuel p cs s
    | some (.node _ _ _ _) => .error .dangling
    | some (.data rc r v old) =>
      match acquire p (s.write c (some (.data (rc + 1) r v (some p)))) with
      | .ok s1 =>
        match release code fuel (old.toList ++ [c]) s1 with
        | .ok s2 => Node.reparent code fuel p cs s2
        | .error e => .error e
      | .error e => .error e
    | some (.arg rc old t i) =>
      match acquire p (s.write c (some (.arg (rc + 1) (some p) t i))) with
      | .ok s1 =>
        match release code fuel (old.toList ++ [c]) s1 with
        | .ok s2 => Node.reparent code fuel p cs s2
        | .error e => .error e
      | .error e => .error e

/-- The loop `for (auto& parent : this->parents) parent.reset();` of `Alt::set`,
over the positions `ks`. -/
def Alt.resetParents {C V : Type} (code : Code C V) (fuel : Nat) (a : Nat) :
    List Nat → State C V → Except Err (State C V)
  | [], s => .ok s
  | k :: ks, s =>
    match s.heap a with
    | some (.node rc kind ps cs) =>
      match release code fuel (ps.getD k none).toList
          (s.write a (some (.node rc kind (ps.set k none) cs))) with
      | .ok s1 => Alt.resetParents code fuel a ks s1
      | .error e => .error e
    | _ => .error .dangling

mutual

/-- `Receive<T>::deliver(x)`: the registry is moved into the local `is`, which
leaves it empty, and the snapshot is traversed. -/
def Receive.deliver {C V : Type} [Inhabited V] (code : Code C V) :
    Nat → Nat → V → State C V → Except Err (Nat × State C V)
  | 0, _, _, _ => .error .fuel
  | fuel + 1, ty, v, s =>
    Receive.deliverLoop code fuel ty (s.instances ty) v 0
      { s with instances := fun t => if t = ty then [] else s.instances t }
termination_by structural fuel => fuel

/-- The loop of `Receive<T>::deliver` over the snapshot, `n` being the count so
far: an entry whose `lock()` succeeds is propagated the ready future
`Future<T>(x)` and counted. -/
def Receive.deliverLoop {C V : Type} [Inhabited V] (code : Code C V) :
    Nat → Nat → List Nat → V → Nat → State C V → Except Err (Nat × State C V)
  | 0, _, _, _, _, _ => .error .fuel
  | _ + 1, _, [], _, n, s => .ok (n, s)
  | fuel + 1, ty, i :: is, v, n, s =>
    match s.heap i with
    | some (.node rc k ps cs) =>
      let (x, s1) := Future.mk v ((s.emit (.fulfil ty i)).write i (some (.node (rc + 1) k ps cs)))
      match Node.propagate code fuel i x s1 with
      | .ok s2 =>
        match release code fuel [x, i] s2 with
        | .ok s3 => Receive.deliverLoop code fuel ty is v (n + 1) s3
        | .error e => .error e
      | .error e => .error e
    | some _ => .error .dangling
    | none => Receive.deliverLoop code fuel ty is v n s
termination_by structural fuel => fuel

/-- `Node<T>::propagate(x)` on the node at address `n`. -/
def Node.propagate {C V : Type} [Inhabited V] (code : Code C V) :
    Nat → Nat → Nat → State C V → Except Err (State C V)
  | 0, _, _, _ => .error .fuel
  | fuel + 1, n, x, s =>
    match s.heap x, s.heap n with
    | some (.data _ true v _), some (.node _ _ _ cs) =>
      Node.setChildren code fuel cs v (s.emit (.propagate n x))
    | some (.data _ false _ none), some (.node _ _ _ _) => .error .null
    | some (.data _ false _ (some p)), some (.node _ _ _ cs) =>
      match s.heap p with
      | some (.node prc pk pps _) =>
        let s1 := (s.emit (.propagate n x)).write p (some (.node prc pk pps cs))
        match s1.heap n with
        | some (.node rc1 k1 ps1 _) =>
          let s2 := s1.write n (some (.node rc1 k1 ps1 []))
          match s2.heap p with
          | some (.node _ _ _ pcs) => Node.reparent code fuel p pcs s2
          | _ => .error .dangling
        | _ => .error .dangling
      | _ => .error .dangling
    | _, _ => .error .dangling
termination_by structural fuel => fuel

/-- The loop of the ready branch of `Node<T>::propagate`: each child whose
`lock()` succeeds is held while its `set` runs. -/
def Node.setChildren {C V : Type} [Inhabited V] (code : Code C V) :
    Nat → List Nat → V → State C V → Except Err (State C V)
  | 0, _, _, _ => .error .fuel
  | _ + 1, [], _, s => .ok s
  | fuel + 1, c :: cs, v, s =>
    match s.heap c with
    | none => Node.setChildren code fuel cs v s
    | some (.node _ _ _ _) => .error .dangling
    | some o =>
      match Observer.set code fuel c v
          ((s.emit (.set c v)).write c (some (o.setRc (o.rc + 1)))) with
      | .ok s1 =>
        match release code fuel [c] s1 with
        | .ok s2 => Node.setChildren code fuel cs v s2
        | .error e => .error e
      | .error e => .error e
termination_by structural fuel => fuel

/-- The virtual `Observer<T>::set(x)`: `Future<T>::Data::set` on a value cell,
`ArgObserver::set` on an argument observer. -/
def Observer.set {C V : Type} [Inhabited V] (code : Code C V) :
    Nat → Nat → V → State C V → Except Err (State C V)
  | 0, _, _, _ => .error .fuel
  | fuel + 1, o, v, s =>
    match s.heap o with
    | some (.data rc _ _ p) =>
      release code fuel p.toList (s.write o (some (.data rc true v none)))
    | some (.arg _ _ t i) =>
      match s.heap t with
      | some (.node rc k ps cs) =>
        match Node.set code fuel t i v (s.write t (some (.node (rc + 1) k ps cs))) with
        | .ok s1 => release code fuel [t] s1
        | .error e => .error e
      | some _ => .error .dangling
      | none => .ok s
    | _ => .error .dangling
termination_by structural fuel => fuel

/-- The call `p->template set<Arg, I>(x)` made by an argument observer:
`Bind::set` or `Alt::set`. -/
def Node.set {C V : Type} [Inhabited V] (code : Code C V) :
    Nat → Nat → Nat → V → State C V → Except Err (State C V)
  | 0, _, _, _, _ => .error .fuel
  | fuel + 1, t, i, v, s =>
    match s.heap t with
    | some (.node rc (.bind ready args f) ps cs) =>
      let ready1 := ready.set i true
      let args1 := args.set i v
      match release code fuel (ps.getD i none).toList
          (s.write t (some (.node rc (.bind ready1 args1 f) (ps.set i none) cs))) with
      | .ok s1 =>
        if ready1.all id then
          match Prog.run code fuel (code.body f args1) (s1.emit (.call t 0 args1)) with
          | .ok (x, s2) =>
            match Node.propagate code fuel t x s2 with
            | .ok s3 => release code fuel [x] s3
            | .error e => .error e
          | .error e => .error e
        else .ok s1
      | .error e => .error e
    | some (.node _ (.alt fs) ps _) =>
      match Alt.resetParents code fuel t (List.range ps.length) s with
      | .ok s1 =>
        match fs.get? i with
        | some f =>
          match Prog.run code fuel (code.body f [v]) (s1.emit (.call t i [v])) with
          | .ok (x, s2) =>
            match Node.propagate code fuel t x s2 with
            | .ok s3 => release code fuel [x] s3
            | .error e => .error e
          | .error e => .error e
        | none => .error .dangling
      | .error e => .error e
    | _ => .error .dangling
termination_by structural fuel => fuel

/-- Run the body of a callback up to the handle it returns. -/
def Prog.run {C V : Type} [Inhabited V] (code : Code C V) :
    Nat → Prog C V → State C V → Except Err (Nat × State C V)
  | 0, _, _ => .error .fuel
  | _ + 1, .ret x, s => .ok (x, s)
  | fuel + 1, .value v k, s =>
    let (x, s1) := Future.mk v s
    Prog.run code fuel (k x) s1
  | fuel + 1, .empty k, s =>
    let (x, s1) := Future.empty s
    Prog.run code fuel (k x) s1
  | fuel + 1, .receive ty k, s =>
    match Receive.create code fuel ty s with
    | .ok (x, s1) => Prog.run code fuel (k x) s1
    | .error e => .error e
  | fuel + 1, .bind args f k, s =>
    match Bind.create code fuel args f s with
    | .ok (x, s1) => Prog.run code fuel (k x) s1
    | .error e => .error e
  | fuel + 1, .alt args fs k, s =>
    match Alt.create code fuel args fs s with
    | .ok (x, s1) => Prog.run code fuel (k x) s1
    | .error e => .error e
  | fuel + 1, .copy x k, s =>
    match Future.copy x s with
    | .ok s1 => Prog.run code fuel k s1
    | .error e => .error e
  | fuel + 1, .drop x k, s =>
    match Future.drop code fuel x s with
    | .ok s1 => Prog.run code fuel k s1
    | .error e => .error e
  | fuel + 1, .deliver ty v k, s =>
    match Receive.deliver code fuel ty v s with
    | .ok (n, s1) => Prog.run code fuel (k n) s1
    | .error e => .error e
termination_by structural fuel => fuel

end

/-- The program text without any callback. -/
def noCode {V : Type} : Code Empty V :=
  { body := fun c _ => c.elim, captures := fun c => c.elim }

/-- Objects of the same class: a node keeps its subclass, its callbacks and the
width of its slots; an argument observer keeps its target and position. -/
def Obj.SameClass {C V : Type} : Obj C V → Obj C V → Prop
  | .node _ .receive _ _, .node _ .receive _ _ => True
  | .node _ (.bind r a f) _ _, .node _ (.bind r1 a1 f1) _ _ =>
    f = f1 ∧ r.length = r1.length ∧ a.length = a1.length
  | .node _ (.alt fs) _ _, .node _ (.alt fs1) _ _ => fs = fs1
  | .data _ _ _ _, .data _ _ _ _ => True
  | .arg _ _ t i, .arg _ _ t1 i1 => t = t1 ∧ i = i1
  | _, _ => False

/-- The callback body `p` calls `deliver` only for types satisfying `D`. -/
def Prog.Delivers {C V : Type} (D : Nat → Prop) : Prog C V → Prop
  | .ret _ => True
  | .value _ k => ∀ x, Prog.Delivers D (k x)
  | .empty k => ∀ x, Prog.Delivers D (k x)
  | .receive _ k => ∀ x, Prog.Delivers D (k x)
  | .bind _ _ k => ∀ x, Prog.Delivers D (k x)
  | .alt _ _ k => ∀ x, Prog.Delivers D (k x)
  | .copy _ k => Prog.Delivers D k
  | .drop _ k => Prog.Delivers D k
  | .deliver ty _ k => D ty ∧ ∀ n, Prog.Delivers D (k n)

/-- Every callback of the program text calls `deliver` only for types
satisfying `D`. -/
def Code.Delivers {C V : Type} (D : Nat → Prop) (code : Code C V) : Prop :=
  ∀ c args, Prog.Delivers D (code.body c args)

/-- A relation between an earlier and a later state that is kept by every
elementary change of state the library makes, where `deliver` is only called
for types satisfying `D`. -/
structure Closed {C V : Type} (D : Nat → Prop) (R : State C V → State C V → Prop) : Prop where
  refl : ∀ s, R s s
  trans : ∀ {a b c}, R a b → R b c → R a c
  write : ∀ s a o o1, s.heap a = some o → Obj.SameClass o o1 → R s (s.write a (some o1))
  kill : ∀ s a o, s.heap a = some o → R s (s.write a none)
  alloc : ∀ s o, R s (s.alloc o).2
  register : ∀ (s : State C V) ty o,
    R s ({ (s.alloc o).2 with
      instances := fun t => if t = ty then s.instances t ++ [s.next] else s.instances t,
      trace := s.trace ++ [.created ty s.next] })
  fulfil : ∀ s ty i, D ty → R s (s.emit (.fulfil ty i))
  propagate : ∀ s n x, R s (s.emit (.propagate n x))
  set : ∀ s o v, R s (s.emit (.set o v))
  call : ∀ s t i args, R s (s.emit (.call t i args))
  clear : ∀ (s : State C V) ty, D ty →
    R s { s with instances := fun t => if t = ty then [] else s.instances t }

/-- Well-formed states: nothing is stored at or above the allocation counter and
the registries hold allocated addresses only. -/
def State.WF {C V : Type} (s : State C V) : Prop :=
  (∀ a, s.next ≤ a → s.heap a = none) ∧ ∀ ty, ∀ i ∈ s.instances ty, i < s.next

/-- The later state `s1` of a run that was in state `s`: addresses are only
allocated upwards, a destroyed object stays destroyed, an object that is still
there kept its class, and the ghost trace was only extended. -/
def Evolves {C V : Type} (s s1 : State C V) : Prop :=
  s.WF → s1.WF ∧ s.next ≤ s1.next ∧
    (∀ a, a < s.next → s.heap a = none → s1.heap a = none) ∧
    (∀ a o, s.heap a = some o → s1.heap a = none ∨ ∃ o1, s1.heap a = some o1 ∧ o.SameClass o1) ∧
    ∃ evs, s1.trace = s.trace ++ evs

/-- The number of entries of a list of weak references whose object is alive. -/
def State.liveCount {C V : Type} (s : State C V) (is : List Nat) : Nat :=
  is.countP (fun i => (s.heap i).isSome)

/-- The nodes for which the events `evs` record the construction of a
`Receive<T>`, `T` being the type with tag `ty`. -/
def createdIn {V : Type} (ty : Nat) (evs : List (Event V)) : List Nat :=
  evs.filterMap fun e =>
    match e with
    | .created t r => if t = ty then some r else none
    | _ => none

/-- The nodes for which the events `evs` record that `deliver<T>` found them
alive in its snapshot. -/
def fulfilledIn {V : Type} (ty : Nat) (evs : List (Event V)) : List Nat :=
  evs.filterMap fun e =>
    match e with
    | .fulfil t r => if t = ty then some r else none
    | _ => none

/-- What a run that does not call `deliver<T>` does to the registry of `T`: it
appends the `Receive<T>` nodes it constructs, which are new, and fulfils none. -/
def Grows {C V : Type} (ty : Nat) (s s1 : State C V) : Prop :=
  ∃ evs, s1.trace = s.trace ++ evs ∧ fulfilledIn ty evs = [] ∧
    s1.instances ty = s.instances ty ++ createdIn ty evs ∧ s.next ≤ s1.next ∧
    ∀ r ∈ createdIn ty evs, s.next ≤ r ∧ r < s1.next

/-- The program text whose closures are functions from the argument values to
the value of the ready future the callback returns. -/
def pureCode {V : Type} : Code (List V → V) V :=
  { body := fun f args => .value (f args) .ret, captures := fun _ => [] }

/-- The setup `x = alt<T, A, A>(receive<A>(), receive<A>(), f, g)`; the two
temporaries are destroyed at the end of the statement. -/
def altOverTwoReceives {C V : Type} [Inhabited V] (code : Code C V) (fuel ty : Nat) (f g : C)
    (s : State C V) : Except Err (Nat × State C V) := do
  let (t1, s1) ← Receive.create code fuel ty s
  let (t2, s2) ← Receive.create code fuel ty s1
  let (x, s3) ← Alt.create code fuel [t1, t2] [f, g] s2
  let s4 ← Future.drop code fuel t2 s3
  let s5 ← Future.drop code fuel t1 s4
  return (x, s5)

/-- The setup `x = receive<T>(); y = receive<T>()` with both handles held. -/
def twoReceives {C V : Type} [Inhabited V] (code : Code C V) (fuel ty : Nat)
    (s : State C V) : Except Err ((Nat × Nat) × State C V) := do
  let (x, s1) ← Receive.create code fuel ty s
  let (y, s2) ← Receive.create code fuel ty s1
  return ((x, y), s2)

/-- The state after `x = receive<T>()` at program start, `T` having tag 0: the
node is at address 0 and the cell of `x` at address 1. -/
def oneReceive {C V : Type} [Inhabited V] : State C V :=
  { heap := fun b => if b = 1 then some (.data 1 false default (some 0))
      else if b = 0 then some (.node 1 .receive [] [1]) else none,
    next := 2,
    instances := fun u => if u = 0 then [0] else [],
    trace := [.created 0 0] }

/-- What the run `x = alt<T, A, A>(receive<A>(), receive<A>(), f, f)` followed by
`deliver<A>(5)` shows, with `f(a) = a`: the number of live entries of the
registry of `A` before the delivery, the count returned, and the value of `x`. -/
def altOverTwoReceivesRun : Option (Nat × Nat × Nat) :=
  match altOverTwoReceives pureCode 10 0 (fun l => l.headD 0) (fun l => l.headD 0)
      (State.init (V := Nat)) with
  | .ok (x, s) =>
    match Receive.deliver pureCode 12 0 5 s with
    | .ok (n, s1) => some (s.liveCount (s.instances 0), n, Future.get s1 x)
    | .error _ => none
  | .error _ => none

/-- What the run `x = receive<T>(); y = receive<T>(); deliver<T>(v)` shows: the
count returned and the values of `x` and `y`. -/
def twoReceivesRun {V : Type} [Inhabited V] (v : V) : Option (Nat × V × V) :=
  match twoReceives (noCode (V := V)) 1 0 State.init with
  | .ok ((x, y), s) =>
    match Receive.deliver noCode 8 0 v s with
    | .ok (n, s1) => some (n, Future.get s1 x, Future.get s1 y)
    | .error _ => none
  | .error _ => none

/-- The body of `receive<T>(pred)`: `bind<T, T>(receive<T>(), c)` where `c` is
the closure of the lambda; the temporary future is destroyed on return. -/
def receivePred {C V : Type} (ty : Nat) (c : C) : Prog C V :=
  .receive ty fun t => .bind [t] c fun y => .drop t (.ret y)

/-- The program text says that `c` is the closure made by `receive<T>(pred)`:
called on `x` it returns the ready future `x` if `pred(x)` holds and the future
of a new `receive<T>(pred)` if not, and it captures no future. -/
def IsPredClosure {C V : Type} (code : Code C V) (ty : Nat) (pred : V → Bool) (c : C) : Prop :=
  (∀ x, code.body c [x] = if pred x then .value x .ret else receivePred ty c) ∧
    code.captures c = []

/-- The graph of an unresolved `x = receive<T>(pred)`: the `Receive<T>` node at
`k` is the last entry of the registry, after the dead entries `pre`; its children
are the destroyed temporary cell `k + 1` and the argument observer `k + 3` of
the `Bind` node `k + 2`, whose only child is the cell `x`. -/
def PredShape {C V : Type} [Inhabited V] (c : C) (ty x k : Nat) (pre : List Nat)
    (s : State C V) : Prop :=
  s.next = k + 5 ∧ x ≤ k + 4 ∧ x ≠ k ∧ x ≠ k + 1 ∧ x ≠ k + 2 ∧ x ≠ k + 3 ∧
  s.instances ty = pre ++ [k] ∧ (∀ i ∈ pre, s.heap i = none) ∧
  s.heap k = some (.node 1 .receive [] [k + 1, k + 3]) ∧
  s.heap (k + 1) = none ∧
  s.heap (k + 2) = some (.node 1 (.bind [false] [default] c) [some (k + 3)] [x]) ∧
  s.heap (k + 3) = some (.arg 1 (some k) (k + 2) 0) ∧
  s.heap x = some (.data 1 false default (some (k + 2)))

/-- Deliver the values of a list in turn; for each delivery, the count returned
and whether the future `x` is ready afterwards. -/
def Receive.deliverSeq {C V : Type} [Inhabited V] (code : Code C V) (fuel ty x : Nat) :
    List V → State C V → Except Err (List (Nat × Bool) × State C V)
  | [], s => .ok ([], s)
  | v :: vs, s =>
    match Receive.deliver code fuel ty v s with
    | .ok (n, s1) =>
      match Receive.deliverSeq code fuel ty x vs s1 with
      | .ok (l, s2) => .ok ((n, Future.ready s1 x) :: l, s2)
      | .error e => .error e
    | .error e => .error e

/-- The program text of the test `predicateReceive`: the only closure is the
lambda of `receive<T>(pred)`. -/
def predCode {V : Type} (ty : Nat) (pred : V → Bool) : Code Unit V :=
  { body := fun c args =>
      match args with
      | [x] => if pred x then .value x .ret else receivePred ty c
      | _ => .ret 0,
    captures := fun _ => [] }

/-- A program text whose only closure calls `deliver<T>` itself: the callback
`[](T v) { auto r = receive<T>(); deliver<T>(v); return r; }`, `T` having tag 0. -/
def nestedDeliverCode : Code Unit Nat :=
  { body := fun _ args => .receive 0 fun r => .deliver 0 (args.headD 0) fun _ => .ret r,
    captures := fun _ => [] }

/-- What the run `x = bind<T, T>(receive<T>(), c)` followed by `deliver<T>(5)`
shows when the callback `c` calls `deliver<T>` itself: the count returned, the
registry of `T` after the call, and the nodes constructed and those fulfilled
during the call. -/
def nestedDeliverRun : Option (Nat × List Nat × List Nat × List Nat) :=
  match Prog.run nestedDeliverCode 10 (receivePred 0 ()) State.init with
  | .ok (_, s) =>
    match Receive.deliver nestedDeliverCode 20 0 5 s with
    | .ok (n, s1) =>
      some (n, s1.instances 0, createdIn 0 (s1.trace.drop s.trace.length),
        fulfilledIn 0 (s1.trace.drop s.trace.length))
    | .error _ => none
  | .error _ => none

/-- The later state `s1` of a run of `release` that was in state `s`: an object
is destroyed or only its strong count went down. -/
def Shrinks {C V : Type} (s s1 : State C V) : Prop :=
  s1.next = s.next ∧ s1.instances = s.instances ∧ s1.trace = s.trace ∧
    ∀ a, s1.heap a = none ∨ ∃ o, s.heap a = some o ∧ ∃ n, n ≤ o.rc ∧ s1.heap a = some (o.setRc n)

/-- The fixture of the test `BindAltStacked`:
`b = alt<B, C, D>(receive<C>(), receive<D>(), fc, fd)` and then
`x = bind<T, A, B>(receive<A>(), b, fab)`, with the tags 0, 2, 3 for the types
`A`, `C`, `D`; only `x` is held afterwards. -/
def bindAltStacked {C V : Type} [Inhabited V] (code : Code C V) (fuel : Nat) (fc fd fab : C)
    (s : State C V) : Except Err (Nat × State C V) := do
  let (c, s1) ← Receive.create code fuel 2 s
  let (d, s2) ← Receive.create code fuel 3 s1
  let (b, s3) ← Alt.create code fuel [c, d] [fc, fd] s2
  let s4 ← Future.drop code fuel d s3
  let s5 ← Future.drop code fuel c s4
  let (a, s6) ← Receive.create code fuel 0 s5
  let (x, s7) ← Bind.create code fuel [a, b] fab s6
  let s8 ← Future.drop code fuel a s7
  let s9 ← Future.drop code fuel b s8
  return (x, s9)

/-- What the test `BindAltStacked.case3` shows, for callbacks that return the
ready futures `B(c)`, `B(d)` and `T(a, b)`: the counts returned by `deliver(D)`,
`deliver(C)` and `deliver(A)`, whether `x` is ready after each, and the value of
`x` at the end. -/
def bindAltStackedRun {V : Type} [Inhabited V] (mkB : V → V) (mkT : V → V → V) (a c d : V) :
    Option (Nat × Bool × Nat × Bool × Nat × Bool × V) :=
  match bindAltStacked pureCode 4 (fun l => mkB (l.headD default)) (fun l => mkB (l.headD default))
      (fun l => mkT (l.headD default) (l.getD 1 default)) State.init with
  | .ok (x, s) =>
    match Receive.deliver pureCode 20 3 d s with
    | .ok (n1, s1) =>
      match Receive.deliver pureCode 20 2 c s1 with
      | .ok (n2, s2) =>
        match Receive.deliver pureCode 20 0 a s2 with
        | .ok (n3, s3) =>
          some (n1, Future.ready s1 x, n2, Future.ready s2 x, n3, Future.ready s3 x,
            Future.get s3 x)
        | .error _ => none
      | .error _ => none
    | .error _ => none
  | .error _ => none

/-- The program text whose only closure is `[r](auto) { return r; }`: it captures
the future handle `r` and returns a copy of it. -/
def retCode {V : Type} (r : Nat) : Code Unit V :=
  { body := fun _ _ => .copy r (.ret r), captures := fun _ => [r] }

/-- The setup `r = receive<T>()`, then `x1 = bind<T, A>(receive<A>(), c)` and
`x2 = bind<T, B>(receive<B>(), c)` with the same callback `c`, the tags 0, 1, 2
standing for `T`, `A`, `B`; `r`, `x1` and `x2` are held afterwards. -/
def sharedResult {C V : Type} [Inhabited V] (code : Code C V) (fuel : Nat) (c : C)
    (s : State C V) : Except Err ((Nat × Nat × Nat) × State C V) := do
  let (r, s1) ← Receive.create code fuel 0 s
  let (ta, s2) ← Receive.create code fuel 1 s1
  let (x1, s3) ← Bind.create code fuel [ta] c s2
  let s4 ← Future.drop code fuel ta s3
  let (tb, s5) ← Receive.create code fuel 2 s4
  let (x2, s6) ← Bind.create code fuel [tb] c s5
  let s7 ← Future.drop code fuel tb s6
  return ((r, x1, x2), s7)

/-- What the run of `sharedResult` with the callback `[r](auto) { return r; }`,
followed by `deliver<A>(7)`, `deliver<B>(8)` and `deliver<T>(v)`, shows: the
producer of `r` after the setup, the nodes fulfilled by the last delivery,
whether `x1` and `x2` are ready at the end, and the value of `x2`. -/
def sharedResultRun (v : Nat) : Option (Option Nat × List Nat × Bool × Bool × Nat) :=
  match sharedResult (retCode 1) 4 () (State.init (V := Nat)) with
  | .ok ((r, x1, x2), s) =>
    match Receive.deliver (retCode 1) 20 1 7 s with
    | .ok (_, s1) =>
      match Receive.deliver (retCode 1) 20 2 8 s1 with
      | .ok (_, s2) =>
        match Receive.deliver (retCode 1) 20 0 v s2 with
        | .ok (_, s3) =>
          some ((Future.getParent s r).toOption.join,
            fulfilledIn 0 (s3.trace.drop s2.trace.length),
            Future.ready s3 x1, Future.ready s3 x2, Future.get s3 x2)
        | .error _ => none
      | .error _ => none
    | .error _ => none
  | .error _ => none

/-- The object `o1` is the object `o` up to its strong count and, for an
observer, up to a parent that may have become `p`. -/
def Obj.Reparented {C V : Type} (p : Nat) : Obj C V → Obj C V → Prop
  | .node _ k ps cs, .node _ k1 ps1 cs1 => k = k1 ∧ ps = ps1 ∧ cs = cs1
  | .data _ r v q, .data _ r1 v1 q1 => r = r1 ∧ v = v1 ∧ (q1 = q ∨ q1 = some p)
  | .arg _ q t i, .arg _ q1 t1 i1 => t = t1 ∧ i = i1 ∧ (q1 = q ∨ q1 = some p)
  | _, _ => False

/-- The later state `s1` of a graft onto `p`: an object is destroyed or is what
it was up to its strong count and a parent that may have become `p`. -/
def Regrafts {C V : Type} (p : Nat) (s s1 : State C V) : Prop :=
  (∀ a, s.heap a = none → s1.heap a = none) ∧
    ∀ a o, s.heap a = some o → s1.heap a = none ∨ ∃ o1, s1.heap a = some o1 ∧ o.Reparented p o1

/-- The observer at `c` has the node `p` as its parent. -/
def State.HasParent {C V : Type} (s : State C V) (c p : Nat) : Prop :=
  (∃ rc r v, s.heap c = some (.data rc r v (some p))) ∨
    ∃ rc t i, s.heap c = some (.arg rc (some p) t i)

/-- The object `o1` is the object `o` up to its strong count, or a value cell
that was resolved to `v`. -/
def Obj.Resolved {C V : Type} (v : V) : Obj C V → Obj C V → Prop
  | .node _ k ps cs, .node _ k1 ps1 cs1 => k = k1 ∧ ps = ps1 ∧ cs = cs1
  | .data _ r w q, .data _ r1 w1 q1 => (r1 = r ∧ w1 = w ∧ q1 = q) ∨ (r1 = true ∧ w1 = v ∧ q1 = none)
  | .arg _ q t i, .arg _ q1 t1 i1 => q = q1 ∧ t = t1 ∧ i = i1
  | _, _ => False

/-- The later state `s1` of a propagation of the value `v` to value cells: an
object is destroyed, or is what it was up to its strong count, or is a value
cell resolved to `v`. -/
def Resolves {C V : Type} (v : V) (s s1 : State C V) : Prop :=
  (∀ a, s.heap a = none → s1.heap a = none) ∧
    ∀ a o, s.heap a = some o → s1.heap a = none ∨ ∃ o1, s1.heap a = some o1 ∧ o.Resolved v o1

/-- A state in the middle of the firing of `x = bind<T, A>(receive<A>(), f)` whose
callback has just returned the unready future of a new `receive<T>()`: the
`Bind` node is at 2 with the cell of `x` at 4 as its only child, the new
`Receive<T>` node at 5 with the cell 6 of the returned future. -/
def graftState {C V : Type} [Inhabited V] (f : C) (a : V) : State C V :=
  { heap := fun b =>
      if b = 2 then some (.node 2 (.bind [true] [a] f) [none] [4])
      else if b = 4 then some (.data 1 false default (some 2))
      else if b = 5 then some (.node 1 .receive [] [6])
      else if b = 6 then some (.data 1 false default (some 5))
      else none,
    next := 7,
    instances := fun u => if u = 0 then [5] else [],
    trace := [] }

/-- The children list of a node; empty for an observer. -/
def Obj.kidsOf {C V : Type} : Obj C V → List Nat
  | .node _ _ _ cs => cs
  | _ => []

/-- The parents list of a node; empty for an observer. -/
def Obj.slotsOf {C V : Type} : Obj C V → List (Option Nat)
  | .node _ _ ps _ => ps
  | _ => []

/-- The subclass members of a node. -/
def Obj.kindOf {C V : Type} : Obj C V → Option (Kind C V)
  | .node _ k _ _ => some k
  | _ => none

/-- The readiness flag and the value of a value cell. -/
def Obj.cellOf {C V : Type} : Obj C V → Option (Bool × V)
  | .data _ r v _ => some (r, v)
  | _ => none

/-- The strong count, the target node and the position of an argument observer. -/
def Obj.argOf {C V : Type} : Obj C V → Option (Nat × Nat × Nat)
  | .arg rc _ t i => some (rc, t, i)
  | _ => none

/-- The children list of the node at `n`; empty when there is no node at `n`. -/
def State.kids {C V : Type} (s : State C V) (n : Nat) : List Nat :=
  match s.heap n with
  | some o => o.kidsOf
  | none => []

/-- The parents list of the node at `n`; empty when there is no node at `n`. -/
def State.slots {C V : Type} (s : State C V) (n : Nat) : List (Option Nat) :=
  match s.heap n with
  | some o => o.slotsOf
  | none => []

/-- The subclass members of the node at `n`. -/
def State.kind {C V : Type} (s : State C V) (n : Nat) : Option (Kind C V) :=
  match s.heap n with
  | some o => o.kindOf
  | none => none

/-- The readiness flag and the value of the value cell at `c`. -/
def State.cell {C V : Type} (s : State C V) (c : Nat) : Option (Bool × V) :=
  match s.heap c with
  | some o => o.cellOf
  | none => none

/-- The strong count, the target node and the position of the argument observer
at `o`. -/
def State.arg {C V : Type} (s : State C V) (o : Nat) : Option (Nat × Nat × Nat) :=
  match s.heap o with
  | some o => o.argOf
  | none => none

/-- The trace records that `propagate` was entered on the node `n`. -/
def State.fired {C V : Type} (s : State C V) (n : Nat) : Prop :=
  ∃ x, Event.propagate n x ∈ s.trace

/-- The trace records that `set` was called on the observer `o`. -/
def State.wasSet {C V : Type} (s : State C V) (o : Nat) : Prop :=
  ∃ v, Event.set o v ∈ s.trace

/-- The trace records that a callback of the node `t` was invoked. -/
def State.called {C V : Type} (s : State C V) (t : Nat) : Prop :=
  ∃ i a, Event.call t i a ∈ s.trace

/-- The callback invocations of the node `t` recorded by the events `evs`: the
position of the callback and its arguments, in order. -/
def callsOf {V : Type} (t : Nat) (evs : List (Event V)) : List (Nat × List V) :=
  evs.filterMap fun e =>
    match e with
    | .call n i a => if n = t then some (i, a) else none
    | _ => none

/-- The values with which `set` was called on the observer `o` according to the
events `evs`, in order. -/
def setsOf {V : Type} (o : Nat) (evs : List (Event V)) : List V :=
  evs.filterMap fun e =>
    match e with
    | .set c v => if c = o then some v else none
    | _ => none

/-- The part of the graph invariant that does not mention strong counts. -/
structure Core {C V : Type} (s : State C V) : Prop where
  heapBound : ∀ a, s.next ≤ a → s.heap a = none
  regBound : ∀ ty, ∀ i ∈ s.instances ty, i < s.next
  childBound : ∀ n, ∀ c ∈ s.kids n, c < s.next
  targetBound : ∀ o rc t i, s.arg o = some (rc, t, i) → t < s.next
  firedBound : ∀ n, s.fired n → n < s.next
  setBound : ∀ o, s.wasSet o → o < s.next
  calledBound : ∀ t, s.called t → t < s.next
  childNodup : ∀ n, (s.kids n).Nodup
  childDisjoint : ∀ n m c, c ∈ s.kids n → c ∈ s.kids m → n = m
  unfiredUnset : ∀ n, ∀ c ∈ s.kids n, ¬ s.fired n → ¬ s.wasSet c
  unfiredUnready : ∀ n, ∀ c ∈ s.kids n, ¬ s.fired n → ∀ r v, s.cell c = some (r, v) → r = false
  bindSlot : ∀ t r a f, s.kind t = some (.bind r a f) →
    ∀ j o, (s.slots t).get? j = some (some o) → r.get? j = some false
  calledBind : ∀ t r a f, s.kind t = some (.bind r a f) → s.called t → r.all id = true
  calledAlt : ∀ t fs, s.kind t = some (.alt fs) → s.called t →
    ∀ j o, (s.slots t).get? j ≠ some (some o)
  firedSlots : ∀ t, s.fired t → ∀ j o, (s.slots t).get? j ≠ some (some o)
  regUnfired : ∀ ty, ∀ i ∈ s.instances ty, ¬ s.fired i
  regSlots : ∀ ty, ∀ i ∈ s.instances ty, s.slots i = []
  regNodup : ∀ ty, (s.instances ty).Nodup
  regDisjoint : ∀ ty ty1 i, i ∈ s.instances ty → i ∈ s.instances ty1 → ty = ty1
  callsOnce : ∀ t, (callsOf t s.trace).length ≤ 1
  setsOnce : ∀ o, (setsOf o s.trace).length ≤ 1

/-- The part of the graph invariant about the strong counts of argument
observers, while the strong references `W` are still to be released: an observer
on which `set` was never called is held by the parents slot of its target only,
or by that slot and references of `W`. -/
def ArgsHeld {C V : Type} (W : List Nat) (s : State C V) : Prop :=
  ∀ o rc t i, s.arg o = some (rc, t, i) → ¬ s.wasSet o →
    rc ≤ 1 + W.count o ∧
      (s.kind t ≠ none → (s.slots t).get? i = some (some o) ∨ (o ∈ W ∧ rc ≤ W.count o))

/-- The graph invariant. -/
def Inv {C V : Type} (s : State C V) : Prop :=
  Core s ∧ ArgsHeld [] s

/-- The node `n` cannot be fired by anything but a call in progress: it has not
propagated, is in no registry and no parents slot of it is occupied. -/
def State.Dormant {C V : Type} (s : State C V) (n : Nat) : Prop :=
  n < s.next ∧ ¬ s.fired n ∧ (∀ ty, n ∉ s.instances ty) ∧
    ∀ j o, (s.slots n).get? j ≠ some (some o)

/-- The observer `c` is subscribed only to nodes that have propagated. -/
def State.Detached {C V : Type} (s : State C V) (c : Nat) : Prop :=
  c < s.next ∧ ∀ m, c ∈ s.kids m → s.fired m

/-- What a run from `s` to `s1` leaves alone, apart from the observers `Xc` and
the nodes `Xn` it was called on: a dormant node stays dormant; on a detached
observer `set` is not called, and if it is a value cell it keeps its readiness
flag and value as long as it is alive. -/
structure Frame {C V : Type} (Xc Xn : Nat → Prop) (s s1 : State C V) : Prop where
  next_le : s.next ≤ s1.next
  trace : ∃ evs, s1.trace = s.trace ++ evs
  dead : ∀ a, a < s.next → s.heap a = none → s1.heap a = none
  node : ∀ n, s.Dormant n → ¬ Xn n → s1.Dormant n
  cell : ∀ c, s.Detached c → ¬ Xc c → s1.Detached c ∧ (s1.wasSet c → s.wasSet c) ∧
    ∀ rv, s.cell c = some rv → s1.heap c = none ∨ s1.cell c = some rv

/-- Objects that agree in everything but their strong counts and the parent of
an observer. -/
def Obj.SameView {C V : Type} : Obj C V → Obj C V → Prop
  | .node _ k ps cs, .node _ k1 ps1 cs1 => k = k1 ∧ ps = ps1 ∧ cs = cs1
  | .data _ r v _, .data _ r1 v1 _ => r = r1 ∧ v = v1
  | .arg _ _ t i, .arg _ _ t1 i1 => t = t1 ∧ i = i1
  | _, _ => False

/-- The argument observer `o1` has no more strong references than `o`. -/
def Obj.ArgLe {C V : Type} : Obj C V → Obj C V → Prop
  | .arg rc _ _ _, .arg rc1 _ _ _ => rc1 ≤ rc
  | _, _ => True

/-- Changes of state that touch strong counts and the parents of observers
only: objects are destroyed or stay what they were in every other respect. -/
def Calm {C V : Type} (s s1 : State C V) : Prop :=
  s1.next = s.next ∧ s1.instances = s.instances ∧ s1.trace = s.trace ∧
    ∀ a, s1.heap a = none ∨ ∃ o o1, s.heap a = some o ∧ s1.heap a = some o1 ∧ o.SameView o1

/-- Calm changes of state in which the strong count of an argument observer on
which `set` was never called does not go up. -/
def Quiet {C V : Type} (s s1 : State C V) : Prop :=
  Calm s s1 ∧
    ∀ a o o1, s.heap a = some o → s1.heap a = some o1 → ¬ s.wasSet a → o.ArgLe o1

/-- Every function of the interpreter, run with the given fuel from a state
that satisfies the graph invariant, ends in a state that satisfies it and leaves
alone what it was not called on. -/
structure Keeps {C V : Type} [Inhabited V] (code : Code C V) (fuel : Nat) : Prop where
  deliver : ∀ {ty : Nat} {v : V} {s : State C V} {n : Nat} {s1 : State C V}, Inv s →
    Receive.deliver code fuel ty v s = .ok (n, s1) →
    Inv s1 ∧ Frame (fun _ => False) (fun _ => False) s s1
  deliverLoop : ∀ {ty : Nat} {is : List Nat} {v : V} {n : Nat} {s : State C V} {m : Nat}
    {s1 : State C V}, Inv s → is.Nodup → (∀ i ∈ is, s.Dormant i) →
    Receive.deliverLoop code fuel ty is v n s = .ok (m, s1) →
    Inv s1 ∧ Frame (fun _ => False) (fun i => i ∈ is) s s1
  propagate : ∀ {n x : Nat} {s s1 : State C V}, Inv s → s.Dormant n →
    Node.propagate code fuel n x s = .ok s1 →
    Inv s1 ∧ Frame (fun _ => False) (fun m => m = n) s s1 ∧
      ∀ rcx v q, s.heap x = some (.data rcx true v q) → ∀ c ∈ s.kids n, ∀ rv,
        s.cell c = some rv → s1.heap c = none ∨ s1.cell c = some (true, v)
  setChildren : ∀ {cs : List Nat} {v : V} {s s1 : State C V}, Inv s → cs.Nodup →
    (∀ c ∈ cs, s.Detached c ∧ ¬ s.wasSet c) →
    Node.setChildren code fuel cs v s = .ok s1 →
    Inv s1 ∧ Frame (fun c => c ∈ cs) (fun _ => False) s s1 ∧
      ∀ c ∈ cs, ∀ rv, s.cell c = some rv → s1.heap c = none ∨ s1.cell c = some (true, v)
  observerSet : ∀ {o : Nat} {v : V} {s s1 : State C V}, Inv s → s.Detached o →
    (∀ rc t i, s.arg o = some (rc, t, i) → s.kind t ≠ none →
      (s.slots t).get? i = some (some o)) →
    Observer.set code fuel o v s = .ok s1 →
    Inv s1 ∧ Frame (fun c => c = o) (fun _ => False) s s1 ∧ s1.Detached o ∧
      ∀ rv, s.cell o = some rv → s1.heap o = none ∨ s1.cell o = some (true, v)
  nodeSet : ∀ {t i : Nat} {v : V} {s s1 : State C V}, Inv s →
    (∃ o, (s.slots t).get? i = some (some o)) →
    Node.set code fuel t i v s = .ok s1 →
    Inv s1 ∧ Frame (fun _ => False) (fun _ => False) s s1
  run : ∀ {p : Prog C V} {s : State C V} {x : Nat} {s1 : State C V}, Inv s →
    Prog.run code fuel p s = .ok (x, s1) →
    Inv s1 ∧ Frame (fun _ => False) (fun _ => False) s s1

/-- The states that follow the state `s` through the public API: each step runs
a program, that is a sequence of calls of `receive`, `deliver`, `bind`, `alt`,
of constructions, copies and destructions of future handles. -/
inductive Later {C V : Type} [Inhabited V] (code : Code C V) : State C V → State C V → Prop where
  | refl (s : State C V) : Later code s s
  | step {s s1 s2 : State C V} {fuel : Nat} {p : Prog C V} {x : Nat} :
      Later code s s1 → Prog.run code fuel p s1 = .ok (x, s2) → Later code s s2

/-- The program `x = receive<T>(); deliver<T>(v); return x`, `T` having tag 0. -/
def receiveThenDeliver {V : Type} (v : V) : Prog Empty V :=
  .receive 0 fun x => .deliver 0 v fun _ => .ret x

/-- The program `a = receive<A>(); x = alt<T, A, A>(a, a, f, g)` with the same
future in both positions, `f(v) = v` and `g(v) = v + 100`; `A` has tag 0. The
`Receive` node is at 0, the cell of `a` at 1, the `Alt` node at 2 with the
argument observers 3 and 4, the cell of `x` at 5. -/
def altSameFuture : Prog (List Nat → Nat) Nat :=
  .receive 0 fun a => .alt [a, a] [fun l => l.headD 0, fun l => l.headD 0 + 100] fun x => .ret x

/-- What the run of `altSameFuture` followed by `deliver<A>(v)` shows: the count
returned, the callback invocations of the `Alt` node, and the value of `x`. -/
def altSameFutureRun (v : Nat) : Option (Nat × List (Nat × List Nat) × Nat) :=
  match Prog.run pureCode 10 altSameFuture State.init with
  | .ok (x, s) =>
    match Receive.deliver pureCode 20 0 v s with
    | .ok (n, s1) => some (n, callsOf 2 s1.trace, Future.get s1 x)
    | .error _ => none
  | .error _ => none

/-- What the run `x = alt<T, A, A>(receive<A>(), receive<A>(), f, f)` followed by
`deliver<A>(v)` shows of the `Alt` node, which is at address 4: its callback
invocations. -/
def altTwoInputsRun (v : Nat) : Option (List (Nat × List Nat)) :=
  match altOverTwoReceives pureCode 10 0 (fun l => l.headD 0) (fun l => l.headD 0)
      (State.init (V := Nat)) with
  | .ok (_, s) =>
    match Receive.deliver pureCode 12 0 v s with
    | .ok (_, s1) => some (callsOf 4 s1.trace)
    | .error _ => none
  | .error _ => none

/-- The program `x = bind<T, A>(receive<A>(), f)` with `f(a) = a + 100`; the
`Receive` node is at 0, the `Bind` node at 2 with the argument observer 3, the
cell of `x` at 4. -/
def bindOne : Prog (List Nat → Nat) Nat :=
  .receive 0 fun a => .bind [a] (fun l => l.headD 0 + 100) fun x => .drop a (.ret x)

/-- The program `x = bind<T, A, B>(receive<A>(), receive<B>(), f)` with
`f(a, b) = 10 * a + b`, the tags 0 and 1 standing for `A` and `B`; the `Bind`
node is at 4 and the cell of `x` at 7. -/
def bindTwo : Prog (List Nat → Nat) Nat :=
  .receive 0 fun a => .receive 1 fun b =>
    .bind [a, b] (fun l => 10 * l.headD 0 + l.getD 1 0) fun x => .drop a (.drop b (.ret x))

/-- What the run of `bindTwo` followed by two deliveries shows, the first for
the type with tag `ty1` and the second for the type with tag `ty2`: whether `x`
is ready after the first delivery, the number of callback invocations of the
`Bind` node after the first delivery, its callback invocations after the second
delivery, and the value of `x` at the end. -/
def bindTwoRun (ty1 v1 ty2 v2 : Nat) : Option (Bool × Nat × List (Nat × List Nat) × Nat) :=
  match Prog.run pureCode 12 bindTwo State.init with
  | .ok (x, s) =>
    match Receive.deliver pureCode 20 ty1 v1 s with
    | .ok (_, s1) =>
      match Receive.deliver pureCode 20 ty2 v2 s1 with
      | .ok (_, s2) =>
        some (Future.ready s1 x, (callsOf 4 s1.trace).length, callsOf 4 s2.trace, Future.get s2 x)
      | .error _ => none
    | .error _ => none
  | .error _ => none

/-- A program text with two closures: `false` is `[](A a) { return T(a + 100); }`
and `true` is `[x](B) { return x; }`, which captures the future handle at
address 4 and returns a copy of it. -/
def selfGraftCode : Code Bool Nat :=
  { body := fun c args => if c then .copy 4 (.ret 4) else .value (args.headD 0 + 100) .ret,
    captures := fun c => if c then [4] else [] }

/-- The program `x = bind<T, A>(receive<A>(), f)` followed by
`y = bind<T, B>(receive<B>(), [x](B) { return x; })`, the tags 0 and 1 standing
for `A` and `B`: the `Bind` node of `x` is at 2 and the cell of `x` at 4, the
cell of `y` at 9. -/
def selfGraft : Prog Bool Nat :=
  .receive 0 fun ta => .bind [ta] false fun _ => .drop ta
    (.receive 1 fun tb => .bind [tb] true fun y => .drop tb (.ret y))

/-- What the run of `selfGraft` followed by `deliver<B>(1)` and `deliver<A>(2)`
shows: the producer of `x` after the setup, the callback invocations of the
`Bind` node of `x`, whether `x` is ready at the end, whether `y` is ready, and
the value of `y`. -/
def selfGraftRun : Option (Option Nat × List (Nat × List Nat) × Bool × Bool × Nat) :=
  match Prog.run selfGraftCode 12 selfGraft State.init with
  | .ok (y, s) =>
    match Receive.deliver selfGraftCode 20 1 1 s with
    | .ok (_, s1) =>
      match Receive.deliver selfGraftCode 20 0 2 s1 with
      | .ok (_, s2) =>
        some ((Future.getParent s 4).toOption.join, callsOf 2 s2.trace, Future.ready s2 4,
          Future.ready s2 y, Future.get s2 y)
      | .error _ => none
    | .error _ => none
  | .error _ => none

/-- The setup `r = receive<T>()` and then `x = bind<T, A>(receive<A>(), c)`, the
tags 0 and 1 standing for `T` and `A`; `r` and `x` are held afterwards. -/
def heldResult {C V : Type} [Inhabited V] (code : Code C V) (fuel : Nat) (c : C)
    (s : State C V) : Except Err ((Nat × Nat) × State C V) := do
  let (r, s1) ← Receive.create code fuel 0 s
  let (ta, s2) ← Receive.create code fuel 1 s1
  let (x, s3) ← Bind.create code fuel [ta] c s2
  let s4 ← Future.drop code fuel ta s3
  return ((r, x), s4)

/-- What is observed of a run of `heldResult` followed by two deliveries: the
handles `r` and `x`, the children of the `Receive<T>` node (at 0) before and
after the first delivery, whether `r` and `x` are ready at the end, and the
value of `x`. -/
structure HeldObs where
  r : Nat
  x : Nat
  before : List Nat
  after : List Nat
  rReady : Bool
  xReady : Bool
  xValue : Nat
  deriving DecidableEq

/-- The run of `heldResult` with the callback `[r](auto) { return r; }`, followed
by `deliver<A>(7)` and `deliver<T>(v)`. -/
def heldResultRun (v : Nat) : Option HeldObs :=
  match heldResult (retCode 1) 4 () (State.init (V := Nat)) with
  | .ok ((r, x), s) =>
    match Receive.deliver (retCode 1) 20 1 7 s with
    | .ok (_, s1) =>
      match Receive.deliver (retCode 1) 20 0 v s1 with
      | .ok (_, s2) =>
        some ⟨r, x, s.kids 0, s1.kids 0, Future.ready s2 r, Future.ready s2 x, Future.get s2 x⟩
      | .error _ => none
    | .error _ => none
  | .error _ => none

/-- The observers among `cs` on which `set` was called according to the events
`evs`, in the order of the calls. -/
def childSets {V : Type} (cs : List Nat) (evs : List (Event V)) : List Nat :=
  evs.filterMap fun e =>
    match e with
    | .set c _ => if c ∈ cs then some c else none
    | _ => none

/-- The program `r = receive<A>(); x = bind<T, A>(r, f); y = bind<T, A>(r, g)`
followed by the destruction of `x` and by `z = Future<A>(9)`, in which `r` and
`y` stay alive. The `Receive` node is at 0 with the children 1 (the cell of
`r`), 3 (the observer of the first bind, destroyed with `x`) and 6 (the observer
of the second bind); the cell of `z` is at 8. -/
def skipDead : Prog (List Nat → Nat) Nat :=
  .receive 0 fun r => .bind [r] (fun l => l.headD 0) fun x =>
    .bind [r] (fun l => l.headD 0 + 1) fun _ => .drop x (.value 9 .ret)

/-- What is observed of a run of `skipDead` followed by the propagation of the
future `z` from the `Receive` node once its registry has been moved out: the
handle `z`, the children of the `Receive` node, whether `z` is ready and its
value, whether the child 3 is dead and the child 1 alive before the
propagation, the registry, and whether the child 6 is alive after the loop over
the children 1 and 3. -/
structure SkipObs where
  z : Nat
  kids : List Nat
  zReady : Bool
  zValue : Nat
  dead3 : Bool
  live1 : Bool
  registry : List Nat
  live6 : Bool
  deriving DecidableEq

/-- The run of `skipDead`, the propagation of `z` from the `Receive` node, and
the loop of that propagation over the children 1 and 3 only. -/
def skipDeadRun : Option SkipObs :=
  match Prog.run pureCode 12 skipDead State.init with
  | .ok (z, s) =>
    match Node.propagate pureCode 12 0 8
        { s with instances := fun t => if t = 0 then [] else s.instances t } with
    | .ok _ =>
      match Node.setChildren pureCode 11 [1, 3] 9
          (State.emit { s with instances := fun t => if t = 0 then [] else s.instances t }
            (.propagate 0 8)) with
      | .ok sm =>
        some ⟨z, s.kids 0, Future.ready s 8, Future.get s 8, (s.heap 3).isNone,
          (s.heap 1).isSome, s.instances 0, (sm.heap 6).isSome⟩
      | .error _ => none
    | .error _ => none
  | .error _ => none

/-- The value `Msg<I>().val` of the tests, as a list of tokens instead of a
string. -/
def Msg.val0 (i : Nat) : List Nat := [i]

/-- The value `Msg<I>(x).val` of the tests: the tag, and `x.val` in braces (the
tokens 10 and 11). -/
def Msg.val1 (i : Nat) (x : List Nat) : List Nat := i :: 10 :: x ++ [11]

/-- The value `Msg<I>(x, y).val` of the tests. -/
def Msg.val2 (i : Nat) (x y : List Nat) : List Nat := i :: 10 :: x ++ y ++ [11]

/-- The deliveries of a list in turn, each a type tag with a value; the counts
returned. -/
def Receive.deliverAll {C V : Type} [Inhabited V] (code : Code C V) (fuel : Nat) :
    List (Nat × V) → State C V → Except Err (List Nat × State C V)
  | [], s => .ok ([], s)
  | (ty, v) :: ds, s =>
    match Receive.deliver code fuel ty v s with
    | .ok (n, s1) =>
      match Receive.deliverAll code fuel ds s1 with
      | .ok (l, s2) => .ok (n :: l, s2)
      | .error e => .error e
    | .error e => .error e

/-- The closures of the fixture `AltBindMixedTest`: the callback of the outer
bind, `(b, c) -> A(b, c)`, `a -> T(a)`, and those of the other branch,
`a -> B(a)`, `c -> B(c)` and `(b, a) -> T(b, a)`. -/
inductive MixedC where
  | outer
  | abc
  | ta
  | ba
  | bc
  | tba

/-- The program text of the fixture `AltBindMixedTest`, with the tags 0, 1, 2
and 5 for the types `A`, `B`, `C` and `int`, and the tag 4 of `T` in the values. -/
def mixedCode : Code MixedC (List Nat) :=
  { captures := fun _ => [],
    body := fun c l =>
      match c with
      | .outer =>
        if l.headD [] = [0] then
          .receive 1 fun rb => .receive 2 fun rc => .bind [rb, rc] .abc fun fa =>
            .drop rc (.drop rb (.receive 0 fun ra => .alt [fa, ra] [.ta, .ta] fun y =>
              .drop ra (.drop fa (.ret y))))
        else
          .receive 0 fun ra => .receive 2 fun rc => .alt [ra, rc] [.ba, .bc] fun fb =>
            .drop rc (.drop ra (.receive 0 fun ra2 => .bind [fb, ra2] .tba fun y =>
              .drop ra2 (.drop fb (.ret y))))
      | .abc => .value (Msg.val2 0 (l.headD []) (l.getD 1 [])) .ret
      | .ta => .value (Msg.val1 4 (l.headD [])) .ret
      | .ba => .value (Msg.val1 1 (l.headD [])) .ret
      | .bc => .value (Msg.val1 1 (l.headD [])) .ret
      | .tba => .value (Msg.val2 4 (l.headD []) (l.getD 1 [])) .ret }

/-- The fixture `AltBindMixedTest`: `x = bind<T, int>(receive<int>(), outer)`. -/
def mixedSetup : Prog MixedC (List Nat) :=
  .receive 5 fun i => .bind [i] .outer fun x => .drop i (.ret x)

/-- What a run of the fixture `AltBindMixedTest` followed by the deliveries `ds`
shows: the counts returned, whether `x` is ready at the end, and its value. -/
def mixedRun (ds : List (Nat × List Nat)) : Option (List Nat × Bool × List Nat) :=
  match Prog.run mixedCode 8 mixedSetup State.init with
  | .ok (x, s) =>
    match Receive.deliverAll mixedCode 40 ds s with
    | .ok (l, s1) => some (l, Future.ready s1 x, Future.get s1 x)
    | .error _ => none
  | .error _ => none

/-- The closures of the fixture `AltAltNested`: the two callbacks of the outer
alt, and the callbacks of the inner alts, which captured the value delivered to
the outer one. -/
inductive NestedC where
  | nestA
  | nestB
  | inner (a : List Nat)

/-- The program text of the fixture `AltAltNested`, with the tags 0, 1, 2, 3 for
the types `A`, `B`, `C`, `D`. -/
def nestedCode : Code NestedC (List Nat) :=
  { captures := fun _ => [],
    body := fun c l =>
      match c with
      | .nestA =>
        .receive 0 fun r1 => .receive 2 fun r2 =>
          .alt [r1, r2] [.inner (l.headD []), .inner (l.headD [])] fun y =>
            .drop r2 (.drop r1 (.ret y))
      | .nestB =>
        .receive 2 fun r1 => .receive 3 fun r2 =>
          .alt [r1, r2] [.inner (l.headD []), .inner (l.headD [])] fun y =>
            .drop r2 (.drop r1 (.ret y))
      | .inner a => .value (Msg.val2 4 a (l.headD [])) .ret }

/-- The fixture `AltAltNested`:
`x = alt<T, A, B>(receive<A>(), receive<B>(), nestA, nestB)`. -/
def nestedSetup : Prog NestedC (List Nat) :=
  .receive 0 fun a => .receive 1 fun b => .alt [a, b] [.nestA, .nestB] fun x =>
    .drop b (.drop a (.ret x))

/-- What a run of the fixture `AltAltNested` followed by the deliveries `ds`
shows: the counts returned, whether `x` is ready at the end, and its value. -/
def nestedRun (ds : List (Nat × List Nat)) : Option (List Nat × Bool × List Nat) :=
  match Prog.run nestedCode 8 nestedSetup State.init with
  | .ok (x, s) =>
    match Receive.deliverAll nestedCode 40 ds s with
    | .ok (l, s1) => some (l, Future.ready s1 x, Future.get s1 x)
    | .error _ => none
  | .error _ => none

/-- What is observed of a run of the fixture `AltAltNested` followed by
`Alt::set<0>(A())` on its alt node, which is at 4 and is held by the caller as
it is by `ArgObserver::set`: the handle `x`, and after the call whether the
object at 4 is an alt node, its parents list, the registry of `A` and the
children of the new `Receive<A>` node, which is at 8. -/
structure NestedObs where
  x : Nat
  isAlt : Bool
  slots : List (Option Nat)
  registry : List Nat
  kids : List Nat
  deriving DecidableEq

/-- The run of the fixture `AltAltNested` followed by `Alt::set<0>(A())` on its
alt node. -/
def nestedSetRun : Option NestedObs :=
  match Prog.run nestedCode 8 nestedSetup State.init with
  | .ok (x, s) =>
    match Node.set nestedCode 12 4 0 (Msg.val0 0)
        (s.write 4 (some (.node 2 (.alt [.nestA, .nestB]) [some 5, some 6] [7]))) with
    | .ok s1 =>
      some ⟨x, (match s1.kind 4 with
          | some (.alt _) => true
          | _ => false),
        s1.slots 4, s1.instances 0, s1.kids 8⟩
    | .error _ => none
  | .error _ => none

/-- The later state `s1` of changes that leave the children lists alone and
construct nothing: a node is destroyed or has the children list it had. -/
def KeepsKids {C V : Type} (s s1 : State C V) : Prop :=
  (∀ a, s.heap a = none → s1.heap a = none) ∧
    ∀ m rc k ps cs, s.heap m = some (.node rc k ps cs) →
      s1.heap m = none ∨ ∃ rc1 k1 ps1, s1.heap m = some (.node rc1 k1 ps1 cs)

/-- No callback invocation is recorded by the events `evs`. -/
def noCalls {V : Type} (evs : List (Event V)) : Prop :=
  ∀ t i a, Event.call t i a ∉ evs

/-- The state in which the loop of `Receive<T>::deliver` over the snapshot `is`,
started in the state `s`, reaches the entry number `j` of the snapshot: the
state at the end of the loop over the `j` entries before it. -/
def Receive.arrival {C V : Type} [Inhabited V] (code : Code C V) (fuel ty : Nat) (is : List Nat)
    (v : V) (s : State C V) (j : Nat) : Option (State C V) :=
  match Receive.deliverLoop code fuel ty (is.take j) v 0 s with
  | .ok (_, sm) => some sm
  | .error _ => none

/-- Whether `i.lock()` succeeds on the entry number `j` of the snapshot `is` when
the loop of `Receive<T>::deliver` reaches it. -/
def Receive.liveOnArrival {C V : Type} [Inhabited V] (code : Code C V) (fuel ty : Nat)
    (is : List Nat) (v : V) (s : State C V) (j : Nat) : Bool :=
  match Receive.arrival code fuel ty is v s j, is.get? j with
  | some sm, some i => (sm.heap i).isSome
  | _, _ => false

/-- What the run `x = alt<T, A, A>(receive<A>(), receive<A>(), f, f)` followed by
`deliver<A>(5)` shows about the snapshot, with `f(a) = a`: the count returned,
the number of entries alive when the snapshot is taken, and for each entry
whether it is alive when the loop reaches it. -/
def altOverTwoReceivesArrival : Option (Nat × Nat × List Bool) :=
  match altOverTwoReceives pureCode 10 0 (fun l => l.headD 0) (fun l => l.headD 0)
      (State.init (V := Nat)) with
  | .ok (_, s) =>
    match Receive.deliver pureCode 12 0 5 s with
    | .ok (n, _) =>
      some (n, s.liveCount (s.instances 0),
        (List.range (s.instances 0).length).map
          (Receive.liveOnArrival pureCode 11 0 (s.instances 0) 5
            { s with instances := fun t => if t = 0 then [] else s.instances t }))
    | .error _ => none
  | .error _ => none

/-- The program `a = receive<T>(); r = receive<T>();
x = bind<T, T>(a, [r](T) { return r; })`, `T` having tag 0: the `Receive` node of
`a` is at 0 and its cell at 1, the `Receive` node of `r` at 2 and its cell at 3,
the `Bind` node at 4, its argument observer at 5 and the cell of `x` at 6. The
handles `a`, `r` and `x` are held afterwards. -/
def shadowedReceive : Prog Unit Nat :=
  .receive 0 fun a => .receive 0 fun _ => .bind [a] () fun x => .ret x

/-- What is observed of a delivery to a held `r = receive<T>()`: the children of
the `Receive` node of `r` and whether `r` is ready before it, the count
returned, whether the cell of `r` is alive and whether `r` is ready afterwards,
whether `x` is ready afterwards, and the value of `x`. -/
structure LostObs where
  kids : List Nat
  readyBefore : Bool
  count : Nat
  alive : Bool
  ready : Bool
  xReady : Bool
  xValue : Nat
  deriving DecidableEq

/-- The run of `shadowedReceive` followed by `deliver<T>(v)`. -/
def shadowedReceiveRun (v : Nat) : Option LostObs :=
  match Prog.run (retCode 3) 12 shadowedReceive (State.init (V := Nat)) with
  | .ok (x, s) =>
    match Receive.deliver (retCode 3) 20 0 v s with
    | .ok (n, s1) =>
      some ⟨s.kids 2, Future.ready s 3, n, (s1.heap 3).isSome, Future.ready s1 3, Future.ready s1 x,
        Future.get s1 x⟩
    | .error _ => none
  | .error _ => none

/-- The run of `heldResult` with the callback `[r](auto) { return r; }`, followed
by `deliver<A>(7)` and `deliver<T>(v)`, as seen from `r`, whose cell is at 1. -/
def heldResultLate (v : Nat) : Option LostObs :=
  match heldResult (retCode 1) 4 () (State.init (V := Nat)) with
  | .ok ((r, x), s) =>
    match Receive.deliver (retCode 1) 20 1 7 s with
    | .ok (_, s1) =>
      match Receive.deliver (retCode 1) 20 0 v s1 with
      | .ok (n, s2) =>
        some ⟨s1.kids 0, Future.ready s1 r, n, (s2.heap r).isSome, Future.ready s2 r, Future.ready s2 x,
          Future.get s2 x⟩
      | .error _ => none
    | .error _ => none
  | .error _ => none

/-- A program text with two closures: `true` is `[](A a, A b) { return T(a + b); }`
and `false` is `[a](B) { return a; }`, which captures the future handle at
address 1 and returns a copy of it. -/
def droppedCode : Code Bool Nat :=
  { body := fun c args =>
      if c then .value (args.headD 0 + args.getD 1 0) .ret else .copy 1 (.ret 1),
    captures := fun c => if c then [] else [1] }

/-- The program `a = receive<A>(); x = bind<T, A, A>(a, a, f)` followed by
`z = bind<A, B>(receive<B>(), [a](B) { return a; })`, the tags 0 and 1 standing
for `A` and `B`: the `Receive<A>` node is at 0 and the cell of `a` at 1, the
`Bind` node of `x` at 2, its argument observers at 3 and 4, the cell of `x` at 5
and the cell of `z` at 10. The handles `a`, `x` and `z` are held afterwards. -/
def droppedObservers : Prog Bool Nat :=
  .receive 0 fun a => .bind [a, a] true fun x =>
    .receive 1 fun tb => .bind [tb] false fun _ => .drop tb (.ret x)

/-- What is observed of a run of `droppedObservers` followed by `deliver<B>` and
`deliver<A>`: the children of the `Receive<A>` node and the parents of the
`Bind` node of `x` after the setup, the count of `deliver<B>`, the children of
the `Receive<A>` node and whether `a` is ready after it, the count of
`deliver<A>`, the values with which `set` was called on the two argument
observers, the invocations of `f`, whether the cell of `x` is alive and whether
`x` is ready at the end, and the value of `z`. -/
structure DroppedObs where
  kids : List Nat
  slots : List (Option Nat)
  countB : Nat
  kidsAfter : List Nat
  aReady : Bool
  countA : Nat
  sets0 : List Nat
  sets1 : List Nat
  calls : List (Nat × List Nat)
  xAlive : Bool
  xReady : Bool
  zValue : Nat
  deriving DecidableEq

/-- The run of `droppedObservers` followed by `deliver<B>(1)` and `deliver<A>(v)`. -/
def droppedObserversRun (v : Nat) : Option DroppedObs :=
  match Prog.run droppedCode 12 droppedObservers (State.init (V := Nat)) with
  | .ok (x, s) =>
    match Receive.deliver droppedCode 20 1 1 s with
    | .ok (nb, s1) =>
      match Receive.deliver droppedCode 20 0 v s1 with
      | .ok (na, s2) =>
        some ⟨s.kids 0, s.slots 2, nb, s1.kids 0, Future.ready s1 1, na, setsOf 3 s2.trace,
          setsOf 4 s2.trace, callsOf 2 s2.trace, (s2.heap x).isSome, Future.ready s2 x,
          Future.get s2 10⟩
      | .error _ => none
    | .error _ => none
  | .error _ => none

/-- The program `a = receive<A>(); x = bind<T, A, A>(a, a, f)` with
`f(a, b) = a + b`, followed by `z = Future<A>(7)`: the `Receive<A>` node is at 0
with the children 1 (the cell of `a`), 3 and 4 (the argument observers of the
`Bind` node 2); the cell of `x` is at 5 and the cell of `z` at 6. -/
def sameTwice : Prog (List Nat → Nat) Nat :=
  .receive 0 fun a => .bind [a, a] (fun l => l.headD 0 + l.getD 1 0) fun x =>
    .value 7 fun _ => .ret x

/-- The readiness bits and the arguments stored in a `Bind` node, and the value
of its callback on `(7, 7)`. -/
def Kind.bindView : Option (Kind (List Nat → Nat) Nat) → Option (List Bool × List Nat × Nat)
  | some (.bind r a f) => some (r, a, f [7, 7])
  | _ => none

/-- What is observed of a run of `sameTwice` followed by the propagation of the
future `z` from the `Receive` node once its registry has been moved out: the
handle `x`, the children of the `Receive` node, whether `z` is ready and its
value, the registry; in the state in which the loop reaches the observer 3, the
members of the `Bind` node, its children, the observer 3 and whether the cell of
`x` is a value cell; in the state in which the loop reaches the observer 4, the
observer 4 and whether the `Bind` node is alive; whether the cell of `x` is
alive at the end. -/
structure TwiceObs where
  x : Nat
  kids : List Nat
  zReady : Bool
  zValue : Nat
  registry : List Nat
  bind : Option (List Bool × List Nat × Nat)
  bindKids : List Nat
  arg0 : Option (Nat × Nat × Nat)
  xCell : Bool
  arg1 : Option (Nat × Nat × Nat)
  bindAlive : Bool
  xAlive : Bool
  deriving DecidableEq

/-- The run of `sameTwice`, the propagation of `z` from the `Receive` node, and
the loops of that propagation over the child 1 only and over the children 1 and
3 only. -/
def sameTwiceRun : Option TwiceObs :=
  match Prog.run pureCode 12 sameTwice State.init with
  | .ok (x, s) =>
    match Node.propagate pureCode 12 0 6
        { s with instances := fun t => if t = 0 then [] else s.instances t } with
    | .ok s1 =>
      match Node.setChildren pureCode 11 [1] 7
          (State.emit { s with instances := fun t => if t = 0 then [] else s.instances t }
            (.propagate 0 6)) with
      | .ok sm =>
        match Node.setChildren pureCode 11 ([1] ++ [3]) 7
            (State.emit { s with instances := fun t => if t = 0 then [] else s.instances t }
              (.propagate 0 6)) with
        | .ok sm1 =>
          some ⟨x, s.kids 0, Future.ready s 6, Future.get s 6, s.instances 0,
            Kind.bindView (sm.kind 2), sm.kids 2, sm.arg 3, (sm.cell 5).isSome, sm1.arg 4,
            (sm1.kind 2).isSome, (s1.heap 5).isSome⟩
        | .error _ => none
      | .error _ => none
    | .error _ => none
  | .error _ => none

/-- The program `a = bind<A, B>(receive<B>(), g); x = bind<T, A, A>(a, a, f)` with
`g(b) = b + 1` and `f(a, b) = a + b`, the tag 1 standing for `B`: the producer of
`a` is the `Bind` node 2, whose children are the cell 4 of `a` and the argument
observers 6 and 7 of the `Bind` node 5 of `x`; the cell of `x` is at 8. The
handles `a` and `x` are held afterwards. -/
def bindOfBind : Prog (List Nat → Nat) Nat :=
  .receive 1 fun tb => .bind [tb] (fun l => l.headD 0 + 1) fun a =>
    .bind [a, a] (fun l => l.headD 0 + l.getD 1 0) fun x => .drop tb (.ret x)

/-- What is observed of a run of `bindOfBind` followed by `deliver<B>`: the
children of the `Bind` node of `a`, the count returned, the values with which
`set` was called on the two argument observers, the invocations of `f`, whether
`x` is ready, and its value. -/
structure ChainObs where
  kids : List Nat
  count : Nat
  sets0 : List Nat
  sets1 : List Nat
  calls : List (Nat × List Nat)
  xReady : Bool
  xValue : Nat
  deriving DecidableEq

/-- The run of `bindOfBind` followed by `deliver<B>(v)`. -/
def bindOfBindRun (v : Nat) : Option ChainObs :=
  match Prog.run pureCode 12 bindOfBind State.init with
  | .ok (x, s) =>
    match Receive.deliver pureCode 20 1 v s with
    | .ok (n, s1) =>
      some ⟨s.kids 2, n, setsOf 6 s1.trace, setsOf 7 s1.trace, callsOf 5 s1.trace,
        Future.ready s1 x, Future.get s1 x⟩
    | .error _ => none
  | .error _ => none

/-! ## Projections of the state primitives -/

section projections
variable {C V : Type}

@[simp] theorem State.write_heap (s : State C V) (a b : Nat) (o : Option (Obj C V)) :
    (s.write a o).heap b = if b = a then o else s.heap b := rfl

@[simp] theorem State.write_next (s : State C V) (a : Nat) (o : Option (Obj C V)) :
    (s.write a o).next = s.next := rfl

@[simp] theorem State.write_instances (s : State C V) (a : Nat) (o : Option (Obj C V)) :
    (s.write a o).instances = s.instances := rfl

@[simp] theorem State.write_trace (s : State C V) (a : Nat) (o : Option (Obj C V)) :
    (s.write a o).trace = s.trace := rfl

@[simp] theorem State.emit_heap (s : State C V) (e : Event V) : (s.emit e).heap = s.heap := rfl

@[simp] theorem State.emit_next (s : State C V) (e : Event V) : (s.emit e).next = s.next := rfl

@[simp] theorem State.emit_instances (s : State C V) (e : Event V) :
    (s.emit e).instances = s.instances := rfl

@[simp] theorem State.emit_trace (s : State C V) (e : Event V) :
    (s.emit e).trace = s.trace ++ [e] := rfl

@[simp] theorem State.alloc_fst (s : State C V) (o : Obj C V) : (s.alloc o).1 = s.next := rfl

@[simp] theorem State.alloc_heap (s : State C V) (o : Obj C V) (b : Nat) :
    (s.alloc o).2.heap b = if b = s.next then some o else s.heap b := rfl

@[simp] theorem State.alloc_next (s : State C V) (o : Obj C V) :
    (s.alloc o).2.next = s.next + 1 := rfl

@[simp] theorem State.alloc_instances (s : State C V) (o : Obj C V) :
    (s.alloc o).2.instances = s.instances := rfl

@[simp] theorem State.alloc_trace (s : State C V) (o : Obj C V) :
    (s.alloc o).2.trace = s.trace := rfl

theorem State.write_write (s : State C V) (a : Nat) (o p : Option (Obj C V)) :
    (s.write a o).write a p = s.write a p := by
  unfold State.write
  congr 1
  funext b
  by_cases h : b = a <;> simp [h]

theorem State.write_self (s : State C V) (a : Nat) (o : Option (Obj C V)) (h : s.heap a = o) :
    s.write a o = s := by
  cases s
  simp only [State.write, State.mk.injEq, and_true]
  funext b
  by_cases hb : b = a
  · subst hb; simp [← h]
  · simp [hb]

end projections

/-! ## Plain receive -/

section plainReceive
variable {C V : Type} [Inhabited V]

/-- Closed form of `Receive<T>::create()`: the node is at `s.next`, the cell at
`s.next + 1`. -/
theorem Receive.create_eq (code : Code C V) (fuel : Nat) (ty : Nat) (s : State C V) :
    Receive.create code (fuel + 1) ty s = .ok (s.next + 1,
      { heap := fun b => if b = s.next + 1 then some (.data 1 false default (some s.next))
          else if b = s.next then some (.node 1 .receive [] [s.next + 1]) else s.heap b,
        next := s.next + 2,
        instances := fun u => if u = ty then s.instances u ++ [s.next] else s.instances u,
        trace := s.trace ++ [.created ty s.next] }) := by
  simp [Receive.create, State.alloc, Future.create, State.emit, State.write, release, Obj.rc,
      Obj.setRc]
  funext b
  by_cases h1 : b = s.next + 1
  · simp [h1]
  · by_cases h2 : b = s.next <;> simp [h1, h2]

/-- Snapshot entries whose node is dead are skipped by the delivery loop. -/
theorem Receive.deliverLoop_dead (code : Code C V) (ty : Nat) (v : V) (pre : List Nat) :
    ∀ (fuel : Nat) (rest : List Nat) (n : Nat) (s : State C V),
      (∀ i ∈ pre, s.heap i = none) →
      Receive.deliverLoop code (fuel + pre.length) ty (pre ++ rest) v n s =
        Receive.deliverLoop code fuel ty rest v n s := by
  induction pre with
  | nil => intro fuel rest n s _; rfl
  | cons i pre ih =>
    intro fuel rest n s h
    have hi : s.heap i = none := h i (List.mem_cons_self _ _)
    have := ih fuel rest n s (fun j hj => h j (List.mem_cons_of_mem _ hj))
    rw [List.length_cons, ← Nat.add_assoc, List.cons_append, Receive.deliverLoop, hi]
    exact this

omit [Inhabited V] in
/-- Copying a handle `k` times adds `k` to the strong count of its cell. -/
theorem Future.copyAll_replicate (x : Nat) (r : Bool) (v : V) (p : Option Nat) (k : Nat) :
    ∀ (rc : Nat) (s : State C V), s.heap x = some (.data rc r v p) →
      Future.copyAll (List.replicate k x) s = .ok (s.write x (some (.data (rc + k) r v p))) := by
  induction k with
  | zero =>
    intro rc s h
    simp [Future.copyAll, State.write_self _ _ _ h]
  | succ k ih =>
    intro rc s h
    have := ih (rc + 1) (s.write x (some (.data (rc + 1) r v p))) (by simp)
    have e : rc + 1 + k = rc + (k + 1) := by omega
    simp [List.replicate_succ, Future.copyAll, Future.copy, h, this, State.write_write, e]

/-- The run `x = receive<T>()`, `k` copies of the handle, `deliver<T>(v)` from a
state where no other `Receive<T>` is pending: `x` is not ready before the
delivery, which returns 1 and leaves the cell shared by all the handles ready
with value `v`. -/
theorem receive_fresh_resolves (code : Code C V) (s : State C V) (ty : Nat) (v : V)
    (fuel k : Nat) (hreg : ∀ i ∈ s.instances ty, i < s.next ∧ s.heap i = none) :
    ∃ x s1, Receive.create code (fuel + 1) ty s = .ok (x, s1) ∧ Future.ready s1 x = false ∧
      ∃ s2, Future.copyAll (List.replicate k x) s1 = .ok s2 ∧ Future.ready s2 x = false ∧
        ∃ s3, Receive.deliver code (fuel + (s.instances ty).length + 6) ty v s2 = .ok (1, s3) ∧
          Future.ready s3 x = true ∧ Future.get s3 x = v := by
  refine ⟨_, _, Receive.create_eq code fuel ty s, by simp [Future.ready], ?_⟩
  refine ⟨_, Future.copyAll_replicate _ false default (some s.next) k 1 _ (by simp),
    by simp [Future.ready], ?_⟩
  have hfuel : fuel + (s.instances ty).length + 6 = (fuel + 5 + (s.instances ty).length) + 1 := by
    omega
  rw [hfuel, Receive.deliver]
  simp only [State.write_instances, if_true]
  rw [Receive.deliverLoop_dead]
  · simp [Receive.deliverLoop, Future.mk, State.alloc, State.write, Node.propagate,
      Node.setChildren, Observer.set, State.emit, release, Obj.rc, Obj.setRc, Obj.refs,
      Kind.captures, Future.ready, Future.get]
  · intro i hi
    obtain ⟨h1, h2⟩ := hreg i hi
    have e1 : i ≠ s.next + 1 := by omega
    have e2 : i ≠ s.next := by omega
    simp [State.write, e1, e2, h2]

end plainReceive

section scope
variable {C V : Type} [Inhabited V]

end scope

/-! ## Relations kept by every operation -/

section closed
variable {C V : Type} {D : Nat → Prop} {R : State C V → State C V → Prop}

theorem sameClass_refl (o : Obj C V) : Obj.SameClass o o := by
  cases o with
  | node rc k ps cs => cases k <;> simp [Obj.SameClass]
  | data => simp [Obj.SameClass]
  | arg => simp [Obj.SameClass]

theorem sameClass_setRc (o : Obj C V) (n : Nat) : Obj.SameClass o (o.setRc n) := by
  cases o with
  | node rc k ps cs => cases k <;> simp [Obj.SameClass, Obj.setRc]
  | data => simp [Obj.SameClass, Obj.setRc]
  | arg => simp [Obj.SameClass, Obj.setRc]

theorem Closed.acquire (hR : Closed D R) {a : Nat} {s s1 : State C V}
    (h : acquire a s = .ok s1) : R s s1 := by
  unfold lftree.acquire at h
  split at h
  · rename_i o ho
    cases h
    exact hR.write _ _ _ _ ho (sameClass_setRc _ _)
  · cases h

theorem Closed.copy (hR : Closed D R) {x : Nat} {s s1 : State C V}
    (h : Future.copy x s = .ok s1) : R s s1 := by
  unfold Future.copy at h
  split at h
  · rename_i rc r v p ho
    cases h
    exact hR.write _ _ _ _ ho (by simp [Obj.SameClass])
  · cases h

theorem Closed.copyAll (hR : Closed D R) (xs : List Nat) :
    ∀ {s s1 : State C V}, Future.copyAll xs s = .ok s1 → R s s1 := by
  induction xs with
  | nil => intro s s1 h; cases h; exact hR.refl _
  | cons x xs ih =>
    intro s s1 h
    unfold Future.copyAll at h
    split at h
    · rename_i s2 h2
      exact hR.trans (hR.copy h2) (ih h)
    · cases h

theorem Closed.release (hR : Closed D R) (code : Code C V) (fuel : Nat) :
    ∀ (work : List Nat) {s s1 : State C V}, release code fuel work s = .ok s1 → R s s1 := by
  induction fuel with
  | zero =>
    intro work s s1 h
    cases work with
    | nil => cases h; exact hR.refl _
    | cons a rest => cases h
  | succ fuel ih =>
    intro work s s1 h
    cases work with
    | nil => cases h; exact hR.refl _
    | cons a rest =>
      unfold lftree.release at h
      split at h
      · cases h
      · rename_i o ho
        split at h
        · exact hR.trans (hR.kill _ _ _ ho) (ih _ h)
        · exact hR.trans (hR.write _ _ _ _ ho (sameClass_setRc _ _)) (ih _ h)

theorem Closed.drop (hR : Closed D R) (code : Code C V) (fuel : Nat) {x : Nat}
    {s s1 : State C V} (h : Future.drop code fuel x s = .ok s1) : R s s1 := by
  unfold Future.drop at h
  split at h
  · exact hR.release code fuel _ h
  · cases h

theorem Closed.dropAll (hR : Closed D R) (code : Code C V) (fuel : Nat) (xs : List Nat) :
    ∀ {s s1 : State C V}, Future.dropAll code fuel xs s = .ok s1 → R s s1 := by
  induction xs with
  | nil => intro s s1 h; cases h; exact hR.refl _
  | cons x xs ih =>
    intro s s1 h
    unfold Future.dropAll at h
    split at h
    · rename_i s2 h2
      exact hR.trans (hR.drop code fuel h2) (ih h)
    · cases h

theorem Closed.create [Inhabited V] (hR : Closed D R) {node x : Nat} {s s1 : State C V}
    (h : Future.create node s = .ok (x, s1)) : R s s1 := by
  unfold Future.create at h
  simp only at h
  split at h
  · rename_i rc k ps cs ho
    cases h
    refine hR.trans (hR.alloc _ _) (hR.write _ _ _ _ ho ?_)
    cases k <;> simp [Obj.SameClass]
  · cases h

theorem Closed.connect (hR : Closed D R) (node : Nat) (ps : List (Option Nat)) :
    ∀ (i : Nat) {s s1 : State C V}, Node.connect node i ps s = .ok s1 → R s s1 := by
  induction ps with
  | nil => intro i s s1 h; cases h; exact hR.refl _
  | cons p ps ih =>
    intro i s s1 h
    cases p with
    | none => cases h
    | some a =>
      unfold Node.connect at h
      simp only at h
      split at h
      · rename_i rc k qs cs ho
        split at h
        · rename_i rc2 k2 ps2 cs2 ho2
          refine hR.trans (hR.alloc _ _) (hR.trans (hR.write _ _ _ _ ho ?_)
            (hR.trans (hR.write _ _ _ _ ho2 ?_) (ih _ h)))
          · cases k <;> simp [Obj.SameClass]
          · cases k2 <;> simp [Obj.SameClass]
        · cases h
      · cases h

theorem Closed.receiveCreate [Inhabited V] (hR : Closed D R) (code : Code C V) (fuel ty : Nat)
    {x : Nat} {s s1 : State C V} (h : Receive.create code fuel ty s = .ok (x, s1)) : R s s1 := by
  unfold Receive.create at h
  simp only at h
  split at h
  · rename_i y s3 h3
    split at h
    · rename_i s4 h4
      cases h
      exact hR.trans (hR.register s ty _) (hR.trans (hR.create h3) (hR.release code fuel _ h4))
    · cases h
  · cases h

theorem Closed.bindCreate [Inhabited V] (hR : Closed D R) (code : Code C V) (fuel : Nat)
    (args : List Nat) (f : C) {x : Nat} {s s1 : State C V}
    (h : Bind.create code fuel args f s = .ok (x, s1)) : R s s1 := by
  unfold Bind.create at h
  simp only at h
  split at h
  · rename_i s2 h2
    split at h
    · rename_i ps hps
      split at h
      · rename_i s3 h3
        split at h
        · rename_i y s4 h4
          split at h
          · rename_i s5 h5
            cases h
            exact hR.trans (hR.alloc _ _) (hR.trans (hR.copyAll _ h2) (hR.trans (hR.connect _ _ _ h3)
              (hR.trans (hR.create h4) (hR.release code fuel _ h5))))
          · cases h
        · cases h
      · cases h
    · cases h
  · cases h

theorem Closed.altCreate [Inhabited V] (hR : Closed D R) (code : Code C V) (fuel : Nat)
    (args : List Nat) (fs : List C) {x : Nat} {s s1 : State C V}
    (h : Alt.create code fuel args fs s = .ok (x, s1)) : R s s1 := by
  unfold Alt.create at h
  simp only at h
  split at h
  · rename_i s2 h2
    split at h
    · rename_i ps hps
      split at h
      · rename_i s3 h3
        split at h
        · rename_i y s4 h4
          split at h
          · rename_i s5 h5
            cases h
            exact hR.trans (hR.alloc _ _) (hR.trans (hR.copyAll _ h2) (hR.trans (hR.connect _ _ _ h3)
              (hR.trans (hR.create h4) (hR.release code fuel _ h5))))
          · cases h
        · cases h
      · cases h
    · cases h
  · cases h

theorem Closed.reparent (hR : Closed D R) (code : Code C V) (fuel p : Nat) (cs : List Nat) :
    ∀ {s s1 : State C V}, Node.reparent code fuel p cs s = .ok s1 → R s s1 := by
  induction cs with
  | nil => intro s s1 h; cases h; exact hR.refl _
  | cons c cs ih =>
    intro s s1 h
    unfold Node.reparent at h
    split at h
    · exact ih h
    · cases h
    · rename_i rc r v old ho
      split at h
      · rename_i s2 h2
        split at h
        · rename_i s3 h3
          exact hR.trans (hR.write _ _ _ _ ho (by simp [Obj.SameClass]))
            (hR.trans (hR.acquire h2) (hR.trans (hR.release code fuel _ h3) (ih h)))
        · cases h
      · cases h
    · rename_i rc old t i ho
      split at h
      · rename_i s2 h2
        split at h
        · rename_i s3 h3
          exact hR.trans (hR.write _ _ _ _ ho (by simp [Obj.SameClass]))
            (hR.trans (hR.acquire h2) (hR.trans (hR.release code fuel _ h3) (ih h)))
        · cases h
      · cases h

theorem Closed.resetParents (hR : Closed D R) (code : Code C V) (fuel a : Nat) (ks : List Nat) :
    ∀ {s s1 : State C V}, Alt.resetParents code fuel a ks s = .ok s1 → R s s1 := by
  induction ks with
  | nil => intro s s1 h; cases h; exact hR.refl _
  | cons k ks ih =>
    intro s s1 h
    unfold Alt.resetParents at h
    split at h
    · rename_i rc kind ps cs ho
      split at h
      · rename_i s2 h2
        refine hR.trans (hR.write _ _ _ _ ho ?_) (hR.trans (hR.release code fuel _ h2) (ih h))
        cases kind <;> simp [Obj.SameClass]
      · cases h
    · cases h

end closed

section closedRun
variable {C V : Type} [Inhabited V] {D : Nat → Prop} {R : State C V → State C V → Prop}

/-- The statement of the closure theorem for the mutually recursive operations at
a given amount of fuel. -/
structure Closed.Upto (D : Nat → Prop) (R : State C V → State C V → Prop) (code : Code C V)
    (fuel : Nat) : Prop where
  deliver : ∀ {ty v n} {s s1 : State C V}, D ty →
    Receive.deliver code fuel ty v s = .ok (n, s1) → R s s1
  deliverLoop : ∀ {ty is v n m} {s s1 : State C V}, D ty →
    Receive.deliverLoop code fuel ty is v n s = .ok (m, s1) → R s s1
  propagate : ∀ {n x} {s s1 : State C V}, Node.propagate code fuel n x s = .ok s1 → R s s1
  setChildren : ∀ {cs v} {s s1 : State C V}, Node.setChildren code fuel cs v s = .ok s1 → R s s1
  observerSet : ∀ {o v} {s s1 : State C V}, Observer.set code fuel o v s = .ok s1 → R s s1
  nodeSet : ∀ {t i v} {s s1 : State C V}, Node.set code fuel t i v s = .ok s1 → R s s1
  run : ∀ {p x} {s s1 : State C V}, Prog.Delivers D p →
    Prog.run code fuel p s = .ok (x, s1) → R s s1

theorem Closed.upto_zero (code : Code C V) : Closed.Upto D R code 0 := by
  constructor
  · intro ty v n s s1 _ h; simp [Receive.deliver] at h
  · intro ty is v n m s s1 _ h; simp [Receive.deliverLoop] at h
  · intro n x s s1 h; simp [Node.propagate] at h
  · intro cs v s s1 h; simp [Node.setChildren] at h
  · intro o v s s1 h; simp [Observer.set] at h
  · intro t i v s s1 h; simp [Node.set] at h
  · intro p x s s1 _ h; simp [Prog.run] at h

theorem Closed.upto_succ (hR : Closed D R) (code : Code C V) (hcode : code.Delivers D)
    (fuel : Nat) (ih : Closed.Upto D R code fuel) : Closed.Upto D R code (fuel + 1) := by
  constructor
  · intro ty v n s s1 hD h
    rw [Receive.deliver] at h
    exact hR.trans (hR.clear s ty hD) (ih.deliverLoop hD h)
  · intro ty is v n m s s1 hD h
    cases is with
    | nil => simp [Receive.deliverLoop] at h; rw [h.2]; exact hR.refl _
    | cons i is =>
      rw [Receive.deliverLoop] at h
      split at h
      · rename_i rc k ps cs ho
        simp only [Future.mk] at h
        split at h
        · rename_i s2 h2
          split at h
          · rename_i s3 h3
            refine hR.trans (hR.fulfil s ty i hD) (hR.trans (hR.write _ _ _ _ ho ?_)
              (hR.trans (hR.alloc _ _) (hR.trans (ih.propagate h2)
                (hR.trans (hR.release code fuel _ h3) (ih.deliverLoop hD h)))))
            cases k <;> simp [Obj.SameClass]
          · cases h
        · cases h
      · cases h
      · exact ih.deliverLoop hD h
  · intro n x s s1 h
    rw [Node.propagate] at h
    split at h
    · exact hR.trans (hR.propagate s n x) (ih.setChildren h)
    · cases h
    · rename_i hx hn
      split at h
      · rename_i prc pk pps pcs0 hp
        simp only at h
        split at h
        · rename_i rc1 k1 ps1 cs1 hn1
          split at h
          · rename_i prc2 pk2 pps2 pcs hp2
            refine hR.trans (hR.propagate s n x) (hR.trans (hR.write _ _ _ _ hp ?_)
              (hR.trans (hR.write _ _ _ _ hn1 ?_) (hR.reparent code fuel _ _ h)))
            · cases pk <;> simp [Obj.SameClass]
            · cases k1 <;> simp [Obj.SameClass]
          · cases h
        · cases h
      · cases h
    · cases h
  · intro cs v s s1 h
    cases cs with
    | nil => simp [Node.setChildren] at h; rw [h]; exact hR.refl _
    | cons c cs =>
      rw [Node.setChildren] at h
      split at h
      · exact ih.setChildren h
      · cases h
      · rename_i o hnot ho
        split at h
        · rename_i s2 h2
          split at h
          · rename_i s3 h3
            exact hR.trans (hR.set s c v) (hR.trans (hR.write _ _ _ _ ho (sameClass_setRc _ _))
              (hR.trans (ih.observerSet h2) (hR.trans (hR.release code fuel _ h3)
                (ih.setChildren h))))
          · cases h
        · cases h
  · intro o v s s1 h
    rw [Observer.set] at h
    split at h
    · rename_i rc r w p ho
      exact hR.trans (hR.write _ _ _ _ ho (by simp [Obj.SameClass])) (hR.release code fuel _ h)
    · rename_i rc p t i ho
      split at h
      · rename_i nrc k ps cs ht
        split at h
        · rename_i s2 h2
          refine hR.trans (hR.write _ _ _ _ ht ?_) (hR.trans (ih.nodeSet h2)
            (hR.release code fuel _ h))
          cases k <;> simp [Obj.SameClass]
        · cases h
      · cases h
      · cases h; exact hR.refl _
    · cases h
  · intro t i v s s1 h
    rw [Node.set] at h
    split at h
    · rename_i rc ready args f ps cs ht
      simp only at h
      split at h
      · rename_i s2 h2
        have h12 : R s s2 := hR.trans (hR.write _ _ _ _ ht (by simp [Obj.SameClass]))
          (hR.release code fuel _ h2)
        split at h
        · split at h
          · rename_i x s3 h3
            split at h
            · rename_i s4 h4
              exact hR.trans h12 (hR.trans (hR.call _ _ _ _) (hR.trans (ih.run (hcode _ _) h3)
                (hR.trans (ih.propagate h4) (hR.release code fuel _ h))))
            · cases h
          · cases h
        · cases h; exact h12
      · cases h
    · rename_i rc fs ps cs ht
      split at h
      · rename_i s2 h2
        split at h
        · rename_i f hf
          split at h
          · rename_i x s3 h3
            split at h
            · rename_i s4 h4
              exact hR.trans (hR.resetParents code fuel _ _ h2) (hR.trans (hR.call _ _ _ _)
                (hR.trans (ih.run (hcode _ _) h3)
                  (hR.trans (ih.propagate h4) (hR.release code fuel _ h))))
            · cases h
          · cases h
        · cases h
      · cases h
    · cases h
  · intro p x s s1 hp h
    cases p with
    | ret y => simp [Prog.run] at h; rw [h.2]; exact hR.refl _
    | value w k =>
      rw [Prog.run] at h
      exact hR.trans (hR.alloc _ _) (ih.run (hp _) h)
    | empty k =>
      rw [Prog.run] at h
      exact hR.trans (hR.alloc _ _) (ih.run (hp _) h)
    | receive ty k =>
      rw [Prog.run] at h
      split at h
      · rename_i y s2 h2
        exact hR.trans (hR.receiveCreate code fuel ty h2) (ih.run (hp _) h)
      · cases h
    | bind args f k =>
      rw [Prog.run] at h
      split at h
      · rename_i y s2 h2
        exact hR.trans (hR.bindCreate code fuel args f h2) (ih.run (hp _) h)
      · cases h
    | alt args fs k =>
      rw [Prog.run] at h
      split at h
      · rename_i y s2 h2
        exact hR.trans (hR.altCreate code fuel args fs h2) (ih.run (hp _) h)
      · cases h
    | copy y k =>
      rw [Prog.run] at h
      split at h
      · rename_i s2 h2
        exact hR.trans (hR.copy h2) (ih.run (p := k) hp h)
      · cases h
    | drop y k =>
      rw [Prog.run] at h
      split at h
      · rename_i s2 h2
        exact hR.trans (hR.drop code fuel h2) (ih.run (p := k) hp h)
      · cases h
    | deliver ty w k =>
      rw [Prog.run] at h
      split at h
      · rename_i m s2 h2
        exact hR.trans (ih.deliver hp.1 h2) (ih.run (hp.2 _) h)
      · cases h

/-- A closed relation holds between the state before and the state after each of
the mutually recursive operations. -/
theorem Closed.upto (hR : Closed D R) (code : Code C V) (hcode : code.Delivers D) :
    ∀ fuel, Closed.Upto D R code fuel := by
  intro fuel
  induction fuel with
  | zero => exact Closed.upto_zero code
  | succ fuel ih => exact Closed.upto_succ hR code hcode fuel ih

end closedRun

section evolves
variable {C V : Type}

theorem sameClass_trans {a b c : Obj C V} (h1 : a.SameClass b) (h2 : b.SameClass c) :
    a.SameClass c := by
  cases a with
  | node rc k ps cs =>
    cases b with
    | node rc1 k1 ps1 cs1 =>
      cases c with
      | node rc2 k2 ps2 cs2 =>
        cases k <;> cases k1 <;> cases k2 <;> simp_all [Obj.SameClass]
      | data => cases k1 <;> simp [Obj.SameClass] at h2
      | arg => cases k1 <;> simp [Obj.SameClass] at h2
    | data => cases k <;> simp [Obj.SameClass] at h1
    | arg => cases k <;> simp [Obj.SameClass] at h1
  | data =>
    cases b with
    | node rc1 k1 ps1 cs1 => cases k1 <;> simp [Obj.SameClass] at h1
    | data =>
      cases c with
      | node rc2 k2 ps2 cs2 => cases k2 <;> simp [Obj.SameClass] at h2
      | data => simp [Obj.SameClass]
      | arg => simp [Obj.SameClass] at h2
    | arg => simp [Obj.SameClass] at h1
  | arg =>
    cases b with
    | node rc1 k1 ps1 cs1 => cases k1 <;> simp [Obj.SameClass] at h1
    | data => simp [Obj.SameClass] at h1
    | arg =>
      cases c with
      | node rc2 k2 ps2 cs2 => cases k2 <;> simp [Obj.SameClass] at h2
      | data => simp [Obj.SameClass] at h2
      | arg => simp_all [Obj.SameClass]

theorem evolves_closed : Closed (fun _ => True) (Evolves (C := C) (V := V)) where
  refl := by
    intro s hs
    exact ⟨hs, le_refl _, fun _ _ h => h, fun a o h => Or.inr ⟨o, h, sameClass_refl o⟩, [], by simp⟩
  trans := by
    intro a b c hab hbc ha
    obtain ⟨hb, n1, d1, c1, e1, t1⟩ := hab ha
    obtain ⟨hc, n2, d2, c2, e2, t2⟩ := hbc hb
    refine ⟨hc, le_trans n1 n2, ?_, ?_, e1 ++ e2, by rw [t2, t1, List.append_assoc]⟩
    · intro x hx h
      exact d2 x (lt_of_lt_of_le hx n1) (d1 x hx h)
    · intro x o h
      rcases c1 x o h with h1 | ⟨o1, h1, s1⟩
      · exact Or.inl (d2 x (by
          by_contra hlt
          have := ha.1 x (not_lt.1 (fun hh => hlt (lt_of_lt_of_le hh n1)))
          rw [this] at h
          cases h) h1)
      · rcases c2 x o1 h1 with h2 | ⟨o2, h2, s2⟩
        · exact Or.inl h2
        · exact Or.inr ⟨o2, h2, sameClass_trans s1 s2⟩
  write := by
    intro s a o o1 ho hc hs
    have ha : a < s.next := by
      by_contra h
      rw [hs.1 a (not_lt.1 h)] at ho
      cases ho
    refine ⟨⟨?_, hs.2⟩, le_refl _, ?_, ?_, [], by simp⟩
    · intro b hb
      have : b ≠ a := by simp at hb; omega
      simp [this, hs.1 b hb]
    · intro b _ h
      have : b ≠ a := by rintro rfl; rw [ho] at h; cases h
      simp [this, h]
    · intro b o2 h
      by_cases hb : b = a
      · subst hb
        rw [ho] at h
        cases h
        exact Or.inr ⟨o1, by simp, hc⟩
      · exact Or.inr ⟨o2, by simp [hb, h], sameClass_refl o2⟩
  kill := by
    intro s a o ho hs
    refine ⟨⟨?_, hs.2⟩, le_refl _, ?_, ?_, [], by simp⟩
    · intro b hb
      by_cases h : b = a
      · simp [h]
      · simp [h, hs.1 b hb]
    · intro b _ h
      by_cases hb : b = a
      · simp [hb]
      · simp [hb, h]
    · intro b o2 h
      by_cases hb : b = a
      · exact Or.inl (by simp [hb])
      · exact Or.inr ⟨o2, by simp [hb, h], sameClass_refl o2⟩
  alloc := by
    intro s o hs
    refine ⟨⟨?_, ?_⟩, Nat.le_succ _, ?_, ?_, [], by simp⟩
    · intro b hb
      simp at hb
      have : b ≠ s.next := by omega
      simp [this, hs.1 b (by omega)]
    · intro ty i hi
      have := hs.2 ty i hi
      simp; omega
    · intro b hb h
      have : b ≠ s.next := by omega
      simp [this, h]
    · intro b o2 h
      have : b ≠ s.next := by
        rintro rfl
        rw [hs.1 _ (le_refl _)] at h
        cases h
      exact Or.inr ⟨o2, by simp [this, h], sameClass_refl o2⟩
  register := by
    intro s ty o hs
    refine ⟨⟨?_, ?_⟩, Nat.le_succ _, ?_, ?_, [_], rfl⟩
    · intro b hb
      simp [State.alloc] at hb ⊢
      have : b ≠ s.next := by omega
      simp [this, hs.1 b (by omega)]
    · intro t i hi
      simp [State.alloc] at hi ⊢
      split at hi
      · rcases List.mem_append.1 hi with h | h
        · have := hs.2 _ i h; omega
        · simp at h; omega
      · have := hs.2 _ i hi; omega
    · intro b hb h
      have : b ≠ s.next := by omega
      simp [State.alloc, this, h]
    · intro b o2 h
      have : b ≠ s.next := by
        rintro rfl
        rw [hs.1 _ (le_refl _)] at h
        cases h
      exact Or.inr ⟨o2, by simp [State.alloc, this, h], sameClass_refl o2⟩
  fulfil := by
    intro s ty i _ hs
    exact ⟨hs, le_refl _, fun _ _ h => h, fun a o h => Or.inr ⟨o, h, sameClass_refl o⟩, [_], rfl⟩
  propagate := by
    intro s n x hs
    exact ⟨hs, le_refl _, fun _ _ h => h, fun a o h => Or.inr ⟨o, h, sameClass_refl o⟩, [_], rfl⟩
  set := by
    intro s o v hs
    exact ⟨hs, le_refl _, fun _ _ h => h, fun a o h => Or.inr ⟨o, h, sameClass_refl o⟩, [_], rfl⟩
  call := by
    intro s t i args hs
    exact ⟨hs, le_refl _, fun _ _ h => h, fun a o h => Or.inr ⟨o, h, sameClass_refl o⟩, [_], rfl⟩
  clear := by
    intro s ty _ hs
    refine ⟨⟨hs.1, ?_⟩, le_refl _, fun _ _ h => h,
      fun a o h => Or.inr ⟨o, h, sameClass_refl o⟩, [], by simp⟩
    intro t i hi
    simp at hi
    exact hs.2 t i hi.2

theorem Code.delivers_true (code : Code C V) : code.Delivers (fun _ => True) := by
  intro c args
  generalize code.body c args = p
  induction p with
  | ret => trivial
  | value v k ih => exact fun x => ih x
  | empty k ih => exact fun x => ih x
  | receive ty k ih => exact fun x => ih x
  | bind args f k ih => exact fun x => ih x
  | alt args fs k ih => exact fun x => ih x
  | copy x k ih => exact ih
  | drop x k ih => exact ih
  | deliver ty v k ih => exact ⟨trivial, fun n => ih n⟩

end evolves

/-! ## The count returned by `deliver` -/

section count
variable {C V : Type} [Inhabited V]

omit [Inhabited V] in
theorem createdIn_append (ty : Nat) (a b : List (Event V)) :
    createdIn ty (a ++ b) = createdIn ty a ++ createdIn ty b := by
  simp [createdIn, List.filterMap_append]

omit [Inhabited V] in
theorem fulfilledIn_append (ty : Nat) (a b : List (Event V)) :
    fulfilledIn ty (a ++ b) = fulfilledIn ty a ++ fulfilledIn ty b := by
  simp [fulfilledIn, List.filterMap_append]

omit [Inhabited V] in
theorem grows_closed (ty : Nat) : Closed (fun t => t ≠ ty) (Grows (C := C) (V := V) ty) where
  refl := by
    intro s
    exact ⟨[], by simp, rfl, by simp [createdIn], le_refl _, by simp [createdIn]⟩
  trans := by
    intro a b c hab hbc
    obtain ⟨e1, t1, f1, i1, n1, r1⟩ := hab
    obtain ⟨e2, t2, f2, i2, n2, r2⟩ := hbc
    refine ⟨e1 ++ e2, by rw [t2, t1, List.append_assoc], by rw [fulfilledIn_append, f1, f2]; rfl,
      by rw [i2, i1, createdIn_append, List.append_assoc], le_trans n1 n2, ?_⟩
    intro r hr
    rw [createdIn_append] at hr
    rcases List.mem_append.1 hr with h | h
    · have := r1 r h; omega
    · have := r2 r h; omega
  write := by
    intro s a o o1 _ _
    exact ⟨[], by simp, rfl, by simp [createdIn], le_refl _, by simp [createdIn]⟩
  kill := by
    intro s a o _
    exact ⟨[], by simp, rfl, by simp [createdIn], le_refl _, by simp [createdIn]⟩
  alloc := by
    intro s o
    exact ⟨[], by simp, rfl, by simp [createdIn], Nat.le_succ _, by simp [createdIn]⟩
  register := by
    intro s t o
    refine ⟨[.created t s.next], rfl, rfl, ?_, Nat.le_succ _, ?_⟩
    · by_cases h : t = ty
      · simp [createdIn, h]
      · have h2 : ¬ ty = t := fun e => h e.symm
        simp [createdIn, h, h2]
    · intro r hr
      by_cases h : t = ty
      · simp [createdIn, h] at hr
        simp [State.alloc, hr]
      · simp [createdIn, h] at hr
  fulfil := by
    intro s t i ht
    exact ⟨[_], rfl, by simp [fulfilledIn, ht], by simp [createdIn], le_refl _,
      by simp [createdIn]⟩
  propagate := by
    intro s n x
    exact ⟨[_], rfl, rfl, by simp [createdIn], le_refl _, by simp [createdIn]⟩
  set := by
    intro s o v
    exact ⟨[_], rfl, rfl, by simp [createdIn], le_refl _, by simp [createdIn]⟩
  call := by
    intro s t i args
    exact ⟨[_], rfl, rfl, by simp [createdIn], le_refl _, by simp [createdIn]⟩
  clear := by
    intro s t ht
    have h2 : ¬ ty = t := fun e => ht e.symm
    exact ⟨[], by simp, rfl, by simp [createdIn, h2], le_refl _, by simp [createdIn]⟩

omit [Inhabited V] in
/-- Weak references that were dead stay dead in a later state. -/
theorem State.liveCount_le_of_evolves {s s1 : State C V} (h : Evolves s s1) (hs : s.WF)
    (is : List Nat) (his : ∀ i ∈ is, i < s.next) : s1.liveCount is ≤ s.liveCount is := by
  obtain ⟨_, _, hd, _, _⟩ := h hs
  unfold State.liveCount
  apply List.countP_mono_left
  intro i hi h1
  cases h0 : s.heap i with
  | none => rw [hd i (his i hi) h0] at h1; cases h1
  | some o => rfl

/-- The count of the delivery loop grows by at most the number of snapshot
entries that are alive when the loop starts. -/
theorem Receive.deliverLoop_le (code : Code C V) (ty : Nat) (v : V) :
    ∀ (fuel : Nat) (is : List Nat) (n m : Nat) (s s1 : State C V), s.WF →
      (∀ i ∈ is, i < s.next) →
      Receive.deliverLoop code fuel ty is v n s = .ok (m, s1) → m ≤ n + s.liveCount is := by
  have hE := evolves_closed (C := C) (V := V)
  have hU := fun fuel => Closed.upto hE code code.delivers_true fuel
  intro fuel
  induction fuel with
  | zero => intro is n m s s1 _ _ h; simp [Receive.deliverLoop] at h
  | succ fuel ih =>
    intro is n m s s1 hs his h
    cases is with
    | nil => simp [Receive.deliverLoop] at h; simp [h.1]
    | cons i is =>
      have his1 : ∀ j ∈ is, j < s.next := fun j hj => his j (List.mem_cons_of_mem _ hj)
      rw [Receive.deliverLoop] at h
      split at h
      · rename_i rc k ps cs ho
        simp only [Future.mk] at h
        split at h
        · rename_i s2 h2
          split at h
          · rename_i s3 h3
            have e : Evolves s s3 := by
              refine hE.trans (hE.fulfil s ty i trivial) (hE.trans (hE.write _ _ _ _ ho ?_)
                (hE.trans (hE.alloc _ _) (hE.trans ((hU fuel).propagate h2)
                  (hE.release code fuel _ h3))))
              cases k <;> simp [Obj.SameClass]
            obtain ⟨hs3, hn3, _⟩ := e hs
            have := ih is (n + 1) m s3 s1 hs3 (fun j hj => lt_of_lt_of_le (his1 j hj) hn3) h
            have h4 := State.liveCount_le_of_evolves e hs is his1
            have h5 : s.liveCount (i :: is) = s.liveCount is + 1 := by
              simp [State.liveCount, List.countP_cons, ho]
            omega
          · cases h
        · cases h
      · cases h
      · rename_i ho
        have := ih is n m s s1 hs his1 h
        have h5 : s.liveCount (i :: is) = s.liveCount is := by
          simp [State.liveCount, List.countP_cons, ho]
        omega

/-- Without a nested `deliver<T>`, the delivery loop counts exactly the entries
it finds alive on arrival, in snapshot order, and the registry of `T` gains
exactly the `Receive<T>` nodes constructed meanwhile, all of them new. -/
theorem Receive.deliverLoop_trace (code : Code C V) (ty : Nat) (v : V)
    (hcode : code.Delivers (fun t => t ≠ ty)) :
    ∀ (fuel : Nat) (is : List Nat) (n m : Nat) (s s1 : State C V),
      Receive.deliverLoop code fuel ty is v n s = .ok (m, s1) →
      ∃ evs, s1.trace = s.trace ++ evs ∧ m = n + (fulfilledIn ty evs).length ∧
        (fulfilledIn ty evs).Sublist is ∧
        s1.instances ty = s.instances ty ++ createdIn ty evs ∧ s.next ≤ s1.next ∧
        ∀ r ∈ createdIn ty evs, s.next ≤ r ∧ r < s1.next := by
  have hG := grows_closed (C := C) (V := V) ty
  have hU := fun fuel => Closed.upto hG code hcode fuel
  intro fuel
  induction fuel with
  | zero => intro is n m s s1 h; simp [Receive.deliverLoop] at h
  | succ fuel ih =>
    intro is n m s s1 h
    cases is with
    | nil =>
      simp [Receive.deliverLoop] at h
      exact ⟨[], by simp [h.2], by simp [fulfilledIn, h.1], by simp [fulfilledIn],
        by simp [createdIn, h.2], by simp [h.2], by simp [createdIn]⟩
    | cons i is =>
      rw [Receive.deliverLoop] at h
      split at h
      · rename_i rc k ps cs ho
        simp only [Future.mk] at h
        split at h
        · rename_i s2 h2
          split at h
          · rename_i s3 h3
            have g : Grows ty (s.emit (.fulfil ty i)) s3 := by
              refine hG.trans (hG.write _ _ _ _ ho ?_)
                (hG.trans (hG.alloc _ _) (hG.trans ((hU fuel).propagate h2)
                  (hG.release code fuel _ h3)))
              cases k <;> simp [Obj.SameClass]
            obtain ⟨e2, t2, f2, i2, n2, r2⟩ := g
            obtain ⟨e3, t3, m3, sub3, i3, n3, r3⟩ := ih is (n + 1) m s3 s1 h
            simp only [State.emit_trace, State.emit_instances, State.emit_next] at t2 i2 n2 r2
            refine ⟨[.fulfil ty i] ++ e2 ++ e3, ?_, ?_, ?_, ?_, le_trans n2 n3, ?_⟩
            · rw [t3, t2]; simp
            · rw [fulfilledIn_append, fulfilledIn_append, f2, m3]
              simp [fulfilledIn]; omega
            · rw [fulfilledIn_append, fulfilledIn_append, f2]
              simpa [fulfilledIn] using sub3
            · rw [i3, i2, createdIn_append, createdIn_append]
              simp [createdIn]
            · intro r hr
              rw [createdIn_append, createdIn_append] at hr
              rcases List.mem_append.1 hr with h | h
              · rcases List.mem_append.1 h with h | h
                · simp [createdIn] at h
                · have := r2 r h; omega
              · have := r3 r h; omega
          · cases h
        · cases h
      · cases h
      · obtain ⟨e3, t3, m3, sub3, i3, n3, r3⟩ := ih is n m s s1 h
        exact ⟨e3, t3, m3, List.Sublist.cons _ sub3, i3, n3, r3⟩

/-- The state `oneReceive` is the one `receive<T>()` reaches at program start. -/
theorem oneReceive_eq (code : Code C V) (fuel : Nat) :
    Receive.create code (fuel + 1) 0 State.init = .ok (1, oneReceive) := by
  rw [Receive.create_eq]
  simp [State.init, oneReceive]

omit [Inhabited V] in
theorem State.init_wf : (State.init (C := C) (V := V)).WF :=
  ⟨fun _ _ => rfl, fun _ _ h => by simp [State.init] at h⟩

theorem oneReceive_wf : (oneReceive (C := C) (V := V)).WF := by
  constructor
  · intro a ha
    have h1 : a ≠ 1 := by simp [oneReceive] at ha; omega
    have h0 : a ≠ 0 := by simp [oneReceive] at ha; omega
    simp [oneReceive, h1, h0]
  · intro ty i hi
    by_cases h : ty = 0
    · simp [oneReceive, h] at hi
      simp [oneReceive, hi]
    · simp [oneReceive, h] at hi

theorem altOverTwoReceivesRun_eq : altOverTwoReceivesRun = some (2, 1, 5) := by decide!

/-- C2, as stated, fails: after `x = alt<T, A, A>(receive<A>(), receive<A>(), f, f)`
both `Receive<A>` nodes of the registry are alive when `deliver<A>(5)` takes its
snapshot, and the call returns 1. -/
theorem deliver_count_below_snapshot_live :
    ∃ x s n s1, altOverTwoReceives pureCode 10 0 (fun l => l.headD 0) (fun l => l.headD 0)
        (State.init (V := Nat)) = .ok (x, s) ∧
      Receive.deliver pureCode 12 0 5 s = .ok (n, s1) ∧
      s.liveCount (s.instances 0) = 2 ∧ n = 1 ∧ n ≠ s.liveCount (s.instances 0) := by
  have h := altOverTwoReceivesRun_eq
  unfold altOverTwoReceivesRun at h
  split at h
  · rename_i x s hs
    split at h
    · rename_i n s1 hd
      simp only [Option.some.injEq, Prod.mk.injEq] at h
      exact ⟨x, s, n, s1, hs, hd, h.1, h.2.1, by rw [h.1, h.2.1]; decide⟩
    · cases h
  · cases h

/-- Two held `receive<T>()` futures: `deliver<T>(v)` returns 2 and resolves both. -/
theorem twoReceivesRun_eq (v : V) : twoReceivesRun v = some (2, v, v) := by
  simp [twoReceivesRun, twoReceives, Receive.create_eq, bind, Except.bind, pure, Except.pure,
    State.init, Receive.deliver, Receive.deliverLoop, Future.mk, State.alloc, State.write,
    Node.propagate, Node.setChildren, Observer.set, State.emit, release, Obj.rc, Obj.setRc,
    Obj.refs, Kind.captures, Future.get]

end count

/-! ## Predicate receive -/

section predicate
variable {C V : Type} [Inhabited V]

/-- One delivery of a value that fails the predicate: the callback builds a new
`receive<T>(pred)` whose producer takes over the cell `x`. -/
theorem PredShape.step (code : Code C V) (ty : Nat) (pred : V → Bool) (c : C)
    (hc : IsPredClosure code ty pred c) (x k : Nat) (pre : List Nat) (s : State C V)
    (hs : PredShape c ty x k pre s) (v : V) (hv : pred v = false) (fuel : Nat) :
    ∃ s1, Receive.deliver code (fuel + pre.length + 12) ty v s = .ok (1, s1) ∧
      PredShape c ty x (k + 6) [] s1 ∧ Future.ready s1 x = false := by
  obtain ⟨hn, hx4, hx0, hx1, hx2, hx3, hreg, hpre, hr, ht, hb, ho, hxc⟩ := hs
  obtain ⟨hbody, hcap⟩ := hc
  have hfuel : fuel + pre.length + 12 = (fuel + 11 + pre.length) + 1 := by omega
  rw [hfuel, Receive.deliver, hreg,
    Receive.deliverLoop_dead code ty v pre (fuel + 11) [k] 0 _ (by simpa using hpre)]
  have e5 : x ≠ k + 5 := by omega
  have e6 : x ≠ k + 6 := by omega
  have e7 : x ≠ k + 7 := by omega
  have e8 : x ≠ k + 8 := by omega
  have e9 : x ≠ k + 9 := by omega
  have e10 : x ≠ k + 10 := by omega
  simp [Receive.deliverLoop, Future.mk, State.alloc, State.write, State.emit, Node.propagate,
    Node.setChildren, Observer.set, Node.set, Prog.run, release, Obj.rc, Obj.setRc, Obj.refs,
    Kind.captures, hn, hr, ht, hb, ho, hxc, hbody, hcap, hv, receivePred, Receive.create,
    Bind.create, Future.create, Future.copyAll, Future.getParents, Future.getParent,
    Node.connect, Future.drop, Node.reparent, acquire, Nat.add_assoc, PredShape, Future.ready,
    hx0, hx1, hx2, hx3, e5, e6, e7, e8, e9, e10, Ne.symm hx0, Ne.symm hx1, Ne.symm hx2,
    Ne.symm hx3, Ne.symm e5, Ne.symm e6, Ne.symm e7, Ne.symm e8, Ne.symm e9, Ne.symm e10]

  omega

/-- The graph built by `x = receive<T>(pred)` in a state without another pending
`Receive<T>`. -/
theorem PredShape.init (code : Code C V) (ty : Nat) (pred : V → Bool) (c : C)
    (hc : IsPredClosure code ty pred c) (s : State C V)
    (hreg : ∀ i ∈ s.instances ty, i < s.next ∧ s.heap i = none) (fuel : Nat) :
    ∃ s0, Prog.run code (fuel + 6) (receivePred ty c) s = .ok (s.next + 4, s0) ∧
      PredShape c ty (s.next + 4) s.next (s.instances ty) s0 := by
  obtain ⟨hbody, hcap⟩ := hc
  simp [receivePred, Prog.run, Receive.create_eq, Bind.create, State.alloc, State.write,
    Future.copyAll, hcap, Future.getParents, Future.getParent, Node.connect, Future.create,
    release, Obj.rc, Obj.setRc, Obj.refs, Kind.captures, Future.drop, Nat.add_assoc, PredShape]
  intro i hi
  obtain ⟨h1, h2⟩ := hreg i hi
  have e0 : i ≠ s.next := by omega
  have e1 : i ≠ s.next + 1 := by omega
  have e2 : i ≠ s.next + 2 := by omega
  have e3 : i ≠ s.next + 3 := by omega
  have e4 : i ≠ s.next + 4 := by omega
  simp [e0, e1, e2, e3, e4, h2]

/-- Any number of deliveries of values that fail the predicate return 1 each and
leave `x` unready. -/
theorem PredShape.deliverSeq (code : Code C V) (ty : Nat) (pred : V → Bool) (c : C)
    (hc : IsPredClosure code ty pred c) (x bound fuel : Nat) (vs : List V) :
    ∀ (k : Nat) (pre : List Nat) (s : State C V), PredShape c ty x k pre s →
      pre.length ≤ bound → (∀ v ∈ vs, pred v = false) →
      ∃ s1 k1 pre1, Receive.deliverSeq code (fuel + bound + 12) ty x vs s =
          .ok (vs.map (fun _ => (1, false)), s1) ∧
        PredShape c ty x k1 pre1 s1 ∧ pre1.length ≤ bound := by
  induction vs with
  | nil => intro k pre s hs hb _; exact ⟨s, k, pre, rfl, hs, hb⟩
  | cons v vs ih =>
    intro k pre s hs hb hvs
    have e : fuel + bound + 12 = (fuel + (bound - pre.length)) + pre.length + 12 := by omega
    obtain ⟨s1, h1, hs1, hr1⟩ := PredShape.step code ty pred c hc x k pre s hs v
      (hvs v (List.mem_cons_self _ _)) (fuel + (bound - pre.length))
    rw [← e] at h1
    obtain ⟨s2, k2, pre2, h2, hs2, hb2⟩ := ih (k + 6) [] s1 hs1 (Nat.zero_le _)
      (fun u hu => hvs u (List.mem_cons_of_mem _ hu))
    refine ⟨s2, k2, pre2, ?_, hs2, hb2⟩
    simp [Receive.deliverSeq, h1, h2, hr1]

omit [Inhabited V] in
theorem predCode_isPredClosure (ty : Nat) (pred : V → Bool) :
    IsPredClosure (predCode ty pred) ty pred () :=
  ⟨fun _ => rfl, rfl⟩

end predicate

/-! ## The registry across a delivery -/

section registry
variable {C V : Type} [Inhabited V]

theorem nestedDeliverRun_eq : nestedDeliverRun = some (1, [], [6], [0, 6]) := by decide!

/-- C5, as stated, fails: when the callback fired by `deliver<T>(5)` constructs a
`Receive<T>` and then calls `deliver<T>` itself, the node constructed during the
call is fulfilled during the call and is not in the registry when the call
returns. -/
theorem registry_after_nested_deliver :
    ∃ x s n s1, Prog.run nestedDeliverCode 10 (receivePred 0 ()) State.init = .ok (x, s) ∧
      Receive.deliver nestedDeliverCode 20 0 5 s = .ok (n, s1) ∧
      createdIn 0 (s1.trace.drop s.trace.length) = [6] ∧
      6 ∈ fulfilledIn 0 (s1.trace.drop s.trace.length) ∧
      s1.instances 0 ≠ createdIn 0 (s1.trace.drop s.trace.length) := by
  have h := nestedDeliverRun_eq
  unfold nestedDeliverRun at h
  split at h
  · rename_i x s hs
    split at h
    · rename_i n s1 hd
      simp only [Option.some.injEq, Prod.mk.injEq] at h
      exact ⟨x, s, n, s1, hs, hd, h.2.2.1, by rw [h.2.2.2]; decide,
        by rw [h.2.1, h.2.2.1]; decide⟩
    · cases h
  · cases h

/-- C5, amended: where no callback calls `deliver<T>` itself, when `deliver<T>(x)`
returns the registry of `T` holds exactly the `Receive<T>` nodes constructed
during the call, in construction order; none of them was in the registry before
the call or was fulfilled by the call, and a `deliver<T>` that follows fulfils
only nodes among them. -/
theorem registry_after_deliver (code : Code C V) (fuel ty : Nat) (v : V) (n : Nat)
    (s s1 : State C V) (hs : s.WF) (hcode : code.Delivers (fun t => t ≠ ty))
    (h : Receive.deliver code fuel ty v s = .ok (n, s1)) :
    ∃ evs, s1.trace = s.trace ++ evs ∧ s1.instances ty = createdIn ty evs ∧
      (∀ r ∈ s1.instances ty, r ∉ s.instances ty ∧ r ∉ fulfilledIn ty evs) ∧
      ∀ fuel2 v2 n2 s2, Receive.deliver code fuel2 ty v2 s1 = .ok (n2, s2) →
        ∃ evs2, s2.trace = s1.trace ++ evs2 ∧ (fulfilledIn ty evs2).Sublist (createdIn ty evs) := by
  cases fuel with
  | zero => simp [Receive.deliver] at h
  | succ fuel =>
    rw [Receive.deliver] at h
    obtain ⟨evs, t, _, sub, i, _, r⟩ := Receive.deliverLoop_trace code ty v hcode fuel _ 0 n _ s1 h
    simp only [if_true, List.nil_append] at i
    refine ⟨evs, t, i, ?_, ?_⟩
    · intro a ha
      rw [i] at ha
      have h1 := (r a ha).1
      have h2 : ∀ b ∈ s.instances ty, b ≠ a := by
        intro b hb e
        have := hs.2 ty b hb
        simp at h1
        omega
      exact ⟨fun hm => h2 a hm rfl, fun hm => h2 a (sub.subset hm) rfl⟩
    · intro fuel2 v2 n2 s2 h2
      cases fuel2 with
      | zero => simp [Receive.deliver] at h2
      | succ fuel2 =>
        rw [Receive.deliver] at h2
        obtain ⟨evs2, t2, _, sub2, _⟩ :=
          Receive.deliverLoop_trace code ty v2 hcode fuel2 _ 0 n2 _ s2 h2
        exact ⟨evs2, t2, by rw [← i]; exact sub2⟩

omit [Inhabited V] in
theorem noCode_delivers (D : Nat → Prop) : (noCode (V := V)).Delivers D :=
  fun c _ => c.elim

omit [Inhabited V] in
theorem predCode_delivers (ty : Nat) (pred : V → Bool) (D : Nat → Prop) :
    (predCode ty pred).Delivers D := by
  intro c args
  simp only [predCode]
  split
  · split <;> simp [Prog.Delivers, receivePred]
  · simp [Prog.Delivers]

/-- C5, amended, on the predicate receive `x = receive<int>(i == 1)` at program
start: `deliver<int>(0)` leaves in the registry exactly the `Receive<int>` that
the callback constructed. -/
theorem registry_after_deliver_witness :
    ∃ x s s1 evs, Prog.run (predCode 0 (fun i : Nat => i == 1)) 6 (receivePred 0 ()) State.init
        = .ok (x, s) ∧
      Receive.deliver (predCode 0 (fun i : Nat => i == 1)) 12 0 0 s = .ok (1, s1) ∧
      s1.trace = s.trace ++ evs ∧ s1.instances 0 = createdIn 0 evs ∧ s1.instances 0 = [6] := by
  obtain ⟨s, h0, hs0⟩ := PredShape.init (predCode 0 (fun i : Nat => i == 1)) 0 _ ()
    (predCode_isPredClosure 0 _) State.init (by intro i hi; simp [State.init] at hi) 0
  obtain ⟨s1, h1, hs1, _⟩ := PredShape.step (predCode 0 (fun i : Nat => i == 1)) 0 _ ()
    (predCode_isPredClosure 0 _) _ _ _ s hs0 0 (by simp) 0
  have hwf : s.WF := ((Closed.upto evolves_closed _ (Code.delivers_true _) _).run
    (by simp [Prog.Delivers, receivePred]) h0 State.init_wf).1
  obtain ⟨evs, t, i, _⟩ := registry_after_deliver _ 12 0 0 1 s s1 hwf (predCode_delivers 0 _ _) h1
  refine ⟨_, s, s1, evs, h0, h1, t, i, ?_⟩
  have := hs1.2.2.2.2.2.2.1
  simpa [State.init] using this

end registry

/-! ## Release cascades -/

section cascade
variable {C V : Type}

theorem Obj.setRc_rc (o : Obj C V) (n : Nat) : (o.setRc n).rc = n := by
  cases o <;> rfl

theorem Obj.setRc_setRc (o : Obj C V) (n m : Nat) : (o.setRc n).setRc m = o.setRc m := by
  cases o <;> rfl

theorem Obj.setRc_self (o : Obj C V) : o.setRc o.rc = o := by
  cases o <;> rfl

theorem shrinks_refl (s : State C V) : Shrinks s s :=
  ⟨rfl, rfl, rfl, fun a => by
    cases h : s.heap a with
    | none => exact Or.inl rfl
    | some o => exact Or.inr ⟨o, rfl, o.rc, le_refl _, by rw [Obj.setRc_self]⟩⟩

theorem shrinks_trans {a b c : State C V} (h1 : Shrinks a b) (h2 : Shrinks b c) : Shrinks a c := by
  obtain ⟨n1, i1, t1, k1⟩ := h1
  obtain ⟨n2, i2, t2, k2⟩ := h2
  refine ⟨n2.trans n1, i2.trans i1, t2.trans t1, fun x => ?_⟩
  rcases k2 x with h | ⟨o, ho, n, hn, hc⟩
  · exact Or.inl h
  · rcases k1 x with h | ⟨o1, ho1, m, hm, hb⟩
    · rw [h] at ho; cases ho
    · rw [hb] at ho
      cases ho
      rw [Obj.setRc_rc] at hn
      exact Or.inr ⟨o1, ho1, n, le_trans hn hm, by rw [hc, Obj.setRc_setRc]⟩

/-- A run of `release` only destroys objects and lowers strong counts. -/
theorem release_shrinks (code : Code C V) (fuel : Nat) :
    ∀ (work : List Nat) {s s1 : State C V}, release code fuel work s = .ok s1 → Shrinks s s1 := by
  induction fuel with
  | zero =>
    intro work s s1 h
    cases work with
    | nil => cases h; exact shrinks_refl _
    | cons a rest => cases h
  | succ fuel ih =>
    intro work s s1 h
    cases work with
    | nil => cases h; exact shrinks_refl _
    | cons a rest =>
      unfold release at h
      split at h
      · cases h
      · rename_i o ho
        split at h
        · refine shrinks_trans (b := s.write a none) ⟨rfl, rfl, rfl, fun x => ?_⟩ (ih _ h)
          by_cases hx : x = a
          · exact Or.inl (by simp [hx])
          · cases hh : s.heap x with
            | none => exact Or.inl (by simp [hx, hh])
            | some ox => exact Or.inr ⟨ox, rfl, ox.rc, le_refl _, by simp [hx, hh, Obj.setRc_self]⟩
        · refine shrinks_trans (b := s.write a (some (o.setRc (o.rc - 1))))
            ⟨rfl, rfl, rfl, fun x => ?_⟩ (ih _ h)
          by_cases hx : x = a
          · subst hx
            exact Or.inr ⟨o, ho, o.rc - 1, Nat.sub_le _ _, by simp⟩
          · cases hh : s.heap x with
            | none => exact Or.inl (by simp [hx, hh])
            | some ox => exact Or.inr ⟨ox, rfl, ox.rc, le_refl _, by simp [hx, hh, Obj.setRc_self]⟩

end cascade

section losers
variable {C V : Type}

end losers

section losers2
variable {C V : Type} [Inhabited V]

/-- The test `BindAltStacked.case3` for arbitrary values: `deliver(D)` returns 1,
`deliver(C)` then returns 0, and `deliver(A)` resolves `x` to `T(a, B(d))`. -/
theorem bindAltStackedRun_eq (mkB : V → V) (mkT : V → V → V) (a c d : V) :
    bindAltStackedRun mkB mkT a c d = some (1, false, 0, false, 1, true, mkT a (mkB d)) := by
  simp [bindAltStackedRun, bindAltStacked, Receive.create_eq, bind, Except.bind, pure,
    Except.pure, Alt.create, Bind.create, State.alloc, Future.copyAll, Future.getParents,
    Future.getParent, Node.connect, State.write, Future.create, release, Obj.rc, Obj.setRc,
    Obj.refs, Kind.captures, pureCode, Future.drop, State.init, Receive.deliver,
    Receive.deliverLoop, Future.mk, Node.propagate, Node.setChildren, Observer.set, Node.set,
    Alt.resetParents, Prog.run, State.emit, Future.get, Future.ready, List.range,
    List.range.loop, Nat.add_assoc]

end losers2

/-! ## The graft -/

section graft
variable {C V : Type} [Inhabited V]

theorem sharedResultRun_eq :
    sharedResultRun 5 = some (some 0, [0], false, true, 5) := by decide!

/-- C9, as stated, fails: the unready future `r` of the `Receive<T>` node `P` is
returned by the callbacks of two binds. After both binds have fired, `P`
produces 5 (`deliver<T>(5)` fulfils it), the future `x2` of the second bind is
ready with 5, but the future `x1` of the first bind is not ready. -/
theorem graft_shared_result_loses_first :
    ∃ r x1 x2 s n1 s1 n2 s2 n3 s3, sharedResult (retCode 1) 4 () (State.init (V := Nat)) =
        .ok ((r, x1, x2), s) ∧
      Future.getParent s r = .ok (some 0) ∧
      Receive.deliver (retCode 1) 20 1 7 s = .ok (n1, s1) ∧
      Receive.deliver (retCode 1) 20 2 8 s1 = .ok (n2, s2) ∧
      Receive.deliver (retCode 1) 20 0 5 s2 = .ok (n3, s3) ∧
      fulfilledIn 0 (s3.trace.drop s2.trace.length) = [0] ∧
      Future.ready s3 x2 = true ∧ Future.get s3 x2 = 5 ∧ Future.ready s3 x1 = false := by
  have h := sharedResultRun_eq
  unfold sharedResultRun at h
  split at h
  · rename_i r x1 x2 s hs
    split at h
    · rename_i n1 s1 h1
      split at h
      · rename_i n2 s2 h2
        split at h
        · rename_i n3 s3 h3
          simp only [Option.some.injEq, Prod.mk.injEq] at h
          obtain ⟨hp, hf, r1, r2, g2⟩ := h
          refine ⟨r, x1, x2, s, n1, s1, n2, s2, n3, s3, hs, ?_, h1, h2, h3, hf, r2, g2, r1⟩
          cases hg : Future.getParent s r with
          | error e => rw [hg] at hp; cases hp
          | ok p =>
            rw [hg] at hp
            simp [Except.toOption] at hp
            rw [hp]
        · cases h
      · cases h
    · cases h
  · cases h

omit [Inhabited V] in
theorem reparented_refl (p : Nat) (o : Obj C V) : o.Reparented p o := by
  cases o <;> simp [Obj.Reparented]

omit [Inhabited V] in
theorem reparented_setRc (p : Nat) (o : Obj C V) (n : Nat) : o.Reparented p (o.setRc n) := by
  cases o <;> simp [Obj.Reparented, Obj.setRc]

omit [Inhabited V] in
theorem reparented_trans (p : Nat) {a b c : Obj C V} (h1 : a.Reparented p b)
    (h2 : b.Reparented p c) : a.Reparented p c := by
  cases a <;> cases b <;> cases c <;> simp only [Obj.Reparented] at h1 h2 ⊢
  · obtain ⟨rfl, rfl, rfl⟩ := h1
    exact h2
  · obtain ⟨rfl, rfl, q1⟩ := h1
    obtain ⟨rfl, rfl, q2⟩ := h2
    refine ⟨rfl, rfl, ?_⟩
    rcases q2 with q2 | q2
    · rw [q2]; exact q1
    · exact Or.inr q2
  · obtain ⟨rfl, rfl, q1⟩ := h1
    obtain ⟨rfl, rfl, q2⟩ := h2
    refine ⟨rfl, rfl, ?_⟩
    rcases q2 with q2 | q2
    · rw [q2]; exact q1
    · exact Or.inr q2

omit [Inhabited V] in
theorem regrafts_refl (p : Nat) (s : State C V) : Regrafts p s s :=
  ⟨fun _ h => h, fun _ o h => Or.inr ⟨o, h, reparented_refl p o⟩⟩

omit [Inhabited V] in
theorem regrafts_trans (p : Nat) {a b c : State C V} (h1 : Regrafts p a b)
    (h2 : Regrafts p b c) : Regrafts p a c := by
  refine ⟨fun x hx => h2.1 x (h1.1 x hx), fun x o hx => ?_⟩
  rcases h1.2 x o hx with h | ⟨o1, ho1, r1⟩
  · exact Or.inl (h2.1 x h)
  · rcases h2.2 x o1 ho1 with h | ⟨o2, ho2, r2⟩
    · exact Or.inl h
    · exact Or.inr ⟨o2, ho2, reparented_trans p r1 r2⟩

omit [Inhabited V] in
theorem regrafts_of_shrinks (p : Nat) {s s1 : State C V} (h : Shrinks s s1) : Regrafts p s s1 := by
  refine ⟨fun x hx => ?_, fun x o hx => ?_⟩
  · rcases h.2.2.2 x with h1 | ⟨o, ho, _⟩
    · exact h1
    · rw [hx] at ho; cases ho
  · rcases h.2.2.2 x with h1 | ⟨o1, ho1, n, _, hn⟩
    · exact Or.inl h1
    · rw [hx] at ho1
      cases ho1
      exact Or.inr ⟨_, hn, reparented_setRc p o n⟩

omit [Inhabited V] in
theorem regrafts_write (p a : Nat) (s : State C V) (o o1 : Obj C V) (ho : s.heap a = some o)
    (h : o.Reparented p o1) : Regrafts p s (s.write a (some o1)) := by
  refine ⟨fun x hx => ?_, fun x ox hx => ?_⟩
  · have : x ≠ a := by rintro rfl; rw [ho] at hx; cases hx
    simp [this, hx]
  · by_cases e : x = a
    · subst e
      rw [ho] at hx
      cases hx
      exact Or.inr ⟨o1, by simp, h⟩
    · exact Or.inr ⟨ox, by simp [e, hx], reparented_refl p ox⟩

omit [Inhabited V] in
/-- The loop of the graft: afterwards every child of the list that is alive has
`p` as its parent, and the objects are otherwise what they were up to strong
counts. -/
theorem reparent_spec (code : Code C V) (fuel p : Nat) (cs : List Nat) :
    ∀ {s s1 : State C V}, Node.reparent code fuel p cs s = .ok s1 →
      Regrafts p s s1 ∧ ∀ c ∈ cs, s1.heap c = none ∨ s1.HasParent c p := by
  induction cs with
  | nil =>
    intro s s1 h
    cases h
    exact ⟨regrafts_refl p _, fun c hc => by cases hc⟩
  | cons c cs ih =>
    intro s s1 h
    unfold Node.reparent at h
    have keep : ∀ {s2 : State C V}, Regrafts p s2 s1 → s2.HasParent c p →
        s1.heap c = none ∨ s1.HasParent c p := by
      intro s2 r hc
      rcases hc with ⟨rc, r1, v, hc⟩ | ⟨rc, t, i, hc⟩
      · rcases r.2 c _ hc with h1 | ⟨o1, ho1, hr⟩
        · exact Or.inl h1
        · cases o1 <;> simp only [Obj.Reparented] at hr
          obtain ⟨rfl, rfl, hq⟩ := hr
          rename_i rc2 q2
          have hq2 : q2 = some p := by rcases hq with hq | hq <;> exact hq
          subst hq2
          exact Or.inr (Or.inl ⟨_, _, _, ho1⟩)
      · rcases r.2 c _ hc with h1 | ⟨o1, ho1, hr⟩
        · exact Or.inl h1
        · cases o1 <;> simp only [Obj.Reparented] at hr
          obtain ⟨rfl, rfl, hq⟩ := hr
          rename_i rc2 q2
          have hq2 : q2 = some p := by rcases hq with hq | hq <;> exact hq
          subst hq2
          exact Or.inr (Or.inr ⟨_, _, _, ho1⟩)
    split at h
    · rename_i hc
      obtain ⟨r, hcs⟩ := ih h
      refine ⟨r, fun d hd => ?_⟩
      rcases List.mem_cons.1 hd with e | e
      · subst e; exact Or.inl (r.1 d hc)
      · exact hcs d e
    · cases h
    · rename_i rc r v old hc
      split at h
      · rename_i s2 h2
        split at h
        · rename_i s3 h3
          obtain ⟨r3, hcs⟩ := ih h
          unfold acquire at h2
          split at h2
          · rename_i op hop
            cases h2
            have r01 : Regrafts p s (s.write c (some (.data (rc + 1) r v (some p)))) :=
              regrafts_write p c s _ _ hc (by simp [Obj.Reparented])
            have r12 := regrafts_write p p (s.write c (some (.data (rc + 1) r v (some p)))) _
              (op.setRc (op.rc + 1)) hop (reparented_setRc p op _)
            have sh := release_shrinks code fuel _ h3
            have r23 := regrafts_of_shrinks p sh
            refine ⟨regrafts_trans p r01 (regrafts_trans p r12 (regrafts_trans p r23 r3)),
              fun d hd => ?_⟩
            rcases List.mem_cons.1 hd with e | e
            · rw [e]
              refine keep (regrafts_trans p r23 r3) (Or.inl ?_)
              by_cases ep : c = p
              · have hop2 : op = .data (rc + 1) r v (some p) := by
                  simpa [ep] using hop.symm
                exact ⟨rc + 1 + 1, r, v, by simp [ep, hop2, Obj.setRc, Obj.rc]⟩
              · exact ⟨rc + 1, r, v, by simp [ep]⟩
            · exact hcs d e
          · cases h2
        · cases h
      · cases h
    · rename_i rc old t i hc
      split at h
      · rename_i s2 h2
        split at h
        · rename_i s3 h3
          obtain ⟨r3, hcs⟩ := ih h
          unfold acquire at h2
          split at h2
          · rename_i op hop
            cases h2
            have r01 : Regrafts p s (s.write c (some (.arg (rc + 1) (some p) t i))) :=
              regrafts_write p c s _ _ hc (by simp [Obj.Reparented])
            have r12 := regrafts_write p p (s.write c (some (.arg (rc + 1) (some p) t i))) _
              (op.setRc (op.rc + 1)) hop (reparented_setRc p op _)
            have sh := release_shrinks code fuel _ h3
            have r23 := regrafts_of_shrinks p sh
            refine ⟨regrafts_trans p r01 (regrafts_trans p r12 (regrafts_trans p r23 r3)),
              fun d hd => ?_⟩
            rcases List.mem_cons.1 hd with e | e
            · rw [e]
              refine keep (regrafts_trans p r23 r3) (Or.inr ?_)
              by_cases ep : c = p
              · have hop2 : op = .arg (rc + 1) (some p) t i := by
                  simpa [ep] using hop.symm
                exact ⟨rc + 1 + 1, t, i, by simp [ep, hop2, Obj.setRc, Obj.rc]⟩
              · exact ⟨rc + 1, t, i, by simp [ep]⟩
            · exact hcs d e
          · cases h2
        · cases h
      · cases h

omit [Inhabited V] in
theorem resolved_refl (v : V) (o : Obj C V) : o.Resolved v o := by
  cases o <;> simp [Obj.Resolved]

omit [Inhabited V] in
theorem resolved_setRc (v : V) (o : Obj C V) (n : Nat) : o.Resolved v (o.setRc n) := by
  cases o <;> simp [Obj.Resolved, Obj.setRc]

omit [Inhabited V] in
theorem resolved_trans (v : V) {a b c : Obj C V} (h1 : a.Resolved v b)
    (h2 : b.Resolved v c) : a.Resolved v c := by
  cases a <;> cases b <;> cases c <;> simp only [Obj.Resolved] at h1 h2 ⊢
  · obtain ⟨rfl, rfl, rfl⟩ := h1
    exact h2
  · rcases h2 with ⟨rfl, rfl, rfl⟩ | h2
    · exact h1
    · exact Or.inr h2
  · obtain ⟨rfl, rfl, rfl⟩ := h1
    exact h2

omit [Inhabited V] in
theorem resolves_refl (v : V) (s : State C V) : Resolves v s s :=
  ⟨fun _ h => h, fun _ o h => Or.inr ⟨o, h, resolved_refl v o⟩⟩

omit [Inhabited V] in
theorem resolves_trans (v : V) {a b c : State C V} (h1 : Resolves v a b)
    (h2 : Resolves v b c) : Resolves v a c := by
  refine ⟨fun x hx => h2.1 x (h1.1 x hx), fun x o hx => ?_⟩
  rcases h1.2 x o hx with h | ⟨o1, ho1, r1⟩
  · exact Or.inl (h2.1 x h)
  · rcases h2.2 x o1 ho1 with h | ⟨o2, ho2, r2⟩
    · exact Or.inl h
    · exact Or.inr ⟨o2, ho2, resolved_trans v r1 r2⟩

omit [Inhabited V] in
theorem resolves_of_shrinks (v : V) {s s1 : State C V} (h : Shrinks s s1) : Resolves v s s1 := by
  refine ⟨fun x hx => ?_, fun x o hx => ?_⟩
  · rcases h.2.2.2 x with h1 | ⟨o, ho, _⟩
    · exact h1
    · rw [hx] at ho; cases ho
  · rcases h.2.2.2 x with h1 | ⟨o1, ho1, n, _, hn⟩
    · exact Or.inl h1
    · rw [hx] at ho1
      cases ho1
      exact Or.inr ⟨_, hn, resolved_setRc v o n⟩

omit [Inhabited V] in
theorem resolves_write (v : V) (a : Nat) (s : State C V) (o o1 : Obj C V) (ho : s.heap a = some o)
    (h : o.Resolved v o1) : Resolves v s (s.write a (some o1)) := by
  refine ⟨fun x hx => ?_, fun x ox hx => ?_⟩
  · have : x ≠ a := by rintro rfl; rw [ho] at hx; cases hx
    simp [this, hx]
  · by_cases e : x = a
    · subst e
      rw [ho] at hx
      cases hx
      exact Or.inr ⟨o1, by simp, h⟩
    · exact Or.inr ⟨ox, by simp [e, hx], resolved_refl v ox⟩

/-- The ready branch of `propagate` over children that are value cells: each of
them that is still alive afterwards is ready with the value propagated. -/
theorem setChildren_cells (code : Code C V) (v : V) (cs : List Nat) :
    ∀ (fuel : Nat) {s s1 : State C V},
      (∀ c ∈ cs, s.heap c = none ∨ ∃ rc r w q, s.heap c = some (.data rc r w q)) →
      Node.setChildren code fuel cs v s = .ok s1 →
      Resolves v s s1 ∧ ∀ c ∈ cs, s1.heap c = none ∨ ∃ rc, s1.heap c = some (.data rc true v none) := by
  induction cs with
  | nil =>
    intro fuel s s1 _ h
    cases fuel with
    | zero => simp [Node.setChildren] at h
    | succ fuel =>
      simp [Node.setChildren] at h
      subst h
      exact ⟨resolves_refl v _, fun c hc => by cases hc⟩
  | cons c cs ih =>
    intro fuel s s1 hcs h
    cases fuel with
    | zero => simp [Node.setChildren] at h
    | succ fuel =>
      have keep : ∀ {sm : State C V}, Resolves v s sm →
          ∀ d ∈ cs, sm.heap d = none ∨ ∃ rc r w q, sm.heap d = some (.data rc r w q) := by
        intro sm hr d hd
        rcases hcs d (List.mem_cons_of_mem _ hd) with h0 | ⟨rc, r, w, q, h0⟩
        · exact Or.inl (hr.1 d h0)
        · rcases hr.2 d _ h0 with h1 | ⟨o1, h1, hres⟩
          · exact Or.inl h1
          · cases o1 <;> simp only [Obj.Resolved] at hres
            exact Or.inr ⟨_, _, _, _, h1⟩
      rw [Node.setChildren] at h
      rcases hcs c (List.mem_cons_self _ _) with hc | ⟨rc, r, w, q, hc⟩
      · simp only [hc] at h
        obtain ⟨r1, r2⟩ := ih fuel (keep (resolves_refl v s)) h
        refine ⟨r1, fun d hd => ?_⟩
        rcases List.mem_cons.1 hd with e | e
        · rw [e]; exact Or.inl (r1.1 c hc)
        · exact r2 d e
      · simp only [hc] at h
        split at h
        · rename_i sa ha
          split at h
          · rename_i sb hb
            cases fuel with
            | zero => simp [Observer.set] at ha
            | succ fuel =>
              rw [Observer.set] at ha
              simp only [State.write_heap, State.emit_heap, if_true, Obj.setRc, Obj.rc] at ha
              have w1 : Resolves v s ((s.emit (.set c v)).write c (some (.data (rc + 1) r w q))) :=
                resolves_write v c (s.emit (.set c v)) _ _ hc (by simp [Obj.Resolved])
              have w2 := resolves_write v c ((s.emit (.set c v)).write c
                (some (.data (rc + 1) r w q))) (.data (rc + 1) r w q) (.data (rc + 1) true v none)
                (by simp) (by simp [Obj.Resolved])
              have w3 := resolves_of_shrinks v (release_shrinks code fuel _ ha)
              have w4 := resolves_of_shrinks v (release_shrinks code (fuel + 1) _ hb)
              have rs : Resolves v s sb :=
                resolves_trans v w1 (resolves_trans v w2 (resolves_trans v w3 w4))
              obtain ⟨r1, r2⟩ := ih (fuel + 1) (keep rs) h
              refine ⟨resolves_trans v rs r1, fun d hd => ?_⟩
              rcases List.mem_cons.1 hd with e | e
              · rw [e]
                have hcw : (((s.emit (.set c v)).write c (some (.data (rc + 1) r w q))).write c
                    (some (.data (rc + 1) true v none))).heap c =
                    some (.data (rc + 1) true v none) := by simp
                rcases (resolves_trans v (resolves_trans v w3 w4) r1).2 c _ hcw with h1 | ⟨o1, h1, hres⟩
                · exact Or.inl h1
                · cases o1 <;> simp only [Obj.Resolved] at hres
                  rename_i rc2 r2 w2 q2
                  have : r2 = true ∧ w2 = v ∧ q2 = none := by
                    rcases hres with hres | hres <;> exact hres
                  obtain ⟨rfl, rfl, rfl⟩ := this
                  exact Or.inr ⟨_, h1⟩
              · exact r2 d e
          · cases h
        · cases h


/-- C9, amended. When `propagate` runs on the firing combinator `n` with the
unready future `x` whose producer is another node `P`, the list `cs` of the
observers downstream of `n` becomes the children list of `P` (the list `P` had
is replaced), `n` is left without children, and every observer of `cs` that is
alive has `P` as its parent. Whenever `P`, in a later state in which its children
list is still `cs` and the live entries of `cs` are value cells, propagates a
ready future with value `v`, each cell of `cs` that is alive afterwards is ready
with value `v`. -/
theorem graft_then_produce (code : Code C V) (fuel n x : Nat) (s s1 : State C V)
    (rcx : Nat) (w : V) (p rcn : Nat) (k : Kind C V) (ps : List (Option Nat)) (cs : List Nat)
    (hx : s.heap x = some (.data rcx false w (some p)))
    (hn : s.heap n = some (.node rcn k ps cs)) (hpn : p ≠ n)
    (h : Node.propagate code fuel n x s = .ok s1) :
    (∀ o, s1.heap p = some o → ∃ rc kp pps, o = .node rc kp pps cs) ∧
    (∀ o, s1.heap n = some o → ∃ rc, o = .node rc k ps []) ∧
    (∀ c ∈ cs, s1.heap c = none ∨ s1.HasParent c p) ∧
    ∀ (fuel2 y : Nat) (s2 s3 : State C V) (rcy : Nat) (v : V) (q : Option Nat) (rcp : Nat)
      (kp : Kind C V) (pps : List (Option Nat)),
      s2.heap y = some (.data rcy true v q) → s2.heap p = some (.node rcp kp pps cs) →
      (∀ c ∈ cs, s2.heap c = none ∨ ∃ rc r u q1, s2.heap c = some (.data rc r u q1)) →
      Node.propagate code fuel2 p y s2 = .ok s3 →
      ∀ c ∈ cs, s3.heap c = none ∨ ∃ rc, s3.heap c = some (.data rc true v none) := by
  have g : (∀ o, s1.heap p = some o → ∃ rc kp pps, o = .node rc kp pps cs) ∧
      (∀ o, s1.heap n = some o → ∃ rc, o = .node rc k ps []) ∧
      (∀ c ∈ cs, s1.heap c = none ∨ s1.HasParent c p) := by
    cases fuel with
    | zero => simp [Node.propagate] at h
    | succ fuel =>
      rw [Node.propagate] at h
      simp only [hx, hn] at h
      split at h
      · rename_i prc pk pps pcs0 hp
        simp only [State.write_heap, State.emit_heap, if_neg (Ne.symm hpn), if_neg hpn, hn, if_true] at h
        obtain ⟨rg, hc⟩ := reparent_spec code fuel p cs h
        have hp2 : (((s.emit (.propagate n x)).write p (some (.node prc pk pps cs))).write n
            (some (.node rcn k ps []))).heap p = some (.node prc pk pps cs) := by
          simp [hpn]
        have hn2 : (((s.emit (.propagate n x)).write p (some (.node prc pk pps cs))).write n
            (some (.node rcn k ps []))).heap n = some (.node rcn k ps []) := by
          simp
        refine ⟨?_, ?_, hc⟩
        · intro o ho
          rcases rg.2 p _ hp2 with h0 | ⟨o1, h1, hr⟩
          · rw [h0] at ho; cases ho
          · rw [h1] at ho
            cases ho
            cases o <;> simp only [Obj.Reparented] at hr
            obtain ⟨rfl, rfl, rfl⟩ := hr
            exact ⟨_, _, _, rfl⟩
        · intro o ho
          rcases rg.2 n _ hn2 with h0 | ⟨o1, h1, hr⟩
          · rw [h0] at ho; cases ho
          · rw [h1] at ho
            cases ho
            cases o <;> simp only [Obj.Reparented] at hr
            obtain ⟨rfl, rfl, rfl⟩ := hr
            exact ⟨_, rfl⟩
      · cases h
  refine ⟨g.1, g.2.1, g.2.2, ?_⟩
  · intro fuel2 y s2 s3 rcy v q rcp kp pps hy hp hcells h2
    cases fuel2 with
    | zero => simp [Node.propagate] at h2
    | succ fuel2 =>
      rw [Node.propagate] at h2
      simp only [hy, hp] at h2
      exact (setChildren_cells code v cs fuel2 (by simpa using hcells) h2).2

/-- C9 (amended) in the middle of the firing of `x = bind<T, A>(receive<A>(), f)`
whose callback returned the unready future of a new `receive<T>()`: the cell of
`x` is moved to the new `Receive<T>` node, and when that node propagates the
ready future with value 9 the cell of `x` is ready with value 9. -/
theorem graft_then_produce_witness :
    ∃ s1, Node.propagate pureCode 3 2 6 (graftState (fun l => l.headD 0) 0) = .ok s1 ∧
      s1.HasParent 4 5 ∧
      ∃ s3, Node.propagate pureCode 5 5 7 (Future.mk 9 s1).2 = .ok s3 ∧
        ∃ rc, s3.heap 4 = some (.data rc true 9 none) := by
  have hd : ∃ s1, Node.propagate pureCode 3 2 6 (graftState (fun l => l.headD 0) 0) = .ok s1 ∧
      s1.heap 4 = some (.data 1 false default (some 5)) ∧
      s1.heap 5 = some (.node 2 .receive [] [4]) ∧ s1.next = 7 ∧
      ∃ s3, Node.propagate pureCode 5 5 7 (Future.mk 9 s1).2 = .ok s3 ∧ s3.heap 4 ≠ none := by
    simp [graftState, Node.propagate, Node.reparent, acquire, State.write, release, Obj.rc,
      Obj.setRc, Obj.refs, Kind.captures, pureCode, Future.mk, State.alloc, State.emit,
      Node.setChildren, Observer.set]
  obtain ⟨s1, h1, h4, h5, hnx, s3, h3, hne⟩ := hd
  obtain ⟨_, _, hc, hprod⟩ := graft_then_produce pureCode 3 2 6 (graftState (fun l => l.headD 0) 0)
    s1 1 default 5 2 (.bind [true] [0] (fun l => l.headD 0)) [none] [4]
    (by simp [graftState]) (by simp [graftState]) (by decide) h1
  refine ⟨s1, h1, ?_, s3, h3, ?_⟩
  · rcases hc 4 (by simp) with h0 | h0
    · rw [h4] at h0; cases h0
    · exact h0
  · rcases hprod 5 7 (Future.mk 9 s1).2 s3 1 9 none 2 .receive [] (by simp [Future.mk, State.alloc, hnx])
      (by simp [Future.mk, State.alloc, hnx, h5])
      (by intro c hc; simp at hc; subst hc; exact Or.inr ⟨1, false, default, some 5, by simp [Future.mk, State.alloc, hnx, h4]⟩)
      h3 4 (by simp) with h0 | h0
    · exact absurd h0 hne
    · exact h0


end graft

/-! ## The graph invariant -/

section quiet
variable {C V : Type}

theorem sameView_refl (o : Obj C V) : o.SameView o := by
  cases o <;> simp [Obj.SameView]

theorem sameView_trans {a b c : Obj C V} (h1 : a.SameView b) (h2 : b.SameView c) :
    a.SameView c := by
  cases a <;> cases b <;> cases c <;> simp only [Obj.SameView] at h1 h2 ⊢
  · exact ⟨h1.1.trans h2.1, h1.2.1.trans h2.2.1, h1.2.2.trans h2.2.2⟩
  · exact ⟨h1.1.trans h2.1, h1.2.trans h2.2⟩
  · exact ⟨h1.1.trans h2.1, h1.2.trans h2.2⟩

theorem sameView_setRc (o : Obj C V) (n : Nat) : o.SameView (o.setRc n) := by
  cases o <;> simp [Obj.SameView, Obj.setRc]

theorem argLe_refl (o : Obj C V) : o.ArgLe o := by
  cases o <;> simp [Obj.ArgLe]

theorem argLe_trans {a b c : Obj C V} (hv : a.SameView b) (h1 : a.ArgLe b) (h2 : b.ArgLe c) :
    a.ArgLe c := by
  cases a <;> cases b <;> cases c <;> simp only [Obj.ArgLe, Obj.SameView] at h1 h2 hv ⊢
  exact le_trans h2 h1

theorem State.wasSet_congr {s s1 : State C V} (h : s1.trace = s.trace) (a : Nat) :
    s1.wasSet a ↔ s.wasSet a := by
  simp [State.wasSet, h]

theorem State.fired_congr {s s1 : State C V} (h : s1.trace = s.trace) (a : Nat) :
    s1.fired a ↔ s.fired a := by
  simp [State.fired, h]

theorem State.called_congr {s s1 : State C V} (h : s1.trace = s.trace) (a : Nat) :
    s1.called a ↔ s.called a := by
  simp [State.called, h]

theorem calm_refl (s : State C V) : Calm s s :=
  ⟨rfl, rfl, rfl, fun a => by
    cases h : s.heap a with
    | none => exact Or.inl rfl
    | some o => exact Or.inr ⟨o, o, rfl, rfl, sameView_refl o⟩⟩

theorem calm_trans {a b c : State C V} (h1 : Calm a b) (h2 : Calm b c) : Calm a c := by
  obtain ⟨n1, i1, t1, q1⟩ := h1
  obtain ⟨n2, i2, t2, q2⟩ := h2
  refine ⟨n2.trans n1, i2.trans i1, t2.trans t1, fun x => ?_⟩
  rcases q2 x with h | ⟨o1, o2, ho1, ho2, v2⟩
  · exact Or.inl h
  · rcases q1 x with h | ⟨o, o1', ho, ho1', v1⟩
    · rw [h] at ho1; cases ho1
    · rw [ho1] at ho1'
      cases ho1'
      exact Or.inr ⟨o, o2, ho, ho2, sameView_trans v1 v2⟩

theorem calm_of_shrinks {s s1 : State C V} (h : Shrinks s s1) : Calm s s1 := by
  refine ⟨h.1, h.2.1, h.2.2.1, fun a => ?_⟩
  rcases h.2.2.2 a with h1 | ⟨o, ho, n, _, h1⟩
  · exact Or.inl h1
  · exact Or.inr ⟨o, _, ho, h1, sameView_setRc o n⟩

theorem calm_write (s : State C V) (a : Nat) (o o1 : Obj C V) (ho : s.heap a = some o)
    (hv : o.SameView o1) : Calm s (s.write a (some o1)) := by
  refine ⟨rfl, rfl, rfl, fun x => ?_⟩
  by_cases e : x = a
  · subst e
    exact Or.inr ⟨o, o1, ho, by simp, hv⟩
  · cases h : s.heap x with
    | none => exact Or.inl (by simp [e, h])
    | some ox => exact Or.inr ⟨ox, ox, rfl, by simp [e, h], sameView_refl ox⟩

theorem calm_kill (s : State C V) (a : Nat) : Calm s (s.write a none) := by
  refine ⟨rfl, rfl, rfl, fun x => ?_⟩
  by_cases e : x = a
  · subst e
    exact Or.inl (by simp)
  · cases h : s.heap x with
    | none => exact Or.inl (by simp [e, h])
    | some ox => exact Or.inr ⟨ox, ox, rfl, by simp [e, h], sameView_refl ox⟩

theorem calm_kids {s s1 : State C V} (h : Calm s s1) (n : Nat) :
    s1.kids n = s.kids n ∨ s1.kids n = [] := by
  rcases h.2.2.2 n with h1 | ⟨o, o1, ho, ho1, hv⟩
  · exact Or.inr (by simp [State.kids, Obj.kidsOf, h1])
  · left
    cases o <;> cases o1 <;> simp only [Obj.SameView] at hv <;>
      simp [State.kids, Obj.kidsOf, ho, ho1, hv]

theorem calm_slots {s s1 : State C V} (h : Calm s s1) (n : Nat) :
    s1.slots n = s.slots n ∨ s1.slots n = [] := by
  rcases h.2.2.2 n with h1 | ⟨o, o1, ho, ho1, hv⟩
  · exact Or.inr (by simp [State.slots, Obj.slotsOf, h1])
  · left
    cases o <;> cases o1 <;> simp only [Obj.SameView] at hv <;>
      simp [State.slots, Obj.slotsOf, ho, ho1, hv]

theorem calm_kind {s s1 : State C V} (h : Calm s s1) (n : Nat) (k : Kind C V)
    (hk : s1.kind n = some k) : s.kind n = some k := by
  rcases h.2.2.2 n with h1 | ⟨o, o1, ho, ho1, hv⟩
  · simp [State.kind, Obj.kindOf, h1] at hk
  · cases o <;> cases o1 <;> simp only [Obj.SameView] at hv <;>
      simp_all [State.kind, Obj.kindOf]

theorem calm_slots_alive {s s1 : State C V} (h : Calm s s1) (n : Nat)
    (hk : s1.kind n ≠ none) : s1.slots n = s.slots n ∧ s1.kids n = s.kids n ∧
      s1.kind n = s.kind n := by
  rcases h.2.2.2 n with h1 | ⟨ob, ob1, ho, ho1, hv⟩
  · simp [State.kind, Obj.kindOf, h1] at hk
  · cases ob <;> cases ob1 <;> simp only [Obj.SameView] at hv <;>
      simp_all [State.slots, Obj.slotsOf, State.kind, Obj.kindOf, State.kids, Obj.kidsOf]

theorem calm_cell {s s1 : State C V} (h : Calm s s1) (c : Nat) (rv : Bool × V)
    (hc : s1.cell c = some rv) : s.cell c = some rv := by
  rcases h.2.2.2 c with h1 | ⟨o, o1, ho, ho1, hv⟩
  · simp [State.cell, Obj.cellOf, h1] at hc
  · cases o <;> cases o1 <;> simp only [Obj.SameView] at hv <;>
      simp_all [State.cell, Obj.cellOf]

theorem calm_cell_keep {s s1 : State C V} (h : Calm s s1) (c : Nat) (rv : Bool × V)
    (hc : s.cell c = some rv) : s1.heap c = none ∨ s1.cell c = some rv := by
  rcases h.2.2.2 c with h1 | ⟨o, o1, ho, ho1, hv⟩
  · exact Or.inl h1
  · right
    cases o <;> cases o1 <;> simp only [Obj.SameView] at hv <;>
      simp_all [State.cell, Obj.cellOf]

theorem calm_arg {s s1 : State C V} (h : Calm s s1) (o rc1 t i : Nat)
    (ha : s1.arg o = some (rc1, t, i)) : ∃ rc, s.arg o = some (rc, t, i) := by
  rcases h.2.2.2 o with h1 | ⟨ob, ob1, ho, ho1, hv⟩
  · simp [State.arg, Obj.argOf, h1] at ha
  · cases ob <;> cases ob1 <;> simp only [Obj.SameView] at hv <;>
      simp_all [State.arg, Obj.argOf]

theorem calm_dead {s s1 : State C V} (h : Calm s s1) (a : Nat) (ha : s.heap a = none) :
    s1.heap a = none := by
  rcases h.2.2.2 a with h1 | ⟨o, _, ho, _⟩
  · exact h1
  · rw [ha] at ho; cases ho

theorem core_calm {s s1 : State C V} (hc : Core s) (h : Calm s s1) : Core s1 := by
  have hn := h.1
  have hi := h.2.1
  have ht := h.2.2.1
  have kids : ∀ n c, c ∈ s1.kids n → c ∈ s.kids n := by
    intro n c hm
    rcases calm_kids h n with e | e
    · rw [e] at hm; exact hm
    · rw [e] at hm; cases hm
  have slots : ∀ n j o, (s1.slots n).get? j = some (some o) → (s.slots n).get? j = some (some o) := by
    intro n j o hm
    rcases calm_slots h n with e | e
    · rw [e] at hm; exact hm
    · rw [e] at hm; simp at hm
  have fired := State.fired_congr ht
  have wset := State.wasSet_congr ht
  have called := State.called_congr ht
  constructor
  · intro a ha
    rw [hn] at ha
    exact calm_dead h a (hc.heapBound a ha)
  · intro ty i hi1
    rw [hi] at hi1
    rw [hn]
    exact hc.regBound ty i hi1
  · intro n c hm
    rw [hn]
    exact hc.childBound n c (kids n c hm)
  · intro o rc t i ha
    obtain ⟨rc0, h0⟩ := calm_arg h o rc t i ha
    rw [hn]
    exact hc.targetBound o rc0 t i h0
  · intro n hf
    rw [hn]
    exact hc.firedBound n ((fired n).1 hf)
  · intro n hf
    rw [hn]
    exact hc.setBound n ((wset n).1 hf)
  · intro n hf
    rw [hn]
    exact hc.calledBound n ((called n).1 hf)
  · intro n
    rcases calm_kids h n with e | e
    · rw [e]; exact hc.childNodup n
    · rw [e]; exact List.nodup_nil
  · intro n m c h1 h2
    exact hc.childDisjoint n m c (kids n c h1) (kids m c h2)
  · intro n c hm hf hw
    exact hc.unfiredUnset n c (kids n c hm) (fun x => hf ((fired n).2 x)) ((wset c).1 hw)
  · intro n c hm hf r v hcell
    exact hc.unfiredUnready n c (kids n c hm) (fun x => hf ((fired n).2 x)) r v
      (calm_cell h c _ hcell)
  · intro t r a f hk j o hs
    exact hc.bindSlot t r a f (calm_kind h t _ hk) j o (slots t j o hs)
  · intro t r a f hk hcl
    exact hc.calledBind t r a f (calm_kind h t _ hk) ((called t).1 hcl)
  · intro t fs hk hcl j o hs
    exact hc.calledAlt t fs (calm_kind h t _ hk) ((called t).1 hcl) j o (slots t j o hs)
  · intro t hf j o hs
    exact hc.firedSlots t ((fired t).1 hf) j o (slots t j o hs)
  · intro ty i hi1 hf
    rw [hi] at hi1
    exact hc.regUnfired ty i hi1 ((fired i).1 hf)
  · intro ty i hi1
    rw [hi] at hi1
    rcases calm_slots h i with e | e
    · rw [e]; exact hc.regSlots ty i hi1
    · exact e
  · intro ty
    rw [hi]
    exact hc.regNodup ty
  · intro ty ty1 i h1 h2
    rw [hi] at h1 h2
    exact hc.regDisjoint ty ty1 i h1 h2
  · intro t
    rw [ht]
    exact hc.callsOnce t
  · intro t
    rw [ht]
    exact hc.setsOnce t

theorem frame_calm (Xc Xn : Nat → Prop) {s s1 : State C V} (h : Calm s s1) :
    Frame Xc Xn s s1 := by
  have kids : ∀ n c, c ∈ s1.kids n → c ∈ s.kids n := by
    intro n c hm
    rcases calm_kids h n with e | e
    · rw [e] at hm; exact hm
    · rw [e] at hm; cases hm
  have slots : ∀ n j o, (s1.slots n).get? j = some (some o) → (s.slots n).get? j = some (some o) := by
    intro n j o hm
    rcases calm_slots h n with e | e
    · rw [e] at hm; exact hm
    · rw [e] at hm; simp at hm
  constructor
  · rw [h.1]
  · exact ⟨[], by rw [h.2.2.1]; simp⟩
  · intro a _ ha
    exact calm_dead h a ha
  · intro n hd _
    obtain ⟨d1, d2, d3, d4⟩ := hd
    refine ⟨by rw [h.1]; exact d1, fun x => d2 ((State.fired_congr h.2.2.1 n).1 x), ?_, ?_⟩
    · rw [h.2.1]; exact d3
    · intro j o hs
      exact d4 j o (slots n j o hs)
  · intro c hd _
    refine ⟨⟨by rw [h.1]; exact hd.1, fun m hm => (State.fired_congr h.2.2.1 m).2
      (hd.2 m (kids m c hm))⟩, fun x => (State.wasSet_congr h.2.2.1 c).1 x, ?_⟩
    intro rv hrv
    exact calm_cell_keep h c rv hrv

theorem quiet_refl (s : State C V) : Quiet s s :=
  ⟨calm_refl s, fun a o o1 h h1 _ => by
    rw [h] at h1
    cases h1
    exact argLe_refl o⟩

theorem quiet_trans {a b c : State C V} (h1 : Quiet a b) (h2 : Quiet b c) : Quiet a c := by
  refine ⟨calm_trans h1.1 h2.1, fun x o o2 ho ho2 hw => ?_⟩
  rcases h1.1.2.2.2 x with h | ⟨o', o1, ho', ho1, v1⟩
  · rw [calm_dead h2.1 x h] at ho2; cases ho2
  · rw [ho] at ho'
    cases ho'
    exact argLe_trans v1 (h1.2 x o o1 ho ho1 hw)
      (h2.2 x o1 o2 ho1 ho2 (fun hw1 => hw ((State.wasSet_congr h1.1.2.2.1 x).1 hw1)))

theorem quiet_of_shrinks {s s1 : State C V} (h : Shrinks s s1) : Quiet s s1 := by
  refine ⟨calm_of_shrinks h, fun a o o1 ho ho1 _ => ?_⟩
  rcases h.2.2.2 a with h1 | ⟨o', ho', n, hn, h1⟩
  · rw [h1] at ho1; cases ho1
  · rw [ho] at ho'
    cases ho'
    rw [h1] at ho1
    cases ho1
    cases o <;> simp [Obj.ArgLe, Obj.setRc]
    simpa [Obj.rc] using hn

theorem quiet_write (s : State C V) (a : Nat) (o o1 : Obj C V) (ho : s.heap a = some o)
    (hv : o.SameView o1) (hl : ¬ s.wasSet a → o.ArgLe o1) : Quiet s (s.write a (some o1)) := by
  refine ⟨calm_write s a o o1 ho hv, fun x ox ox1 hx hx1 hw => ?_⟩
  by_cases e : x = a
  · subst e
    rw [ho] at hx
    cases hx
    simp at hx1
    subst hx1
    exact hl hw
  · simp [e] at hx1
    rw [hx] at hx1
    cases hx1
    exact argLe_refl ox

theorem core_quiet {s s1 : State C V} (hc : Core s) (h : Quiet s s1) : Core s1 :=
  core_calm hc h.1

theorem frame_quiet (Xc Xn : Nat → Prop) {s s1 : State C V} (h : Quiet s s1) :
    Frame Xc Xn s s1 :=
  frame_calm Xc Xn h.1

theorem argsHeld_quiet {W : List Nat} {s s1 : State C V} (ha : ArgsHeld W s) (h : Quiet s s1) :
    ArgsHeld W s1 := by
  intro o rc t i harg hw
  have hw0 : ¬ s.wasSet o := fun x => hw ((State.wasSet_congr h.1.2.2.1 o).2 x)
  obtain ⟨rc0, h0⟩ := calm_arg h.1 o rc t i harg
  have hle : rc ≤ rc0 := by
    cases ho : s.heap o with
    | none => simp [State.arg, ho] at h0
    | some ob =>
      cases ho1 : s1.heap o with
      | none => simp [State.arg, ho1] at harg
      | some ob1 =>
        have := h.2 o ob ob1 ho ho1 hw0
        cases ob <;> cases ob1 <;> simp_all [State.arg, Obj.argOf, Obj.ArgLe]
  obtain ⟨b1, b2⟩ := ha o rc0 t i h0 hw0
  refine ⟨by omega, fun hk => ?_⟩
  obtain ⟨hsl, _, hkd⟩ := calm_slots_alive h.1 t hk
  rw [hsl]
  rcases b2 (by rw [← hkd]; exact hk) with b | ⟨b, c⟩
  · exact Or.inl b
  · exact Or.inr ⟨b, by omega⟩

theorem argsHeld_mono {W W1 : List Nat} {s : State C V} (ha : ArgsHeld W s)
    (h : ∀ o, W.count o ≤ W1.count o) : ArgsHeld W1 s := by
  intro o rc t i harg hw
  obtain ⟨b1, b2⟩ := ha o rc t i harg hw
  have := h o
  refine ⟨by omega, fun hk => ?_⟩
  rcases b2 hk with b | ⟨b, c⟩
  · exact Or.inl b
  · refine Or.inr ⟨?_, by omega⟩
    have : 0 < W1.count o := lt_of_lt_of_le (List.count_pos_iff.2 b) (h o)
    exact List.count_pos_iff.1 this

theorem frame_refl (Xc Xn : Nat → Prop) (s : State C V) : Frame Xc Xn s s :=
  frame_calm Xc Xn (calm_refl s)

theorem frame_trans {Xc Xn : Nat → Prop} {a b c : State C V} (h1 : Frame Xc Xn a b)
    (h2 : Frame Xc Xn b c) : Frame Xc Xn a c := by
  constructor
  · exact le_trans h1.next_le h2.next_le
  · obtain ⟨e1, h1e⟩ := h1.trace
    obtain ⟨e2, h2e⟩ := h2.trace
    exact ⟨e1 ++ e2, by rw [h2e, h1e, List.append_assoc]⟩
  · intro x hx hd
    exact h2.dead x (lt_of_lt_of_le hx h1.next_le) (h1.dead x hx hd)
  · intro n hd hx
    exact h2.node n (h1.node n hd hx) hx
  · intro x hd hx
    obtain ⟨d1, w1, c1⟩ := h1.cell x hd hx
    obtain ⟨d2, w2, c2⟩ := h2.cell x d1 hx
    refine ⟨d2, fun w => w1 (w2 w), fun rv hrv => ?_⟩
    rcases c1 rv hrv with hdead | hc
    · exact Or.inl (h2.dead x d1.1 hdead)
    · exact c2 rv hc

/-- The exceptions of a frame may be replaced by others that cover them on the
dormant nodes and detached observers of the first state. -/
theorem frame_weaken {Xc Xn Yc Yn : Nat → Prop} {s s1 : State C V} (h : Frame Xc Xn s s1)
    (hc : ∀ c, Xc c → s.Detached c → Yc c) (hn : ∀ n, Xn n → s.Dormant n → Yn n) :
    Frame Yc Yn s s1 :=
  ⟨h.next_le, h.trace, h.dead, fun n hd hx => h.node n hd (fun x => hx (hn n x hd)),
    fun c hd hx => h.cell c hd (fun x => hx (hc c x hd))⟩

end quiet

section releaseInv
variable {C V : Type}

theorem argsHeld_kill (code : Code C V) (a : Nat) (o : Obj C V) (rest : List Nat) (s : State C V)
    (h : ArgsHeld (a :: rest) s) : ArgsHeld (o.refs code ++ rest) (s.write a none) := by
  intro o1 rc t i harg hw
  have hne : o1 ≠ a := by
    rintro rfl
    simp [State.arg, Obj.argOf] at harg
  have harg0 : s.arg o1 = some (rc, t, i) := by
    simpa [State.arg, Obj.argOf, hne] using harg
  obtain ⟨b1, b2⟩ := h o1 rc t i harg0 hw
  have hcount : List.count o1 (a :: rest) = List.count o1 rest := by
    rw [List.count_cons_of_ne hne]
  have hle : List.count o1 rest ≤ List.count o1 (o.refs code ++ rest) := by
    rw [List.count_append]; omega
  refine ⟨by omega, fun hk => ?_⟩
  have hta : t ≠ a := by
    rintro rfl
    simp [State.kind, Obj.kindOf] at hk
  have hk0 : s.kind t ≠ none := by
    simpa [State.kind, Obj.kindOf, hta] using hk
  have hsl : (s.write a none).slots t = s.slots t := by
    simp [State.slots, Obj.slotsOf, hta]
  rw [hsl]
  rcases b2 hk0 with b | ⟨b, c⟩
  · exact Or.inl b
  · refine Or.inr ⟨?_, by omega⟩
    rcases List.mem_cons.1 b with e | e
    · exact absurd e hne
    · exact List.mem_append_right _ e

theorem argsHeld_dec (a : Nat) (o : Obj C V) (rest : List Nat) (s : State C V)
    (ho : s.heap a = some o) (hrc : ¬ o.rc ≤ 1)
    (h : ArgsHeld (a :: rest) s) : ArgsHeld rest (s.write a (some (o.setRc (o.rc - 1)))) := by
  have hkind : ∀ t, (s.write a (some (o.setRc (o.rc - 1)))).kind t = s.kind t := by
    intro t
    by_cases e : t = a
    · subst e
      cases o <;> simp [State.kind, Obj.kindOf, ho, Obj.setRc]
    · simp [State.kind, Obj.kindOf, e]
  have hslots : ∀ t, (s.write a (some (o.setRc (o.rc - 1)))).slots t = s.slots t := by
    intro t
    by_cases e : t = a
    · subst e
      cases o <;> simp [State.slots, Obj.slotsOf, ho, Obj.setRc]
    · simp [State.slots, Obj.slotsOf, e]
  intro o1 rc t i harg hw
  rw [hkind, hslots]
  by_cases e : o1 = a
  · subst e
    cases o with
    | node _ _ _ _ => simp [State.arg, Obj.argOf, Obj.setRc] at harg
    | data _ _ _ _ => simp [State.arg, Obj.argOf, Obj.setRc] at harg
    | arg rc0 q t0 i0 =>
      simp only [State.arg, Obj.argOf, State.write_heap, if_true, Obj.setRc, Obj.rc, Option.some.injEq,
        Prod.mk.injEq] at harg
      obtain ⟨rfl, rfl, rfl⟩ := harg
      simp only [Obj.rc] at hrc
      obtain ⟨b1, b2⟩ := h o1 rc0 t0 i0 (by simp [State.arg, Obj.argOf, ho]) hw
      rw [List.count_cons_self] at b1 b2
      refine ⟨by omega, fun hk => ?_⟩
      rcases b2 hk with b | ⟨_, c⟩
      · exact Or.inl b
      · refine Or.inr ⟨?_, by omega⟩
        apply List.count_pos_iff.1
        omega
  · have harg0 : s.arg o1 = some (rc, t, i) := by
      simpa [State.arg, Obj.argOf, e] using harg
    obtain ⟨b1, b2⟩ := h o1 rc t i harg0 hw
    rw [List.count_cons_of_ne e] at b1 b2
    refine ⟨b1, fun hk => ?_⟩
    rcases b2 hk with b | ⟨b, c⟩
    · exact Or.inl b
    · refine Or.inr ⟨?_, c⟩
      rcases List.mem_cons.1 b with e1 | e1
      · exact absurd e1 e
      · exact e1

theorem release_argsHeld (code : Code C V) (fuel : Nat) :
    ∀ (W : List Nat) {s s1 : State C V}, ArgsHeld W s → release code fuel W s = .ok s1 →
      ArgsHeld [] s1 := by
  induction fuel with
  | zero =>
    intro W s s1 ha h
    cases W with
    | nil => cases h; exact ha
    | cons a rest => simp [release] at h
  | succ fuel ih =>
    intro W s s1 ha h
    cases W with
    | nil => simp [release] at h; subst h; exact ha
    | cons a rest =>
      rw [release] at h
      cases ho : s.heap a with
      | none => rw [ho] at h; cases h
      | some o =>
        rw [ho] at h
        simp only at h
        split at h
        · exact ih _ (argsHeld_kill code a o rest s ha) h
        · rename_i hrc
          exact ih _ (argsHeld_dec a o rest s ho hrc ha) h

/-- Releasing strong references keeps the graph invariant. -/
theorem release_inv (code : Code C V) (fuel : Nat) (W : List Nat) {s s1 : State C V}
    (hc : Core s) (ha : ArgsHeld W s) (h : release code fuel W s = .ok s1) :
    Inv s1 ∧ Quiet s s1 :=
  have q := quiet_of_shrinks (release_shrinks code fuel W h)
  ⟨⟨core_quiet hc q, release_argsHeld code fuel W ha h⟩, q⟩

theorem argsHeld_nil {W : List Nat} {s : State C V} (h : ArgsHeld [] s) : ArgsHeld W s :=
  argsHeld_mono h (fun o => by simp)

end releaseInv

section views
variable {C V : Type}

theorem State.kids_write (s : State C V) (a x : Nat) (o1 : Obj C V) :
    (s.write a (some o1)).kids x = if x = a then o1.kidsOf else s.kids x := by
  by_cases e : x = a <;> simp [State.kids, e]

theorem State.slots_write (s : State C V) (a x : Nat) (o1 : Obj C V) :
    (s.write a (some o1)).slots x = if x = a then o1.slotsOf else s.slots x := by
  by_cases e : x = a <;> simp [State.slots, e]

theorem State.kind_write (s : State C V) (a x : Nat) (o1 : Obj C V) :
    (s.write a (some o1)).kind x = if x = a then o1.kindOf else s.kind x := by
  by_cases e : x = a <;> simp [State.kind, e]

theorem State.cell_write (s : State C V) (a x : Nat) (o1 : Obj C V) :
    (s.write a (some o1)).cell x = if x = a then o1.cellOf else s.cell x := by
  by_cases e : x = a <;> simp [State.cell, e]

theorem State.arg_write (s : State C V) (a x : Nat) (o1 : Obj C V) :
    (s.write a (some o1)).arg x = if x = a then o1.argOf else s.arg x := by
  by_cases e : x = a <;> simp [State.arg, e]

theorem State.kids_alloc (s : State C V) (x : Nat) (o1 : Obj C V) :
    (s.alloc o1).2.kids x = if x = s.next then o1.kidsOf else s.kids x := by
  by_cases e : x = s.next <;> simp [State.kids, State.alloc, e]

theorem State.slots_alloc (s : State C V) (x : Nat) (o1 : Obj C V) :
    (s.alloc o1).2.slots x = if x = s.next then o1.slotsOf else s.slots x := by
  by_cases e : x = s.next <;> simp [State.slots, State.alloc, e]

theorem State.kind_alloc (s : State C V) (x : Nat) (o1 : Obj C V) :
    (s.alloc o1).2.kind x = if x = s.next then o1.kindOf else s.kind x := by
  by_cases e : x = s.next <;> simp [State.kind, State.alloc, e]

theorem State.cell_alloc (s : State C V) (x : Nat) (o1 : Obj C V) :
    (s.alloc o1).2.cell x = if x = s.next then o1.cellOf else s.cell x := by
  by_cases e : x = s.next <;> simp [State.cell, State.alloc, e]

theorem State.arg_alloc (s : State C V) (x : Nat) (o1 : Obj C V) :
    (s.alloc o1).2.arg x = if x = s.next then o1.argOf else s.arg x := by
  by_cases e : x = s.next <;> simp [State.arg, State.alloc, e]

theorem Obj.cellOf_of_kids {o : Obj C V} {c : Nat} (h : c ∈ o.kidsOf) : o.cellOf = none := by
  cases o <;> simp [Obj.kidsOf, Obj.cellOf] at h ⊢

theorem Obj.argOf_of_kids {o : Obj C V} {c : Nat} (h : c ∈ o.kidsOf) : o.argOf = none := by
  cases o <;> simp [Obj.kidsOf, Obj.argOf] at h ⊢

theorem State.kids_dead {s : State C V} {n : Nat} (h : s.heap n = none) : s.kids n = [] := by
  simp [State.kids, h]

theorem State.slots_dead {s : State C V} {n : Nat} (h : s.heap n = none) : s.slots n = [] := by
  simp [State.slots, h]

theorem State.kind_dead {s : State C V} {n : Nat} (h : s.heap n = none) : s.kind n = none := by
  simp [State.kind, h]

theorem State.cell_dead {s : State C V} {n : Nat} (h : s.heap n = none) : s.cell n = none := by
  simp [State.cell, h]

theorem State.arg_dead {s : State C V} {n : Nat} (h : s.heap n = none) : s.arg n = none := by
  simp [State.arg, h]

theorem State.kids_node {s : State C V} {n rc : Nat} {k : Kind C V} {ps : List (Option Nat)}
    {cs : List Nat} (h : s.heap n = some (.node rc k ps cs)) : s.kids n = cs := by
  simp [State.kids, Obj.kidsOf, h]

theorem State.slots_node {s : State C V} {n rc : Nat} {k : Kind C V} {ps : List (Option Nat)}
    {cs : List Nat} (h : s.heap n = some (.node rc k ps cs)) : s.slots n = ps := by
  simp [State.slots, Obj.slotsOf, h]

theorem State.kind_node {s : State C V} {n rc : Nat} {k : Kind C V} {ps : List (Option Nat)}
    {cs : List Nat} (h : s.heap n = some (.node rc k ps cs)) : s.kind n = some k := by
  simp [State.kind, Obj.kindOf, h]

theorem State.cell_node {s : State C V} {n rc : Nat} {k : Kind C V} {ps : List (Option Nat)}
    {cs : List Nat} (h : s.heap n = some (.node rc k ps cs)) : s.cell n = none := by
  simp [State.cell, Obj.cellOf, h]

theorem State.arg_node {s : State C V} {n rc : Nat} {k : Kind C V} {ps : List (Option Nat)}
    {cs : List Nat} (h : s.heap n = some (.node rc k ps cs)) : s.arg n = none := by
  simp [State.arg, Obj.argOf, h]

theorem State.cell_data {s : State C V} {c rc : Nat} {r : Bool} {v : V} {p : Option Nat}
    (h : s.heap c = some (.data rc r v p)) : s.cell c = some (r, v) := by
  simp [State.cell, Obj.cellOf, h]

theorem State.kids_data {s : State C V} {c rc : Nat} {r : Bool} {v : V} {p : Option Nat}
    (h : s.heap c = some (.data rc r v p)) : s.kids c = [] := by
  simp [State.kids, Obj.kidsOf, h]

theorem State.slots_data {s : State C V} {c rc : Nat} {r : Bool} {v : V} {p : Option Nat}
    (h : s.heap c = some (.data rc r v p)) : s.slots c = [] := by
  simp [State.slots, Obj.slotsOf, h]

theorem State.kind_data {s : State C V} {c rc : Nat} {r : Bool} {v : V} {p : Option Nat}
    (h : s.heap c = some (.data rc r v p)) : s.kind c = none := by
  simp [State.kind, Obj.kindOf, h]

theorem State.arg_data {s : State C V} {c rc : Nat} {r : Bool} {v : V} {p : Option Nat}
    (h : s.heap c = some (.data rc r v p)) : s.arg c = none := by
  simp [State.arg, Obj.argOf, h]

theorem State.arg_arg {s : State C V} {o rc : Nat} {q : Option Nat} {t i : Nat}
    (h : s.heap o = some (.arg rc q t i)) : s.arg o = some (rc, t, i) := by
  simp [State.arg, Obj.argOf, h]

theorem State.kids_arg {s : State C V} {o rc : Nat} {q : Option Nat} {t i : Nat}
    (h : s.heap o = some (.arg rc q t i)) : s.kids o = [] := by
  simp [State.kids, Obj.kidsOf, h]

theorem State.slots_arg {s : State C V} {o rc : Nat} {q : Option Nat} {t i : Nat}
    (h : s.heap o = some (.arg rc q t i)) : s.slots o = [] := by
  simp [State.slots, Obj.slotsOf, h]

theorem State.kind_arg {s : State C V} {o rc : Nat} {q : Option Nat} {t i : Nat}
    (h : s.heap o = some (.arg rc q t i)) : s.kind o = none := by
  simp [State.kind, Obj.kindOf, h]

theorem State.cell_arg {s : State C V} {o rc : Nat} {q : Option Nat} {t i : Nat}
    (h : s.heap o = some (.arg rc q t i)) : s.cell o = none := by
  simp [State.cell, Obj.cellOf, h]

end views

section write
variable {C V : Type}

/-- Overwriting one object keeps the count-free part of the invariant when the
new object meets the clauses that mention its own members. -/
theorem core_write {s : State C V} (hc : Core s) (a : Nat) (o1 : Obj C V) (ha : a < s.next)
    (h_cb : ∀ c ∈ o1.kidsOf, c < s.next)
    (h_tb : ∀ rc t i, o1.argOf = some (rc, t, i) → t < s.next)
    (h_nd : o1.kidsOf.Nodup)
    (h_dj : ∀ c ∈ o1.kidsOf, ∀ m, m ≠ a → c ∉ s.kids m)
    (h_us : ¬ s.fired a → ∀ c ∈ o1.kidsOf, ¬ s.wasSet c)
    (h_ur : ¬ s.fired a → ∀ c ∈ o1.kidsOf, c ≠ a → ∀ r v, s.cell c = some (r, v) → r = false)
    (h_rd : ∀ v, o1.cellOf = some (true, v) → ∀ n, a ∈ s.kids n → n ≠ a → s.fired n)
    (h_bs : ∀ r ar f, o1.kindOf = some (.bind r ar f) →
      ∀ j o, o1.slotsOf.get? j = some (some o) → r.get? j = some false)
    (h_cbd : ∀ r ar f, o1.kindOf = some (.bind r ar f) → s.called a → r.all id = true)
    (h_ca : ∀ fs, o1.kindOf = some (.alt fs) → s.called a →
      ∀ j o, o1.slotsOf.get? j ≠ some (some o))
    (h_fs : s.fired a → ∀ j o, o1.slotsOf.get? j ≠ some (some o))
    (h_rs : ∀ ty, a ∈ s.instances ty → o1.slotsOf = []) :
    Core (s.write a (some o1)) := by
  constructor
  · intro x hx
    have : x ≠ a := by
      have : s.next ≤ x := hx
      omega
    simpa [this] using hc.heapBound x hx
  · exact hc.regBound
  · intro n c hm
    rw [State.kids_write] at hm
    by_cases e : n = a
    · rw [if_pos e] at hm; exact h_cb c hm
    · rw [if_neg e] at hm; exact hc.childBound n c hm
  · intro o rc t i harg
    rw [State.arg_write] at harg
    by_cases e : o = a
    · rw [if_pos e] at harg; exact h_tb rc t i harg
    · rw [if_neg e] at harg; exact hc.targetBound o rc t i harg
  · exact hc.firedBound
  · exact hc.setBound
  · exact hc.calledBound
  · intro n
    rw [State.kids_write]
    by_cases e : n = a
    · rw [if_pos e]; exact h_nd
    · rw [if_neg e]; exact hc.childNodup n
  · intro n m c h1 h2
    rw [State.kids_write] at h1 h2
    by_cases e : n = a
    · by_cases e2 : m = a
      · rw [e, e2]
      · rw [if_pos e] at h1
        rw [if_neg e2] at h2
        exact absurd h2 (h_dj c h1 m e2)
    · by_cases e2 : m = a
      · rw [if_neg e] at h1
        rw [if_pos e2] at h2
        exact absurd h1 (h_dj c h2 n e)
      · rw [if_neg e] at h1
        rw [if_neg e2] at h2
        exact hc.childDisjoint n m c h1 h2
  · intro n c hm hf
    rw [State.kids_write] at hm
    by_cases e : n = a
    · rw [if_pos e] at hm
      rw [e] at hf
      exact h_us hf c hm
    · rw [if_neg e] at hm
      exact hc.unfiredUnset n c hm hf
  · intro n c hm hf r v hcell
    rw [State.kids_write] at hm
    rw [State.cell_write] at hcell
    by_cases e : n = a
    · rw [if_pos e] at hm
      rw [e] at hf
      by_cases e2 : c = a
      · rw [if_pos e2, Obj.cellOf_of_kids hm] at hcell
        cases hcell
      · rw [if_neg e2] at hcell
        exact h_ur hf c hm e2 r v hcell
    · rw [if_neg e] at hm
      by_cases e2 : c = a
      · rw [if_pos e2] at hcell
        cases r with
        | false => rfl
        | true =>
          rw [e2] at hm
          exact absurd (h_rd v hcell n hm e) hf
      · rw [if_neg e2] at hcell
        exact hc.unfiredUnready n c hm hf r v hcell
  · intro t r ar f hk j o hs
    rw [State.kind_write] at hk
    rw [State.slots_write] at hs
    by_cases e : t = a
    · rw [if_pos e] at hk hs
      exact h_bs r ar f hk j o hs
    · rw [if_neg e] at hk hs
      exact hc.bindSlot t r ar f hk j o hs
  · intro t r ar f hk hcl
    rw [State.kind_write] at hk
    by_cases e : t = a
    · rw [if_pos e] at hk
      rw [e] at hcl
      exact h_cbd r ar f hk hcl
    · rw [if_neg e] at hk
      exact hc.calledBind t r ar f hk hcl
  · intro t fs hk hcl j o hs
    rw [State.kind_write] at hk
    rw [State.slots_write] at hs
    by_cases e : t = a
    · rw [if_pos e] at hk hs
      rw [e] at hcl
      exact h_ca fs hk hcl j o hs
    · rw [if_neg e] at hk hs
      exact hc.calledAlt t fs hk hcl j o hs
  · intro t hf j o hs
    rw [State.slots_write] at hs
    by_cases e : t = a
    · rw [if_pos e] at hs
      rw [e] at hf
      exact h_fs hf j o hs
    · rw [if_neg e] at hs
      exact hc.firedSlots t hf j o hs
  · exact hc.regUnfired
  · intro ty i hi
    rw [State.slots_write]
    by_cases e : i = a
    · rw [if_pos e]
      rw [e] at hi
      exact h_rs ty hi
    · rw [if_neg e]
      exact hc.regSlots ty i hi
  · exact hc.regNodup
  · exact hc.regDisjoint
  · exact hc.callsOnce
  · exact hc.setsOnce

/-- Overwriting one object keeps what a run leaves alone when the new object
has no new occupied parents slot, no new child that is detached, and the same
cell contents. -/
theorem frame_write (Xc Xn : Nat → Prop) (s : State C V) (a : Nat) (o1 : Obj C V)
    (halive : s.heap a ≠ none)
    (h_sl : ¬ Xn a → ∀ j o, o1.slotsOf.get? j = some (some o) → (s.slots a).get? j = some (some o))
    (h_kd : ∀ c ∈ o1.kidsOf, c ∈ s.kids a ∨ ¬ s.Detached c ∨ Xc c)
    (h_cl : ¬ Xc a → ∀ rv, s.cell a = some rv → o1.cellOf = some rv) :
    Frame Xc Xn s (s.write a (some o1)) := by
  constructor
  · exact le_refl _
  · exact ⟨[], by simp⟩
  · intro x _ hx
    have : x ≠ a := by
      rintro rfl
      exact halive hx
    simpa [this] using hx
  · intro n hd hx
    obtain ⟨d1, d2, d3, d4⟩ := hd
    refine ⟨d1, d2, d3, fun j o hs => ?_⟩
    rw [State.slots_write] at hs
    by_cases e : n = a
    · rw [if_pos e] at hs
      rw [e] at hx d4
      exact d4 j o (h_sl hx j o hs)
    · rw [if_neg e] at hs
      exact d4 j o hs
  · intro c hd hx
    refine ⟨⟨hd.1, fun m hm => ?_⟩, fun w => w, fun rv hrv => ?_⟩
    · rw [State.kids_write] at hm
      by_cases e : m = a
      · rw [if_pos e] at hm
        rcases h_kd c hm with h | h | h
        · rw [e]; exact hd.2 a h
        · exact absurd hd h
        · exact absurd h hx
      · rw [if_neg e] at hm
        exact hd.2 m hm
    · right
      rw [State.cell_write]
      by_cases e : c = a
      · rw [if_pos e]
        rw [e] at hrv hx
        exact h_cl hx rv hrv
      · rw [if_neg e]
        exact hrv

end write

section ghost
variable {C V : Type}

theorem State.fired_emit (s : State C V) (e : Event V) (n : Nat) :
    (s.emit e).fired n ↔ s.fired n ∨ ∃ x, e = .propagate n x := by
  simp only [State.fired, State.emit, List.mem_append, List.mem_singleton]
  constructor
  · rintro ⟨x, h | h⟩
    · exact Or.inl ⟨x, h⟩
    · exact Or.inr ⟨x, h.symm⟩
  · rintro (⟨x, h⟩ | ⟨x, h⟩)
    · exact ⟨x, Or.inl h⟩
    · exact ⟨x, Or.inr h.symm⟩

theorem State.wasSet_emit (s : State C V) (e : Event V) (n : Nat) :
    (s.emit e).wasSet n ↔ s.wasSet n ∨ ∃ x, e = .set n x := by
  simp only [State.wasSet, State.emit, List.mem_append, List.mem_singleton]
  constructor
  · rintro ⟨x, h | h⟩
    · exact Or.inl ⟨x, h⟩
    · exact Or.inr ⟨x, h.symm⟩
  · rintro (⟨x, h⟩ | ⟨x, h⟩)
    · exact ⟨x, Or.inl h⟩
    · exact ⟨x, Or.inr h.symm⟩

theorem State.called_emit (s : State C V) (e : Event V) (n : Nat) :
    (s.emit e).called n ↔ s.called n ∨ ∃ i a, e = .call n i a := by
  simp only [State.called, State.emit, List.mem_append, List.mem_singleton]
  constructor
  · rintro ⟨i, a, h | h⟩
    · exact Or.inl ⟨i, a, h⟩
    · exact Or.inr ⟨i, a, h.symm⟩
  · rintro (⟨i, a, h⟩ | ⟨i, a, h⟩)
    · exact ⟨i, a, Or.inl h⟩
    · exact ⟨i, a, Or.inr h.symm⟩

theorem callsOf_append (t : Nat) (a b : List (Event V)) :
    callsOf t (a ++ b) = callsOf t a ++ callsOf t b := by
  simp [callsOf, List.filterMap_append]

theorem setsOf_append (t : Nat) (a b : List (Event V)) :
    setsOf t (a ++ b) = setsOf t a ++ setsOf t b := by
  simp [setsOf, List.filterMap_append]

theorem callsOf_nil_of_not_called {s : State C V} {t : Nat} (h : ¬ s.called t) :
    callsOf t s.trace = [] := by
  rw [callsOf, List.filterMap_eq_nil_iff]
  intro e he
  cases e with
  | call n i a =>
    by_cases e1 : n = t
    · subst e1
      exact absurd ⟨i, a, he⟩ h
    · simp [e1]
  | _ => rfl

theorem setsOf_nil_of_not_wasSet {s : State C V} {t : Nat} (h : ¬ s.wasSet t) :
    setsOf t s.trace = [] := by
  rw [setsOf, List.filterMap_eq_nil_iff]
  intro e he
  cases e with
  | set n v =>
    by_cases e1 : n = t
    · subst e1
      exact absurd ⟨v, he⟩ h
    · simp [e1]
  | _ => rfl

theorem called_of_callsOf {s : State C V} {t : Nat} (h : callsOf t s.trace ≠ []) :
    s.called t := by
  by_contra hn
  exact h (callsOf_nil_of_not_called hn)

end ghost

section emit
variable {C V : Type}

/-- Appending a ghost event keeps the count-free part of the invariant when the
node of a `propagate` event is dormant, the observer of a `set` event is
detached and was not set before, and the node of a `call` event was not called
before and has all its inputs. -/
theorem core_emit {s : State C V} (hc : Core s) (e : Event V)
    (h_p : ∀ n x, e = .propagate n x → s.Dormant n)
    (h_s : ∀ c v, e = .set c v → s.Detached c ∧ ¬ s.wasSet c)
    (h_c : ∀ t i a, e = .call t i a → t < s.next ∧ ¬ s.called t ∧
      (∀ r ar f, s.kind t = some (.bind r ar f) → r.all id = true) ∧
      (∀ fs, s.kind t = some (.alt fs) → ∀ j o, (s.slots t).get? j ≠ some (some o))) :
    Core (s.emit e) := by
  constructor
  · exact hc.heapBound
  · exact hc.regBound
  · exact hc.childBound
  · exact hc.targetBound
  · intro n hf
    rcases (State.fired_emit s e n).1 hf with h | ⟨x, h⟩
    · exact hc.firedBound n h
    · exact (h_p n x h).1
  · intro n hf
    rcases (State.wasSet_emit s e n).1 hf with h | ⟨x, h⟩
    · exact hc.setBound n h
    · exact (h_s n x h).1.1
  · intro n hf
    rcases (State.called_emit s e n).1 hf with h | ⟨i, a, h⟩
    · exact hc.calledBound n h
    · exact (h_c n i a h).1
  · exact hc.childNodup
  · exact hc.childDisjoint
  · intro n c hm hf hw
    have hf0 : ¬ s.fired n := fun x => hf ((State.fired_emit s e n).2 (Or.inl x))
    rcases (State.wasSet_emit s e c).1 hw with h | ⟨x, h⟩
    · exact hc.unfiredUnset n c hm hf0 h
    · exact hf0 ((h_s c x h).1.2 n hm)
  · intro n c hm hf r v hcell
    have hf0 : ¬ s.fired n := fun x => hf ((State.fired_emit s e n).2 (Or.inl x))
    exact hc.unfiredUnready n c hm hf0 r v hcell
  · exact hc.bindSlot
  · intro t r ar f hk hcl
    rcases (State.called_emit s e t).1 hcl with h | ⟨i, a, h⟩
    · exact hc.calledBind t r ar f hk h
    · exact (h_c t i a h).2.2.1 r ar f hk
  · intro t fs hk hcl j o hs
    rcases (State.called_emit s e t).1 hcl with h | ⟨i, a, h⟩
    · exact hc.calledAlt t fs hk h j o hs
    · exact (h_c t i a h).2.2.2 fs hk j o hs
  · intro t hf j o hs
    rcases (State.fired_emit s e t).1 hf with h | ⟨x, h⟩
    · exact hc.firedSlots t h j o hs
    · exact (h_p t x h).2.2.2 j o hs
  · intro ty i hi hf
    rcases (State.fired_emit s e i).1 hf with h | ⟨x, h⟩
    · exact hc.regUnfired ty i hi h
    · exact (h_p i x h).2.2.1 ty hi
  · exact hc.regSlots
  · exact hc.regNodup
  · exact hc.regDisjoint
  · intro t
    show (callsOf t (s.trace ++ [e])).length ≤ 1
    rw [callsOf_append, List.length_append]
    have h0 := hc.callsOnce t
    cases e with
    | call n i a =>
      by_cases e1 : n = t
      · subst e1
        rw [callsOf_nil_of_not_called (h_c n i a rfl).2.1]
        simp [callsOf]
      · simpa [callsOf, e1] using h0
    | _ => simpa [callsOf] using h0
  · intro t
    show (setsOf t (s.trace ++ [e])).length ≤ 1
    rw [setsOf_append, List.length_append]
    have h0 := hc.setsOnce t
    cases e with
    | set n v =>
      by_cases e1 : n = t
      · subst e1
        rw [setsOf_nil_of_not_wasSet (h_s n v rfl).2]
        simp [setsOf]
      · simpa [setsOf, e1] using h0
    | _ => simpa [setsOf] using h0

theorem argsHeld_emit {W : List Nat} {s : State C V} (h : ArgsHeld W s) (e : Event V) :
    ArgsHeld W (s.emit e) := by
  intro o rc t i harg hw
  exact h o rc t i harg (fun x => hw ((State.wasSet_emit s e o).2 (Or.inl x)))

theorem frame_emit (Xc Xn : Nat → Prop) (s : State C V) (e : Event V)
    (h_p : ∀ n x, e = .propagate n x → Xn n) (h_s : ∀ c v, e = .set c v → Xc c) :
    Frame Xc Xn s (s.emit e) := by
  constructor
  · exact le_refl _
  · exact ⟨[e], rfl⟩
  · intro a _ h
    exact h
  · intro n hd hx
    refine ⟨hd.1, fun hf => ?_, hd.2.2.1, hd.2.2.2⟩
    rcases (State.fired_emit s e n).1 hf with h | ⟨x, h⟩
    · exact hd.2.1 h
    · exact hx (h_p n x h)
  · intro c hd hx
    refine ⟨⟨hd.1, fun m hm => (State.fired_emit s e m).2 (Or.inl (hd.2 m hm))⟩, fun hw => ?_,
      fun rv hrv => Or.inr hrv⟩
    rcases (State.wasSet_emit s e c).1 hw with h | ⟨x, h⟩
    · exact h
    · exact absurd (h_s c x h) hx

end emit

section alloc
variable {C V : Type}

/-- Allocating an object without children and parents keeps the count-free part
of the invariant. -/
theorem core_alloc {s : State C V} (hc : Core s) (o1 : Obj C V) (hk : o1.kidsOf = [])
    (hs : o1.slotsOf = []) (ht : ∀ rc t i, o1.argOf = some (rc, t, i) → t ≤ s.next) :
    Core (s.alloc o1).2 := by
  have hnext : (s.alloc o1).2.next = s.next + 1 := rfl
  have htr : (s.alloc o1).2.trace = s.trace := rfl
  have hin : (s.alloc o1).2.instances = s.instances := rfl
  have kids : ∀ n c, c ∈ (s.alloc o1).2.kids n → n ≠ s.next ∧ c ∈ s.kids n := by
    intro n c hm
    rw [State.kids_alloc] at hm
    by_cases e : n = s.next
    · rw [if_pos e, hk] at hm; cases hm
    · rw [if_neg e] at hm; exact ⟨e, hm⟩
  have slots : ∀ n j o, ((s.alloc o1).2.slots n).get? j = some (some o) →
      n ≠ s.next ∧ (s.slots n).get? j = some (some o) := by
    intro n j o hm
    rw [State.slots_alloc] at hm
    by_cases e : n = s.next
    · rw [if_pos e, hs] at hm; simp at hm
    · rw [if_neg e] at hm; exact ⟨e, hm⟩
  constructor
  · intro x hx
    rw [hnext] at hx
    have e : x ≠ s.next := by omega
    have := hc.heapBound x (by omega)
    simpa [State.alloc, e] using this
  · intro ty i hi
    rw [hnext]
    exact Nat.lt_succ_of_lt (hc.regBound ty i hi)
  · intro n c hm
    rw [hnext]
    exact Nat.lt_succ_of_lt (hc.childBound n c (kids n c hm).2)
  · intro o rc t i harg
    rw [State.arg_alloc] at harg
    rw [hnext]
    by_cases e : o = s.next
    · rw [if_pos e] at harg
      exact Nat.lt_succ_of_le (ht rc t i harg)
    · rw [if_neg e] at harg
      exact Nat.lt_succ_of_lt (hc.targetBound o rc t i harg)
  · intro n hf
    rw [hnext]
    exact Nat.lt_succ_of_lt (hc.firedBound n hf)
  · intro n hf
    rw [hnext]
    exact Nat.lt_succ_of_lt (hc.setBound n hf)
  · intro n hf
    rw [hnext]
    exact Nat.lt_succ_of_lt (hc.calledBound n hf)
  · intro n
    rw [State.kids_alloc]
    by_cases e : n = s.next
    · rw [if_pos e, hk]; exact List.nodup_nil
    · rw [if_neg e]; exact hc.childNodup n
  · intro n m c h1 h2
    exact hc.childDisjoint n m c (kids n c h1).2 (kids m c h2).2
  · intro n c hm hf
    exact hc.unfiredUnset n c (kids n c hm).2 hf
  · intro n c hm hf r v hcell
    have hcn := hc.childBound n c (kids n c hm).2
    rw [State.cell_alloc, if_neg (by omega)] at hcell
    exact hc.unfiredUnready n c (kids n c hm).2 hf r v hcell
  · intro t r ar f hkd j o hsl
    obtain ⟨e, h0⟩ := slots t j o hsl
    rw [State.kind_alloc, if_neg e] at hkd
    exact hc.bindSlot t r ar f hkd j o h0
  · intro t r ar f hkd hcl
    have e : t ≠ s.next := by
      have := hc.calledBound t hcl
      omega
    rw [State.kind_alloc, if_neg e] at hkd
    exact hc.calledBind t r ar f hkd hcl
  · intro t fs hkd hcl j o hsl
    obtain ⟨e, h0⟩ := slots t j o hsl
    rw [State.kind_alloc, if_neg e] at hkd
    exact hc.calledAlt t fs hkd hcl j o h0
  · intro t hf j o hsl
    exact hc.firedSlots t hf j o (slots t j o hsl).2
  · exact hc.regUnfired
  · intro ty i hi
    have e : i ≠ s.next := by
      have := hc.regBound ty i hi
      omega
    rw [State.slots_alloc, if_neg e]
    exact hc.regSlots ty i hi
  · exact hc.regNodup
  · exact hc.regDisjoint
  · exact hc.callsOnce
  · exact hc.setsOnce

theorem argsHeld_alloc {W : List Nat} {s : State C V} (hc : Core s) (h : ArgsHeld W s)
    (o1 : Obj C V) (ho : o1.argOf = none) : ArgsHeld W (s.alloc o1).2 := by
  intro o rc t i harg hw
  rw [State.arg_alloc] at harg
  by_cases e : o = s.next
  · rw [if_pos e, ho] at harg; cases harg
  · rw [if_neg e] at harg
    have ht := hc.targetBound o rc t i harg
    rw [State.kind_alloc, State.slots_alloc, if_neg (by omega), if_neg (by omega)]
    exact h o rc t i harg hw

theorem frame_alloc (Xc Xn : Nat → Prop) (s : State C V) (o1 : Obj C V) (hk : o1.kidsOf = [])
    (hs : o1.slotsOf = []) : Frame Xc Xn s (s.alloc o1).2 := by
  constructor
  · exact Nat.le_succ _
  · exact ⟨[], by simp [State.alloc]⟩
  · intro a ha hd
    have e : a ≠ s.next := by omega
    simpa [State.alloc, e] using hd
  · intro n hd _
    refine ⟨Nat.lt_succ_of_lt hd.1, hd.2.1, hd.2.2.1, fun j o hsl => ?_⟩
    rw [State.slots_alloc, if_neg (by have := hd.1; omega)] at hsl
    exact hd.2.2.2 j o hsl
  · intro c hd _
    refine ⟨⟨Nat.lt_succ_of_lt hd.1, fun m hm => ?_⟩, fun w => w, fun rv hrv => ?_⟩
    · rw [State.kids_alloc] at hm
      by_cases e : m = s.next
      · rw [if_pos e, hk] at hm; cases hm
      · rw [if_neg e] at hm; exact hd.2 m hm
    · right
      rw [State.cell_alloc, if_neg (by have := hd.1; omega)]
      exact hrv

end alloc

section argsWrite
variable {C V : Type}

/-- Overwriting one object keeps the clause on the strong counts of argument
observers when an observer keeps its target without gaining references and a
node keeps the unset observers of its slots. -/
theorem argsHeld_write {W : List Nat} {s : State C V} (h : ArgsHeld W s) (a : Nat) (o1 : Obj C V)
    (h_new : ∀ rc t i, o1.argOf = some (rc, t, i) → ¬ s.wasSet a →
      ∃ rc0, s.arg a = some (rc0, t, i) ∧ rc ≤ rc0)
    (h_kind : o1.kindOf ≠ none → s.kind a ≠ none)
    (h_tgt : o1.kindOf ≠ none → ∀ o rc i, s.arg o = some (rc, a, i) → ¬ s.wasSet o →
      (s.slots a).get? i = some (some o) →
      o1.slotsOf.get? i = some (some o) ∨ (o ∈ W ∧ rc ≤ W.count o)) :
    ArgsHeld W (s.write a (some o1)) := by
  intro o rc t i harg hw
  have hw0 : ¬ s.wasSet o := hw
  have hold : ∃ rc0, s.arg o = some (rc0, t, i) ∧ rc ≤ rc0 := by
    rw [State.arg_write] at harg
    by_cases e : o = a
    · rw [if_pos e] at harg
      rw [e] at hw0 ⊢
      exact h_new rc t i harg hw0
    · rw [if_neg e] at harg
      exact ⟨rc, harg, le_refl _⟩
  obtain ⟨rc0, h0, hle⟩ := hold
  obtain ⟨b1, b2⟩ := h o rc0 t i h0 hw0
  refine ⟨by omega, fun hk => ?_⟩
  rw [State.kind_write] at hk
  rw [State.slots_write]
  by_cases e : t = a
  · rw [if_pos e] at hk ⊢
    rw [e] at h0 b2
    rcases b2 (h_kind hk) with b | ⟨b, c⟩
    · rcases h_tgt hk o rc0 i h0 hw0 b with g | ⟨g1, g2⟩
      · exact Or.inl g
      · exact Or.inr ⟨g1, by omega⟩
    · exact Or.inr ⟨b, by omega⟩
  · rw [if_neg e] at hk ⊢
    rcases b2 hk with b | ⟨b, c⟩
    · exact Or.inl b
    · exact Or.inr ⟨b, by omega⟩

end argsWrite

section registry
variable {C V : Type}

/-- Registering a node that has not propagated, has no parents and is in no
registry keeps the count-free part of the invariant. -/
theorem core_register {s : State C V} (hc : Core s) (ty r : Nat) (hr : r < s.next)
    (hf : ¬ s.fired r) (hs : s.slots r = []) (hn : ∀ u, r ∉ s.instances u) :
    Core { s with instances := fun t => if t = ty then s.instances t ++ [r] else s.instances t } := by
  have mem : ∀ u i, i ∈ (if u = ty then s.instances u ++ [r] else s.instances u) →
      i ∈ s.instances u ∨ (i = r ∧ u = ty) := by
    intro u i hi
    by_cases e : u = ty
    · rw [if_pos e] at hi
      rcases List.mem_append.1 hi with h | h
      · exact Or.inl h
      · exact Or.inr ⟨by simpa using h, e⟩
    · rw [if_neg e] at hi
      exact Or.inl hi
  constructor
  · exact hc.heapBound
  · intro u i hi
    rcases mem u i hi with h | ⟨h, _⟩
    · exact hc.regBound u i h
    · rw [h]; exact hr
  · exact hc.childBound
  · exact hc.targetBound
  · exact hc.firedBound
  · exact hc.setBound
  · exact hc.calledBound
  · exact hc.childNodup
  · exact hc.childDisjoint
  · exact hc.unfiredUnset
  · exact hc.unfiredUnready
  · exact hc.bindSlot
  · exact hc.calledBind
  · exact hc.calledAlt
  · exact hc.firedSlots
  · intro u i hi
    rcases mem u i hi with h | ⟨h, _⟩
    · exact hc.regUnfired u i h
    · rw [h]; exact hf
  · intro u i hi
    rcases mem u i hi with h | ⟨h, _⟩
    · exact hc.regSlots u i h
    · rw [h]; exact hs
  · intro u
    show (if u = ty then s.instances u ++ [r] else s.instances u).Nodup
    by_cases e : u = ty
    · rw [if_pos e]
      refine List.Nodup.append (hc.regNodup u) (List.nodup_singleton r) ?_
      intro x hx hx1
      rw [List.mem_singleton] at hx1
      rw [hx1] at hx
      exact hn u hx
    · rw [if_neg e]
      exact hc.regNodup u
  · intro u u1 i h1 h2
    rcases mem u i h1 with g1 | ⟨g1, g1t⟩
    · rcases mem u1 i h2 with g2 | ⟨g2, _⟩
      · exact hc.regDisjoint u u1 i g1 g2
      · rw [g2] at g1; exact absurd g1 (hn u)
    · rcases mem u1 i h2 with g2 | ⟨_, g2t⟩
      · rw [g1] at g2; exact absurd g2 (hn u1)
      · rw [g1t, g2t]
  · exact hc.callsOnce
  · exact hc.setsOnce

theorem frame_register (Xc Xn : Nat → Prop) (s : State C V) (ty r : Nat) (hx : Xn r) :
    Frame Xc Xn s
      { s with instances := fun t => if t = ty then s.instances t ++ [r] else s.instances t } := by
  constructor
  · exact le_refl _
  · exact ⟨[], by simp⟩
  · intro a _ h
    exact h
  · intro n hd hxn
    refine ⟨hd.1, hd.2.1, fun u hu => ?_, hd.2.2.2⟩
    have hu : n ∈ (if u = ty then s.instances u ++ [r] else s.instances u) := hu
    by_cases e : u = ty
    · rw [if_pos e] at hu
      rcases List.mem_append.1 hu with h | h
      · exact hd.2.2.1 u h
      · rw [List.mem_singleton] at h
        rw [h] at hxn
        exact hxn hx
    · rw [if_neg e] at hu
      exact hd.2.2.1 u hu
  · intro c hd _
    exact ⟨hd, fun w => w, fun rv hrv => Or.inr hrv⟩

/-- Moving a registry out keeps the count-free part of the invariant. -/
theorem core_clear {s : State C V} (hc : Core s) (ty : Nat) :
    Core { s with instances := fun t => if t = ty then [] else s.instances t } := by
  have mem : ∀ u i, i ∈ (if u = ty then [] else s.instances u) → i ∈ s.instances u := by
    intro u i hi
    by_cases e : u = ty
    · rw [if_pos e] at hi; cases hi
    · rw [if_neg e] at hi; exact hi
  constructor
  · exact hc.heapBound
  · intro u i hi
    exact hc.regBound u i (mem u i hi)
  · exact hc.childBound
  · exact hc.targetBound
  · exact hc.firedBound
  · exact hc.setBound
  · exact hc.calledBound
  · exact hc.childNodup
  · exact hc.childDisjoint
  · exact hc.unfiredUnset
  · exact hc.unfiredUnready
  · exact hc.bindSlot
  · exact hc.calledBind
  · exact hc.calledAlt
  · exact hc.firedSlots
  · intro u i hi
    exact hc.regUnfired u i (mem u i hi)
  · intro u i hi
    exact hc.regSlots u i (mem u i hi)
  · intro u
    show (if u = ty then [] else s.instances u).Nodup
    by_cases e : u = ty
    · rw [if_pos e]; exact List.nodup_nil
    · rw [if_neg e]; exact hc.regNodup u
  · intro u u1 i h1 h2
    exact hc.regDisjoint u u1 i (mem u i h1) (mem u1 i h2)
  · exact hc.callsOnce
  · exact hc.setsOnce

theorem frame_clear (Xc Xn : Nat → Prop) (s : State C V) (ty : Nat) :
    Frame Xc Xn s { s with instances := fun t => if t = ty then [] else s.instances t } := by
  constructor
  · exact le_refl _
  · exact ⟨[], by simp⟩
  · intro a _ h
    exact h
  · intro n hd _
    refine ⟨hd.1, hd.2.1, fun u hu => ?_, hd.2.2.2⟩
    have hu : n ∈ (if u = ty then [] else s.instances u) := hu
    by_cases e : u = ty
    · rw [if_pos e] at hu; cases hu
    · rw [if_neg e] at hu
      exact hd.2.2.1 u hu
  · intro c hd _
    exact ⟨hd, fun w => w, fun rv hrv => Or.inr hrv⟩

end registry

section api
variable {C V : Type}

theorem inv_quiet {s s1 : State C V} (h : Inv s) (q : Quiet s s1) : Inv s1 :=
  ⟨core_quiet h.1 q, argsHeld_quiet h.2 q⟩

theorem Future.copy_quiet {x : Nat} {s s1 : State C V} (h : Future.copy x s = .ok s1) :
    Quiet s s1 := by
  unfold Future.copy at h
  split at h
  · rename_i rc r v p hx
    cases h
    exact quiet_write s x _ _ hx (by simp [Obj.SameView]) (fun _ => by simp [Obj.ArgLe])
  · cases h

theorem Future.copyAll_quiet (xs : List Nat) :
    ∀ {s s1 : State C V}, Future.copyAll xs s = .ok s1 → Quiet s s1 := by
  induction xs with
  | nil =>
    intro s s1 h
    cases h
    exact quiet_refl s
  | cons x xs ih =>
    intro s s1 h
    rw [Future.copyAll] at h
    split at h
    · rename_i s2 h2
      exact quiet_trans (Future.copy_quiet h2) (ih h)
    · cases h

theorem Future.drop_inv (code : Code C V) (fuel x : Nat) {s s1 : State C V} (hi : Inv s)
    (h : Future.drop code fuel x s = .ok s1) : Inv s1 ∧ Quiet s s1 := by
  unfold Future.drop at h
  split at h
  · exact release_inv code fuel [x] hi.1 (argsHeld_nil hi.2) h
  · cases h

theorem Future.dropAll_inv (code : Code C V) (fuel : Nat) (xs : List Nat) :
    ∀ {s s1 : State C V}, Inv s → Future.dropAll code fuel xs s = .ok s1 →
      Inv s1 ∧ Quiet s s1 := by
  induction xs with
  | nil =>
    intro s s1 hi h
    cases h
    exact ⟨hi, quiet_refl s⟩
  | cons x xs ih =>
    intro s s1 hi h
    rw [Future.dropAll] at h
    split at h
    · rename_i s2 h2
      obtain ⟨i2, q2⟩ := Future.drop_inv code fuel x hi h2
      obtain ⟨i3, q3⟩ := ih i2 h
      exact ⟨i3, quiet_trans q2 q3⟩
    · cases h

/-- Allocating a value cell keeps the invariant. -/
theorem inv_alloc_data {s : State C V} (hi : Inv s) (rc : Nat) (r : Bool) (v : V)
    (p : Option Nat) (Xc Xn : Nat → Prop) :
    Inv (s.alloc (.data rc r v p)).2 ∧ Frame Xc Xn s (s.alloc (.data rc r v p)).2 :=
  ⟨⟨core_alloc hi.1 _ rfl rfl (by simp [Obj.argOf]), argsHeld_alloc hi.1 hi.2 _ rfl⟩,
    frame_alloc Xc Xn s _ rfl rfl⟩

/-- Allocating a node without children and parents keeps the invariant. -/
theorem inv_alloc_node {s : State C V} (hi : Inv s) (rc : Nat) (k : Kind C V)
    (Xc Xn : Nat → Prop) :
    Inv (s.alloc (.node rc k [] [])).2 ∧ Frame Xc Xn s (s.alloc (.node rc k [] [])).2 :=
  ⟨⟨core_alloc hi.1 _ rfl rfl (by simp [Obj.argOf]), argsHeld_alloc hi.1 hi.2 _ rfl⟩,
    frame_alloc Xc Xn s _ rfl rfl⟩

theorem State.heap_lt {s : State C V} (hc : Core s) {a : Nat} {o : Obj C V}
    (h : s.heap a = some o) : a < s.next := by
  by_contra hlt
  rw [hc.heapBound a (not_lt.1 hlt)] at h
  cases h

/-- Subscribing a new observer `x` to the node `a`: the observer was just
allocated, is in no children list and was never set. -/
theorem core_subscribe {s : State C V} (hc : Core s) (a x rc : Nat) (k : Kind C V)
    (ps : List (Option Nat)) (cs : List Nat) (ha : s.heap a = some (.node rc k ps cs))
    (rc1 : Nat) (hx : x < s.next) (hfresh : ∀ m, x ∉ s.kids m) (hset : ¬ s.wasSet x)
    (hcell : ∀ r v, s.cell x = some (r, v) → r = false) :
    Core (s.write a (some (.node rc1 k ps (cs ++ [x])))) := by
  have hkids : s.kids a = cs := by simp [State.kids, Obj.kidsOf, ha]
  have hslots : s.slots a = ps := by simp [State.slots, Obj.slotsOf, ha]
  have hkind : s.kind a = some k := by simp [State.kind, Obj.kindOf, ha]
  refine core_write hc a _ (State.heap_lt hc ha) ?_ ?_ ?_ ?_ ?_ ?_ ?_ ?_ ?_ ?_ ?_ ?_
  · intro c hm
    rcases List.mem_append.1 hm with h | h
    · exact hc.childBound a c (by rw [hkids]; exact h)
    · rw [List.mem_singleton] at h; rw [h]; exact hx
  · intro rc t i h
    simp [Obj.argOf] at h
  · show (cs ++ [x]).Nodup
    refine List.Nodup.append (by rw [← hkids]; exact hc.childNodup a) (List.nodup_singleton x) ?_
    intro y hy hy1
    rw [List.mem_singleton] at hy1
    rw [hy1, ← hkids] at hy
    exact hfresh a hy
  · intro c hm m hma hcm
    rcases List.mem_append.1 hm with h | h
    · exact hma (hc.childDisjoint m a c hcm (by rw [hkids]; exact h))
    · rw [List.mem_singleton] at h
      rw [h] at hcm
      exact hfresh m hcm
  · intro hf c hm
    rcases List.mem_append.1 hm with h | h
    · exact hc.unfiredUnset a c (by rw [hkids]; exact h) hf
    · rw [List.mem_singleton] at h; rw [h]; exact hset
  · intro hf c hm _ r v hcl
    rcases List.mem_append.1 hm with h | h
    · exact hc.unfiredUnready a c (by rw [hkids]; exact h) hf r v hcl
    · rw [List.mem_singleton] at h
      rw [h] at hcl
      exact hcell r v hcl
  · intro v h
    simp [Obj.cellOf] at h
  · intro r ar f hk j o hs
    simp only [Obj.kindOf, Option.some.injEq] at hk
    simp only [Obj.slotsOf] at hs
    exact hc.bindSlot a r ar f (by rw [hkind, hk]) j o (by rw [hslots]; exact hs)
  · intro r ar f hk hcl
    simp only [Obj.kindOf, Option.some.injEq] at hk
    exact hc.calledBind a r ar f (by rw [hkind, hk]) hcl
  · intro fs hk hcl j o hs
    simp only [Obj.kindOf, Option.some.injEq] at hk
    simp only [Obj.slotsOf] at hs
    exact hc.calledAlt a fs (by rw [hkind, hk]) hcl j o (by rw [hslots]; exact hs)
  · intro hf j o hs
    simp only [Obj.slotsOf] at hs
    exact hc.firedSlots a hf j o (by rw [hslots]; exact hs)
  · intro ty hi
    have := hc.regSlots ty a hi
    rw [hslots] at this
    exact this

theorem argsHeld_subscribe {W : List Nat} {s : State C V} (h : ArgsHeld W s) (a rc : Nat)
    (k : Kind C V) (ps : List (Option Nat)) (cs : List Nat)
    (ha : s.heap a = some (.node rc k ps cs)) (rc1 : Nat) (cs1 : List Nat) :
    ArgsHeld W (s.write a (some (.node rc1 k ps cs1))) := by
  refine argsHeld_write h a _ ?_ ?_ ?_
  · intro rc t i h
    simp [Obj.argOf] at h
  · intro _
    simp [State.kind, Obj.kindOf, ha]
  · intro _ o rc2 i _ _ hs
    left
    simpa [State.slots, Obj.slotsOf, ha] using hs

theorem frame_subscribe (Xc Xn : Nat → Prop) (s : State C V) (a x rc : Nat) (k : Kind C V)
    (ps : List (Option Nat)) (cs : List Nat) (ha : s.heap a = some (.node rc k ps cs))
    (rc1 : Nat) (hx : Xc x) :
    Frame Xc Xn s (s.write a (some (.node rc1 k ps (cs ++ [x])))) := by
  refine frame_write Xc Xn s a _ (by rw [ha]; simp) ?_ ?_ ?_
  · intro _ j o hs
    simpa [State.slots, Obj.slotsOf, ha] using hs
  · intro c hm
    rcases List.mem_append.1 hm with h | h
    · exact Or.inl (by simpa [State.kids, Obj.kidsOf, ha] using h)
    · rw [List.mem_singleton] at h
      rw [h]
      exact Or.inr (Or.inr hx)
  · intro _ rv hrv
    simp [State.cell, Obj.cellOf, ha] at hrv

/-- `Future<T>::create(node)` keeps the invariant. -/
theorem Future.create_keeps [Inhabited V] {node x : Nat} {s s1 : State C V} (hi : Inv s)
    (h : Future.create node s = .ok (x, s1)) :
    Inv s1 ∧ Frame (fun _ => False) (fun _ => False) s s1 := by
  unfold Future.create at h
  simp only at h
  split at h
  · rename_i rc k ps cs hn
    simp only [Except.ok.injEq, Prod.mk.injEq] at h
    obtain ⟨hx, rfl⟩ := h
    obtain ⟨ia, fa⟩ := inv_alloc_data hi 1 false (default : V) (some node) (fun c => c = s.next)
      (fun _ => False)
    have hxlt : s.next < (s.alloc (Obj.data 1 false (default : V) (some node))).2.next :=
      Nat.lt_succ_self _
    have hfresh : ∀ m, s.next ∉ (s.alloc (Obj.data 1 false (default : V) (some node))).2.kids m := by
      intro m hm
      have := ia.1.childBound m _ hm
      rw [State.kids_alloc] at hm
      by_cases e : m = s.next
      · rw [if_pos e] at hm
        simp [Obj.kidsOf] at hm
      · rw [if_neg e] at hm
        have := hi.1.childBound m _ hm
        omega
    have hset : ¬ (s.alloc (Obj.data 1 false (default : V) (some node))).2.wasSet s.next := by
      intro hw
      have := hi.1.setBound s.next hw
      omega
    refine ⟨⟨core_subscribe ia.1 node s.next rc k ps cs hn (rc + 1) hxlt hfresh hset ?_,
      argsHeld_subscribe ia.2 node rc k ps cs hn (rc + 1) _⟩, ?_⟩
    · intro r v hcl
      rw [State.cell_alloc, if_pos rfl] at hcl
      simp only [Obj.cellOf, Option.some.injEq, Prod.mk.injEq] at hcl
      exact hcl.1.symm
    · refine frame_weaken (frame_trans fa
        (frame_subscribe (fun c => c = s.next) (fun _ => False) _ node s.next rc k ps cs hn
          (rc + 1) rfl)) ?_ ?_
      · intro c hc hd
        have := hd.1
        omega
      · intro n hn _
        exact hn
  · cases h

theorem Future.mk_inv {s : State C V} (hi : Inv s) (v : V) (Xc Xn : Nat → Prop) :
    Inv (Future.mk v s).2 ∧ Frame Xc Xn s (Future.mk v s).2 :=
  inv_alloc_data hi 1 true v none Xc Xn

theorem Future.empty_inv [Inhabited V] {s : State C V} (hi : Inv s) (Xc Xn : Nat → Prop) :
    Inv (Future.empty s).2 ∧ Frame Xc Xn s (Future.empty s).2 :=
  inv_alloc_data hi 1 false default none Xc Xn

end api

section connect
variable {C V : Type}

theorem State.slots_subscribe (s : State C V) (a rc : Nat) (k : Kind C V)
    (ps : List (Option Nat)) (cs : List Nat) (ha : s.heap a = some (.node rc k ps cs))
    (rc1 : Nat) (cs1 : List Nat) (m : Nat) :
    (s.write a (some (.node rc1 k ps cs1))).slots m = s.slots m := by
  rw [State.slots_write]
  by_cases e : m = a
  · rw [if_pos e, e]; simp [State.slots, Obj.slotsOf, ha]
  · rw [if_neg e]

theorem State.kind_subscribe (s : State C V) (a rc : Nat) (k : Kind C V)
    (ps : List (Option Nat)) (cs : List Nat) (ha : s.heap a = some (.node rc k ps cs))
    (rc1 : Nat) (cs1 : List Nat) (m : Nat) :
    (s.write a (some (.node rc1 k ps cs1))).kind m = s.kind m := by
  rw [State.kind_write]
  by_cases e : m = a
  · rw [if_pos e, e]; simp [State.kind, Obj.kindOf, ha]
  · rw [if_neg e]

theorem State.arg_subscribe (s : State C V) (a rc : Nat) (k : Kind C V)
    (ps : List (Option Nat)) (cs : List Nat) (ha : s.heap a = some (.node rc k ps cs))
    (rc1 : Nat) (k1 : Kind C V) (ps1 : List (Option Nat)) (cs1 : List Nat) (m : Nat) :
    (s.write a (some (.node rc1 k1 ps1 cs1))).arg m = s.arg m := by
  rw [State.arg_write]
  by_cases e : m = a
  · rw [if_pos e, e]; simp [State.arg, Obj.argOf, ha]
  · rw [if_neg e]

theorem argsHeld_alloc_arg {W : List Nat} {s : State C V} (hc : Core s) (h : ArgsHeld W s)
    (q : Option Nat) (t i : Nat) :
    ArgsHeld (s.next :: W) (s.alloc (.arg 1 q t i)).2 := by
  intro o rc t1 i1 harg hw
  rw [State.arg_alloc] at harg
  by_cases e : o = s.next
  · rw [if_pos e] at harg
    simp only [Obj.argOf, Option.some.injEq, Prod.mk.injEq] at harg
    obtain ⟨rfl, rfl, rfl⟩ := harg
    rw [e, List.count_cons_self]
    exact ⟨by omega, fun _ => Or.inr ⟨List.mem_cons_self _ _, by omega⟩⟩
  · rw [if_neg e] at harg
    have ht := hc.targetBound o rc t1 i1 harg
    rw [State.kind_alloc, State.slots_alloc, if_neg (by omega), if_neg (by omega)]
    obtain ⟨b1, b2⟩ := h o rc t1 i1 harg hw
    rw [List.count_cons_of_ne e]
    refine ⟨b1, fun hk => ?_⟩
    rcases b2 hk with b | ⟨b, c⟩
    · exact Or.inl b
    · exact Or.inr ⟨List.mem_cons_of_mem _ b, c⟩

theorem argsHeld_settle {s : State C V} (o : Nat) (h : ArgsHeld [o] s)
    (ho : ∀ rc t i, s.arg o = some (rc, t, i) → ¬ s.wasSet o →
      rc ≤ 1 ∧ (s.kind t ≠ none → (s.slots t).get? i = some (some o))) :
    ArgsHeld [] s := by
  intro x rc t i harg hw
  by_cases e : x = o
  · rw [e] at harg hw ⊢
    obtain ⟨a1, a2⟩ := ho rc t i harg hw
    exact ⟨by simpa using a1, fun hk => Or.inl (a2 hk)⟩
  · obtain ⟨b1, b2⟩ := h x rc t i harg hw
    rw [List.count_cons_of_ne e] at b1 b2
    refine ⟨b1, fun hk => ?_⟩
    rcases b2 hk with b | ⟨b, _⟩
    · exact Or.inl b
    · rw [List.mem_singleton] at b
      exact absurd b e

/-- The variadic `Node::connect` keeps the invariant when it is called on a
node that has not fired, was not called, is in no registry, has `i` parents so
far and, for a bind, has the readiness bits from `i` on unset. -/
theorem Node.connect_inv (node : Nat) (rest : List (Option Nat)) :
    ∀ (i : Nat) {s s1 : State C V}, Inv s → node < s.next → ¬ s.fired node → ¬ s.called node →
      (∀ ty, node ∉ s.instances ty) → (s.slots node).length = i →
      (∀ r ar f, s.kind node = some (.bind r ar f) →
        ∀ j, i ≤ j → j < i + rest.length → r.get? j = some false) →
      Node.connect node i rest s = .ok s1 →
      Inv s1 ∧ Frame (fun _ => False) (fun n => n = node) s s1 := by
  induction rest with
  | nil =>
    intro i s s1 hi _ _ _ _ _ _ h
    cases h
    exact ⟨hi, frame_refl _ _ s⟩
  | cons p rest ih =>
    intro i s s1 hi hlt hnf hnc hreg hlen hbits h
    cases p with
    | none => simp [Node.connect] at h
    | some a =>
      rw [Node.connect] at h
      simp only at h
      split at h
      · rename_i rc k ps cs ha
        split at h
        · rename_i rc2 k2 ps2 cs2 hnode
          have hnode : ((s.alloc (Obj.arg 1 (some a) node i)).2.write a
              (some (.node (rc + 1) k ps (cs ++ [s.next])))).heap node =
              some (.node rc2 k2 ps2 cs2) := hnode
          have h : Node.connect node (i + 1) rest
              (((s.alloc (Obj.arg 1 (some a) node i)).2.write a
              (some (.node (rc + 1) k ps (cs ++ [s.next])))).write node
              (some (.node rc2 k2 (ps2 ++ [some s.next]) cs2))) = .ok s1 := h
          have c1 : Core (s.alloc (Obj.arg 1 (some a) node i)).2 :=
            core_alloc hi.1 _ rfl rfl (by
              intro rc0 t0 i0 h0
              simp only [Obj.argOf, Option.some.injEq, Prod.mk.injEq] at h0
              rw [← h0.2.1]
              exact le_of_lt hlt)
          have a1 := argsHeld_alloc_arg hi.1 hi.2 (some a) node i
          have f1 : Frame (fun c => c = s.next) (fun n => n = node) s
              (s.alloc (Obj.arg 1 (some a) node i)).2 := frame_alloc _ _ s _ rfl rfl
          have hxlt : s.next < (s.alloc (Obj.arg 1 (some a) node i)).2.next := Nat.lt_succ_self _
          have hfresh : ∀ m, s.next ∉ (s.alloc (Obj.arg 1 (some a) node i)).2.kids m := by
            intro m hm
            rw [State.kids_alloc] at hm
            by_cases e : m = s.next
            · rw [if_pos e] at hm
              simp [Obj.kidsOf] at hm
            · rw [if_neg e] at hm
              have := hi.1.childBound m _ hm
              omega
          have hset : ¬ (s.alloc (Obj.arg 1 (some a) node i)).2.wasSet s.next := by
            intro hw
            have := hi.1.setBound s.next hw
            omega
          have c2 := core_subscribe c1 a s.next rc k ps cs ha (rc + 1) hxlt hfresh hset (by
            intro r v hcl
            rw [State.cell_alloc, if_pos rfl] at hcl
            simp [Obj.cellOf] at hcl)
          have a2 := argsHeld_subscribe a1 a rc k ps cs ha (rc + 1) (cs ++ [s.next])
          have f2 := frame_subscribe (fun c => c = s.next) (fun n => n = node) _ a s.next rc k ps
            cs ha (rc + 1) rfl
          -- what the node looks like
          have hsl2 : ps2 = s.slots node := by
            have : ((s.alloc (Obj.arg 1 (some a) node i)).2.write a
                (some (.node (rc + 1) k ps (cs ++ [s.next])))).slots node = ps2 :=
              State.slots_node hnode
            rw [State.slots_subscribe _ a rc k ps cs ha, State.slots_alloc,
              if_neg (by omega)] at this
            exact this.symm
          have hkd2 : some k2 = s.kind node := by
            have : ((s.alloc (Obj.arg 1 (some a) node i)).2.write a
                (some (.node (rc + 1) k ps (cs ++ [s.next])))).kind node = some k2 :=
              State.kind_node hnode
            rw [State.kind_subscribe _ a rc k ps cs ha, State.kind_alloc,
              if_neg (by omega)] at this
            exact this.symm
          have hkids2 : ((s.alloc (Obj.arg 1 (some a) node i)).2.write a
              (some (.node (rc + 1) k ps (cs ++ [s.next])))).kids node = cs2 :=
            State.kids_node hnode
          have hlen2 : ps2.length = i := by rw [hsl2]; exact hlen
          have c3 : Core (((s.alloc (Obj.arg 1 (some a) node i)).2.write a
              (some (.node (rc + 1) k ps (cs ++ [s.next])))).write node
              (some (.node rc2 k2 (ps2 ++ [some s.next]) cs2))) := by
            refine core_write c2 node _ (State.heap_lt c2 hnode) ?_ ?_ ?_ ?_ ?_ ?_ ?_ ?_ ?_ ?_ ?_ ?_
            · intro c hm
              exact c2.childBound node c (by rw [hkids2]; exact hm)
            · intro rc0 t0 i0 h0
              simp [Obj.argOf] at h0
            · show cs2.Nodup
              rw [← hkids2]
              exact c2.childNodup node
            · intro c hm m hma hcm
              exact hma (c2.childDisjoint m node c hcm (by rw [hkids2]; exact hm))
            · intro hf c hm
              exact c2.unfiredUnset node c (by rw [hkids2]; exact hm) hf
            · intro hf c hm _ r v hcl
              exact c2.unfiredUnready node c (by rw [hkids2]; exact hm) hf r v hcl
            · intro v h0
              simp [Obj.cellOf] at h0
            · intro r ar f hk j o hs
              simp only [Obj.kindOf, Option.some.injEq] at hk
              simp only [Obj.slotsOf] at hs
              by_cases hj : j < ps2.length
              · rw [List.get?_eq_getElem?, List.getElem?_append_left hj,
                  ← List.get?_eq_getElem?] at hs
                exact hi.1.bindSlot node r ar f (by rw [← hkd2, hk]) j o (by rw [← hsl2]; exact hs)
              · have hj2 : j = ps2.length := by
                  by_contra hne
                  have : ps2.length + 1 ≤ j := by omega
                  rw [List.get?_eq_getElem?, List.getElem?_eq_none (by simp; omega)] at hs
                  cases hs
                exact hbits r ar f (by rw [← hkd2, hk]) j (by omega) (by simp; omega)
            · intro r ar f _ hcl
              exact absurd hcl hnc
            · intro fs _ hcl
              exact absurd hcl hnc
            · intro hf
              exact absurd hf hnf
            · intro ty hty
              exact absurd hty (hreg ty)
          have a3 : ArgsHeld [s.next] (((s.alloc (Obj.arg 1 (some a) node i)).2.write a
              (some (.node (rc + 1) k ps (cs ++ [s.next])))).write node
              (some (.node rc2 k2 (ps2 ++ [some s.next]) cs2))) := by
            refine argsHeld_write a2 node _ ?_ ?_ ?_
            · intro rc0 t0 i0 h0
              simp [Obj.argOf] at h0
            · intro _
              rw [State.kind_node hnode]
              simp
            · intro _ o rc0 i0 _ _ hs
              left
              rw [State.slots_node hnode] at hs
              simp only [Obj.slotsOf]
              have hlt0 : i0 < ps2.length := by
                rw [List.get?_eq_getElem?] at hs
                by_contra hge
                rw [List.getElem?_eq_none (not_lt.1 hge)] at hs
                cases hs
              rw [List.get?_eq_getElem?, List.getElem?_append_left hlt0, ← List.get?_eq_getElem?]
              exact hs
          have hane : a ≠ s.next := by
            rintro rfl
            simp [State.alloc] at ha
          have a4 := argsHeld_settle s.next a3 (by
            intro rc0 t0 i0 h0 _
            rw [State.arg_write, if_neg (by omega), State.arg_write, if_neg (Ne.symm hane),
              State.arg_alloc, if_pos rfl] at h0
            simp only [Obj.argOf, Option.some.injEq, Prod.mk.injEq] at h0
            obtain ⟨rfl, rfl, rfl⟩ := h0
            refine ⟨le_refl _, fun _ => ?_⟩
            rw [State.slots_write, if_pos rfl]
            simp only [Obj.slotsOf]
            rw [← hlen2, List.get?_eq_getElem?, List.getElem?_append_right (le_refl _)]
            simp)
          have f3 : Frame (fun c => c = s.next) (fun n => n = node)
              ((s.alloc (Obj.arg 1 (some a) node i)).2.write a
              (some (.node (rc + 1) k ps (cs ++ [s.next]))))
              (((s.alloc (Obj.arg 1 (some a) node i)).2.write a
              (some (.node (rc + 1) k ps (cs ++ [s.next])))).write node
              (some (.node rc2 k2 (ps2 ++ [some s.next]) cs2))) := by
            refine frame_write _ _ _ node _ (by rw [hnode]; simp) ?_ ?_ ?_
            · intro hx
              exact absurd rfl hx
            · intro c hm
              left
              rw [hkids2]
              exact hm
            · intro _ rv hrv
              rw [State.cell_node hnode] at hrv
              cases hrv
          have f123 : Frame (fun _ => False) (fun n => n = node) s
              (((s.alloc (Obj.arg 1 (some a) node i)).2.write a
              (some (.node (rc + 1) k ps (cs ++ [s.next])))).write node
              (some (.node rc2 k2 (ps2 ++ [some s.next]) cs2))) := by
            refine frame_weaken (frame_trans f1 (frame_trans f2 f3)) ?_ ?_
            · intro c hc hd
              have := hd.1
              omega
            · intro n hn _
              exact hn
          obtain ⟨i5, f5⟩ := ih (i + 1) ⟨c3, a4⟩ (Nat.lt_succ_of_lt hlt) hnf hnc hreg
            (by
              rw [State.slots_write, if_pos rfl]
              simp [Obj.slotsOf, hlen2])
            (by
              intro r ar f hk j hj1 hj2
              rw [State.kind_write, if_pos rfl] at hk
              simp only [Obj.kindOf] at hk
              refine hbits r ar f (by rw [← hkd2, hk]) j (by omega) ?_
              simp only [List.length_cons]
              omega)
            h
          exact ⟨i5, frame_trans f123 f5⟩
        · cases h
      · cases h

end connect

section creates
variable {C V : Type} [Inhabited V]

omit [Inhabited V] in
theorem Future.getParents_length (s : State C V) (xs : List Nat) :
    ∀ {ps : List (Option Nat)}, Future.getParents s xs = .ok ps → ps.length = xs.length := by
  induction xs with
  | nil =>
    intro ps h
    cases h
    rfl
  | cons x xs ih =>
    intro ps h
    rw [Future.getParents] at h
    split at h
    · rename_i p ps0 _ h2
      cases h
      simp [ih h2]
    · cases h
    · cases h

/-- `Receive<T>::create()` keeps the invariant. -/
theorem Receive.create_keeps_inv (code : Code C V) (fuel ty : Nat) {x : Nat} {s s1 : State C V}
    (hi : Inv s) (h : Receive.create code fuel ty s = .ok (x, s1)) :
    Inv s1 ∧ Frame (fun _ => False) (fun _ => False) s s1 := by
  unfold Receive.create at h
  simp only at h
  split at h
  · rename_i x3 s3 h3
    split at h
    · rename_i s4 h4
      simp only [Except.ok.injEq, Prod.mk.injEq] at h
      obtain ⟨_, rfl⟩ := h
      obtain ⟨i1, f1⟩ := inv_alloc_node hi 1 (Kind.receive : Kind C V) (fun _ => False)
        (fun n => n = s.next)
      have hfr : ¬ (s.alloc (Obj.node 1 (Kind.receive : Kind C V) [] [])).2.fired s.next := by
        intro hf
        have := hi.1.firedBound s.next hf
        omega
      have hreg : ∀ u, s.next ∉ (s.alloc (Obj.node 1 (Kind.receive : Kind C V) [] [])).2.instances u := by
        intro u hu
        have := hi.1.regBound u s.next hu
        omega
      have c2 := core_register i1.1 ty s.next (Nat.lt_succ_self _) hfr
        (by rw [State.slots_alloc, if_pos rfl]; rfl) hreg
      have a2 : ArgsHeld []
          { (s.alloc (Obj.node 1 (Kind.receive : Kind C V) [] [])).2 with
            instances := fun t =>
              if t = ty then (s.alloc (Obj.node 1 (Kind.receive : Kind C V) [] [])).2.instances t ++
                [s.next]
              else (s.alloc (Obj.node 1 (Kind.receive : Kind C V) [] [])).2.instances t } := i1.2
      have f2 := frame_register (fun _ => False) (fun n => n = s.next)
        (s.alloc (Obj.node 1 (Kind.receive : Kind C V) [] [])).2 ty s.next rfl
      have c3 := core_emit c2 (Event.created ty s.next) (by intro n x e; cases e)
        (by intro n x e; cases e) (by intro t i a e; cases e)
      have a3 := argsHeld_emit a2 (Event.created ty s.next)
      have f3 := frame_emit (fun _ => False) (fun n => n = s.next)
        { (s.alloc (Obj.node 1 (Kind.receive : Kind C V) [] [])).2 with
            instances := fun t =>
              if t = ty then (s.alloc (Obj.node 1 (Kind.receive : Kind C V) [] [])).2.instances t ++
                [s.next]
              else (s.alloc (Obj.node 1 (Kind.receive : Kind C V) [] [])).2.instances t }
        (Event.created ty s.next) (by intro n x e; cases e) (by intro n x e; cases e)
      obtain ⟨i4, f4⟩ := Future.create_keeps ⟨c3, a3⟩ h3
      obtain ⟨i5, q5⟩ := release_inv code fuel [s.next] i4.1 (argsHeld_nil i4.2) h4
      refine ⟨i5, ?_⟩
      have f123 : Frame (fun _ => False) (fun _ => False) s _ :=
        frame_weaken (frame_trans f1 (frame_trans f2 f3)) (fun c hc _ => hc)
          (fun n hn hd => by
            have := hd.1
            omega)
      exact frame_trans f123 (frame_trans f4 (frame_quiet _ _ q5))
    · cases h
  · cases h

/-- Constructing a combinator node over the producers of `args` keeps the
invariant: the node is allocated without parents and children, the captured
handles are copied, the argument observers are connected, the future of the
node is created and the local reference is released. -/
theorem combinator_create_keeps (code : Code C V) (fuel : Nat) (args : List Nat) (k : Kind C V)
    (caps : List Nat)
    (hk : ∀ r ar f, k = .bind r ar f → ∀ j, j < args.length → r.get? j = some false)
    {s s2 s3 s4 s5 : State C V} {ps : List (Option Nat)} {x : Nat} (hi : Inv s)
    (h2 : Future.copyAll caps (s.alloc (.node 1 k [] [])).2 = .ok s2)
    (hps : Future.getParents s2 args = .ok ps)
    (h3 : Node.connect s.next 0 ps s2 = .ok s3)
    (h4 : Future.create s.next s3 = .ok (x, s4))
    (h5 : release code fuel [s.next] s4 = .ok s5) :
    Inv s5 ∧ Frame (fun _ => False) (fun _ => False) s s5 := by
  obtain ⟨i1, f1⟩ := inv_alloc_node hi 1 k (fun _ => False) (fun n => n = s.next)
  have q2 := Future.copyAll_quiet caps h2
  have i2 := inv_quiet i1 q2
  have f2 := frame_quiet (fun _ => False) (fun n => n = s.next) q2
  have hnext : s2.next = s.next + 1 := q2.1.1
  have htr : s2.trace = s.trace := q2.1.2.2.1
  have hin : s2.instances = s.instances := q2.1.2.1
  have hslots : s2.slots s.next = [] := by
    rcases calm_slots q2.1 s.next with e | e
    · rw [e, State.slots_alloc, if_pos rfl]; rfl
    · exact e
  obtain ⟨i3, f3⟩ := Node.connect_inv s.next ps 0 i2 (by omega)
    (fun hf => by
      have := hi.1.firedBound s.next ((State.fired_congr htr _).1 hf)
      omega)
    (fun hf => by
      have := hi.1.calledBound s.next ((State.called_congr htr _).1 hf)
      omega)
    (fun u hu => by
      rw [hin] at hu
      have := hi.1.regBound u s.next hu
      omega)
    (by rw [hslots]; rfl)
    (by
      intro r ar f hkd j _ hj
      have := calm_kind q2.1 s.next _ hkd
      rw [State.kind_alloc, if_pos rfl] at this
      simp only [Obj.kindOf, Option.some.injEq] at this
      refine hk r ar f this j ?_
      rw [Future.getParents_length s2 args hps] at hj
      omega)
    h3
  obtain ⟨i4, f4⟩ := Future.create_keeps i3 h4
  obtain ⟨i5, q5⟩ := release_inv code fuel [s.next] i4.1 (argsHeld_nil i4.2) h5
  refine ⟨i5, ?_⟩
  have f123 : Frame (fun _ => False) (fun _ => False) s s3 :=
    frame_weaken (frame_trans f1 (frame_trans f2 f3)) (fun c hc _ => hc)
      (fun n hn hd => by
        have := hd.1
        omega)
  exact frame_trans f123 (frame_trans f4 (frame_quiet _ _ q5))

/-- `Bind<T, Args...>::create` keeps the invariant. -/
theorem Bind.create_keeps_bind (code : Code C V) (fuel : Nat) (args : List Nat) (f : C) {x : Nat}
    {s s1 : State C V} (hi : Inv s) (h : Bind.create code fuel args f s = .ok (x, s1)) :
    Inv s1 ∧ Frame (fun _ => False) (fun _ => False) s s1 := by
  unfold Bind.create at h
  simp only at h
  split at h
  · rename_i s2 h2
    split at h
    · rename_i ps hps
      split at h
      · rename_i s3 h3
        split at h
        · rename_i x4 s4 h4
          split at h
          · rename_i s5 h5
            simp only [Except.ok.injEq, Prod.mk.injEq] at h
            obtain ⟨_, rfl⟩ := h
            refine combinator_create_keeps code fuel args _ (code.captures f) ?_ hi h2 hps h3 h4 h5
            intro r ar f0 hk j hj
            simp only [Kind.bind.injEq] at hk
            rw [← hk.1, List.get?_eq_getElem?, List.getElem?_replicate]
            simp [hj]
          · cases h
        · cases h
      · cases h
    · cases h
  · cases h

/-- `Alt<T, Args...>::create` keeps the invariant. -/
theorem Alt.create_keeps_alt (code : Code C V) (fuel : Nat) (args : List Nat) (fs : List C) {x : Nat}
    {s s1 : State C V} (hi : Inv s) (h : Alt.create code fuel args fs s = .ok (x, s1)) :
    Inv s1 ∧ Frame (fun _ => False) (fun _ => False) s s1 := by
  unfold Alt.create at h
  simp only at h
  split at h
  · rename_i s2 h2
    split at h
    · rename_i ps hps
      split at h
      · rename_i s3 h3
        split at h
        · rename_i x4 s4 h4
          split at h
          · rename_i s5 h5
            simp only [Except.ok.injEq, Prod.mk.injEq] at h
            obtain ⟨_, rfl⟩ := h
            refine combinator_create_keeps code fuel args _ (fs.flatMap code.captures) ?_ hi h2 hps
              h3 h4 h5
            intro r ar f0 hk
            cases hk
          · cases h
        · cases h
      · cases h
    · cases h
  · cases h

end creates

section reparent
variable {C V : Type}

theorem acquire_quiet {p : Nat} {s s1 : State C V} (h : acquire p s = .ok s1)
    (hp : s.arg p = none) : Quiet s s1 := by
  unfold acquire at h
  split at h
  · rename_i o ho
    cases h
    refine quiet_write s p o _ ho (sameView_setRc o _) (fun _ => ?_)
    cases o with
    | arg rc q t i => simp [State.arg, ho, Obj.argOf] at hp
    | node _ _ _ _ => simp [Obj.ArgLe, Obj.setRc]
    | data _ _ _ _ => simp [Obj.ArgLe, Obj.setRc]
  · cases h

theorem argsHeld_lock {W : List Nat} {s : State C V} (h : ArgsHeld W s) (c rc : Nat)
    (q q1 : Option Nat) (t i : Nat) (hc : s.heap c = some (.arg rc q t i)) :
    ArgsHeld (c :: W) (s.write c (some (.arg (rc + 1) q1 t i))) := by
  intro o rc0 t0 i0 harg hw
  have hw0 : ¬ s.wasSet o := hw
  have hkind : ∀ m, (s.write c (some (.arg (rc + 1) q1 t i))).kind m = s.kind m := by
    intro m
    rw [State.kind_write]
    by_cases e : m = c
    · rw [if_pos e, e, State.kind_arg hc]; rfl
    · rw [if_neg e]
  have hslots : ∀ m, (s.write c (some (.arg (rc + 1) q1 t i))).slots m = s.slots m := by
    intro m
    rw [State.slots_write]
    by_cases e : m = c
    · rw [if_pos e, e, State.slots_arg hc]; rfl
    · rw [if_neg e]
  rw [hkind, hslots]
  rw [State.arg_write] at harg
  by_cases e : o = c
  · rw [if_pos e] at harg
    simp only [Obj.argOf, Option.some.injEq, Prod.mk.injEq] at harg
    obtain ⟨rfl, rfl, rfl⟩ := harg
    rw [e] at hw0 ⊢
    obtain ⟨b1, b2⟩ := h c rc t i (State.arg_arg hc) hw0
    rw [List.count_cons_self]
    refine ⟨by omega, fun hk => ?_⟩
    rcases b2 hk with b | ⟨_, b⟩
    · exact Or.inl b
    · exact Or.inr ⟨List.mem_cons_self _ _, by omega⟩
  · rw [if_neg e] at harg
    obtain ⟨b1, b2⟩ := h o rc0 t0 i0 harg hw0
    rw [List.count_cons_of_ne e]
    refine ⟨b1, fun hk => ?_⟩
    rcases b2 hk with b | ⟨b, b3⟩
    · exact Or.inl b
    · exact Or.inr ⟨List.mem_cons_of_mem _ b, b3⟩

/-- The loop of the graft keeps the invariant and changes strong counts and the
parents of observers only. -/
theorem Node.reparent_inv (code : Code C V) (fuel p : Nat) (cs : List Nat) :
    ∀ {s s1 : State C V}, Inv s → s.arg p = none → Node.reparent code fuel p cs s = .ok s1 →
      Inv s1 ∧ Calm s s1 := by
  induction cs with
  | nil =>
    intro s s1 hi _ h
    cases h
    exact ⟨hi, calm_refl s⟩
  | cons c cs ih =>
    intro s s1 hi hp h
    have keep : ∀ {sm : State C V}, Calm s sm → sm.arg p = none := by
      intro sm hcm
      cases e : sm.arg p with
      | none => rfl
      | some x =>
        obtain ⟨rc, t, i⟩ := x
        obtain ⟨rc0, h0⟩ := calm_arg hcm p rc t i e
        rw [hp] at h0
        cases h0
    rw [Node.reparent] at h
    split at h
    · exact ih hi hp h
    · cases h
    · rename_i rc r v old hc
      split at h
      · rename_i sb hb
        split at h
        · rename_i sc hcc
          have q1 : Quiet s (s.write c (some (.data (rc + 1) r v (some p)))) :=
            quiet_write s c _ _ hc (by simp [Obj.SameView]) (fun _ => by simp [Obj.ArgLe])
          have q2 := acquire_quiet hb (keep q1.1)
          have i2 := inv_quiet (inv_quiet hi q1) q2
          obtain ⟨i3, q3⟩ := release_inv code fuel _ i2.1 (argsHeld_nil i2.2) hcc
          have cm := calm_trans q1.1 (calm_trans q2.1 q3.1)
          obtain ⟨i4, c4⟩ := ih i3 (keep cm) h
          exact ⟨i4, calm_trans cm c4⟩
        · cases h
      · cases h
    · rename_i rc old t i hc
      split at h
      · rename_i sb hb
        split at h
        · rename_i sc hcc
          have c1 : Calm s (s.write c (some (.arg (rc + 1) (some p) t i))) :=
            calm_write s c _ _ hc (by simp [Obj.SameView])
          have a1 := argsHeld_lock hi.2 c rc old (some p) t i hc
          have q2 := acquire_quiet hb (keep c1)
          have a2 := argsHeld_quiet a1 q2
          have a3 : ArgsHeld (old.toList ++ [c]) sb :=
            argsHeld_mono a2 (fun o => by
              rw [List.count_append]
              omega)
          obtain ⟨i3, q3⟩ := release_inv code fuel _ (core_quiet (core_calm hi.1 c1) q2) a3 hcc
          have cm := calm_trans c1 (calm_trans q2.1 q3.1)
          obtain ⟨i4, c4⟩ := ih i3 (keep cm) h
          exact ⟨i4, calm_trans cm c4⟩
        · cases h
      · cases h

theorem List.get?_set_none {ps : List (Option Nat)} {k j o : Nat}
    (h : (ps.set k none).get? j = some (some o)) : ps.get? j = some (some o) ∧ j ≠ k := by
  rw [List.get?_eq_getElem?, List.getElem?_set] at h
  by_cases e : k = j
  · rw [if_pos e] at h
    split at h <;> cases h
  · rw [if_neg e] at h
    exact ⟨by rw [List.get?_eq_getElem?]; exact h, fun x => e x.symm⟩

/-- Clearing a parents slot of a node and releasing the observer it held keeps
the invariant. -/
theorem reset_slot_inv (code : Code C V) (fuel t k : Nat) {s s1 : State C V} (hi : Inv s)
    (rc : Nat) (kd kd1 : Kind C V) (ps : List (Option Nat)) (cs : List Nat)
    (ht : s.heap t = some (.node rc kd ps cs))
    (hbs : ∀ r ar f, kd1 = .bind r ar f →
      ∀ j o, (ps.set k none).get? j = some (some o) → r.get? j = some false)
    (hcb : ∀ r ar f, kd1 = .bind r ar f → s.called t → r.all id = true)
    (hca : ∀ fs, kd1 = .alt fs → kd = .alt fs)
    (h : release code fuel (ps.getD k none).toList
      (s.write t (some (.node rc kd1 (ps.set k none) cs))) = .ok s1) :
    Inv s1 ∧ Frame (fun _ => False) (fun _ => False) s s1 ∧
      Quiet (s.write t (some (.node rc kd1 (ps.set k none) cs))) s1 := by
  have hkids := State.kids_node ht
  have hslots := State.slots_node ht
  have hkind := State.kind_node ht
  have c1 : Core (s.write t (some (.node rc kd1 (ps.set k none) cs))) := by
    refine core_write hi.1 t _ (State.heap_lt hi.1 ht) ?_ ?_ ?_ ?_ ?_ ?_ ?_ ?_ ?_ ?_ ?_ ?_
    · intro c hm
      exact hi.1.childBound t c (by rw [hkids]; exact hm)
    · intro rc0 t0 i0 h0
      simp [Obj.argOf] at h0
    · show cs.Nodup
      rw [← hkids]
      exact hi.1.childNodup t
    · intro c hm m hma hcm
      exact hma (hi.1.childDisjoint m t c hcm (by rw [hkids]; exact hm))
    · intro hf c hm
      exact hi.1.unfiredUnset t c (by rw [hkids]; exact hm) hf
    · intro hf c hm _ r v hcl
      exact hi.1.unfiredUnready t c (by rw [hkids]; exact hm) hf r v hcl
    · intro v h0
      simp [Obj.cellOf] at h0
    · intro r ar f hk j o hs
      simp only [Obj.kindOf, Option.some.injEq] at hk
      exact hbs r ar f hk j o hs
    · intro r ar f hk hcl
      simp only [Obj.kindOf, Option.some.injEq] at hk
      exact hcb r ar f hk hcl
    · intro fs hk hcl j o hs
      simp only [Obj.kindOf, Option.some.injEq] at hk
      simp only [Obj.slotsOf] at hs
      exact hi.1.calledAlt t fs (by rw [hkind, hca fs hk]) hcl j o
        (by rw [hslots]; exact (List.get?_set_none hs).1)
    · intro hf j o hs
      simp only [Obj.slotsOf] at hs
      exact hi.1.firedSlots t hf j o (by rw [hslots]; exact (List.get?_set_none hs).1)
    · intro ty hty
      have := hi.1.regSlots ty t hty
      rw [hslots] at this
      simp [Obj.slotsOf, this]
  have a1 : ArgsHeld (ps.getD k none).toList (s.write t (some (.node rc kd1 (ps.set k none) cs))) := by
    refine argsHeld_write (argsHeld_nil hi.2) t _ ?_ ?_ ?_
    · intro rc0 t0 i0 h0
      simp [Obj.argOf] at h0
    · intro _
      rw [hkind]
      simp
    · intro _ o rc0 i0 harg hw hs
      rw [hslots] at hs
      simp only [Obj.slotsOf]
      by_cases e : i0 = k
      · right
        have hg : ps.getD k none = some o := by
          rw [e, List.get?_eq_getElem?] at hs
          rw [List.getD_eq_getElem?_getD, hs]
          rfl
        rw [hg]
        have := (hi.2 o rc0 t i0 harg hw).1
        simp at this
        simp [this]
      · left
        rw [List.get?_eq_getElem?, List.getElem?_set_ne (fun x => e x.symm),
          ← List.get?_eq_getElem?]
        exact hs
  obtain ⟨i2, q2⟩ := release_inv code fuel _ c1 a1 h
  refine ⟨i2, frame_trans ?_ (frame_quiet _ _ q2), q2⟩
  refine frame_write _ _ s t _ (by rw [ht]; simp) ?_ ?_ ?_
  · intro _ j o hs
    simp only [Obj.slotsOf] at hs
    rw [hslots]
    exact (List.get?_set_none hs).1
  · intro c hm
    left
    rw [hkids]
    exact hm
  · intro _ rv hrv
    rw [State.cell_node ht] at hrv
    cases hrv

/-- The loop of `Alt::set` over the parents keeps the invariant and leaves the
slots it visited unoccupied. -/
theorem Alt.resetParents_inv (code : Code C V) (fuel t : Nat) (ks : List Nat) :
    ∀ {s s1 : State C V}, Inv s → Alt.resetParents code fuel t ks s = .ok s1 →
      Inv s1 ∧ Frame (fun _ => False) (fun _ => False) s s1 ∧ s1.trace = s.trace ∧
        s1.instances = s.instances ∧ s1.next = s.next ∧
        (∀ j o, (s1.slots t).get? j = some (some o) →
          (s.slots t).get? j = some (some o) ∧ j ∉ ks) ∧
        ∀ k, s1.kind t = some k → s.kind t = some k := by
  induction ks with
  | nil =>
    intro s s1 hi h
    cases h
    exact ⟨hi, frame_refl _ _ s, rfl, rfl, rfl, fun j o hs => ⟨hs, by simp⟩, fun k hk => hk⟩
  | cons k ks ih =>
    intro s s1 hi h
    rw [Alt.resetParents] at h
    split at h
    · rename_i rc kd ps cs ht
      split at h
      · rename_i sb hb
        obtain ⟨i2, f2, q2⟩ := reset_slot_inv code fuel t k hi rc kd kd ps cs ht
          (fun r ar f hk j o hs => hi.1.bindSlot t r ar f (by rw [State.kind_node ht, hk]) j o
            (by rw [State.slots_node ht]; exact (List.get?_set_none hs).1))
          (fun r ar f hk hcl => hi.1.calledBind t r ar f (by rw [State.kind_node ht, hk]) hcl)
          (fun fs hk => hk) hb
        obtain ⟨i3, f3, tr3, in3, nx3, sl3, kd3⟩ := ih i2 h
        refine ⟨i3, frame_trans f2 f3, ?_, ?_, ?_, ?_, ?_⟩
        · rw [tr3, q2.1.2.2.1]; rfl
        · rw [in3, q2.1.2.1]; rfl
        · rw [nx3, q2.1.1]; rfl
        · intro j o hs
          obtain ⟨g1, g2⟩ := sl3 j o hs
          have g3 : ((s.write t (some (.node rc kd (ps.set k none) cs))).slots t).get? j =
              some (some o) := by
            rcases calm_slots q2.1 t with e | e
            · rw [e] at g1; exact g1
            · rw [e] at g1; simp at g1
          rw [State.slots_write, if_pos rfl] at g3
          simp only [Obj.slotsOf] at g3
          obtain ⟨g4, g5⟩ := List.get?_set_none g3
          rw [State.slots_node ht]
          refine ⟨g4, fun hm => ?_⟩
          rcases List.mem_cons.1 hm with e | e
          · exact g5 e
          · exact g2 e
        · intro k0 hk0
          have := calm_kind q2.1 t k0 (kd3 k0 hk0)
          rw [State.kind_write, if_pos rfl] at this
          simp only [Obj.kindOf] at this
          rw [State.kind_node ht]
          exact this
      · cases h
    · cases h

end reparent

section graftInv
variable {C V : Type}

theorem State.write_comm (s : State C V) (a b : Nat) (x y : Option (Obj C V)) (h : a ≠ b) :
    (s.write a x).write b y = (s.write b y).write a x := by
  unfold State.write
  congr 1
  funext c
  by_cases e1 : c = a
  · have : c ≠ b := fun e2 => h (e1.symm.trans e2)
    simp [e1, this, h]
  · by_cases e2 : c = b
    · simp [e1, e2, Ne.symm h]
    · simp [e1, e2]

/-- Replacing the children list of a node keeps the count-free part of the
invariant when the new children are in no other list and are unset and unready
if the node has not fired. -/
theorem core_set_kids {s : State C V} (hc : Core s) (a rc : Nat) (k : Kind C V)
    (ps : List (Option Nat)) (cs cs1 : List Nat) (ha : s.heap a = some (.node rc k ps cs))
    (rc1 : Nat) (h_cb : ∀ c ∈ cs1, c < s.next) (h_nd : cs1.Nodup)
    (h_dj : ∀ c ∈ cs1, ∀ m, m ≠ a → c ∉ s.kids m)
    (h_us : ¬ s.fired a → ∀ c ∈ cs1, ¬ s.wasSet c)
    (h_ur : ¬ s.fired a → ∀ c ∈ cs1, ∀ r v, s.cell c = some (r, v) → r = false) :
    Core (s.write a (some (.node rc1 k ps cs1))) := by
  have hslots := State.slots_node ha
  have hkind := State.kind_node ha
  refine core_write hc a _ (State.heap_lt hc ha) h_cb ?_ h_nd h_dj h_us ?_ ?_ ?_ ?_ ?_ ?_ ?_
  · intro rc0 t0 i0 h0
    simp [Obj.argOf] at h0
  · intro hf c hm _ r v hcl
    exact h_ur hf c hm r v hcl
  · intro v h0
    simp [Obj.cellOf] at h0
  · intro r ar f hk j o hs
    simp only [Obj.kindOf, Option.some.injEq] at hk
    simp only [Obj.slotsOf] at hs
    exact hc.bindSlot a r ar f (by rw [hkind, hk]) j o (by rw [hslots]; exact hs)
  · intro r ar f hk hcl
    simp only [Obj.kindOf, Option.some.injEq] at hk
    exact hc.calledBind a r ar f (by rw [hkind, hk]) hcl
  · intro fs hk hcl j o hs
    simp only [Obj.kindOf, Option.some.injEq] at hk
    simp only [Obj.slotsOf] at hs
    exact hc.calledAlt a fs (by rw [hkind, hk]) hcl j o (by rw [hslots]; exact hs)
  · intro hf j o hs
    simp only [Obj.slotsOf] at hs
    exact hc.firedSlots a hf j o (by rw [hslots]; exact hs)
  · intro ty hi
    have := hc.regSlots ty a hi
    rw [hslots] at this
    exact this

theorem State.Dormant.emit_propagate {s : State C V} {n : Nat} (hd : s.Dormant n) (hi : Inv s)
    (x : Nat) : Inv (s.emit (.propagate n x)) :=
  ⟨core_emit hi.1 _ (by
      intro m y e
      cases e
      exact hd) (by intro c v e; cases e) (by intro t i a e; cases e),
    argsHeld_emit hi.2 _⟩

/-- The graft of the children of the dormant node `n` onto itself: the node is
left without children. -/
theorem graft_self_inv {s : State C V} (hi : Inv s) (n x : Nat) (hd : s.Dormant n) (rcn : Nat)
    (kn : Kind C V) (psn : List (Option Nat)) (cs : List Nat)
    (hn : s.heap n = some (.node rcn kn psn cs)) (rc1 : Nat) :
    Inv ((s.emit (.propagate n x)).write n (some (.node rc1 kn psn []))) ∧
      Frame (fun _ => False) (fun m => m = n) s
        ((s.emit (.propagate n x)).write n (some (.node rc1 kn psn []))) := by
  have i0 := hd.emit_propagate hi x
  have hn0 : (s.emit (.propagate n x)).heap n = some (.node rcn kn psn cs) := hn
  refine ⟨⟨core_set_kids i0.1 n rcn kn psn cs [] hn0 rc1 (by simp) List.nodup_nil (by simp)
    (by simp) (by simp), argsHeld_subscribe i0.2 n rcn kn psn cs hn0 rc1 []⟩, ?_⟩
  refine frame_trans (frame_emit _ _ s _ (by intro m y e; cases e; rfl) (by intro c v e; cases e))
    (frame_write _ _ _ n _ (by rw [hn0]; simp) ?_ ?_ ?_)
  · intro hx
    exact absurd rfl hx
  · intro c hm
    cases hm
  · intro _ rv hrv
    rw [State.cell_node hn0] at hrv
    cases hrv

/-- The graft of the children of the dormant node `n` onto another node `p`. -/
theorem graft_inv {s : State C V} (hi : Inv s) (n p x : Nat) (hd : s.Dormant n) (hpn : p ≠ n)
    (rcn : Nat) (kn : Kind C V) (psn : List (Option Nat)) (cs : List Nat) (prc : Nat)
    (pk : Kind C V) (pps : List (Option Nat)) (pcs : List Nat)
    (hn : s.heap n = some (.node rcn kn psn cs)) (hp : s.heap p = some (.node prc pk pps pcs))
    (rc1 prc1 : Nat) :
    Inv (((s.emit (.propagate n x)).write n (some (.node rc1 kn psn []))).write p
        (some (.node prc1 pk pps cs))) ∧
      Frame (fun _ => False) (fun m => m = n) s
        (((s.emit (.propagate n x)).write n (some (.node rc1 kn psn []))).write p
          (some (.node prc1 pk pps cs))) := by
  have i0 := hd.emit_propagate hi x
  have hn0 : (s.emit (.propagate n x)).heap n = some (.node rcn kn psn cs) := hn
  have hkn := State.kids_node hn
  have i1 : Inv ((s.emit (.propagate n x)).write n (some (.node rc1 kn psn []))) :=
    ⟨core_set_kids i0.1 n rcn kn psn cs [] hn0 rc1 (by simp) List.nodup_nil (by simp)
      (by simp) (by simp), argsHeld_subscribe i0.2 n rcn kn psn cs hn0 rc1 []⟩
  have hp1 : ((s.emit (.propagate n x)).write n (some (.node rc1 kn psn []))).heap p =
      some (.node prc pk pps pcs) := by
    simp [hpn, hp]
  have hkids1 : ∀ m, m ≠ n →
      ((s.emit (.propagate n x)).write n (some (.node rc1 kn psn []))).kids m = s.kids m := by
    intro m hm
    rw [State.kids_write, if_neg hm]
    rfl
  have hwas : ∀ c, ((s.emit (.propagate n x)).write n (some (.node rc1 kn psn []))).wasSet c →
      s.wasSet c := by
    intro c hw
    rcases (State.wasSet_emit s _ c).1 hw with h | ⟨y, h⟩
    · exact h
    · cases h
  have c2 := core_set_kids i1.1 p prc pk pps pcs cs hp1 prc1
    (fun c hm => hi.1.childBound n c (by rw [hkn]; exact hm))
    (by rw [← hkn]; exact hi.1.childNodup n)
    (by
      intro c hm m hmp hcm
      by_cases e : m = n
      · rw [e, State.kids_write, if_pos rfl] at hcm
        cases hcm
      · rw [hkids1 m e] at hcm
        exact e (hi.1.childDisjoint m n c hcm (by rw [hkn]; exact hm)))
    (by
      intro _ c hm hw
      exact hi.1.unfiredUnset n c (by rw [hkn]; exact hm) hd.2.1 (hwas c hw))
    (by
      intro _ c hm r v hcl
      rw [State.cell_write] at hcl
      by_cases e : c = n
      · rw [if_pos e] at hcl
        cases hcl
      · rw [if_neg e] at hcl
        exact hi.1.unfiredUnready n c (by rw [hkn]; exact hm) hd.2.1 r v hcl)
  refine ⟨⟨c2, argsHeld_subscribe i1.2 p prc pk pps pcs hp1 prc1 cs⟩, ?_⟩
  constructor
  · exact le_refl _
  · exact ⟨[.propagate n x], rfl⟩
  · intro a _ ha
    have e1 : a ≠ p := by
      rintro rfl
      rw [hp] at ha
      cases ha
    have e2 : a ≠ n := by
      rintro rfl
      rw [hn] at ha
      cases ha
    simpa [e1, e2] using ha
  · intro m hm hx
    obtain ⟨d1, d2, d3, d4⟩ := hm
    refine ⟨d1, fun hf => ?_, d3, fun j o hs => ?_⟩
    · rcases (State.fired_emit s _ m).1 hf with h | ⟨y, h⟩
      · exact d2 h
      · cases h
        exact hx rfl
    · rw [State.slots_subscribe _ p prc pk pps pcs hp1,
        State.slots_subscribe _ n rcn kn psn cs hn0] at hs
      exact d4 j o hs
  · intro c hdc _
    refine ⟨⟨hdc.1, fun m hm => ?_⟩, fun hw => ?_, fun rv hrv => ?_⟩
    · rw [State.kids_write] at hm
      by_cases e : m = p
      · rw [if_pos e] at hm
        simp only [Obj.kidsOf] at hm
        exact absurd (hdc.2 n (by rw [hkn]; exact hm)) hd.2.1
      · rw [if_neg e, State.kids_write] at hm
        by_cases e2 : m = n
        · rw [if_pos e2] at hm
          cases hm
        · rw [if_neg e2] at hm
          exact (State.fired_emit s _ m).2 (Or.inl (hdc.2 m hm))
    · rcases (State.wasSet_emit s _ c).1 hw with h | ⟨y, h⟩
      · exact h
      · cases h
    · right
      have e1 : c ≠ p := by
        rintro rfl
        rw [State.cell_node hp] at hrv
        cases hrv
      have e2 : c ≠ n := by
        rintro rfl
        rw [State.cell_node hn] at hrv
        cases hrv
      rw [State.cell_write, if_neg e1, State.cell_write, if_neg e2]
      exact hrv

end graftInv

section keeps
variable {C V : Type} [Inhabited V]

theorem Keeps.zero (code : Code C V) : Keeps code 0 := by
  constructor
  · intro ty v s n s1 _ h
    simp [Receive.deliver] at h
  · intro ty is v n s m s1 _ _ _ h
    simp [Receive.deliverLoop] at h
  · intro n x s s1 _ _ h
    simp [Node.propagate] at h
  · intro cs v s s1 _ _ _ h
    simp [Node.setChildren] at h
  · intro o v s s1 _ _ _ h
    simp [Observer.set] at h
  · intro t i v s s1 _ _ h
    simp [Node.set] at h
  · intro p s x s1 _ h
    simp [Prog.run] at h

omit [Inhabited V] in
theorem frame_detached {Xc Xn : Nat → Prop} {s s1 : State C V} (h : Frame Xc Xn s s1) {c : Nat}
    (hd : s.Detached c) (hx : ¬ Xc c) : s1.Detached c :=
  (h.cell c hd hx).1

theorem Keeps.observerSet_succ {code : Code C V} {fuel : Nat} (ih : Keeps code fuel)
    {o : Nat} {v : V} {s s1 : State C V} (hi : Inv s) (hd : s.Detached o)
    (hslot : ∀ rc t i, s.arg o = some (rc, t, i) → s.kind t ≠ none →
      (s.slots t).get? i = some (some o))
    (h : Observer.set code (fuel + 1) o v s = .ok s1) :
    Inv s1 ∧ Frame (fun c => c = o) (fun _ => False) s s1 ∧ s1.Detached o ∧
      ∀ rv, s.cell o = some rv → s1.heap o = none ∨ s1.cell o = some (true, v) := by
  rw [Observer.set] at h
  split at h
  · -- a value cell
    rename_i rc r w p ho
    have c1 : Core (s.write o (some (.data rc true v none))) := by
      refine core_write hi.1 o _ (State.heap_lt hi.1 ho) (by simp [Obj.kidsOf])
        (by simp [Obj.argOf]) (by simp [Obj.kidsOf]) (by simp [Obj.kidsOf])
        (by simp [Obj.kidsOf]) (by simp [Obj.kidsOf]) ?_ (by simp [Obj.kindOf])
        (by simp [Obj.kindOf]) (by simp [Obj.kindOf]) (by simp [Obj.slotsOf])
        (by simp [Obj.slotsOf])
      intro _ _ n hn _
      exact hd.2 n hn
    have a1 : ArgsHeld [] (s.write o (some (.data rc true v none))) :=
      argsHeld_write hi.2 o _ (by simp [Obj.argOf]) (by simp [Obj.kindOf])
        (by simp [Obj.kindOf])
    have f1 : Frame (fun c => c = o) (fun _ => False) s (s.write o (some (.data rc true v none))) :=
      frame_write _ _ s o _ (by rw [ho]; simp) (by simp [Obj.slotsOf]) (by simp [Obj.kidsOf])
        (fun hx => absurd rfl hx)
    obtain ⟨i2, q2⟩ := release_inv code fuel _ c1 (argsHeld_nil a1) h
    have d1 : (s.write o (some (.data rc true v none))).Detached o := by
      refine ⟨hd.1, fun m hm => ?_⟩
      rw [State.kids_write] at hm
      by_cases e : m = o
      · rw [if_pos e] at hm
        simp [Obj.kidsOf] at hm
      · rw [if_neg e] at hm
        exact hd.2 m hm
    refine ⟨i2, frame_trans f1 (frame_quiet _ _ q2),
      frame_detached (frame_quiet (fun _ => False) (fun _ => False) q2) d1 (fun x => x), ?_⟩
    intro rv _
    exact calm_cell_keep q2.1 o (true, v) (by rw [State.cell_write, if_pos rfl]; rfl)
  · -- an argument observer
    rename_i rc q t i ho
    have hcell : s.cell o = none := State.cell_arg ho
    split at h
    · rename_i rct k ps cs ht
      split at h
      · rename_i s2 h2
        have q1 : Quiet s (s.write t (some (.node (rct + 1) k ps cs))) :=
          quiet_write s t _ _ ht (by simp [Obj.SameView]) (fun _ => by simp [Obj.ArgLe])
        have hsl : ((s.write t (some (.node (rct + 1) k ps cs))).slots t).get? i =
            some (some o) := by
          rw [State.slots_write, if_pos rfl]
          have := hslot rc t i (State.arg_arg ho) (by rw [State.kind_node ht]; simp)
          rw [State.slots_node ht] at this
          exact this
        obtain ⟨i2, f2⟩ := ih.nodeSet (inv_quiet hi q1) ⟨o, hsl⟩ h2
        obtain ⟨i3, q3⟩ := release_inv code fuel _ i2.1 (argsHeld_nil i2.2) h
        have f : Frame (fun _ => False) (fun _ => False) s s1 :=
          frame_trans (frame_quiet _ _ q1) (frame_trans f2 (frame_quiet _ _ q3))
        refine ⟨i3, frame_weaken f (fun c hc _ => hc.elim) (fun n hn _ => hn),
          frame_detached f hd (fun x => x), ?_⟩
        intro rv hrv
        rw [hcell] at hrv
        cases hrv
      · cases h
    · cases h
    · cases h
      refine ⟨hi, frame_refl _ _ s, hd, ?_⟩
      intro rv hrv
      rw [hcell] at hrv
      cases hrv
  · cases h

theorem Keeps.setChildren_succ {code : Code C V} {fuel : Nat} (ih : Keeps code fuel) :
    ∀ {cs : List Nat} {v : V} {s s1 : State C V}, Inv s → cs.Nodup →
      (∀ c ∈ cs, s.Detached c ∧ ¬ s.wasSet c) →
      Node.setChildren code (fuel + 1) cs v s = .ok s1 →
      Inv s1 ∧ Frame (fun c => c ∈ cs) (fun _ => False) s s1 ∧
        ∀ c ∈ cs, ∀ rv, s.cell c = some rv → s1.heap c = none ∨ s1.cell c = some (true, v) := by
  intro cs v s s1 hi hnd hpre h
  cases cs with
  | nil =>
    simp [Node.setChildren] at h
    subst h
    exact ⟨hi, frame_refl _ _ _, fun c hc => by cases hc⟩
  | cons c cs =>
    have hnd2 : cs.Nodup := (List.nodup_cons.1 hnd).2
    have hc_notin : c ∉ cs := (List.nodup_cons.1 hnd).1
    rw [Node.setChildren] at h
    split at h
    · -- the child is gone
      rename_i hc
      obtain ⟨i1, f1, p1⟩ := ih.setChildren hi hnd2
        (fun d hd => hpre d (List.mem_cons_of_mem _ hd)) h
      refine ⟨i1, frame_weaken f1 (fun d hd _ => List.mem_cons_of_mem _ hd) (fun n hn _ => hn), ?_⟩
      intro d hd rv hrv
      rcases List.mem_cons.1 hd with e | e
      · rw [e, State.cell_dead hc] at hrv
        cases hrv
      · exact p1 d e rv hrv
    · cases h
    · rename_i o hnot ho
      split at h
      · rename_i sb hb
        split at h
        · rename_i sc hcc
          obtain ⟨hdc, hwc⟩ := hpre c (List.mem_cons_self _ _)
          -- the event and the lock
          have c0 : Core (s.emit (.set c v)) :=
            core_emit hi.1 _ (by intro n x e; cases e)
              (by
                intro d w e
                cases e
                exact ⟨hdc, hwc⟩)
              (by intro t i a e; cases e)
          have a0 := argsHeld_emit hi.2 (Event.set c v)
          have f0 : Frame (fun d => d ∈ c :: cs) (fun _ => False) s (s.emit (.set c v)) :=
            frame_emit _ _ s _ (by intro n x e; cases e)
              (by
                intro d w e
                cases e
                exact List.mem_cons_self _ _)
          have hwe : (s.emit (.set c v)).wasSet c :=
            (State.wasSet_emit s _ c).2 (Or.inr ⟨v, rfl⟩)
          have q1 : Quiet (s.emit (.set c v))
              ((s.emit (.set c v)).write c (some (o.setRc (o.rc + 1)))) :=
            quiet_write _ c o _ ho (sameView_setRc o _) (fun hn => absurd hwe hn)
          have i1 := inv_quiet ⟨c0, a0⟩ q1
          have d1 : ((s.emit (.set c v)).write c (some (o.setRc (o.rc + 1)))).Detached c :=
            frame_detached (frame_quiet (fun _ => False) (fun _ => False) q1)
              ⟨hdc.1, fun m hm => (State.fired_emit s _ m).2 (Or.inl (hdc.2 m hm))⟩ (fun x => x)
          have hslot : ∀ rc t i,
              ((s.emit (.set c v)).write c (some (o.setRc (o.rc + 1)))).arg c = some (rc, t, i) →
              ((s.emit (.set c v)).write c (some (o.setRc (o.rc + 1)))).kind t ≠ none →
              (((s.emit (.set c v)).write c (some (o.setRc (o.rc + 1)))).slots t).get? i =
                some (some c) := by
            intro rc t i harg hk
            obtain ⟨rc0, h0⟩ := calm_arg q1.1 c rc t i harg
            obtain ⟨e1, _, e3⟩ := calm_slots_alive q1.1 t hk
            rw [e1]
            rcases (hi.2 c rc0 t i h0 hwc).2 (by
              have : (s.emit (Event.set c v)).kind t ≠ none := by rw [← e3]; exact hk
              exact this) with g | ⟨g, _⟩
            · exact g
            · cases g
          obtain ⟨i2, f2, d2, p2⟩ := ih.observerSet i1 d1 hslot hb
          obtain ⟨i3, q3⟩ := release_inv code fuel _ i2.1 (argsHeld_nil i2.2) hcc
          -- the frame up to here, with `c` as the only exception
          have fc : Frame (fun d => d = c) (fun _ => False) s sc :=
            frame_trans (frame_emit _ _ s _ (by intro n x e; cases e)
                (by intro d w e; cases e; rfl))
              (frame_trans (frame_quiet _ _ q1) (frame_trans f2 (frame_quiet _ _ q3)))
          have hpre3 : ∀ d ∈ cs, sc.Detached d ∧ ¬ sc.wasSet d := by
            intro d hd
            obtain ⟨g1, g2⟩ := hpre d (List.mem_cons_of_mem _ hd)
            have hne : ¬ d = c := by
              rintro rfl
              exact hc_notin hd
            obtain ⟨k1, k2, _⟩ := fc.cell d g1 hne
            exact ⟨k1, fun hw => g2 (k2 hw)⟩
          obtain ⟨i4, f4, p4⟩ := ih.setChildren i3 hnd2 hpre3 h
          have d3 : sc.Detached c :=
            frame_detached (frame_quiet (fun _ => False) (fun _ => False) q3) d2 (fun x => x)
          refine ⟨i4, frame_trans
            (frame_weaken fc (fun d hd _ => by rw [hd]; exact List.mem_cons_self _ _)
              (fun n hn _ => hn))
            (frame_weaken f4 (fun d hd _ => List.mem_cons_of_mem _ hd) (fun n hn _ => hn)), ?_⟩
          intro d hd rv hrv
          rcases List.mem_cons.1 hd with e | e
          · rw [e] at hrv
            have hrv1 : ((s.emit (.set c v)).write c (some (o.setRc (o.rc + 1)))).cell c =
                some rv := by
              rcases calm_cell_keep q1.1 c rv hrv with g | g
              · simp at g
              · exact g
            rw [e]
            rcases p2 rv hrv1 with g | g
            · exact Or.inl (f4.dead c d3.1 (calm_dead q3.1 c g))
            · rcases calm_cell_keep q3.1 c _ g with g1 | g1
              · exact Or.inl (f4.dead c d3.1 g1)
              · exact (f4.cell c d3 hc_notin).2.2 _ g1
          · obtain ⟨g1, _⟩ := hpre d (List.mem_cons_of_mem _ e)
            have hne : ¬ d = c := by
              rintro rfl
              exact hc_notin e
            rcases (fc.cell d g1 hne).2.2 rv hrv with g | g
            · exact Or.inl (f4.dead d (lt_of_lt_of_le g1.1 fc.next_le) g)
            · exact p4 d e rv g
        · cases h
      · cases h

theorem Keeps.propagate_succ {code : Code C V} {fuel : Nat} (ih : Keeps code fuel)
    {n x : Nat} {s s1 : State C V} (hi : Inv s) (hd : s.Dormant n)
    (h : Node.propagate code (fuel + 1) n x s = .ok s1) :
    Inv s1 ∧ Frame (fun _ => False) (fun m => m = n) s s1 ∧
      ∀ rcx v q, s.heap x = some (.data rcx true v q) → ∀ c ∈ s.kids n, ∀ rv,
        s.cell c = some rv → s1.heap c = none ∨ s1.cell c = some (true, v) := by
  rw [Node.propagate] at h
  split at h
  · -- the ready branch
    rename_i rcx v q rcn kn psn cs hx hn
    have hkn := State.kids_node hn
    have i0 := hd.emit_propagate hi x
    have f0 : Frame (fun c => c ∈ cs) (fun m => m = n) s (s.emit (.propagate n x)) :=
      frame_emit _ _ s _ (by intro m y e; cases e; rfl) (by intro c w e; cases e)
    have hpre : ∀ c ∈ cs, (s.emit (.propagate n x)).Detached c ∧
        ¬ (s.emit (.propagate n x)).wasSet c := by
      intro c hc
      have hc1 : c ∈ s.kids n := by rw [hkn]; exact hc
      refine ⟨⟨hi.1.childBound n c hc1, fun m hm => ?_⟩, fun hw => ?_⟩
      · have : m = n := hi.1.childDisjoint m n c hm hc1
        rw [this]
        exact (State.fired_emit s _ n).2 (Or.inr ⟨x, rfl⟩)
      · rcases (State.wasSet_emit s _ c).1 hw with g | ⟨y, g⟩
        · exact hi.1.unfiredUnset n c hc1 hd.2.1 g
        · cases g
    obtain ⟨i1, f1, p1⟩ := ih.setChildren i0 (by rw [← hkn]; exact hi.1.childNodup n) hpre h
    refine ⟨i1, ?_, ?_⟩
    · refine frame_weaken (frame_trans f0 (frame_weaken f1 (fun c hc _ => hc)
        (fun m hm _ => hm.elim))) ?_ (fun m hm _ => hm)
      intro c hc hdc
      exact hd.2.1 (hdc.2 n (by rw [hkn]; exact hc))
    · intro rcx1 v1 q1 hx1 c hc rv hrv
      rw [hx] at hx1
      simp only [Option.some.injEq, Obj.data.injEq] at hx1
      rw [← hx1.2.2.1]
      exact p1 c (by rw [← hkn]; exact hc) rv hrv
  · cases h
  · -- the graft
    rename_i rcx w p rcn kn psn cs hx hn
    have hnot : ∀ rcx1 v1 q1, s.heap x = some (.data rcx1 true v1 q1) → False := by
      intro rcx1 v1 q1 hx1
      rw [hx] at hx1
      simp at hx1
    split at h
    · rename_i prc pk pps pcs hp
      by_cases hpn : p = n
      · subst hpn
        rw [hn] at hp
        simp only [Option.some.injEq, Obj.node.injEq] at hp
        obtain ⟨rfl, rfl, rfl, rfl⟩ := hp
        simp only [State.write_heap, if_true, State.write_write] at h
        obtain ⟨i1, f1⟩ := graft_self_inv hi p x hd rcn kn psn cs hn rcn
        have hp1 : ((s.emit (.propagate p x)).write p (some (.node rcn kn psn []))).arg p = none := by
          rw [State.arg_write, if_pos rfl]
          rfl
        obtain ⟨i2, c2⟩ := Node.reparent_inv code fuel p _ i1 hp1 h
        exact ⟨i2, frame_trans f1 (frame_calm _ _ c2), fun a b c hx1 => (hnot a b c hx1).elim⟩
      · have hnp : n ≠ p := fun e => hpn e.symm
        simp only [State.write_heap, State.emit_heap, if_neg hnp, if_neg hpn, hn, if_true] at h
        rw [State.write_comm _ p n _ _ hpn] at h
        obtain ⟨i1, f1⟩ := graft_inv hi n p x hd hpn rcn kn psn cs prc pk pps pcs hn hp rcn prc
        have hp1 : (((s.emit (.propagate n x)).write n (some (.node rcn kn psn []))).write p
            (some (.node prc pk pps cs))).arg p = none := by
          rw [State.arg_write, if_pos rfl]
          rfl
        obtain ⟨i2, c2⟩ := Node.reparent_inv code fuel p _ i1 hp1 h
        exact ⟨i2, frame_trans f1 (frame_calm _ _ c2), fun a b c hx1 => (hnot a b c hx1).elim⟩
    · cases h
  · cases h

/-- The tail of `Bind::set` and `Alt::set`: the callback is invoked, its result
is propagated and the local handle is released. -/
theorem Keeps.fire {code : Code C V} {fuel : Nat} (ih : Keeps code fuel) {t idx x : Nat}
    {args : List V} {body : Prog C V} {s2 s3 s4 s1 : State C V} (i2 : Inv s2)
    (hlt : t < s2.next) (hnc : ¬ s2.called t) (hnf : ¬ s2.fired t)
    (hreg : ∀ ty, t ∉ s2.instances ty) (hsl : ∀ j o, (s2.slots t).get? j ≠ some (some o))
    (hbind : ∀ r ar f, s2.kind t = some (.bind r ar f) → r.all id = true)
    (hrun : Prog.run code fuel body (s2.emit (.call t idx args)) = .ok (x, s3))
    (hprop : Node.propagate code fuel t x s3 = .ok s4)
    (hrel : release code fuel [x] s4 = .ok s1) :
    Inv s1 ∧ Frame (fun _ => False) (fun m => m = t) s2 s1 ∧
      (∃ evs, s1.trace = s2.trace ++ .call t idx args :: evs) ∧
      ∀ rcx w q, s3.heap x = some (.data rcx true w q) → ∀ c ∈ s3.kids t, ∀ rv,
        s3.cell c = some rv → s1.heap c = none ∨ s1.cell c = some (true, w) := by
  have c0 : Core (s2.emit (.call t idx args)) :=
    core_emit i2.1 _ (by intro n y e; cases e) (by intro c w e; cases e)
      (by
        intro t0 i0 a0 e
        cases e
        exact ⟨hlt, hnc, hbind, fun fs _ => hsl⟩)
  have a0 := argsHeld_emit i2.2 (Event.call t idx args)
  have f0 : Frame (fun _ => False) (fun m => m = t) s2 (s2.emit (.call t idx args)) :=
    frame_emit _ _ s2 _ (by intro n y e; cases e) (by intro c w e; cases e)
  have d0 : (s2.emit (.call t idx args)).Dormant t := by
    refine ⟨hlt, fun hf => ?_, hreg, hsl⟩
    rcases (State.fired_emit s2 _ t).1 hf with g | ⟨y, g⟩
    · exact hnf g
    · cases g
  obtain ⟨i3, f3⟩ := ih.run ⟨c0, a0⟩ hrun
  obtain ⟨i4, f4, p4⟩ := ih.propagate i3 (f3.node t d0 (fun y => y)) hprop
  obtain ⟨i5, q5⟩ := release_inv code fuel _ i4.1 (argsHeld_nil i4.2) hrel
  have f35 : Frame (fun _ => False) (fun m => m = t) (s2.emit (.call t idx args)) s1 :=
    frame_trans (frame_weaken f3 (fun c hc _ => hc) (fun m hm _ => hm.elim))
      (frame_trans f4 (frame_quiet _ _ q5))
  refine ⟨i5, frame_trans f0 f35, ?_, ?_⟩
  · obtain ⟨evs, he⟩ := f35.trace
    exact ⟨evs, by rw [he]; simp [State.emit]⟩
  · intro rcx w q hx c hc rv hrv
    rcases p4 rcx w q hx c hc rv hrv with g | g
    · exact Or.inl (calm_dead q5.1 c g)
    · exact calm_cell_keep q5.1 c _ g

theorem Keeps.nodeSet_succ {code : Code C V} {fuel : Nat} (ih : Keeps code fuel)
    {t i : Nat} {v : V} {s s1 : State C V} (hi : Inv s)
    (hslot : ∃ o, (s.slots t).get? i = some (some o))
    (h : Node.set code (fuel + 1) t i v s = .ok s1) :
    Inv s1 ∧ Frame (fun _ => False) (fun _ => False) s s1 := by
  obtain ⟨o, hslot⟩ := hslot
  have hnf : ¬ s.fired t := fun hf => hi.1.firedSlots t hf i o hslot
  have hreg : ∀ ty, t ∉ s.instances ty := by
    intro ty hty
    rw [hi.1.regSlots ty t hty] at hslot
    simp at hslot
  have hnd : ¬ s.Dormant t := fun hd => hd.2.2.2 i o hslot
  rw [Node.set] at h
  split at h
  · -- Bind::set
    rename_i rc ready args f ps cs ht
    simp only at h
    have hkind := State.kind_node ht
    have hslots := State.slots_node ht
    have hbit : ready.get? i = some false := hi.1.bindSlot t ready args f hkind i o hslot
    have hnc : ¬ s.called t := by
      intro hcl
      have hall := hi.1.calledBind t ready args f hkind hcl
      rw [List.all_eq_true] at hall
      have hm : false ∈ ready := by
        exact List.get?_mem hbit
      have := hall false hm
      simp at this
    have hbits : ∀ j o1, (ps.set i none).get? j = some (some o1) →
        (ready.set i true).get? j = some false := by
      intro j o1 hs
      obtain ⟨g1, g2⟩ := List.get?_set_none hs
      have := hi.1.bindSlot t ready args f hkind j o1 (by rw [hslots]; exact g1)
      rw [List.get?_eq_getElem?, List.getElem?_set_ne (fun e => g2 e.symm),
        ← List.get?_eq_getElem?]
      exact this
    split at h
    · rename_i s2 h2
      obtain ⟨i2, f2, q2⟩ := reset_slot_inv code fuel t i hi rc (.bind ready args f)
        (.bind (ready.set i true) (args.set i v) f) ps cs ht
        (by
          intro r ar f0 hk j o1 hs
          simp only [Kind.bind.injEq] at hk
          rw [← hk.1]
          exact hbits j o1 hs)
        (fun r ar f0 _ hcl => absurd hcl hnc)
        (by intro fs hk; cases hk)
        h2
      have htr : s2.trace = s.trace := q2.1.2.2.1
      have hin : s2.instances = s.instances := q2.1.2.1
      have hnx : s2.next = s.next := q2.1.1
      split at h
      · rename_i hall
        split at h
        · rename_i x s3 h3
          split at h
          · rename_i s4 h4
            have hk2 : ∀ r ar f0, s2.kind t = some (.bind r ar f0) → r = ready.set i true := by
              intro r ar f0 hk
              have := calm_kind q2.1 t _ hk
              rw [State.kind_write, if_pos rfl] at this
              simp only [Obj.kindOf, Option.some.injEq, Kind.bind.injEq] at this
              exact this.1.symm
            have hsl2 : ∀ j o1, (s2.slots t).get? j ≠ some (some o1) := by
              intro j o1 hs
              rcases calm_slots q2.1 t with e | e
              · rw [e, State.slots_write, if_pos rfl] at hs
                simp only [Obj.slotsOf] at hs
                have hb := hbits j o1 hs
                rw [List.all_eq_true] at hall
                have hm : false ∈ ready.set i true := by
                  exact List.get?_mem hb
                have := hall false hm
                simp at this
              · rw [e] at hs
                simp at hs
            obtain ⟨i5, f5, _⟩ := ih.fire i2 (by rw [hnx]; exact State.heap_lt hi.1 ht)
              (fun hcl => hnc ((State.called_congr htr t).1 hcl))
              (fun hf => hnf ((State.fired_congr htr t).1 hf))
              (by rw [hin]; exact hreg) hsl2
              (by
                intro r ar f0 hk
                rw [hk2 r ar f0 hk]
                exact hall)
              h3 h4 h
            exact ⟨i5, frame_weaken (frame_trans
              (frame_weaken f2 (fun c hc _ => hc) (fun m hm _ => hm.elim)) f5)
              (fun c hc _ => hc) (fun m hm hd => by rw [hm] at hd; exact hnd hd)⟩
          · cases h
        · cases h
      · cases h
        exact ⟨i2, f2⟩
    · cases h
  · -- Alt::set
    rename_i rc fs ps cs ht
    have hkind := State.kind_node ht
    have hslots := State.slots_node ht
    have hnc : ¬ s.called t := fun hcl => hi.1.calledAlt t fs hkind hcl i o hslot
    split at h
    · rename_i s2 h2
      obtain ⟨i2, f2, htr, hin, hnx, hsl, hkd⟩ := Alt.resetParents_inv code fuel t _ hi h2
      split at h
      · rename_i f hf
        split at h
        · rename_i x s3 h3
          split at h
          · rename_i s4 h4
            have hsl2 : ∀ j o1, (s2.slots t).get? j ≠ some (some o1) := by
              intro j o1 hs
              obtain ⟨g1, g2⟩ := hsl j o1 hs
              rw [hslots, List.get?_eq_getElem?] at g1
              have hlt : j < ps.length := by
                by_contra hge
                rw [List.getElem?_eq_none (not_lt.1 hge)] at g1
                cases g1
              exact g2 (List.mem_range.2 hlt)
            obtain ⟨i5, f5, _⟩ := ih.fire i2 (by rw [hnx]; exact State.heap_lt hi.1 ht)
              (fun hcl => hnc ((State.called_congr htr t).1 hcl))
              (fun hf => hnf ((State.fired_congr htr t).1 hf))
              (by rw [hin]; exact hreg) hsl2
              (by
                intro r ar f0 hk
                have := hkd _ hk
                rw [hkind] at this
                cases this)
              h3 h4 h
            exact ⟨i5, frame_weaken (frame_trans
              (frame_weaken f2 (fun c hc _ => hc) (fun m hm _ => hm.elim)) f5)
              (fun c hc _ => hc) (fun m hm hd => by rw [hm] at hd; exact hnd hd)⟩
          · cases h
        · cases h
      · cases h
    · cases h
  · cases h

theorem Keeps.deliverLoop_succ {code : Code C V} {fuel : Nat} (ih : Keeps code fuel) :
    ∀ {ty : Nat} {is : List Nat} {v : V} {n : Nat} {s : State C V} {m : Nat} {s1 : State C V},
      Inv s → is.Nodup → (∀ i ∈ is, s.Dormant i) →
      Receive.deliverLoop code (fuel + 1) ty is v n s = .ok (m, s1) →
      Inv s1 ∧ Frame (fun _ => False) (fun i => i ∈ is) s s1 := by
  intro ty is v n s m s1 hi hnd hpre h
  cases is with
  | nil =>
    simp [Receive.deliverLoop] at h
    rw [← h.2]
    exact ⟨hi, frame_refl _ _ _⟩
  | cons i is =>
    have hnd2 : is.Nodup := (List.nodup_cons.1 hnd).2
    have hi_notin : i ∉ is := (List.nodup_cons.1 hnd).1
    rw [Receive.deliverLoop] at h
    split at h
    · rename_i rc k ps cs hnode
      simp only at h
      split at h
      · rename_i s2 h2
        split at h
        · rename_i s3 h3
          have hdi := hpre i (List.mem_cons_self _ _)
          have c0 : Core (s.emit (.fulfil ty i)) :=
            core_emit hi.1 _ (by intro a b e; cases e) (by intro a b e; cases e)
              (by intro a b c e; cases e)
          have a0 := argsHeld_emit hi.2 (Event.fulfil ty i)
          have f0 : Frame (fun _ => False) (fun _ => False) s (s.emit (.fulfil ty i)) :=
            frame_emit _ _ s _ (by intro a b e; cases e) (by intro a b e; cases e)
          have q1 : Quiet (s.emit (.fulfil ty i))
              ((s.emit (.fulfil ty i)).write i (some (.node (rc + 1) k ps cs))) :=
            quiet_write _ i _ _ hnode (by simp [Obj.SameView]) (fun _ => by simp [Obj.ArgLe])
          have i1 := inv_quiet ⟨c0, a0⟩ q1
          obtain ⟨i1b, f1b⟩ := Future.mk_inv i1 v (fun _ => False) (fun _ => False)
          have fpre : Frame (fun _ => False) (fun _ => False) s
              (Future.mk v ((s.emit (.fulfil ty i)).write i (some (.node (rc + 1) k ps cs)))).2 :=
            frame_trans f0 (frame_trans (frame_quiet _ _ q1) f1b)
          obtain ⟨i2, f2, _⟩ := ih.propagate i1b (fpre.node i hdi (fun x => x)) h2
          obtain ⟨i3, q3⟩ := release_inv code fuel _ i2.1 (argsHeld_nil i2.2) h3
          have fi : Frame (fun _ => False) (fun j => j = i) s s3 :=
            frame_trans (frame_weaken fpre (fun c hc _ => hc) (fun j hj _ => hj.elim))
              (frame_trans f2 (frame_quiet _ _ q3))
          have hpre3 : ∀ j ∈ is, s3.Dormant j := by
            intro j hj
            refine fi.node j (hpre j (List.mem_cons_of_mem _ hj)) ?_
            rintro rfl
            exact hi_notin hj
          obtain ⟨i4, f4⟩ := ih.deliverLoop i3 hnd2 hpre3 h
          exact ⟨i4, frame_trans
            (frame_weaken fi (fun c hc _ => hc)
              (fun j hj _ => by rw [hj]; exact List.mem_cons_self _ _))
            (frame_weaken f4 (fun c hc _ => hc) (fun j hj _ => List.mem_cons_of_mem _ hj))⟩
        · cases h
      · cases h
    · cases h
    · obtain ⟨i4, f4⟩ := ih.deliverLoop hi hnd2
        (fun j hj => hpre j (List.mem_cons_of_mem _ hj)) h
      exact ⟨i4, frame_weaken f4 (fun c hc _ => hc) (fun j hj _ => List.mem_cons_of_mem _ hj)⟩

theorem Keeps.deliver_succ {code : Code C V} {fuel : Nat} (ih : Keeps code fuel)
    {ty : Nat} {v : V} {s : State C V} {n : Nat} {s1 : State C V} (hi : Inv s)
    (h : Receive.deliver code (fuel + 1) ty v s = .ok (n, s1)) :
    Inv s1 ∧ Frame (fun _ => False) (fun _ => False) s s1 := by
  rw [Receive.deliver] at h
  have c0 := core_clear hi.1 ty
  have a0 : ArgsHeld [] { s with instances := fun t => if t = ty then [] else s.instances t } :=
    hi.2
  have f0 := frame_clear (fun _ => False) (fun i => i ∈ s.instances ty) s ty
  have hpre : ∀ i ∈ s.instances ty,
      State.Dormant { s with instances := fun t => if t = ty then [] else s.instances t } i := by
    intro i hm
    refine ⟨hi.1.regBound ty i hm, hi.1.regUnfired ty i hm, fun u hu => ?_, fun j o hs => ?_⟩
    · have hu : i ∈ (if u = ty then [] else s.instances u) := hu
      by_cases e : u = ty
      · rw [if_pos e] at hu
        cases hu
      · rw [if_neg e] at hu
        exact e (hi.1.regDisjoint u ty i hu hm)
    · have hs : (s.slots i).get? j = some (some o) := hs
      rw [hi.1.regSlots ty i hm] at hs
      simp at hs
  obtain ⟨i1, f1⟩ := ih.deliverLoop ⟨c0, a0⟩ (hi.1.regNodup ty) hpre h
  exact ⟨i1, frame_weaken (frame_trans f0 f1) (fun c hc _ => hc)
    (fun i hm hd => hd.2.2.1 ty hm)⟩

theorem Keeps.run_succ {code : Code C V} {fuel : Nat} (ih : Keeps code fuel)
    {p : Prog C V} {s : State C V} {x : Nat} {s1 : State C V} (hi : Inv s)
    (h : Prog.run code (fuel + 1) p s = .ok (x, s1)) :
    Inv s1 ∧ Frame (fun _ => False) (fun _ => False) s s1 := by
  cases p with
  | ret y =>
    simp [Prog.run] at h
    rw [← h.2]
    exact ⟨hi, frame_refl _ _ _⟩
  | value v k =>
    rw [Prog.run] at h
    obtain ⟨i1, f1⟩ := Future.mk_inv hi v (fun _ => False) (fun _ => False)
    obtain ⟨i2, f2⟩ := ih.run i1 h
    exact ⟨i2, frame_trans f1 f2⟩
  | empty k =>
    rw [Prog.run] at h
    obtain ⟨i1, f1⟩ := Future.empty_inv hi (fun _ => False) (fun _ => False)
    obtain ⟨i2, f2⟩ := ih.run i1 h
    exact ⟨i2, frame_trans f1 f2⟩
  | receive ty k =>
    rw [Prog.run] at h
    split at h
    · rename_i y s2 h2
      obtain ⟨i1, f1⟩ := Receive.create_keeps_inv code fuel ty hi h2
      obtain ⟨i2, f2⟩ := ih.run i1 h
      exact ⟨i2, frame_trans f1 f2⟩
    · cases h
  | bind args f k =>
    rw [Prog.run] at h
    split at h
    · rename_i y s2 h2
      obtain ⟨i1, f1⟩ := Bind.create_keeps_bind code fuel args f hi h2
      obtain ⟨i2, f2⟩ := ih.run i1 h
      exact ⟨i2, frame_trans f1 f2⟩
    · cases h
  | alt args fs k =>
    rw [Prog.run] at h
    split at h
    · rename_i y s2 h2
      obtain ⟨i1, f1⟩ := Alt.create_keeps_alt code fuel args fs hi h2
      obtain ⟨i2, f2⟩ := ih.run i1 h
      exact ⟨i2, frame_trans f1 f2⟩
    · cases h
  | copy y k =>
    rw [Prog.run] at h
    split at h
    · rename_i s2 h2
      have q1 := Future.copy_quiet h2
      obtain ⟨i2, f2⟩ := ih.run (inv_quiet hi q1) h
      exact ⟨i2, frame_trans (frame_quiet _ _ q1) f2⟩
    · cases h
  | drop y k =>
    rw [Prog.run] at h
    split at h
    · rename_i s2 h2
      obtain ⟨i1, q1⟩ := Future.drop_inv code fuel y hi h2
      obtain ⟨i2, f2⟩ := ih.run i1 h
      exact ⟨i2, frame_trans (frame_quiet _ _ q1) f2⟩
    · cases h
  | deliver ty v k =>
    rw [Prog.run] at h
    split at h
    · rename_i n s2 h2
      obtain ⟨i1, f1⟩ := ih.deliver hi h2
      obtain ⟨i2, f2⟩ := ih.run i1 h
      exact ⟨i2, frame_trans f1 f2⟩
    · cases h

theorem Keeps.succ {code : Code C V} {fuel : Nat} (ih : Keeps code fuel) :
    Keeps code (fuel + 1) :=
  ⟨ih.deliver_succ, ih.deliverLoop_succ, ih.propagate_succ, ih.setChildren_succ,
    ih.observerSet_succ, ih.nodeSet_succ, ih.run_succ⟩

/-- The invariant is kept by every function of the interpreter, with any fuel. -/
theorem keeps (code : Code C V) (fuel : Nat) : Keeps code fuel := by
  induction fuel with
  | zero => exact Keeps.zero code
  | succ fuel ih => exact ih.succ

theorem inv_init : Inv (State.init (C := C) (V := V)) := by
  refine ⟨?_, ?_⟩
  · constructor <;> intros <;>
      simp_all [State.init, State.kids, State.slots, State.kind, State.cell, State.arg,
        State.fired, State.wasSet, State.called, callsOf, setsOf]
  · intro o rc t i h
    simp [State.init, State.arg] at h

end keeps

section stable
variable {C V : Type} [Inhabited V]

theorem later_inv (code : Code C V) {s s1 : State C V} (h : Later code s s1) (hi : Inv s) :
    Inv s1 ∧ Frame (fun _ => False) (fun _ => False) s s1 := by
  induction h with
  | refl => exact ⟨hi, frame_refl _ _ _⟩
  | step _ hrun ih =>
    obtain ⟨i1, f1⟩ := ih
    obtain ⟨i2, f2⟩ := (keeps code _).run i1 hrun
    exact ⟨i2, frame_trans f1 f2⟩

omit [Inhabited V] in
theorem detached_of_ready {s : State C V} (hi : Inv s) {f : Nat}
    (hf : Future.ready s f = true) : s.Detached f ∧ ∃ v, s.cell f = some (true, v) := by
  unfold Future.ready at hf
  split at hf
  · rename_i rc r v p hx
    subst hf
    refine ⟨⟨State.heap_lt hi.1 hx, fun m hm => ?_⟩, v, State.cell_data hx⟩
    by_contra hnf
    have := hi.1.unfiredUnready m f hm hnf true v (State.cell_data hx)
    cases this
  · cases hf

/-- C10: in every state reachable through the public API, a future that is
ready keeps its value in every later state in which its cell is still alive,
and between the two states `set` is not called on its cell; over the whole
run `set` is called on a cell at most once. -/
theorem ready_future_keeps_value (code : Code C V) (s s1 : State C V)
    (hs : Later code State.init s) (hl : Later code s s1) (f : Nat)
    (hf : Future.ready s f = true) :
    (s1.heap f = none ∨ (Future.ready s1 f = true ∧ Future.get s1 f = Future.get s f)) ∧
      setsOf f s1.trace = setsOf f s.trace ∧ (setsOf f s1.trace).length ≤ 1 := by
  have hi := (later_inv code hs inv_init).1
  obtain ⟨i1, f1⟩ := later_inv code hl hi
  obtain ⟨hd, v, hc⟩ := detached_of_ready hi hf
  obtain ⟨_, hw, hk⟩ := f1.cell f hd (fun x => x)
  refine ⟨?_, ?_, i1.1.setsOnce f⟩
  · rcases hk _ hc with g | g
    · exact Or.inl g
    · right
      have e1 : ∀ (t : State C V), t.cell f = some (true, v) →
          Future.ready t f = true ∧ Future.get t f = v := by
        intro t ht
        unfold State.cell at ht
        split at ht
        · rename_i o ho
          cases o <;> simp [Obj.cellOf] at ht
          simp [Future.ready, Future.get, ho, ht]
        · cases ht
      exact ⟨(e1 s1 g).1, by rw [(e1 s1 g).2, (e1 s hc).2]⟩
  · obtain ⟨evs, he⟩ := f1.trace
    rw [he, setsOf_append]
    by_cases hws : s.wasSet f
    · have h1 := i1.1.setsOnce f
      rw [he, setsOf_append, List.length_append] at h1
      have h2 : setsOf f s.trace ≠ [] := by
        intro hnil
        obtain ⟨w, hw1⟩ := hws
        have : w ∈ setsOf f s.trace := by
          rw [setsOf, List.mem_filterMap]
          exact ⟨_, hw1, by simp⟩
        rw [hnil] at this
        cases this
      have h3 : 0 < (setsOf f s.trace).length := List.length_pos.2 h2
      have h4 : setsOf f evs = [] := List.length_eq_zero.1 (by omega)
      rw [h4, List.append_nil]
    · have h1 : ¬ s1.wasSet f := fun x => hws (hw x)
      have h2 := setsOf_nil_of_not_wasSet h1
      rw [he, setsOf_append] at h2
      exact h2.trans (setsOf_nil_of_not_wasSet hws).symm

/-- C10 on the run `x = receive<T>(); deliver<T>(5)` followed by
`y = receive<T>(); deliver<T>(6)`: `x` is ready with 5 after the first delivery
and still ready with 5 after the second. -/
theorem ready_future_keeps_value_witness :
    ∃ s s1 : State Empty Nat, Later noCode State.init s ∧ Later noCode s s1 ∧
      Future.ready s 1 = true ∧ Future.get s 1 = 5 ∧
      Future.ready s1 1 = true ∧ Future.get s1 1 = 5 ∧
      setsOf 1 s1.trace = setsOf 1 s.trace := by
  have h : ∃ s : State Empty Nat, Prog.run noCode 12 (receiveThenDeliver 5) State.init = .ok (1, s) ∧
      Future.ready s 1 = true ∧ Future.get s 1 = 5 ∧
      ∃ s1, Prog.run noCode 12 (receiveThenDeliver 6) s = .ok (4, s1) ∧ s1.heap 1 ≠ none := by
    simp [receiveThenDeliver, Prog.run, Receive.create, Future.create, State.alloc, State.emit,
      State.write, release, Obj.rc, Obj.setRc, Obj.refs, Kind.captures, Receive.deliver,
      Receive.deliverLoop, Future.mk, Node.propagate, Node.setChildren, Observer.set,
      Future.ready, Future.get, State.init]
  obtain ⟨s, h1, hr, hg, s1, h2, hne⟩ := h
  have l1 : Later noCode State.init s := Later.step (Later.refl _) h1
  have l2 : Later noCode s s1 := Later.step (Later.refl _) h2
  obtain ⟨hv, hsets, _⟩ := ready_future_keeps_value noCode s s1 l1 l2 1 hr
  rcases hv with g | ⟨g1, g2⟩
  · exact absurd g hne
  · exact ⟨s, s1, l1, l2, hr, hg, g1, by rw [g2, hg], hsets⟩

end stable

section firing
variable {C V : Type} [Inhabited V]

omit [Inhabited V] in
theorem calls_after_fire {s2 s1 : State C V} {t idx : Nat} {args : List V}
    {evs : List (Event V)} (i1 : Inv s1) (hnc : ¬ s2.called t)
    (he : s1.trace = s2.trace ++ .call t idx args :: evs) :
    callsOf t s1.trace = [(idx, args)] := by
  have h1 := i1.1.callsOnce t
  rw [he, callsOf_append, callsOf_nil_of_not_called hnc, List.nil_append] at h1 ⊢
  have h2 : callsOf t (Event.call t idx args :: evs) = (idx, args) :: callsOf t evs := by
    simp [callsOf]
  rw [h2] at h1 ⊢
  have h3 : callsOf t evs = [] := List.length_eq_zero.1 (by simpa using h1)
  rw [h3]

omit [Inhabited V] in
theorem calls_persist {s1 s2 : State C V} {t : Nat} {c : Nat × List V} (i2 : Inv s2)
    (he : ∃ evs, s2.trace = s1.trace ++ evs) (h : callsOf t s1.trace = [c]) :
    callsOf t s2.trace = [c] := by
  obtain ⟨evs, he⟩ := he
  have h1 := i2.1.callsOnce t
  rw [he, callsOf_append, h] at h1 ⊢
  have h3 : callsOf t evs = [] := List.length_eq_zero.1 (by simpa using h1)
  rw [h3]
  rfl

/-- C7: `Alt::set<i>(v)` on an alt node whose parents slot `i` is still
occupied (no input of the alt has been set before: the first set clears every
slot) finds that no callback of the alt was invoked so far and invokes `f_i(v)`;
in the state reached, and in every later state of the run, the one invocation
of `f_i` with `v` is the only callback invocation of this alt. -/
theorem alt_fires_once (code : Code C V) (s : State C V) (hi : Inv s) (t rc : Nat)
    (fs : List C) (ps : List (Option Nat)) (cs : List Nat)
    (ht : s.heap t = some (.node rc (.alt fs) ps cs)) (i o : Nat)
    (hslot : ps.get? i = some (some o)) (v : V) (fuel : Nat) (s1 : State C V)
    (h : Node.set code fuel t i v s = .ok s1) :
    callsOf t s.trace = [] ∧ callsOf t s1.trace = [(i, [v])] ∧ Inv s1 ∧
      ∀ s2 : State C V, Inv s2 → (∃ evs, s2.trace = s1.trace ++ evs) →
        callsOf t s2.trace = [(i, [v])] := by
  have hkind := State.kind_node ht
  have hslots := State.slots_node ht
  have hslot0 : (s.slots t).get? i = some (some o) := by rw [hslots]; exact hslot
  have hnc : ¬ s.called t := fun hcl => hi.1.calledAlt t fs hkind hcl i o hslot0
  have hnf : ¬ s.fired t := fun hf => hi.1.firedSlots t hf i o hslot0
  have hreg : ∀ ty, t ∉ s.instances ty := by
    intro ty hty
    rw [hi.1.regSlots ty t hty] at hslot0
    simp at hslot0
  cases fuel with
  | zero => simp [Node.set] at h
  | succ fuel =>
    rw [Node.set] at h
    split at h
    · rename_i _ _ _ _ _ _ ht1
      rw [ht] at ht1
      cases ht1
    · rename_i rc1 fs1 ps1 cs1 ht1
      rw [ht] at ht1
      simp only [Option.some.injEq, Obj.node.injEq, Kind.alt.injEq] at ht1
      obtain ⟨_, rfl, rfl, _⟩ := ht1
      split at h
      · rename_i s2 h2
        obtain ⟨i2, f2, htr, hin, hnx, hsl, hkd⟩ := Alt.resetParents_inv code fuel t _ hi h2
        split at h
        · rename_i f hf
          split at h
          · rename_i x s3 h3
            split at h
            · rename_i s4 h4
              have hsl2 : ∀ j o1, (s2.slots t).get? j ≠ some (some o1) := by
                intro j o1 hs
                obtain ⟨g1, g2⟩ := hsl j o1 hs
                rw [hslots, List.get?_eq_getElem?] at g1
                have hlt : j < ps.length := by
                  by_contra hge
                  rw [List.getElem?_eq_none (not_lt.1 hge)] at g1
                  cases g1
                exact g2 (List.mem_range.2 hlt)
              have hnc2 : ¬ s2.called t := fun hcl => hnc ((State.called_congr htr t).1 hcl)
              obtain ⟨i5, f5, ⟨evs, he⟩, _⟩ := (keeps code fuel).fire i2
                (by rw [hnx]; exact State.heap_lt hi.1 ht) hnc2
                (fun hf => hnf ((State.fired_congr htr t).1 hf))
                (by rw [hin]; exact hreg) hsl2
                (by
                  intro r ar f0 hk
                  have := hkd _ hk
                  rw [hkind] at this
                  cases this)
                h3 h4 h
              have hcalls := calls_after_fire i5 hnc2 he
              exact ⟨callsOf_nil_of_not_called hnc, hcalls, i5,
                fun s6 i6 he6 => calls_persist i6 he6 hcalls⟩
            · cases h
          · cases h
        · cases h
      · cases h
    · cases h

theorem altSameFutureRun_eq : altSameFutureRun 5 = some (1, [(0, [5])], 5) := by decide!

theorem altTwoInputsRun_eq : altTwoInputsRun 5 = some [(0, [5])] := by decide!

/-- C7 on `a = receive<A>(); x = alt<T, A, A>(a, a, f, g)`: the first
`Alt::set<0>(9)` invokes `f(9)` and nothing else. With the same future in both
positions, and with two inputs resolved by the same `deliver`, the run of
`deliver<A>(5)` invokes only the callback of position 0, once. -/
theorem alt_fires_once_witness :
    ∃ s s1 : State (List Nat → Nat) Nat,
      Prog.run pureCode 10 altSameFuture State.init = .ok (5, s) ∧
      Node.set pureCode 8 2 0 9 s = .ok s1 ∧ callsOf 2 s1.trace = [(0, [9])] ∧
      altSameFutureRun 5 = some (1, [(0, [5])], 5) ∧ altTwoInputsRun 5 = some [(0, [5])] := by
  have h : ∃ s : State (List Nat → Nat) Nat,
      Prog.run pureCode 10 altSameFuture State.init = .ok (5, s) ∧
      s.heap 2 = some (.node 1 (.alt [fun l => l.headD 0, fun l => l.headD 0 + 100])
        [some 3, some 4] [5]) ∧
      ∃ s1, Node.set pureCode 8 2 0 9 s = .ok s1 := by
    simp [altSameFuture, Prog.run, Receive.create, Alt.create, Future.create, Future.copyAll,
      Future.getParents, Future.getParent, Node.connect, State.alloc, State.emit, State.write,
      release, Obj.rc, Obj.setRc, Obj.refs, Kind.captures, pureCode, State.init, Node.set,
      Alt.resetParents, List.range, List.range.loop, Future.mk, Node.propagate,
      Node.setChildren, Observer.set]
  obtain ⟨s, h1, ht, s1, h2⟩ := h
  have hi : Inv s := ((keeps pureCode 10).run inv_init h1).1
  obtain ⟨_, hc, _⟩ := alt_fires_once pureCode s hi 2 1 _ [some 3, some 4] [5] ht 0 3 (by simp)
    9 8 s1 h2
  exact ⟨s, s1, h1, h2, hc, altSameFutureRun_eq, altTwoInputsRun_eq⟩

theorem Node.propagate_node {code : Code C V} {fuel n x : Nat} {s s1 : State C V}
    (h : Node.propagate code fuel n x s = .ok s1) :
    ∃ rc k ps cs, s.heap n = some (.node rc k ps cs) := by
  cases fuel with
  | zero => simp [Node.propagate] at h
  | succ fuel =>
    rw [Node.propagate] at h
    split at h
    · rename_i hn
      exact ⟨_, _, _, _, hn⟩
    · cases h
    · rename_i hn
      exact ⟨_, _, _, _, hn⟩
    · cases h

/-- What `Bind::set<i>(v)` does on a bind node whose parents slot `i` is still
occupied: the callback was not invoked so far; if a readiness bit is still unset
afterwards no callback is invoked, and if all bits are set the callback is
invoked once, with the slots in positional order. -/
theorem Node.set_bind_spec (code : Code C V) (s : State C V) (hi : Inv s) (t rc : Nat)
    (ready : List Bool) (args : List V) (f : C) (ps : List (Option Nat)) (cs : List Nat)
    (ht : s.heap t = some (.node rc (.bind ready args f) ps cs)) (i o : Nat)
    (hslot : ps.get? i = some (some o)) (v : V) (fuel : Nat) (s1 : State C V)
    (h : Node.set code fuel t i v s = .ok s1) :
    callsOf t s.trace = [] ∧ Inv s1 ∧
      ((ready.set i true).all id = false → s1.trace = s.trace ∧
        (s1.heap t = none ∨ ∃ rc1, s1.heap t =
          some (.node rc1 (.bind (ready.set i true) (args.set i v) f) (ps.set i none) cs))) ∧
      ((ready.set i true).all id = true →
        callsOf t s1.trace = [(0, args.set i v)] ∧
        (∀ s2 : State C V, Inv s2 → (∃ evs, s2.trace = s1.trace ++ evs) →
          callsOf t s2.trace = [(0, args.set i v)]) ∧
        ∀ w, code.body f (args.set i v) = .value w .ret → ∀ c ∈ cs, ∀ rv,
          s.cell c = some rv → s1.heap c = none ∨ s1.cell c = some (true, w)) := by
  have hkind := State.kind_node ht
  have hslots := State.slots_node ht
  have hkids := State.kids_node ht
  have hslot0 : (s.slots t).get? i = some (some o) := by rw [hslots]; exact hslot
  have hnf : ¬ s.fired t := fun hf => hi.1.firedSlots t hf i o hslot0
  have hreg : ∀ ty, t ∉ s.instances ty := by
    intro ty hty
    rw [hi.1.regSlots ty t hty] at hslot0
    simp at hslot0
  have hbit : ready.get? i = some false := hi.1.bindSlot t ready args f hkind i o hslot0
  have hnc : ¬ s.called t := by
    intro hcl
    have hall := hi.1.calledBind t ready args f hkind hcl
    rw [List.all_eq_true] at hall
    have := hall false (List.get?_mem hbit)
    simp at this
  have hbits : ∀ j o1, (ps.set i none).get? j = some (some o1) →
      (ready.set i true).get? j = some false := by
    intro j o1 hs
    obtain ⟨g1, g2⟩ := List.get?_set_none hs
    have := hi.1.bindSlot t ready args f hkind j o1 (by rw [hslots]; exact g1)
    rw [List.get?_eq_getElem?, List.getElem?_set_ne (fun e => g2 e.symm),
      ← List.get?_eq_getElem?]
    exact this
  cases fuel with
  | zero => simp [Node.set] at h
  | succ fuel =>
    rw [Node.set] at h
    split at h
    · rename_i rc1 ready1 args1 f1 ps1 cs1 ht1
      rw [ht] at ht1
      simp only [Option.some.injEq, Obj.node.injEq, Kind.bind.injEq] at ht1
      obtain ⟨rfl, ⟨rfl, rfl, rfl⟩, rfl, rfl⟩ := ht1
      simp only at h
      split at h
      · rename_i s2 h2
        obtain ⟨i2, f2, q2⟩ := reset_slot_inv code fuel t i hi _ (.bind ready args f)
          (.bind (ready.set i true) (args.set i v) f) ps cs ht
          (by
            intro r ar f0 hk j o1 hs
            simp only [Kind.bind.injEq] at hk
            rw [← hk.1]
            exact hbits j o1 hs)
          (fun r ar f0 _ hcl => absurd hcl hnc)
          (by intro fs hk; cases hk)
          h2
        have htr : s2.trace = s.trace := q2.1.2.2.1
        have hin : s2.instances = s.instances := q2.1.2.1
        have hnx : s2.next = s.next := q2.1.1
        split at h
        · rename_i hall
          split at h
          · rename_i x s3 h3
            split at h
            · rename_i s4 h4
              have hk2 : ∀ r ar f0, s2.kind t = some (.bind r ar f0) → r = ready.set i true := by
                intro r ar f0 hk
                have := calm_kind q2.1 t _ hk
                rw [State.kind_write, if_pos rfl] at this
                simp only [Obj.kindOf, Option.some.injEq, Kind.bind.injEq] at this
                exact this.1.symm
              have hsl2 : ∀ j o1, (s2.slots t).get? j ≠ some (some o1) := by
                intro j o1 hs
                rcases calm_slots q2.1 t with e | e
                · rw [e, State.slots_write, if_pos rfl] at hs
                  simp only [Obj.slotsOf] at hs
                  have hb := hbits j o1 hs
                  rw [List.all_eq_true] at hall
                  have := hall false (List.get?_mem hb)
                  simp at this
                · rw [e] at hs
                  simp at hs
              have hnc2 : ¬ s2.called t := fun hcl => hnc ((State.called_congr htr t).1 hcl)
              obtain ⟨i5, f5, ⟨evs, he⟩, p5⟩ := (keeps code fuel).fire i2
                (by rw [hnx]; exact State.heap_lt hi.1 ht) hnc2
                (fun hf => hnf ((State.fired_congr htr t).1 hf))
                (by rw [hin]; exact hreg) hsl2
                (by
                  intro r ar f0 hk
                  rw [hk2 r ar f0 hk]
                  exact hall)
                h3 h4 h
              have hcalls := calls_after_fire i5 hnc2 he
              refine ⟨callsOf_nil_of_not_called hnc, i5, fun hf => ?_, fun _ => ⟨hcalls,
                fun s6 i6 he6 => calls_persist i6 he6 hcalls, ?_⟩⟩
              · rw [hall] at hf
                cases hf
              · intro w hbody c hc rv hrv
                have hclt : c < s.next := hi.1.childBound t c (by rw [hkids]; exact hc)
                have hct : c ≠ t := by
                  rintro rfl
                  rw [State.cell_node ht] at hrv
                  cases hrv
                -- the callback only allocates the ready future
                rw [hbody] at h3
                cases fuel with
                | zero => simp [Prog.run] at h3
                | succ k =>
                  rw [Prog.run] at h3
                  cases k with
                  | zero => simp [Prog.run] at h3
                  | succ k =>
                    simp only [Prog.run, Except.ok.injEq, Prod.mk.injEq] at h3
                    obtain ⟨hx, hs3⟩ := h3
                    have hxe : x = s2.next := hx.symm
                    have hs3h : ∀ a, a ≠ s2.next → s3.heap a = s2.heap a := by
                      intro a ha
                      rw [← hs3]
                      simp [Future.mk, State.alloc, ha]
                    have hx3 : s3.heap x = some (.data 1 true w none) := by
                      rw [← hs3, hxe]
                      simp [Future.mk, State.alloc]
                    have hc2 : s2.heap c = none ∨ s2.cell c = some rv :=
                      calm_cell_keep q2.1 c rv (by rw [State.cell_write, if_neg hct]; exact hrv)
                    rcases hc2 with g | g
                    · exact Or.inl (f5.dead c (by rw [hnx]; exact hclt) g)
                    · obtain ⟨rc3, k3, ps3, cs3, ht3⟩ := Node.propagate_node h4
                      have hne : t ≠ s2.next := by
                        have := State.heap_lt hi.1 ht
                        omega
                      have ht2 : s2.heap t = some (.node rc3 k3 ps3 cs3) := by
                        rw [← hs3h t hne]; exact ht3
                      have hk2 : s2.kids t = cs := by
                        obtain ⟨_, e2, _⟩ := calm_slots_alive q2.1 t
                          (by rw [State.kind_node ht2]; simp)
                        rw [e2, State.kids_write, if_pos rfl]
                        rfl
                      have hk3 : s3.kids t = cs := by
                        rw [State.kids, hs3h t hne]
                        exact hk2
                      have hc3 : s3.cell c = some rv := by
                        rw [State.cell, hs3h c (by omega)]
                        exact g
                      exact p5 1 w none hx3 c (by rw [hk3]; exact hc) rv hc3
            · cases h
          · cases h
        · rename_i hall
          cases h
          refine ⟨callsOf_nil_of_not_called hnc, i2, fun _ => ⟨htr, ?_⟩, fun hf => ?_⟩
          · rcases q2.1.2.2.2 t with g | ⟨ob, ob1, hob, hob1, hv⟩
            · exact Or.inl g
            · right
              simp only [State.write_heap, if_true, Option.some.injEq] at hob
              subst hob
              cases ob1 <;> simp only [Obj.SameView] at hv
              obtain ⟨rfl, rfl, rfl⟩ := hv
              exact ⟨_, hob1⟩
          · exact absurd hf hall
      · cases h
    · rename_i _ _ _ _ ht1
      rw [ht] at ht1
      cases ht1
    · cases h

/-- C6, amended. `Bind::set<i>(v)` on a bind node whose parents slot `i` is
still occupied (input `i` has not been set before) finds that the callback was
not invoked so far. If a readiness bit is still unset afterwards, no callback is
invoked (the trace is unchanged) and the node, if alive, holds `v` in slot `i`
with the other slots unchanged. If all bits are set, the callback is invoked
with the slots in positional order, and this is its only invocation in the
state reached and in every later state; if the callback returns the ready
future of a value `w`, every value cell then subscribed to the bind node is
ready with value `w` as long as it is alive. -/
theorem bind_fires_when_complete (code : Code C V) (s : State C V) (hi : Inv s) (t rc : Nat)
    (ready : List Bool) (args : List V) (f : C) (ps : List (Option Nat)) (cs : List Nat)
    (ht : s.heap t = some (.node rc (.bind ready args f) ps cs)) (i o : Nat)
    (hslot : ps.get? i = some (some o)) (v : V) (fuel : Nat) (s1 : State C V)
    (h : Node.set code fuel t i v s = .ok s1) :
    callsOf t s.trace = [] ∧ Inv s1 ∧
      ((ready.set i true).all id = false → s1.trace = s.trace ∧
        (s1.heap t = none ∨ ∃ rc1, s1.heap t =
          some (.node rc1 (.bind (ready.set i true) (args.set i v) f) (ps.set i none) cs))) ∧
      ((ready.set i true).all id = true →
        callsOf t s1.trace = [(0, args.set i v)] ∧
        (∀ s2 : State C V, Inv s2 → (∃ evs, s2.trace = s1.trace ++ evs) →
          callsOf t s2.trace = [(0, args.set i v)]) ∧
        ∀ w, code.body f (args.set i v) = .value w .ret → ∀ c ∈ cs, ∀ rv,
          s.cell c = some rv → s1.heap c = none ∨ s1.cell c = some (true, w)) :=
  Node.set_bind_spec code s hi t rc ready args f ps cs ht i o hslot v fuel s1 h

theorem selfGraftRun_eq : selfGraftRun = some (some 2, [(0, [2])], false, true, 102) := by
  decide!

theorem bindTwoRun_eq : bindTwoRun 0 3 1 4 = some (false, 0, [(0, [3, 4])], 34) := by decide!

theorem bindTwoRun_swapped : bindTwoRun 1 4 0 3 = some (false, 0, [(0, [3, 4])], 34) := by
  decide!

/-- C6, as stated, fails in its last part: `x = bind<T, A>(receive<A>(), f)` with
`f(a) = T(a + 100)`, and `y = bind<T, B>(receive<B>(), [x](B) { return x; })`.
After `deliver<B>(1)` and `deliver<A>(2)` the callback `f` of the bind of `x`
(the node 2, the producer of the cell 4 of `x`) was invoked exactly once, with
2, and returned a ready future, `y` is ready with 102, but `x` is not ready. -/
theorem bind_future_unresolved_after_graft :
    ∃ y s n1 s1 n2 s2, Prog.run selfGraftCode 12 selfGraft State.init = .ok (y, s) ∧
      Future.getParent s 4 = .ok (some 2) ∧
      Receive.deliver selfGraftCode 20 1 1 s = .ok (n1, s1) ∧
      Receive.deliver selfGraftCode 20 0 2 s1 = .ok (n2, s2) ∧
      callsOf 2 s2.trace = [(0, [2])] ∧ Future.ready s2 4 = false ∧
      Future.ready s2 y = true ∧ Future.get s2 y = 102 := by
  have h := selfGraftRun_eq
  unfold selfGraftRun at h
  split at h
  · rename_i y s hs
    split at h
    · rename_i n1 s1 h1
      split at h
      · rename_i n2 s2 h2
        simp only [Option.some.injEq, Prod.mk.injEq] at h
        obtain ⟨hp, hc, r1, r2, g2⟩ := h
        refine ⟨y, s, n1, s1, n2, s2, hs, ?_, h1, h2, hc, r1, r2, g2⟩
        cases hg : Future.getParent s 4 with
        | error e => rw [hg] at hp; cases hp
        | ok p =>
          rw [hg] at hp
          simp [Except.toOption] at hp
          rw [hp]
      · cases h
    · cases h
  · cases h

/-- C6 (amended) on `x = bind<T, A>(receive<A>(), f)` with `f(a) = T(a + 100)`:
`Bind::set<0>(7)` invokes `f(7)`, once, and `x` is ready with 107. With two
inputs, `x` is unready and `f` not invoked after the first delivery and `f` is
invoked with `(3, 4)` after the second, in either order of the deliveries. -/
theorem bind_fires_when_complete_witness :
    ∃ s s1 : State (List Nat → Nat) Nat,
      Prog.run pureCode 10 bindOne State.init = .ok (4, s) ∧
      Node.set pureCode 8 2 0 7 s = .ok s1 ∧ callsOf 2 s1.trace = [(0, [7])] ∧
      s1.cell 4 = some (true, 107) ∧
      bindTwoRun 0 3 1 4 = some (false, 0, [(0, [3, 4])], 34) ∧
      bindTwoRun 1 4 0 3 = some (false, 0, [(0, [3, 4])], 34) := by
  have h : ∃ s : State (List Nat → Nat) Nat,
      Prog.run pureCode 10 bindOne State.init = .ok (4, s) ∧
      s.heap 2 = some (.node 1 (.bind [false] [0] (fun l => l.headD 0 + 100)) [some 3] [4]) ∧
      s.cell 4 = some (false, 0) ∧
      ∃ s1, Node.set pureCode 8 2 0 7 s = .ok s1 ∧ s1.heap 4 ≠ none := by
    simp [bindOne, Prog.run, Receive.create, Bind.create, Future.create, Future.copyAll,
      Future.getParents, Future.getParent, Node.connect, State.alloc, State.emit, State.write,
      release, Obj.rc, Obj.setRc, Obj.refs, Kind.captures, pureCode, State.init, Node.set,
      Future.mk, Node.propagate, Node.setChildren, Observer.set, Future.drop, State.cell,
      Obj.cellOf, Node.reparent]
  obtain ⟨s, h1, ht, hc, s1, h2, hne⟩ := h
  have hi : Inv s := ((keeps pureCode 10).run inv_init h1).1
  obtain ⟨_, _, _, hfire⟩ := bind_fires_when_complete pureCode s hi 2 1 [false] [0] _
    [some 3] [4] ht 0 3 (by simp) 7 8 s1 h2
  obtain ⟨hcalls, _, hval⟩ := hfire (by simp)
  refine ⟨s, s1, h1, h2, hcalls, ?_, bindTwoRun_eq, bindTwoRun_swapped⟩
  rcases hval 107 (by simp [pureCode]) 4 (by simp) _ hc with g | g
  · exact absurd g hne
  · exact g

end firing

/-! ## Setting a value cell -/

section cellSet
variable {C V : Type} [Inhabited V]

/-- C11, as stated, fails: `Future<T>::Data::set` has no guard. On the cell of
`x = receive<T>()`, `set(7)` leaves the cell ready with value 7 and a null
producer, and a subsequent `set(8)` is not a no-op: the cell then holds 8. -/
theorem data_set_twice_overwrites :
    ∃ s s1 s2 : State Empty Nat, Receive.create noCode 2 0 State.init = .ok (1, s) ∧
      Observer.set noCode 3 1 7 s = .ok s1 ∧ Future.ready s1 1 = true ∧ Future.get s1 1 = 7 ∧
      Future.getParent s1 1 = .ok none ∧
      Observer.set noCode 3 1 8 s1 = .ok s2 ∧ Future.ready s2 1 = true ∧ Future.get s2 1 = 8 := by
  simp [Receive.create, Future.create, State.alloc, State.emit, State.write, release, Obj.rc,
    Obj.setRc, Obj.refs, Kind.captures, State.init, Observer.set, Future.ready, Future.get,
    Future.getParent]

/-- C11, amended. After `set(v)` has run on a value cell, the cell, as long as it
is alive, is ready with value `v` and has a null producer, whatever it held
before. A subsequent `set(w)` returns and overwrites the value: the cell is then
ready with value `w`. That a cell is resolved at most once is a property of the
runs: in every state reachable from the initial one, `set` was called at most
once on each observer. -/
theorem data_set_overwrites (code : Code C V) (fuel c rc : Nat) (r : Bool) (u : V)
    (p : Option Nat) (v : V) (s s1 : State C V) (hc : s.heap c = some (.data rc r u p))
    (h : Observer.set code fuel c v s = .ok s1) :
    (s1.heap c = none ∨ ∃ rc1, s1.heap c = some (.data rc1 true v none)) ∧
    (s1.heap c ≠ none → Future.ready s1 c = true ∧ Future.get s1 c = v ∧
      Future.getParent s1 c = .ok none) ∧
    (∀ rc1, s1.heap c = some (.data rc1 true v none) → ∀ (w : V) (fuel1 : Nat),
      Observer.set code (fuel1 + 1) c w s1 = .ok (s1.write c (some (.data rc1 true w none))) ∧
      Future.ready (s1.write c (some (.data rc1 true w none))) c = true ∧
      Future.get (s1.write c (some (.data rc1 true w none))) c = w) ∧
    ∀ s0 : State C V, Later code State.init s0 → ∀ o, (setsOf o s0.trace).length ≤ 1 := by
  have g : s1.heap c = none ∨ ∃ rc1, s1.heap c = some (.data rc1 true v none) := by
    cases fuel with
    | zero => simp [Observer.set] at h
    | succ fuel =>
      rw [Observer.set] at h
      simp only [hc] at h
      rcases (release_shrinks code fuel _ h).2.2.2 c with h0 | ⟨o, ho, n, _, h1⟩
      · exact Or.inl h0
      · simp only [State.write_heap, if_true, Option.some.injEq] at ho
        subst ho
        exact Or.inr ⟨n, h1⟩
  refine ⟨g, ?_, ?_, ?_⟩
  · intro hne
    rcases g with h0 | ⟨rc1, h1⟩
    · exact absurd h0 hne
    · simp [Future.ready, Future.get, Future.getParent, h1]
  · intro rc1 h1 w fuel1
    refine ⟨?_, ?_, ?_⟩
    · rw [Observer.set]
      simp only [h1, Option.toList]
      cases fuel1 <;> rfl
    · simp [Future.ready]
    · simp [Future.get]
  · intro s0 h0 o
    exact (later_inv code h0 inv_init).1.1.setsOnce o

/-- C11 (amended) on the cell of `x = receive<T>()`: `set(7)` leaves the cell alive,
ready with 7 and without producer, and `set(8)` after it leaves the value 8. -/
theorem data_set_overwrites_witness :
    ∃ s s1 : State Empty Nat, Receive.create noCode 2 0 State.init = .ok (1, s) ∧
      Observer.set noCode 3 1 7 s = .ok s1 ∧
      (Future.ready s1 1 = true ∧ Future.get s1 1 = 7 ∧ Future.getParent s1 1 = .ok none) ∧
      ∃ rc1, Observer.set noCode 3 1 8 s1 = .ok (s1.write 1 (some (.data rc1 true 8 none))) := by
  have h : ∃ s s1 : State Empty Nat, Receive.create noCode 2 0 State.init = .ok (1, s) ∧
      s.heap 1 = some (.data 1 false default (some 0)) ∧
      Observer.set noCode 3 1 7 s = .ok s1 ∧ s1.heap 1 ≠ none := by
    simp [Receive.create, Future.create, State.alloc, State.emit, State.write, release, Obj.rc,
      Obj.setRc, Obj.refs, Kind.captures, State.init, Observer.set]
  obtain ⟨s, s1, hs, hc, h1, hne⟩ := h
  obtain ⟨g, gr, gw, _⟩ := data_set_overwrites noCode 3 1 1 false default (some 0) 7 s s1 hc h1
  rcases g with g0 | ⟨rc1, g1⟩
  · exact absurd g0 hne
  · exact ⟨s, s1, hs, h1, gr hne, rc1, (gw rc1 g1 8 2).1⟩

end cellSet

/-! ## The graft step -/

section graftStep
variable {C V : Type} [Inhabited V]

/-- The graft branch of `propagate` on `n` with an unready future whose producer
is another node `p`: the two assignments to the children lists, followed by
changes of strong counts and of parents only. -/
theorem graft_regrafts (code : Code C V) (fuel n x : Nat) (s s1 : State C V)
    (rcx : Nat) (w : V) (p rcn : Nat) (k : Kind C V) (ps : List (Option Nat)) (cs : List Nat)
    (prc : Nat) (pk : Kind C V) (pps : List (Option Nat)) (pcs : List Nat)
    (hx : s.heap x = some (.data rcx false w (some p)))
    (hn : s.heap n = some (.node rcn k ps cs))
    (hp : s.heap p = some (.node prc pk pps pcs)) (hpn : p ≠ n)
    (h : Node.propagate code fuel n x s = .ok s1) :
    Regrafts p (((s.emit (.propagate n x)).write p (some (.node prc pk pps cs))).write n
        (some (.node rcn k ps []))) s1 ∧
      ∀ c ∈ cs, s1.heap c = none ∨ s1.HasParent c p := by
  cases fuel with
  | zero => simp [Node.propagate] at h
  | succ fuel =>
    rw [Node.propagate] at h
    simp only [hx, hn, hp] at h
    simp only [State.write_heap, State.emit_heap, if_neg (Ne.symm hpn), if_neg hpn, hn,
      if_true] at h
    exact reparent_spec code fuel p cs h

theorem heldResultRun_eq : heldResultRun 5 = some ⟨1, 6, [1], [6], false, true, 5⟩ := by
  decide!

/-- C12, as stated, fails: the lists are not concatenated. With
`r = receive<T>()` held and `x = bind<T, A>(receive<A>(), [r](A) { return r; })`,
the `Receive<T>` node `P` (at 0) has the cell of `r` (at 1) as its only child.
After `deliver<A>(7)` has grafted the bind onto `P`, the children of `P` are the
cell of `x` (at 6) alone: the cell of `r` is lost, and after `deliver<T>(5)` the
future `x` is ready with 5 while `r` is still unready. -/
theorem graft_drops_previous_children :
    ∃ s n1 s1 n2 s2, heldResult (retCode 1) 4 () (State.init (V := Nat)) = .ok ((1, 6), s) ∧
      s.kids 0 = [1] ∧
      Receive.deliver (retCode 1) 20 1 7 s = .ok (n1, s1) ∧ s1.kids 0 = [6] ∧
      Receive.deliver (retCode 1) 20 0 5 s1 = .ok (n2, s2) ∧
      Future.ready s2 1 = false ∧ Future.ready s2 6 = true ∧ Future.get s2 6 = 5 := by
  have h := heldResultRun_eq
  unfold heldResultRun at h
  split at h
  · rename_i r x s hs
    split at h
    · rename_i n1 s1 h1
      split at h
      · rename_i n2 s2 h2
        simp only [Option.some.injEq, HeldObs.mk.injEq] at h
        obtain ⟨rfl, rfl, k0, k1, r1, r2, g2⟩ := h
        exact ⟨s, n1, s1, n2, s2, hs, k0, h1, k1, h2, r1, r2, g2⟩
      · cases h
    · cases h
  · cases h

/-- C12, amended. In `propagate(x)` on the node `n` with `x` not ready and its
producer `P` another node: after the graft the children list of `P` is exactly
the children list `n` had, in the same order; the list `P` had before is
replaced, so a child of `P` that was not also a child of `n` is no longer a
child of `P`. -/
theorem graft_replaces_children (code : Code C V) (fuel n x : Nat) (s s1 : State C V)
    (rcx : Nat) (w : V) (p rcn : Nat) (k : Kind C V) (ps : List (Option Nat)) (cs : List Nat)
    (prc : Nat) (pk : Kind C V) (pps : List (Option Nat)) (pcs : List Nat)
    (hx : s.heap x = some (.data rcx false w (some p)))
    (hn : s.heap n = some (.node rcn k ps cs))
    (hp : s.heap p = some (.node prc pk pps pcs)) (hpn : p ≠ n)
    (h : Node.propagate code fuel n x s = .ok s1) :
    (s1.heap p = none ∨ ∃ rc, s1.heap p = some (.node rc pk pps cs)) ∧
      ∀ d ∈ pcs, d ∉ cs → d ∉ s1.kids p := by
  obtain ⟨rg, _⟩ := graft_regrafts code fuel n x s s1 rcx w p rcn k ps cs prc pk pps pcs
    hx hn hp hpn h
  have g : s1.heap p = none ∨ ∃ rc, s1.heap p = some (.node rc pk pps cs) := by
    rcases rg.2 p (.node prc pk pps cs) (by simp [hpn]) with h0 | ⟨o1, h1, hr⟩
    · exact Or.inl h0
    · cases o1 <;> simp only [Obj.Reparented] at hr
      obtain ⟨rfl, rfl, rfl⟩ := hr
      exact Or.inr ⟨_, h1⟩
  refine ⟨g, fun d _ hd hk => ?_⟩
  rcases g with h0 | ⟨rc, h1⟩
  · simp [State.kids, h0] at hk
  · rw [State.kids_node h1] at hk
    exact hd hk

/-- C12 (amended) in the middle of the firing of `x = bind<T, A>(receive<A>(), f)`
whose callback returned the unready future (at 6) of a new `receive<T>()`: the
`Receive<T>` node (at 5) had the cell 6 as its only child and has the cell 4 of
`x` as its only child after the graft. -/
theorem graft_replaces_children_witness :
    ∃ s1, Node.propagate pureCode 3 2 6 (graftState (fun l => l.headD 0) 0) = .ok s1 ∧
      (graftState (fun l => l.headD 0) 0 : State (List Nat → Nat) Nat).kids 5 = [6] ∧
      s1.kids 5 = [4] ∧ 6 ∉ s1.kids 5 := by
  have hd : ∃ s1, Node.propagate pureCode 3 2 6 (graftState (fun l => l.headD 0) 0) = .ok s1 ∧
      s1.heap 5 ≠ none := by
    simp [graftState, Node.propagate, Node.reparent, acquire, State.write, release, Obj.rc,
      Obj.setRc, Obj.refs, Kind.captures, pureCode, State.emit]
  obtain ⟨s1, h1, hne⟩ := hd
  obtain ⟨g, gl⟩ := graft_replaces_children pureCode 3 2 6 _ s1 1 default 5 2
    (.bind [true] [0] (fun l => l.headD 0)) [none] [4] 1 .receive [] [6]
    (by simp [graftState]) (by simp [graftState]) (by simp [graftState]) (by decide) h1
  refine ⟨s1, h1, by simp [State.kids, graftState, Obj.kidsOf], ?_, gl 6 (by simp) (by simp)⟩
  rcases g with g0 | ⟨rc, g1⟩
  · exact absurd g0 hne
  · exact State.kids_node g1

end graftStep

section graftFrame
variable {C V : Type} [Inhabited V]

/-- C15: the graft step of `propagate(x)` on the node `n`, for `x` not ready with
producer `P` distinct from `n`. Afterwards, of the objects that are alive: `n`
has an empty children list and the parents list (and subclass members) it had;
the children list of `P` is the list `n` had, in the same order, and `P` keeps
its parents list; every moved child has `P` as its parent; every other node has
the children list, the parents list and the subclass members it had. -/
theorem graft_frame (code : Code C V) (fuel n x : Nat) (s s1 : State C V)
    (rcx : Nat) (w : V) (p rcn : Nat) (k : Kind C V) (ps : List (Option Nat)) (cs : List Nat)
    (prc : Nat) (pk : Kind C V) (pps : List (Option Nat)) (pcs : List Nat)
    (hx : s.heap x = some (.data rcx false w (some p)))
    (hn : s.heap n = some (.node rcn k ps cs))
    (hp : s.heap p = some (.node prc pk pps pcs)) (hpn : p ≠ n)
    (h : Node.propagate code fuel n x s = .ok s1) :
    (s1.heap n = none ∨ ∃ rc, s1.heap n = some (.node rc k ps [])) ∧
    (s1.heap p = none ∨ ∃ rc, s1.heap p = some (.node rc pk pps cs)) ∧
    (∀ c ∈ cs, s1.heap c = none ∨ s1.HasParent c p) ∧
    ∀ m, m ≠ n → m ≠ p → ∀ rc km pm cm, s.heap m = some (.node rc km pm cm) →
      s1.heap m = none ∨ ∃ rc1, s1.heap m = some (.node rc1 km pm cm) := by
  obtain ⟨rg, hc⟩ := graft_regrafts code fuel n x s s1 rcx w p rcn k ps cs prc pk pps pcs
    hx hn hp hpn h
  have node : ∀ m rc km pm cm, (((s.emit (.propagate n x)).write p
      (some (.node prc pk pps cs))).write n (some (.node rcn k ps []))).heap m =
        some (.node rc km pm cm) →
      s1.heap m = none ∨ ∃ rc1, s1.heap m = some (.node rc1 km pm cm) := by
    intro m rc km pm cm hm
    rcases rg.2 m _ hm with h0 | ⟨o1, h1, hr⟩
    · exact Or.inl h0
    · cases o1 <;> simp only [Obj.Reparented] at hr
      obtain ⟨rfl, rfl, rfl⟩ := hr
      exact Or.inr ⟨_, h1⟩
  refine ⟨node n rcn k ps [] (by simp), node p prc pk pps cs (by simp [hpn]), hc, ?_⟩
  intro m hmn hmp rc km pm cm hm
  exact node m rc km pm cm (by simp [hmn, hmp, hm])

/-- C15 in the middle of the firing of `x = bind<T, A>(receive<A>(), f)` whose
callback returned the unready future (at 6) of a new `receive<T>()`: after the
graft the `Bind` node (at 2) is alive without children and with the parents
list it had, the `Receive<T>` node (at 5) has the cell 4 of `x` as its only
child, and that cell has the `Receive<T>` node as its parent. -/
theorem graft_frame_witness :
    ∃ s1, Node.propagate pureCode 3 2 6 (graftState (fun l => l.headD 0) 0) = .ok s1 ∧
      s1.heap 2 ≠ none ∧ s1.kids 2 = [] ∧ s1.slots 2 = [none] ∧ s1.kids 5 = [4] ∧
      s1.HasParent 4 5 := by
  have hd : ∃ s1, Node.propagate pureCode 3 2 6 (graftState (fun l => l.headD 0) 0) = .ok s1 ∧
      s1.heap 2 ≠ none ∧ s1.heap 5 ≠ none ∧ s1.heap 4 ≠ none := by
    simp [graftState, Node.propagate, Node.reparent, acquire, State.write, release, Obj.rc,
      Obj.setRc, Obj.refs, Kind.captures, pureCode, State.emit]
  obtain ⟨s1, h1, hn2, hn5, hn4⟩ := hd
  obtain ⟨g2, g5, g4, _⟩ := graft_frame pureCode 3 2 6 _ s1 1 default 5 2
    (.bind [true] [0] (fun l => l.headD 0)) [none] [4] 1 .receive [] [6]
    (by simp [graftState]) (by simp [graftState]) (by simp [graftState]) (by decide) h1
  refine ⟨s1, h1, hn2, ?_, ?_, ?_, ?_⟩
  · rcases g2 with g | ⟨rc, g⟩
    · exact absurd g hn2
    · exact State.kids_node g
  · rcases g2 with g | ⟨rc, g⟩
    · exact absurd g hn2
    · exact State.slots_node g
  · rcases g5 with g | ⟨rc, g⟩
    · exact absurd g hn5
    · exact State.kids_node g
  · rcases g4 4 (by simp) with g | g
    · exact absurd g hn4
    · exact g

end graftFrame

section bindSet
variable {C V : Type} [Inhabited V]

/-- C16: `Bind::set<i>(v)` on a bind with inputs `0 .. n - 1`, when the readiness
bit of another input `j` is still false. The callback is not invoked (the trace
is unchanged), and the `Bind` node, as long as it is alive, has the value `v` in
slot `i`, the readiness bit `i` true and the parents entry `i` null, while every
other slot, readiness bit and parents entry, the callback and the children list
are what they were. -/
theorem bind_set_incomplete (code : Code C V) (fuel t i : Nat) (v : V) (s s1 : State C V)
    (rc : Nat) (ready : List Bool) (args : List V) (f : C) (ps : List (Option Nat))
    (cs : List Nat) (ht : s.heap t = some (.node rc (.bind ready args f) ps cs))
    (hir : i < ready.length) (hia : i < args.length) (hip : i < ps.length)
    (j : Nat) (hji : j ≠ i) (hj : ready.get? j = some false)
    (h : Node.set code fuel t i v s = .ok s1) :
    s1.trace = s.trace ∧ callsOf t s1.trace = callsOf t s.trace ∧
    (s1.heap t = none ∨ ∃ rc1 ready1 args1 ps1,
      s1.heap t = some (.node rc1 (.bind ready1 args1 f) ps1 cs) ∧
      ready1.get? i = some true ∧ args1.get? i = some v ∧ ps1.get? i = some none ∧
      ready1.length = ready.length ∧ args1.length = args.length ∧ ps1.length = ps.length ∧
      ∀ m, m ≠ i → ready1.get? m = ready.get? m ∧ args1.get? m = args.get? m ∧
        ps1.get? m = ps.get? m) := by
  have hinc : (ready.set i true).all id = false := by
    rw [List.all_eq_false]
    refine ⟨false, ?_, by simp⟩
    apply List.get?_mem (n := j)
    rw [List.get?_eq_getElem?, List.getElem?_set_ne (fun e => hji e.symm),
      ← List.get?_eq_getElem?]
    exact hj
  cases fuel with
  | zero => simp [Node.set] at h
  | succ fuel =>
    rw [Node.set] at h
    simp only [ht] at h
    split at h
    · rename_i s2 hr
      rw [hinc] at h
      simp only [Bool.false_eq_true, if_false, Except.ok.injEq] at h
      subst h
      have sh := release_shrinks code fuel _ hr
      have htr : s2.trace = s.trace := by rw [sh.2.2.1]; rfl
      refine ⟨htr, by rw [htr], ?_⟩
      rcases sh.2.2.2 t with h0 | ⟨o, ho, n, _, h1⟩
      · exact Or.inl h0
      · simp only [State.write_heap, if_true, Option.some.injEq] at ho
        subst ho
        refine Or.inr ⟨n, ready.set i true, args.set i v, ps.set i none, h1, ?_, ?_, ?_, by simp,
          by simp, by simp, ?_⟩
        · rw [List.get?_eq_getElem?, List.getElem?_set_self hir]
        · rw [List.get?_eq_getElem?, List.getElem?_set_self hia]
        · rw [List.get?_eq_getElem?, List.getElem?_set_self hip]
        · intro m hm
          refine ⟨?_, ?_, ?_⟩ <;>
            rw [List.get?_eq_getElem?, List.getElem?_set_ne (fun e => hm e.symm),
              ← List.get?_eq_getElem?]
    · cases h

/-- C16 on `x = bind<T, A, B>(receive<A>(), receive<B>(), f)`: `Bind::set<1>(9)`
leaves the `Bind` node (at 4) alive with the readiness bits `[false, true]`, the
slots `[0, 9]`, the parents `[some 5, none]` and the children `[7]`, and no
callback has been invoked. -/
theorem bind_set_incomplete_witness :
    ∃ s s1 : State (List Nat → Nat) Nat,
      Prog.run pureCode 12 bindTwo State.init = .ok (7, s) ∧
      Node.set pureCode 8 4 1 9 s = .ok s1 ∧ s1.trace = s.trace ∧
      s1.kind 4 = some (.bind [false, true] [0, 9] (fun l => 10 * l.headD 0 + l.getD 1 0)) ∧
      s1.slots 4 = [some 5, none] ∧ s1.kids 4 = [7] ∧ callsOf 4 s1.trace = [] := by
  have h : ∃ s : State (List Nat → Nat) Nat,
      Prog.run pureCode 12 bindTwo State.init = .ok (7, s) ∧
      s.heap 4 = some (.node 1 (.bind [false, false] [0, 0]
        (fun l => 10 * l.headD 0 + l.getD 1 0)) [some 5, some 6] [7]) ∧
      callsOf 4 s.trace = [] ∧
      ∃ s1, Node.set pureCode 8 4 1 9 s = .ok s1 ∧
        s1.kind 4 = some (.bind [false, true] [0, 9] (fun l => 10 * l.headD 0 + l.getD 1 0)) ∧
        s1.slots 4 = [some 5, none] ∧ s1.kids 4 = [7] := by
    simp [bindTwo, Prog.run, Receive.create, Bind.create, Future.create, Future.copyAll,
      Future.getParents, Future.getParent, Node.connect, State.alloc, State.emit, State.write,
      release, Obj.rc, Obj.setRc, Obj.refs, Kind.captures, pureCode, State.init, Node.set,
      Future.drop, State.kind, State.slots, State.kids, Obj.kindOf, Obj.slotsOf, Obj.kidsOf,
      callsOf]
  obtain ⟨s, h1, ht, hc, s1, h2, hk, hsl, hkd⟩ := h
  obtain ⟨htr, hcalls, _⟩ := bind_set_incomplete pureCode 8 4 1 9 s s1 1 [false, false] [0, 0] _
    [some 5, some 6] [7] ht (by simp) (by simp) (by simp) 0 (by decide) (by simp) h2
  exact ⟨s, s1, h1, h2, htr, hk, hsl, hkd, by rw [hcalls, hc]⟩

end bindSet

/-! ## Subscription -/

section subscription
variable {C V : Type} [Inhabited V]

omit [Inhabited V] in
/-- The variadic `Node::connect` on a well-formed state: the observers are the
objects allocated by the call, one for each producer, in order. -/
theorem Node.connect_spec (node : Nat) (ps : List (Option Nat)) :
    ∀ (i : Nat) {s s1 : State C V}, (∀ a, s.next ≤ a → s.heap a = none) →
      Node.connect node i ps s = .ok s1 →
      s1.next = s.next + ps.length ∧ (∀ a, s1.next ≤ a → s1.heap a = none) ∧
      s1.slots node = s.slots node ++ (List.range' s.next ps.length).map some ∧
      (∀ j a, ps.get? j = some (some a) →
        s1.heap (s.next + j) = some (.arg 1 (some a) node (i + j))) ∧
      (∀ p ∈ ps, p ≠ none) ∧
      (∀ a, s1.kids a = s.kids a ++
        ((ps.enumFrom s.next).filter (fun q => q.2 = some a)).map (fun q => q.1)) ∧
      (∀ a, s1.kind a = s.kind a) ∧ (∀ a, a ≠ node → s1.slots a = s.slots a) ∧
      (∀ a, a < s.next → s1.cell a = s.cell a) ∧
      (∀ a rc k q cs, s.heap a = some (.node rc k q cs) → ∃ rc1 q1 cs1, rc ≤ rc1 ∧
        s1.heap a = some (.node rc1 k q1 cs1)) ∧
      (∀ o rc q t j, s.heap o = some (.arg rc q t j) → s1.heap o = some (.arg rc q t j)) := by
  induction ps with
  | nil =>
    intro i s s1 hwf h
    cases h
    refine ⟨by simp, hwf, by simp, by simp, by simp, by simp, fun _ => rfl, fun _ _ => rfl,
      fun _ _ => rfl, ?_, fun _ _ _ _ _ h => h⟩
    intro a rc k q cs ha
    exact ⟨rc, q, cs, le_refl _, ha⟩
  | cons p rest ih =>
    intro i s s1 hwf h
    cases p with
    | none => simp [Node.connect] at h
    | some a =>
      rw [Node.connect] at h
      simp only at h
      split at h
      · rename_i rc k pa ca ha
        split at h
        · rename_i rc2 k2 ps2 cs2 hnode
          have ha : (s.alloc (Obj.arg 1 (some a) node i)).2.heap a = some (.node rc k pa ca) := ha
          have hnode : ((s.alloc (Obj.arg 1 (some a) node i)).2.write a
              (some (.node (rc + 1) k pa (ca ++ [s.next])))).heap node =
              some (.node rc2 k2 ps2 cs2) := hnode
          have h : Node.connect node (i + 1) rest
              (((s.alloc (Obj.arg 1 (some a) node i)).2.write a
              (some (.node (rc + 1) k pa (ca ++ [s.next])))).write node
              (some (.node rc2 k2 (ps2 ++ [some s.next]) cs2))) = .ok s1 := h
          have hao : a ≠ s.next := by
            rintro rfl
            simp [State.alloc] at ha
          have ha0 : s.heap a = some (.node rc k pa ca) := by
            simpa [State.alloc, hao] using ha
          have hno : node ≠ s.next := by
            rintro rfl
            simp [State.alloc, State.write, Ne.symm hao] at hnode
          have hfree : s.heap s.next = none := hwf _ (le_refl _)
          obtain ⟨g1, g2, g3, g4, g5, g6, g7, g8, g9, g10, g11⟩ := ih (i + 1) (by
            intro b hb
            have hb : s.next + 1 ≤ b := hb
            have e1 : b ≠ node := by
              rintro rfl
              have := hwf b (by omega)
              by_cases e : b = a
              · rw [e, ha0] at this; cases this
              · simp [State.alloc, State.write, e, this, hno] at hnode
            have e2 : b ≠ a := by
              rintro rfl
              rw [hwf b (by omega)] at ha0
              cases ha0
            have e3 : b ≠ s.next := by omega
            simp [State.alloc, State.write, e1, e2, e3]
            exact hwf b (by omega)) h
          have g1 : s1.next = s.next + 1 + rest.length := g1
          have hn0 : ∃ rcn csn, s.heap node = some (.node rcn k2 ps2 csn) ∧ rcn ≤ rc2 ∧
              cs2 = csn ++ if node = a then [s.next] else [] := by
            by_cases e : node = a
            · subst e
              simp [State.write] at hnode
              obtain ⟨rfl, rfl, rfl, rfl⟩ := hnode
              exact ⟨rc, ca, ha0, by omega, by simp⟩
            · simp [State.alloc, State.write, e, hno] at hnode
              exact ⟨rc2, cs2, hnode, le_refl _, by simp [e]⟩
          obtain ⟨rcn, csn, hn0, hrc, hcs2⟩ := hn0
          have hp : ∀ b, (((s.alloc (Obj.arg 1 (some a) node i)).2.write a
              (some (.node (rc + 1) k pa (ca ++ [s.next])))).write node
              (some (.node rc2 k2 (ps2 ++ [some s.next]) cs2))).heap b =
              if b = node then some (.node rc2 k2 (ps2 ++ [some s.next]) cs2)
              else if b = a then some (.node (rc + 1) k pa (ca ++ [s.next]))
              else if b = s.next then some (.arg 1 (some a) node i) else s.heap b := fun _ => rfl
          refine ⟨?_, g2, ?_, ?_, ?_, ?_, ?_, ?_, ?_, ?_, ?_⟩
          · rw [g1, List.length_cons]; omega
          · rw [g3, State.slots_write, if_pos rfl, State.slots_node hn0, List.length_cons,
              List.range'_succ]
            simp [Obj.slotsOf, State.alloc]
          · intro j b hj
            cases j with
            | zero =>
              simp at hj
              subst hj
              have := g11 s.next 1 (some a) node i (by
                rw [hp, if_neg (Ne.symm hno), if_neg (Ne.symm hao), if_pos rfl])
              simpa using this
            | succ j =>
              have := g4 j b (by simpa using hj)
              have e : s.next + (j + 1) = s.next + 1 + j := by omega
              have e1 : i + (j + 1) = i + 1 + j := by omega
              rw [e, e1]
              exact this
          · intro p hp
            rcases List.mem_cons.1 hp with rfl | hp
            · simp
            · exact g5 p hp
          · intro b
            rw [g6 b, List.enumFrom_cons, List.filter_cons]
            have hk : (((s.alloc (Obj.arg 1 (some a) node i)).2.write a
                (some (.node (rc + 1) k pa (ca ++ [s.next])))).write node
                (some (.node rc2 k2 (ps2 ++ [some s.next]) cs2))).kids b =
                s.kids b ++ if b = a then [s.next] else [] := by
              unfold State.kids
              rw [hp]
              by_cases e1 : b = node
              · subst e1
                simp [hn0, Obj.kidsOf, hcs2]
              · by_cases e2 : b = a
                · subst e2
                  simp [e1, ha0, Obj.kidsOf]
                · by_cases e3 : b = s.next
                  · subst e3
                    simp [e1, e2, hfree, Obj.kidsOf]
                  · simp [e1, e2, e3]
            rw [hk]
            by_cases e : b = a
            · subst e
              simp
            · have e1 : ¬ a = b := fun x => e x.symm
              simp [e, e1]
          · intro b
            rw [g7 b]
            unfold State.kind
            rw [hp]
            by_cases e1 : b = node
            · subst e1
              simp [hn0, Obj.kindOf]
            · by_cases e2 : b = a
              · subst e2
                simp [e1, ha0, Obj.kindOf]
              · by_cases e3 : b = s.next
                · subst e3
                  simp [e1, e2, hfree, Obj.kindOf]
                · simp [e1, e2, e3]
          · intro b hb
            rw [g8 b hb]
            unfold State.slots
            rw [hp]
            by_cases e2 : b = a
            · subst e2
              simp [hb, ha0, Obj.slotsOf]
            · by_cases e3 : b = s.next
              · subst e3
                simp [hb, e2, hfree, Obj.slotsOf]
              · simp [hb, e2, e3]
          · intro b hb
            rw [g9 b (by show b < s.next + 1; omega)]
            unfold State.cell
            rw [hp]
            by_cases e1 : b = node
            · subst e1
              simp [hn0, Obj.cellOf]
            · by_cases e2 : b = a
              · subst e2
                simp [e1, ha0, Obj.cellOf]
              · have e3 : b ≠ s.next := by omega
                simp [e1, e2, e3]
          · intro b rc0 k0 q cs0 hb
            by_cases e1 : b = node
            · rw [e1, hn0] at hb
              simp only [Option.some.injEq, Obj.node.injEq] at hb
              obtain ⟨erc, ek, _, _⟩ := hb
              obtain ⟨rc1, q1, cs1, hle, h1⟩ := g10 node rc2 k2 _ _ (by rw [hp, if_pos rfl])
              exact ⟨rc1, q1, cs1, by omega, by rw [e1, ← ek]; exact h1⟩
            · by_cases e2 : b = a
              · rw [e2, ha0] at hb
                simp only [Option.some.injEq, Obj.node.injEq] at hb
                obtain ⟨erc, ek, _, _⟩ := hb
                obtain ⟨rc1, q1, cs1, hle, h1⟩ := g10 a (rc + 1) k _ _
                  (by rw [hp, if_neg (fun x => e1 (e2.trans x)), if_pos rfl])
                exact ⟨rc1, q1, cs1, by omega, by rw [e2, ← ek]; exact h1⟩
              · have e3 : b ≠ s.next := by
                  rintro rfl
                  rw [hfree] at hb
                  cases hb
                exact g10 b rc0 k0 q cs0 (by rw [hp, if_neg e1, if_neg e2, if_neg e3]; exact hb)
          · intro o rc0 q t j ho
            have e1 : o ≠ node := by
              rintro rfl
              rw [hn0] at ho
              cases ho
            have e2 : o ≠ a := by
              rintro rfl
              rw [ha0] at ho
              cases ho
            have e3 : o ≠ s.next := by
              rintro rfl
              rw [hfree] at ho
              cases ho
            exact g11 o rc0 q t j (by rw [hp, if_neg e1, if_neg e2, if_neg e3]; exact ho)
        · cases h
      · cases h

omit [Inhabited V] in
/-- Copying handles changes the strong counts of value cells only. -/
theorem Future.copyAll_heap (xs : List Nat) :
    ∀ {s s1 : State C V}, Future.copyAll xs s = .ok s1 →
      s1.next = s.next ∧ ∀ a, s1.heap a = s.heap a ∨
        ∃ rc rc1 r v p, s.heap a = some (.data rc r v p) ∧ s1.heap a = some (.data rc1 r v p) := by
  induction xs with
  | nil =>
    intro s s1 h
    cases h
    exact ⟨rfl, fun _ => Or.inl rfl⟩
  | cons x xs ih =>
    intro s s1 h
    rw [Future.copyAll] at h
    split at h
    · rename_i s2 hc
      obtain ⟨g1, g2⟩ := ih h
      unfold Future.copy at hc
      split at hc
      · rename_i rc r v p hx
        cases hc
        refine ⟨g1, fun a => ?_⟩
        by_cases e : a = x
        · subst e
          rcases g2 a with g | ⟨rc0, rc1, r0, v0, p0, g, g3⟩
          · exact Or.inr ⟨rc, rc + 1, r, v, p, hx, by rw [g]; simp⟩
          · simp at g
            obtain ⟨_, rfl, rfl, rfl⟩ := g
            exact Or.inr ⟨rc, rc1, _, _, _, hx, g3⟩
        · rcases g2 a with g | ⟨rc0, rc1, r0, v0, p0, g, g3⟩
          · exact Or.inl (by rw [g]; simp [e])
          · exact Or.inr ⟨rc0, rc1, r0, v0, p0, by simpa [e] using g, g3⟩
      · cases hc
    · cases h

omit [Inhabited V] in
/-- The producers read by `getParents` depend on the parents of the cells only. -/
theorem Future.getParents_congr {s s1 : State C V} (xs : List Nat)
    (h : ∀ x ∈ xs, Future.getParent s1 x = Future.getParent s x) :
    Future.getParents s1 xs = Future.getParents s xs := by
  induction xs with
  | nil => rfl
  | cons x xs ih =>
    rw [Future.getParents, Future.getParents, h x (by simp), ih (fun y hy => h y (by simp [hy]))]

omit [Inhabited V] in
/-- When `getParents` returns, each of the handles is a value cell. -/
theorem Future.getParents_ok {s : State C V} (xs : List Nat) :
    ∀ {ps : List (Option Nat)}, Future.getParents s xs = .ok ps →
      ps.length = xs.length ∧ ∀ x ∈ xs, ∃ p, Future.getParent s x = .ok p := by
  induction xs with
  | nil =>
    intro ps h
    cases h
    exact ⟨rfl, fun _ hx => by cases hx⟩
  | cons x xs ih =>
    intro ps h
    rw [Future.getParents] at h
    split at h
    · rename_i p ps1 h1 h2
      cases h
      obtain ⟨g1, g2⟩ := ih h2
      refine ⟨by simp [g1], fun y hy => ?_⟩
      rcases List.mem_cons.1 hy with rfl | hy
      · exact ⟨p, h1⟩
      · exact g2 y hy
    · cases h
    · cases h

/-- The common part of `Bind::create` and `Alt::create` after the allocation of
the node with subclass members `k` that captured the handles `caps`. -/
theorem create_subscribes_aux (code : Code C V) (fuel : Nat) (args : List Nat) (k : Kind C V)
    (caps : List Nat) {s s2 s3 s4 s5 : State C V} {ps ps2 : List (Option Nat)} {x : Nat}
    (hwf : ∀ a, s.next ≤ a → s.heap a = none)
    (hps0 : Future.getParents s args = .ok ps)
    (h2 : Future.copyAll caps (s.alloc (.node 1 k [] [])).2 = .ok s2)
    (hps : Future.getParents s2 args = .ok ps2)
    (h3 : Node.connect s.next 0 ps2 s2 = .ok s3)
    (h4 : Future.create s.next s3 = .ok (x, s4))
    (h5 : release code fuel [s.next] s4 = .ok s5) :
    ps.length = args.length ∧ (∀ p ∈ ps, p ≠ none) ∧
    s5.slots s.next = (List.range' (s.next + 1) ps.length).map some ∧
    (∀ j a, ps.get? j = some (some a) →
      s5.heap (s.next + 1 + j) = some (.arg 1 (some a) s.next j)) ∧
    ∀ a, a ≠ s.next → s5.kids a = s.kids a ++
      ((ps.enumFrom (s.next + 1)).filter (fun q => q.2 = some a)).map (fun q => q.1) := by
  obtain ⟨hlen, hdata⟩ := Future.getParents_ok args hps0
  obtain ⟨c1, c2⟩ := Future.copyAll_heap caps h2
  have c1 : s2.next = s.next + 1 := c1
  have hs2 : ∀ a, a ≠ s.next → s2.heap a = s.heap a ∨
      ∃ rc rc1 r v p, s.heap a = some (.data rc r v p) ∧ s2.heap a = some (.data rc1 r v p) := by
    intro a ha
    rcases c2 a with g | ⟨rc, rc1, r, v, p, g, g1⟩
    · exact Or.inl (by rw [g]; simp [State.alloc, ha])
    · exact Or.inr ⟨rc, rc1, r, v, p, by simpa [State.alloc, ha] using g, g1⟩
  have hb2 : s2.heap s.next = some (.node 1 k [] []) := by
    rcases c2 s.next with g | ⟨rc, rc1, r, v, p, g, _⟩
    · rw [g]; simp [State.alloc]
    · simp [State.alloc] at g
  have e : ps2 = ps := by
    have : Future.getParents s2 args = Future.getParents s args := by
      apply Future.getParents_congr
      intro y hy
      obtain ⟨p, hp⟩ := hdata y hy
      have hy0 : y ≠ s.next := by
        rintro rfl
        simp [Future.getParent, hwf _ (le_refl _)] at hp
      rcases hs2 y hy0 with g | ⟨rc, rc1, r, v, q, g, g1⟩
      · simp [Future.getParent, g]
      · simp [Future.getParent, g, g1]
    rw [this, hps0] at hps
    cases hps
    rfl
  subst e
  have hwf2 : ∀ a, s2.next ≤ a → s2.heap a = none := by
    intro a ha
    rw [c1] at ha
    rcases hs2 a (by omega) with g | ⟨rc, rc1, r, v, q, g, _⟩
    · rw [g]; exact hwf a (by omega)
    · rw [hwf a (by omega)] at g; cases g
  obtain ⟨g1, g2, g3, g4, g5, g6, g7, g8, g9, g10, g11⟩ := Node.connect_spec s.next ps2 0 hwf2 h3
  obtain ⟨rc1, q1, cs1, hrc, hb3⟩ := g10 _ _ _ _ _ hb2
  rw [c1] at g1 g3 g4 g6
  unfold Future.create at h4
  simp only at h4
  have hb3x : (s3.alloc (.data 1 false default (some s.next))).2.heap s.next =
      some (.node rc1 k q1 cs1) := by
    have : s.next ≠ s3.next := by omega
    simp [State.alloc, this, hb3]
  rw [hb3x] at h4
  simp only [Except.ok.injEq, Prod.mk.injEq] at h4
  obtain ⟨hx, h4⟩ := h4
  subst h4
  cases fuel with
  | zero => simp [release] at h5
  | succ fuel =>
    have hne : ¬ rc1 + 1 ≤ 1 := by omega
    simp [release, State.write, Obj.rc, hne, Obj.setRc, State.alloc] at h5
    subst h5
    have hq1 : q1 = (List.range' (s.next + 1) ps2.length).map some := by
      have := g3
      rw [State.slots_node hb3, State.slots_node hb2] at this
      simpa using this
    refine ⟨hlen, g5, ?_, ?_, ?_⟩
    · simp [State.slots, Obj.slotsOf, hq1]
    · intro j a hj
      have hjl : j < ps2.length := by
        have := List.get?_eq_some.1 hj
        exact this.1
      have e1 : s.next + 1 + j ≠ s.next := by omega
      have e2 : s.next + 1 + j ≠ s3.next := by omega
      have := g4 j a hj
      simp only [Nat.zero_add] at this
      simp [e1, e2, this]
    · intro a ha
      have hk2 : s2.kids a = s.kids a := by
        rcases hs2 a ha with g | ⟨rc, rc0, r, v, p, g, g0⟩
        · simp [State.kids, g]
        · simp [State.kids, g, g0, Obj.kidsOf]
      rw [← hk2, ← g6 a]
      by_cases e : a = s3.next
      · subst e
        simp [State.kids, ha, Obj.kidsOf, g2 _ (le_refl _)]
      · simp [State.kids, ha, e]

/-- C18: after `Bind::create` or `Alt::create` over the argument futures `args`,
whose producers are `ps`, the parents list of the new node (at the address `b`
that was the allocation counter) has exactly one entry for each argument: entry
`j` is the observer allocated at `b + 1 + j`, which has the producer of argument
`j` as its upstream reference, the new node as its target and the position `j`,
and has a single strong reference. The children list of each producer is the
list it had followed by the observers of the positions at which it is the
producer, in order. -/
theorem create_subscribes (code : Code C V) (fuel : Nat) (args : List Nat) (s : State C V)
    (ps : List (Option Nat)) (hwf : ∀ a, s.next ≤ a → s.heap a = none)
    (hps : Future.getParents s args = .ok ps) (x : Nat) (s5 : State C V)
    (h : (∃ f, Bind.create code fuel args f s = .ok (x, s5)) ∨
      ∃ fs, Alt.create code fuel args fs s = .ok (x, s5)) :
    ps.length = args.length ∧ (∀ p ∈ ps, p ≠ none) ∧
    s5.slots s.next = (List.range' (s.next + 1) ps.length).map some ∧
    (∀ j a, ps.get? j = some (some a) →
      s5.heap (s.next + 1 + j) = some (.arg 1 (some a) s.next j)) ∧
    ∀ a, a ≠ s.next → s5.kids a = s.kids a ++
      ((ps.enumFrom (s.next + 1)).filter (fun q => q.2 = some a)).map (fun q => q.1) := by
  rcases h with ⟨f, h⟩ | ⟨fs, h⟩
  · unfold Bind.create at h
    simp only at h
    split at h
    · rename_i s2 h2
      split at h
      · rename_i ps2 hps2
        split at h
        · rename_i s3 h3
          split at h
          · rename_i x1 s4 h4
            split at h
            · rename_i s6 h5
              simp only [Except.ok.injEq, Prod.mk.injEq] at h
              obtain ⟨rfl, rfl⟩ := h
              exact create_subscribes_aux code fuel args _ _ hwf hps h2 hps2 h3 h4 h5
            · cases h
          · cases h
        · cases h
      · cases h
    · cases h
  · unfold Alt.create at h
    simp only at h
    split at h
    · rename_i s2 h2
      split at h
      · rename_i ps2 hps2
        split at h
        · rename_i s3 h3
          split at h
          · rename_i x1 s4 h4
            split at h
            · rename_i s6 h5
              simp only [Except.ok.injEq, Prod.mk.injEq] at h
              obtain ⟨rfl, rfl⟩ := h
              exact create_subscribes_aux code fuel args _ _ hwf hps h2 hps2 h3 h4 h5
            · cases h
          · cases h
        · cases h
      · cases h
    · cases h

/-- C18 on `a = receive<A>(); x = bind<T, A, A>(a, a, f)`: the `Bind` node (at 2)
has the two observers 3 and 4 as its parents, both with the `Receive` node (at
0) as upstream reference, and the children of the `Receive` node are the cell of
`a` followed by the two observers. -/
theorem create_subscribes_witness :
    ∃ s s5 : State (List Nat → Nat) Nat,
      Prog.run pureCode 3 (.receive 0 .ret) State.init = .ok (1, s) ∧
      Bind.create pureCode 3 [1, 1] (fun l => l.headD 0) s = .ok (5, s5) ∧
      s5.slots 2 = [some 3, some 4] ∧ s5.heap 3 = some (.arg 1 (some 0) 2 0) ∧
      s5.heap 4 = some (.arg 1 (some 0) 2 1) ∧ s5.kids 0 = [1, 3, 4] := by
  have h : ∃ s : State (List Nat → Nat) Nat,
      Prog.run pureCode 3 (.receive 0 .ret) State.init = .ok (1, s) ∧ s.next = 2 ∧
      Future.getParents s [1, 1] = .ok [some 0, some 0] ∧ s.kids 0 = [1] ∧
      ∃ s5, Bind.create pureCode 3 [1, 1] (fun l => l.headD 0) s = .ok (5, s5) := by
    simp [Prog.run, Receive.create, Bind.create, Future.create, Future.copyAll,
      Future.getParents, Future.getParent, Node.connect, State.alloc, State.emit, State.write,
      release, Obj.rc, Obj.setRc, Obj.refs, Kind.captures, pureCode, State.init, State.kids,
      Obj.kidsOf]
  obtain ⟨s, h1, hnext, hps, hk, s5, h5⟩ := h
  have hi : Inv s := ((keeps pureCode 3).run inv_init h1).1
  obtain ⟨_, _, g3, g4, g5⟩ := create_subscribes pureCode 3 [1, 1] s [some 0, some 0]
    hi.1.heapBound hps 5 s5 (Or.inl ⟨_, h5⟩)
  rw [hnext] at g3 g4 g5
  refine ⟨s, s5, h1, h5, ?_, ?_, ?_, ?_⟩
  · rw [g3]; rfl
  · exact g4 0 0 rfl
  · exact g4 1 0 rfl
  · rw [g5 0 (by decide), hk]; rfl

end subscription

/-! ## Futures without a producer -/

section nullProducer
variable {C V : Type} [Inhabited V]

omit [Inhabited V] in
/-- Copying handles that are live value cells returns. -/
theorem Future.copyAll_total (xs : List Nat) :
    ∀ (s : State C V), (∀ x ∈ xs, ∃ rc r v p, s.heap x = some (.data rc r v p)) →
      ∃ s1, Future.copyAll xs s = .ok s1 := by
  induction xs with
  | nil => exact fun s _ => ⟨s, rfl⟩
  | cons x xs ih =>
    intro s h
    obtain ⟨rc, r, v, p, hx⟩ := h x (by simp)
    rw [Future.copyAll, Future.copy]
    simp only [hx]
    apply ih
    intro y hy
    by_cases e : y = x
    · subst e
      exact ⟨rc + 1, r, v, p, by simp⟩
    · obtain ⟨rc1, r1, v1, p1, h1⟩ := h y (by simp [hy])
      exact ⟨rc1, r1, v1, p1, by simp [e, h1]⟩

omit [Inhabited V] in
/-- The variadic `Node::connect` on a well-formed state in which the node and the
non-null producers are live nodes: it reaches the null-pointer error exactly
when one of the producers is null. -/
theorem Node.connect_total (node : Nat) (ps : List (Option Nat)) :
    ∀ (i : Nat) (s : State C V), (∀ a, s.next ≤ a → s.heap a = none) →
      (∃ rc k q cs, s.heap node = some (.node rc k q cs)) →
      (∀ a, some a ∈ ps → ∃ rc k q cs, s.heap a = some (.node rc k q cs)) →
      (none ∈ ps → Node.connect node i ps s = .error .null) ∧
        (none ∉ ps → ∃ s1, Node.connect node i ps s = .ok s1) := by
  induction ps with
  | nil =>
    intro i s _ _ _
    exact ⟨fun h => (by cases h), fun _ => ⟨s, rfl⟩⟩
  | cons p rest ih =>
    intro i s hwf hnode hlive
    cases p with
    | none => exact ⟨fun _ => rfl, fun h => absurd (List.mem_cons_self _ _) h⟩
    | some a =>
      obtain ⟨rc, k, q, cs, ha⟩ := hlive a (by simp)
      obtain ⟨rcn, kn, qn, csn, hn⟩ := hnode
      have hao : a ≠ s.next := by
        rintro rfl
        rw [hwf _ (le_refl _)] at ha
        cases ha
      have hno : node ≠ s.next := by
        rintro rfl
        rw [hwf _ (le_refl _)] at hn
        cases hn
      have hn2 : ∃ rc2 cs2, ((s.alloc (Obj.arg 1 (some a) node i)).2.write a
          (some (.node (rc + 1) k q (cs ++ [s.next])))).heap node =
          some (.node rc2 kn qn cs2) := by
        by_cases e : node = a
        · rw [e, ha] at hn
          simp only [Option.some.injEq, Obj.node.injEq] at hn
          obtain ⟨_, ek, eq, _⟩ := hn
          exact ⟨rc + 1, cs ++ [s.next], by rw [e, ← ek, ← eq]; simp⟩
        · exact ⟨rcn, csn, by simp [State.alloc, e, hno, hn]⟩
      obtain ⟨rc2, cs2, hn2⟩ := hn2
      obtain ⟨t, ht⟩ : ∃ t : State C V, t = ((s.alloc (Obj.arg 1 (some a) node i)).2.write a
            (some (.node (rc + 1) k q (cs ++ [s.next])))).write node
            (some (.node rc2 kn (qn ++ [some s.next]) cs2)) := ⟨_, rfl⟩
      have step : Node.connect node i (some a :: rest) s = Node.connect node (i + 1) rest t := by
        rw [Node.connect]
        have ha1 : (s.alloc (Obj.arg 1 (some a) node i)).2.heap a = some (.node rc k q cs) := by
          simp [State.alloc, hao, ha]
        simp only [ha1]
        have hn3 : ((s.alloc (Obj.arg 1 (some a) node i)).2.write a
            (some (.node (rc + 1) k q (cs ++ [(s.alloc (Obj.arg 1 (some a) node i)).1])))).heap
            node = some (.node rc2 kn qn cs2) := hn2
        simp only [hn3]
        rw [ht]
        rfl
      rw [step]
      have hp : ∀ b, t.heap b =
          if b = node then some (.node rc2 kn (qn ++ [some s.next]) cs2)
          else if b = a then some (.node (rc + 1) k q (cs ++ [s.next]))
          else if b = s.next then some (.arg 1 (some a) node i) else s.heap b := by
        intro b
        rw [ht]
        rfl
      have hnx : t.next = s.next + 1 := by rw [ht]; rfl
      obtain ⟨g1, g2⟩ := ih (i + 1) t (by
          intro b hb
          rw [hnx] at hb
          have e1 : b ≠ node := by
            rintro rfl
            rw [hwf b (by omega)] at hn
            cases hn
          have e2 : b ≠ a := by
            rintro rfl
            rw [hwf b (by omega)] at ha
            cases ha
          rw [hp, if_neg e1, if_neg e2, if_neg (by omega)]
          exact hwf b (by omega))
        ⟨_, _, _, _, by rw [hp, if_pos rfl]⟩
        (by
          intro b hb
          obtain ⟨rcb, kb, qb, csb, hb0⟩ := hlive b (by simp [hb])
          by_cases e1 : b = node
          · exact ⟨_, _, _, _, by rw [hp, if_pos e1]⟩
          · by_cases e2 : b = a
            · exact ⟨_, _, _, _, by rw [hp, if_neg e1, if_pos e2]⟩
            · have e3 : b ≠ s.next := by
                rintro rfl
                rw [hwf _ (le_refl _)] at hb0
                cases hb0
              exact ⟨rcb, kb, qb, csb, by rw [hp, if_neg e1, if_neg e2, if_neg e3]; exact hb0⟩)
      exact ⟨fun h => g1 (by simpa using h), fun h => g2 (by simpa using h)⟩

/-- The common part of `Bind::create` and `Alt::create`, on a well-formed state
in which the captured handles and the arguments are live value cells and the
non-null producers of the arguments are live nodes. -/
theorem create_total_aux (code : Code C V) (fuel : Nat) (args : List Nat) (k : Kind C V)
    (caps : List Nat) (s : State C V) (ps : List (Option Nat))
    (hwf : ∀ a, s.next ≤ a → s.heap a = none)
    (hps : Future.getParents s args = .ok ps)
    (hlive : ∀ a, some a ∈ ps → ∃ rc k q cs, s.heap a = some (.node rc k q cs))
    (hcaps : ∀ c ∈ caps, ∃ rc r v p, s.heap c = some (.data rc r v p)) :
    ∃ s2, Future.copyAll caps (s.alloc (.node 1 k [] [])).2 = .ok s2 ∧
      Future.getParents s2 args = .ok ps ∧
      (none ∈ ps → Node.connect s.next 0 ps s2 = .error .null) ∧
      (none ∉ ps → ∃ s3 x s4 s5, Node.connect s.next 0 ps s2 = .ok s3 ∧
        Future.create s.next s3 = .ok (x, s4) ∧ release code (fuel + 1) [s.next] s4 = .ok s5) := by
  have hfree : s.heap s.next = none := hwf _ (le_refl _)
  obtain ⟨s2, h2⟩ := Future.copyAll_total caps (s.alloc (.node 1 k [] [])).2 (by
    intro c hc
    obtain ⟨rc, r, v, p, h⟩ := hcaps c hc
    have e : c ≠ s.next := by
      rintro rfl
      rw [hfree] at h
      cases h
    exact ⟨rc, r, v, p, by simp [State.alloc, e, h]⟩)
  obtain ⟨hlen, hdata⟩ := Future.getParents_ok args hps
  obtain ⟨c1, c2⟩ := Future.copyAll_heap caps h2
  have c1 : s2.next = s.next + 1 := c1
  have hs2 : ∀ a, a ≠ s.next → s2.heap a = s.heap a ∨
      ∃ rc rc1 r v p, s.heap a = some (.data rc r v p) ∧ s2.heap a = some (.data rc1 r v p) := by
    intro a ha
    rcases c2 a with g | ⟨rc, rc1, r, v, p, g, g1⟩
    · exact Or.inl (by rw [g]; simp [State.alloc, ha])
    · exact Or.inr ⟨rc, rc1, r, v, p, by simpa [State.alloc, ha] using g, g1⟩
  have hb2 : s2.heap s.next = some (.node 1 k [] []) := by
    rcases c2 s.next with g | ⟨rc, rc1, r, v, p, g, _⟩
    · rw [g]; simp [State.alloc]
    · simp [State.alloc] at g
  have hps2 : Future.getParents s2 args = .ok ps := by
    rw [← hps]
    apply Future.getParents_congr
    intro y hy
    obtain ⟨p, hp⟩ := hdata y hy
    have hy0 : y ≠ s.next := by
      rintro rfl
      simp [Future.getParent, hfree] at hp
    rcases hs2 y hy0 with g | ⟨rc, rc1, r, v, q, g, g1⟩
    · simp [Future.getParent, g]
    · simp [Future.getParent, g, g1]
  have hwf2 : ∀ a, s2.next ≤ a → s2.heap a = none := by
    intro a ha
    rw [c1] at ha
    rcases hs2 a (by omega) with g | ⟨rc, rc1, r, v, q, g, _⟩
    · rw [g]; exact hwf a (by omega)
    · rw [hwf a (by omega)] at g; cases g
  obtain ⟨t1, t2⟩ := Node.connect_total s.next ps 0 s2 hwf2 ⟨_, _, _, _, hb2⟩ (by
    intro a ha
    obtain ⟨rc, ka, q, cs, h⟩ := hlive a ha
    have e : a ≠ s.next := by
      rintro rfl
      rw [hfree] at h
      cases h
    rcases hs2 a e with g | ⟨rc0, rc1, r, v, p, g, _⟩
    · exact ⟨rc, ka, q, cs, by rw [g]; exact h⟩
    · rw [h] at g; cases g)
  refine ⟨s2, h2, hps2, t1, fun hn => ?_⟩
  obtain ⟨s3, h3⟩ := t2 hn
  obtain ⟨g1, g2, g3, g4, g5, g6, g7, g8, g9, g10, g11⟩ := Node.connect_spec s.next ps 0 hwf2 h3
  obtain ⟨rc1, q1, cs1, hrc, hb3⟩ := g10 _ _ _ _ _ hb2
  have hb3x : (s3.alloc (.data 1 false default (some s.next))).2.heap s.next =
      some (.node rc1 k q1 cs1) := by
    have : s.next ≠ s3.next := by omega
    simp [State.alloc, this, hb3]
  have hne : ¬ rc1 + 1 ≤ 1 := by omega
  have h4 : Future.create s.next s3 = .ok (s3.next,
      (s3.alloc (.data 1 false default (some s.next))).2.write s.next
        (some (.node (rc1 + 1) k q1 (cs1 ++ [s3.next])))) := by
    unfold Future.create
    simp only [hb3x]
    rfl
  have h5 : release code (fuel + 1) [s.next]
      ((s3.alloc (.data 1 false default (some s.next))).2.write s.next
        (some (.node (rc1 + 1) k q1 (cs1 ++ [s3.next])))) =
      .ok (((s3.alloc (.data 1 false default (some s.next))).2.write s.next
        (some (.node (rc1 + 1) k q1 (cs1 ++ [s3.next])))).write s.next
          (some (.node rc1 k q1 (cs1 ++ [s3.next])))) := by
    rw [release]
    simp only [State.write_heap, if_true, Obj.rc, hne, if_false, Obj.setRc]
    cases fuel <;> rfl
  exact ⟨s3, _, _, _, h3, h4, h5⟩

/-- C20: the implicit precondition of `bind` and `alt`. A future constructed with
a value, a default-constructed future and a value cell on which `set` has run
have a null producer, while `Future::create(node)` gives an unready future whose
producer is `node`. On a well-formed state, with argument futures `args` that
are live value cells with the producers `ps`, every non-null producer being a
live node, and with live captured handles: `Bind::create` and `Alt::create`
reach the null-pointer error, without invoking a callback, when one of the
producers is null, and return, given one unit of fuel, when none is. -/
theorem subscription_needs_producers (code : Code C V) (fuel : Nat) (args : List Nat)
    (s : State C V) (ps : List (Option Nat))
    (hwf : ∀ a, s.next ≤ a → s.heap a = none)
    (hps : Future.getParents s args = .ok ps)
    (hlive : ∀ a, some a ∈ ps → ∃ rc k q cs, s.heap a = some (.node rc k q cs)) :
    (∀ v, Future.getParent (Future.mk v s).2 (Future.mk v s).1 = .ok none ∧
      Future.ready (Future.mk v s).2 (Future.mk v s).1 = true) ∧
    (Future.getParent (Future.empty s).2 (Future.empty s).1 = .ok none) ∧
    (∀ (fuel1 c : Nat) (v : V) (s1 : State C V), (∃ rc r u p, s.heap c = some (.data rc r u p)) →
      Observer.set code fuel1 c v s = .ok s1 → s1.heap c ≠ none →
      Future.getParent s1 c = .ok none ∧ Future.ready s1 c = true) ∧
    (∀ (node x : Nat) (s1 : State C V), Future.create node s = .ok (x, s1) →
      Future.getParent s1 x = .ok (some node) ∧ Future.ready s1 x = false) ∧
    (∀ f, (∀ c ∈ code.captures f, ∃ rc r v p, s.heap c = some (.data rc r v p)) →
      (none ∈ ps → Bind.create code (fuel + 1) args f s = .error .null) ∧
      (none ∉ ps → ∃ x s5, Bind.create code (fuel + 1) args f s = .ok (x, s5))) ∧
    ∀ fs, (∀ c ∈ fs.flatMap code.captures, ∃ rc r v p, s.heap c = some (.data rc r v p)) →
      (none ∈ ps → Alt.create code (fuel + 1) args fs s = .error .null) ∧
      (none ∉ ps → ∃ x s5, Alt.create code (fuel + 1) args fs s = .ok (x, s5)) := by
  refine ⟨fun v => by simp [Future.mk, State.alloc, Future.getParent, Future.ready],
    by simp [Future.empty, State.alloc, Future.getParent], ?_, ?_, ?_, ?_⟩
  · intro fuel1 c v s1 hc h hne
    obtain ⟨rc, r, u, p, hc⟩ := hc
    cases fuel1 with
    | zero => simp [Observer.set] at h
    | succ fuel1 =>
      rw [Observer.set] at h
      simp only [hc] at h
      rcases (release_shrinks code fuel1 _ h).2.2.2 c with h0 | ⟨o, ho, n, _, h1⟩
      · exact absurd h0 hne
      · simp only [State.write_heap, if_true, Option.some.injEq] at ho
        subst ho
        simp [Future.getParent, Future.ready, h1, Obj.setRc]
  · intro node x s1 h
    unfold Future.create at h
    simp only at h
    split at h
    · rename_i rc k q cs hn
      simp only [Except.ok.injEq, Prod.mk.injEq] at h
      obtain ⟨rfl, rfl⟩ := h
      have e : s.next ≠ node := by
        rintro rfl
        simp [State.alloc] at hn
      simp [Future.getParent, Future.ready, State.alloc, e]
    · cases h
  · intro f hcaps
    obtain ⟨s2, h2, hps2, t1, t2⟩ := create_total_aux code fuel args
      (.bind (List.replicate args.length false) (List.replicate args.length default) f)
      (code.captures f) s ps hwf hps hlive hcaps
    refine ⟨fun hn => ?_, fun hn => ?_⟩
    · unfold Bind.create
      simp only [State.alloc_fst, h2, hps2, t1 hn]
    · obtain ⟨s3, x, s4, s5, h3, h4, h5⟩ := t2 hn
      refine ⟨x, s5, ?_⟩
      unfold Bind.create
      simp only [State.alloc_fst, h2, hps2, h3, h4, h5]
  · intro fs hcaps
    obtain ⟨s2, h2, hps2, t1, t2⟩ := create_total_aux code fuel args (.alt fs)
      (fs.flatMap code.captures) s ps hwf hps hlive hcaps
    refine ⟨fun hn => ?_, fun hn => ?_⟩
    · unfold Alt.create
      simp only [State.alloc_fst, h2, hps2, t1 hn]
    · obtain ⟨s3, x, s4, s5, h3, h4, h5⟩ := t2 hn
      refine ⟨x, s5, ?_⟩
      unfold Alt.create
      simp only [State.alloc_fst, h2, hps2, h3, h4, h5]

/-- C20 on `a = receive<A>(); r = Future<A>(5)`: `r` is ready and has no
producer, `bind(a, r, f)` and `alt(r, f)` reach the null-pointer error, and
`bind(a, f)` returns. -/
theorem subscription_needs_producers_witness :
    ∃ s : State (List Nat → Nat) Nat,
      Prog.run pureCode 4 (.receive 0 fun _ => .value 5 .ret) State.init = .ok (2, s) ∧
      Future.ready s 2 = true ∧ Future.getParent s 2 = .ok none ∧
      Bind.create pureCode 1 [1, 2] (fun l => l.headD 0) s = .error .null ∧
      Alt.create pureCode 1 [2] [fun l => l.headD 0] s = .error .null ∧
      ∃ x s5, Bind.create pureCode 1 [1] (fun l => l.headD 0) s = .ok (x, s5) := by
  have h : ∃ s : State (List Nat → Nat) Nat,
      Prog.run pureCode 4 (.receive 0 fun _ => .value 5 .ret) State.init = .ok (2, s) ∧
      Future.ready s 2 = true ∧ Future.getParent s 2 = .ok none ∧
      Future.getParents s [1, 2] = .ok [some 0, none] ∧
      Future.getParents s [2] = .ok [none] ∧
      Future.getParents s [1] = .ok [some 0] ∧
      s.heap 0 = some (.node 1 .receive [] [1]) := by
    simp [Prog.run, Receive.create, Future.create, Future.mk, Future.getParents,
      Future.getParent, Future.ready, State.alloc, State.emit, State.write, release, Obj.rc,
      Obj.setRc, Obj.refs, Kind.captures, State.init]
  obtain ⟨s, h1, hr, hp, hps2, hps1, hps0, h0⟩ := h
  have hi : Inv s := ((keeps pureCode 4).run inv_init h1).1
  have hlive : ∀ ps : List (Option Nat), (∀ a, some a ∈ ps → a = 0) →
      ∀ a, some a ∈ ps → ∃ rc k q cs, s.heap a = some (.node rc k q cs) := by
    intro ps hp a ha
    rw [hp a ha]
    exact ⟨_, _, _, _, h0⟩
  obtain ⟨_, _, _, _, gb, _⟩ := subscription_needs_producers pureCode 0 [1, 2] s [some 0, none]
    hi.1.heapBound hps2 (hlive _ (by simp))
  obtain ⟨_, _, _, _, _, ga⟩ := subscription_needs_producers pureCode 0 [2] s [none]
    hi.1.heapBound hps1 (hlive _ (by simp))
  obtain ⟨_, _, _, _, gc, _⟩ := subscription_needs_producers pureCode 0 [1] s [some 0]
    hi.1.heapBound hps0 (hlive _ (by simp))
  exact ⟨s, h1, hr, hp, (gb _ (by simp [pureCode])).1 (by simp),
    (ga _ (by simp [pureCode])).1 (by simp), (gc _ (by simp [pureCode])).2 (by simp)⟩

end nullProducer

/-! ## The traversal of the children -/

section traversal
variable {C V : Type} [Inhabited V]

omit [Inhabited V] in
theorem childSets_append (cs : List Nat) (a b : List (Event V)) :
    childSets cs (a ++ b) = childSets cs a ++ childSets cs b := by
  simp [childSets, List.filterMap_append]

omit [Inhabited V] in
theorem mem_childSets {cs : List Nat} {evs : List (Event V)} {d : Nat} :
    d ∈ childSets cs evs ↔ d ∈ cs ∧ setsOf d evs ≠ [] := by
  induction evs with
  | nil => simp [childSets, setsOf]
  | cons e evs ih =>
    have h1 : childSets cs (e :: evs) = childSets cs [e] ++ childSets cs evs :=
      childSets_append cs [e] evs
    have h2 : setsOf d (e :: evs) = setsOf d [e] ++ setsOf d evs := setsOf_append d [e] evs
    rw [h1, h2, List.mem_append, ih]
    cases e with
    | set c w =>
      by_cases hc : c ∈ cs
      · by_cases e1 : c = d
        · subst e1
          simp [childSets, setsOf, hc]
        · have e2 : ¬ d = c := fun x => e1 x.symm
          simp [childSets, setsOf, hc, e1, e2]
      · by_cases e1 : c = d
        · subst e1
          simp [childSets, setsOf, hc]
        · simp [childSets, setsOf, hc, e1]
    | _ => simp [childSets, setsOf]

omit [Inhabited V] in
theorem childSets_cons_of_not_set {c : Nat} {cs : List Nat} {evs : List (Event V)}
    (h : setsOf c evs = []) : childSets (c :: cs) evs = childSets cs evs := by
  induction evs with
  | nil => rfl
  | cons e evs ih =>
    have h2 : setsOf c (e :: evs) = setsOf c [e] ++ setsOf c evs := setsOf_append c [e] evs
    rw [h2, List.append_eq_nil] at h
    have h1 : ∀ l, childSets l (e :: evs) = childSets l [e] ++ childSets l evs :=
      fun l => childSets_append l [e] evs
    rw [h1, h1, ih h.2]
    congr 1
    cases e with
    | set d w =>
      by_cases e1 : d = c
      · subst e1
        simp [setsOf] at h
      · simp [childSets, List.filterMap, e1]
    | _ => rfl

omit [Inhabited V] in
theorem childSets_eq_nil {cs : List Nat} {evs : List (Event V)}
    (h : ∀ d ∈ cs, setsOf d evs = []) : childSets cs evs = [] := by
  rw [List.eq_nil_iff_forall_not_mem]
  intro d hd
  obtain ⟨g1, g2⟩ := mem_childSets.1 hd
  exact g2 (h d g1)

/-- One round of the loop of the ready branch of `propagate` on a child that is
alive: `set` is called on the child, and the loop goes on with the other
children from a state that satisfies the invariant. -/
theorem setChildren_step (code : Code C V) (fuel : Nat) {c : Nat} {cs : List Nat} {v : V}
    {s s1 : State C V} {o : Obj C V} (hi : Inv s) (hnd : (c :: cs).Nodup)
    (hpre : ∀ d ∈ c :: cs, s.Detached d ∧ ¬ s.wasSet d) (ho : s.heap c = some o)
    (h : Node.setChildren code (fuel + 1) (c :: cs) v s = .ok s1) :
    ∃ sc evs, Inv sc ∧ sc.trace = s.trace ++ .set c v :: evs ∧
      Frame (fun d => d = c) (fun _ => False) s sc ∧
      Node.setChildren code fuel cs v sc = .ok s1 := by
  have ih := keeps code fuel
  rw [Node.setChildren] at h
  split at h
  · rename_i hc
    rw [ho] at hc
    cases hc
  · cases h
  · rename_i o1 hnot ho1
    rw [ho] at ho1
    cases ho1
    split at h
    · rename_i sb hb
      split at h
      · rename_i sc hcc
        obtain ⟨hdc, hwc⟩ := hpre c (List.mem_cons_self _ _)
        have c0 : Core (s.emit (.set c v)) :=
          core_emit hi.1 _ (by intro n x e; cases e)
            (by
              intro d w e
              cases e
              exact ⟨hdc, hwc⟩)
            (by intro t i a e; cases e)
        have a0 := argsHeld_emit hi.2 (Event.set c v)
        have hwe : (s.emit (.set c v)).wasSet c :=
          (State.wasSet_emit s _ c).2 (Or.inr ⟨v, rfl⟩)
        have q1 : Quiet (s.emit (.set c v))
            ((s.emit (.set c v)).write c (some (o.setRc (o.rc + 1)))) :=
          quiet_write _ c o _ ho (sameView_setRc o _) (fun hn => absurd hwe hn)
        have i1 := inv_quiet ⟨c0, a0⟩ q1
        have d1 : ((s.emit (.set c v)).write c (some (o.setRc (o.rc + 1)))).Detached c :=
          frame_detached (frame_quiet (fun _ => False) (fun _ => False) q1)
            ⟨hdc.1, fun m hm => (State.fired_emit s _ m).2 (Or.inl (hdc.2 m hm))⟩ (fun x => x)
        have hslot : ∀ rc t i,
            ((s.emit (.set c v)).write c (some (o.setRc (o.rc + 1)))).arg c = some (rc, t, i) →
            ((s.emit (.set c v)).write c (some (o.setRc (o.rc + 1)))).kind t ≠ none →
            (((s.emit (.set c v)).write c (some (o.setRc (o.rc + 1)))).slots t).get? i =
              some (some c) := by
          intro rc t i harg hk
          obtain ⟨rc0, h0⟩ := calm_arg q1.1 c rc t i harg
          obtain ⟨e1, _, e3⟩ := calm_slots_alive q1.1 t hk
          rw [e1]
          rcases (hi.2 c rc0 t i h0 hwc).2 (by
            have : (s.emit (Event.set c v)).kind t ≠ none := by rw [← e3]; exact hk
            exact this) with g | ⟨g, _⟩
          · exact g
          · cases g
        obtain ⟨i2, f2, d2, p2⟩ := ih.observerSet i1 d1 hslot hb
        obtain ⟨i3, q3⟩ := release_inv code fuel _ i2.1 (argsHeld_nil i2.2) hcc
        have fc : Frame (fun d => d = c) (fun _ => False) s sc :=
          frame_trans (frame_emit _ _ s _ (by intro n x e; cases e)
              (by intro d w e; cases e; rfl))
            (frame_trans (frame_quiet _ _ q1) (frame_trans f2 (frame_quiet _ _ q3)))
        obtain ⟨evs, hevs⟩ := f2.trace
        refine ⟨sc, evs, i3, ?_, fc, h⟩
        rw [q3.1.2.2.1, hevs, q1.1.2.2.1]
        simp [State.emit]
      · cases h
    · cases h

/-- The loop of the ready branch of `propagate` over children on which `set` was
not called before: the children on which it calls `set` are taken in the order
of the list, each once and with the value `v`; they include every child that is
alive at the end and no child that was dead at the start. -/
theorem setChildren_order (code : Code C V) (v : V) (cs : List Nat) :
    ∀ (fuel : Nat) {s s1 : State C V}, Inv s → cs.Nodup →
      (∀ c ∈ cs, s.Detached c ∧ ¬ s.wasSet c) →
      Node.setChildren code fuel cs v s = .ok s1 →
      ∃ evs, s1.trace = s.trace ++ evs ∧ (childSets cs evs).Sublist cs ∧
        (∀ d ∈ childSets cs evs, setsOf d evs = [v]) ∧
        (∀ d ∈ cs, d ∉ childSets cs evs → setsOf d evs = []) ∧
        (∀ d ∈ cs, s.heap d = none → d ∉ childSets cs evs) ∧
        (∀ d ∈ cs, s1.heap d ≠ none → d ∈ childSets cs evs) ∧
        ∀ d, cs.head? = some d → s.heap d ≠ none → d ∈ childSets cs evs := by
  induction cs with
  | nil =>
    intro fuel s s1 _ _ _ h
    cases fuel with
    | zero => simp [Node.setChildren] at h
    | succ fuel =>
      simp [Node.setChildren] at h
      subst h
      exact ⟨[], by simp, by simp [childSets], by simp [childSets], by simp, by simp, by simp,
        by simp⟩
  | cons c cs ih =>
    intro fuel s s1 hi hnd hpre h
    cases fuel with
    | zero => simp [Node.setChildren] at h
    | succ fuel =>
      have hnd2 : cs.Nodup := (List.nodup_cons.1 hnd).2
      have hc_notin : c ∉ cs := (List.nodup_cons.1 hnd).1
      obtain ⟨hdc, hwc⟩ := hpre c (List.mem_cons_self _ _)
      cases ho : s.heap c with
      | none =>
        have h0 : Node.setChildren code fuel cs v s = .ok s1 := by
          rw [Node.setChildren] at h
          simp only [ho] at h
          exact h
        have hpre2 : ∀ d ∈ cs, s.Detached d ∧ ¬ s.wasSet d :=
          fun d hd => hpre d (List.mem_cons_of_mem _ hd)
        obtain ⟨evs, ht, g1, g2, g3, g4, g5, _⟩ := ih fuel hi hnd2 hpre2 h0
        obtain ⟨_, f1, _⟩ := (keeps code fuel).setChildren hi hnd2 hpre2 h0
        have hns : setsOf c evs = [] := by
          have hw : ¬ s1.wasSet c := fun x => hwc ((f1.cell c hdc hc_notin).2.1 x)
          have := setsOf_nil_of_not_wasSet hw
          rw [ht, setsOf_append, List.append_eq_nil] at this
          exact this.2
        have hcs : childSets (c :: cs) evs = childSets cs evs := childSets_cons_of_not_set hns
        have hcn : c ∉ childSets cs evs := fun x => hc_notin (mem_childSets.1 x).1
        refine ⟨evs, ht, ?_, ?_, ?_, ?_, ?_, ?_⟩
        · rw [hcs]
          exact List.Sublist.cons _ g1
        · rw [hcs]
          exact g2
        · rw [hcs]
          intro d hd hn
          rcases List.mem_cons.1 hd with rfl | hd
          · exact hns
          · exact g3 d hd hn
        · rw [hcs]
          intro d hd hdead
          rcases List.mem_cons.1 hd with rfl | hd
          · exact hcn
          · exact g4 d hd hdead
        · rw [hcs]
          intro d hd hal
          rcases List.mem_cons.1 hd with rfl | hd
          · exact absurd (f1.dead d hdc.1 ho) hal
          · exact g5 d hd hal
        · intro d hd hal
          simp only [List.head?_cons, Option.some.injEq] at hd
          rw [← hd, ho] at hal
          exact absurd rfl hal
      | some o =>
        obtain ⟨sc, evb, ic, htc, fc, hrest⟩ := setChildren_step code fuel hi hnd hpre ho h
        have hpre3 : ∀ d ∈ cs, sc.Detached d ∧ ¬ sc.wasSet d := by
          intro d hd
          obtain ⟨k1, k2⟩ := hpre d (List.mem_cons_of_mem _ hd)
          have hne : ¬ d = c := by
            rintro rfl
            exact hc_notin hd
          obtain ⟨j1, j2, _⟩ := fc.cell d k1 hne
          exact ⟨j1, fun hw => k2 (j2 hw)⟩
        obtain ⟨evr, ht, g1, g2, g3, g4, g5, _⟩ := ih fuel ic hnd2 hpre3 hrest
        obtain ⟨i1, _, _⟩ := (keeps code fuel).setChildren ic hnd2 hpre3 hrest
        have hs0 : setsOf c s.trace = [] := setsOf_nil_of_not_wasSet hwc
        have hsv : setsOf c [Event.set c v] = [v] := by simp [setsOf]
        -- no further call of `set` on `c`
        have hcb : setsOf c evb = [] := by
          have := ic.1.setsOnce c
          rw [htc, setsOf_append, hs0, List.nil_append] at this
          have e : setsOf c (Event.set c v :: evb) = v :: setsOf c evb := by
            simp [setsOf]
          rw [e] at this
          exact List.eq_nil_of_length_eq_zero (by simpa using this)
        have hcr : setsOf c evr = [] := by
          have := i1.1.setsOnce c
          rw [ht, htc, setsOf_append, setsOf_append, hs0, List.nil_append] at this
          have e : setsOf c (Event.set c v :: evb) = v :: setsOf c evb := by
            simp [setsOf]
          rw [e, hcb] at this
          exact List.eq_nil_of_length_eq_zero (by simpa using this)
        have hdb : ∀ d ∈ cs, setsOf d evb = [] ∧ setsOf d [Event.set c v] = [] := by
          intro d hd
          have := setsOf_nil_of_not_wasSet (hpre3 d hd).2
          rw [htc, setsOf_append, List.append_eq_nil] at this
          have e : setsOf d (Event.set c v :: evb) = setsOf d [Event.set c v] ++ setsOf d evb :=
            setsOf_append d [Event.set c v] evb
          rw [e, List.append_eq_nil] at this
          exact ⟨this.2.2, this.2.1⟩
        have hcs : childSets (c :: cs) (Event.set c v :: evb ++ evr) = c :: childSets cs evr := by
          have e : Event.set c v :: evb ++ evr = [Event.set c v] ++ (evb ++ evr) := rfl
          rw [e, childSets_append, childSets_append, childSets_cons_of_not_set hcr]
          have e1 : childSets (c :: cs) [Event.set c v] = [c] := by simp [childSets]
          have e2 : childSets (c :: cs) evb = [] := by
            apply childSets_eq_nil
            intro d hd
            rcases List.mem_cons.1 hd with rfl | hd
            · exact hcb
            · exact (hdb d hd).1
          rw [e1, e2]
          rfl
        have hsd : ∀ d ∈ cs, setsOf d (Event.set c v :: evb ++ evr) = setsOf d evr := by
          intro d hd
          have e : Event.set c v :: evb ++ evr = [Event.set c v] ++ (evb ++ evr) := rfl
          rw [e, setsOf_append, setsOf_append, (hdb d hd).1, (hdb d hd).2]
          rfl
        refine ⟨Event.set c v :: evb ++ evr, ?_, ?_, ?_, ?_, ?_, ?_, ?_⟩
        · rw [ht, htc, List.append_assoc]
        · rw [hcs]
          exact List.Sublist.cons₂ _ g1
        · rw [hcs]
          intro d hd
          rcases List.mem_cons.1 hd with rfl | hd
          · have e : Event.set d v :: evb ++ evr = [Event.set d v] ++ (evb ++ evr) := rfl
            rw [e, setsOf_append, setsOf_append, hsv, hcb, hcr]
            rfl
          · rw [hsd d (mem_childSets.1 hd).1]
            exact g2 d hd
        · rw [hcs]
          intro d hd hn
          rcases List.mem_cons.1 hd with rfl | hd
          · exact absurd (List.mem_cons_self _ _) hn
          · rw [hsd d hd]
            exact g3 d hd (fun x => hn (List.mem_cons_of_mem _ x))
        · rw [hcs]
          intro d hd hdead
          rcases List.mem_cons.1 hd with rfl | hd
          · rw [ho] at hdead
            cases hdead
          · intro hm
            rcases List.mem_cons.1 hm with e | hm
            · rw [e] at hd
              exact hc_notin hd
            · exact g4 d hd (fc.dead d (hpre d (List.mem_cons_of_mem _ hd)).1.1 hdead) hm
        · rw [hcs]
          intro d hd hal
          rcases List.mem_cons.1 hd with rfl | hd
          · exact List.mem_cons_self _ _
          · exact List.mem_cons_of_mem _ (g5 d hd hal)
        · rw [hcs]
          intro d hd _
          simp only [List.head?_cons, Option.some.injEq] at hd
          rw [← hd]
          exact List.mem_cons_self _ _

/-- The loop over a list of children is the loop over a first part of the list
followed by the loop over the rest. -/
theorem setChildren_append (code : Code C V) (v : V) (pre rest : List Nat) :
    ∀ (fuel : Nat) {s s1 : State C V}, Node.setChildren code fuel (pre ++ rest) v s = .ok s1 →
      ∃ sm, Node.setChildren code fuel pre v s = .ok sm ∧
        Node.setChildren code (fuel - pre.length) rest v sm = .ok s1 := by
  induction pre with
  | nil =>
    intro fuel s s1 h
    cases fuel with
    | zero => simp [Node.setChildren] at h
    | succ fuel => exact ⟨s, by simp [Node.setChildren], by simpa using h⟩
  | cons c pre ih =>
    intro fuel s s1 h
    cases fuel with
    | zero => simp [Node.setChildren] at h
    | succ fuel =>
      rw [List.cons_append, Node.setChildren] at h
      rw [Node.setChildren]
      have e : fuel + 1 - (c :: pre).length = fuel - pre.length := by simp
      rw [e]
      split at h
      · exact ih fuel h
      · cases h
      · split at h
        · split at h
          · exact ih fuel h
          · cases h
        · cases h

/-- The loop of the ready branch of `propagate`: a child is skipped when it is
dead in the state in which the loop reaches it, that is after the loop over the
children before it, and `set` is called on it exactly once, with `v`, when it is
alive in that state. -/
theorem setChildren_reached (code : Code C V) (v : V) (fuel : Nat) {s s1 : State C V}
    {cs : List Nat} (hi : Inv s) (hnd : cs.Nodup)
    (hpre : ∀ c ∈ cs, s.Detached c ∧ ¬ s.wasSet c)
    (h : Node.setChildren code fuel cs v s = .ok s1) {evs : List (Event V)}
    (ht : s1.trace = s.trace ++ evs) (pre : List Nat) (d : Nat) (post : List Nat)
    (hcs : cs = pre ++ d :: post) :
    ∃ sm, Node.setChildren code fuel pre v s = .ok sm ∧
      (sm.heap d = none → setsOf d evs = []) ∧ (sm.heap d ≠ none → setsOf d evs = [v]) := by
  subst hcs
  obtain ⟨sm, h1, h2⟩ := setChildren_append code v pre (d :: post) fuel h
  have hnd1 : pre.Nodup := (List.nodup_append.1 hnd).1
  have hnd2 : (d :: post).Nodup := (List.nodup_append.1 hnd).2.1
  have hdis : ∀ c ∈ d :: post, c ∉ pre := fun c hc hp => (List.nodup_append.1 hnd).2.2 hp hc
  cases fuel with
  | zero =>
    cases pre <;> simp [Node.setChildren] at h
  | succ fuel =>
    obtain ⟨im, fm, _⟩ := (keeps code (fuel + 1)).setChildren hi hnd1
      (fun c hc => hpre c (List.mem_append_left _ hc)) h1
    have hprem : ∀ c ∈ d :: post, sm.Detached c ∧ ¬ sm.wasSet c := by
      intro c hc
      obtain ⟨k1, k2⟩ := hpre c (List.mem_append_right _ hc)
      obtain ⟨j1, j2, _⟩ := fm.cell c k1 (hdis c hc)
      exact ⟨j1, fun hw => k2 (j2 hw)⟩
    obtain ⟨evp, hevp⟩ := fm.trace
    obtain ⟨evr, htr, g1, g2, g3, g4, g5, g6⟩ := setChildren_order code v (d :: post) _ im hnd2
      hprem h2
    have hev : evs = evp ++ evr := by
      rw [htr, hevp, List.append_assoc] at ht
      exact (List.append_cancel_left ht).symm
    have hdp : setsOf d evp = [] := by
      have := setsOf_nil_of_not_wasSet (hprem d (List.mem_cons_self _ _)).2
      rw [hevp, setsOf_append, List.append_eq_nil] at this
      exact this.2
    refine ⟨sm, h1, fun hdead => ?_, fun hal => ?_⟩
    · rw [hev, setsOf_append, hdp, g3 d (List.mem_cons_self _ _)
        (g4 d (List.mem_cons_self _ _) hdead)]
      rfl
    · rw [hev, setsOf_append, hdp, g2 d (g6 d rfl hal)]
      rfl

end traversal

/-! ## The same future in two positions -/

section sameFuture
variable {C V : Type} [Inhabited V]

/-- The run `a = receive<A>()`, `x = bind<T, A, A>(a, a, f)`, `deliver<A>(v)` from
a state where no other `Receive<A>` is pending, for a callback `f` without
captures that returns the ready future `Future<T>(w)` on `(v, v)`: the events of
the whole run. The node of `a` is at the address `r` that was the allocation
counter, the `Bind` node at `r + 2`, its observers at `r + 3` and `r + 4`, and
the cell of `x` at `r + 5`. -/
theorem bind_same_future_fresh (code : Code C V) (s : State C V) (ty : Nat) (v w : V) (f : C)
    (fuel : Nat) (hreg : ∀ i ∈ s.instances ty, i < s.next ∧ s.heap i = none)
    (hcap : code.captures f = []) (hbody : code.body f [v, v] = .value w .ret) :
    ∃ s1, Receive.create code (fuel + 1) ty s = .ok (s.next + 1, s1) ∧
      ∃ s2, Bind.create code (fuel + 1) [s.next + 1, s.next + 1] f s1 = .ok (s.next + 5, s2) ∧
        Future.ready s2 (s.next + 5) = false ∧
        s2.slots (s.next + 2) = [some (s.next + 3), some (s.next + 4)] ∧
        ∃ s3, Receive.deliver code (fuel + (s.instances ty).length + 12) ty v s2 = .ok (1, s3) ∧
          s3.trace = s.trace ++ [.created ty s.next, .fulfil ty s.next,
            .propagate s.next (s.next + 6), .set (s.next + 1) v, .set (s.next + 3) v,
            .set (s.next + 4) v, .call (s.next + 2) 0 [v, v],
            .propagate (s.next + 2) (s.next + 7), .set (s.next + 5) w] ∧
          Future.ready s3 (s.next + 5) = true ∧ Future.get s3 (s.next + 5) = w := by
  refine ⟨_, Receive.create_eq code fuel ty s, ?_⟩
  have hb : ∃ s2, Bind.create code (fuel + 1) [s.next + 1, s.next + 1] f
      { heap := fun b => if b = s.next + 1 then some (.data 1 false default (some s.next))
          else if b = s.next then some (.node 1 .receive [] [s.next + 1]) else s.heap b,
        next := s.next + 2,
        instances := fun u => if u = ty then s.instances u ++ [s.next] else s.instances u,
        trace := s.trace ++ [.created ty s.next] } = .ok (s.next + 5, s2) ∧
      s2.heap s.next = some (.node 3 .receive [] [s.next + 1, s.next + 3, s.next + 4]) ∧
      s2.heap (s.next + 1) = some (.data 1 false default (some s.next)) ∧
      s2.heap (s.next + 2) = some (.node 1 (.bind [false, false] [default, default] f)
        [some (s.next + 3), some (s.next + 4)] [s.next + 5]) ∧
      s2.heap (s.next + 3) = some (.arg 1 (some s.next) (s.next + 2) 0) ∧
      s2.heap (s.next + 4) = some (.arg 1 (some s.next) (s.next + 2) 1) ∧
      s2.heap (s.next + 5) = some (.data 1 false default (some (s.next + 2))) ∧
      (∀ b, b < s.next → s2.heap b = s.heap b) ∧
      s2.next = s.next + 6 ∧
      s2.instances ty = s.instances ty ++ [s.next] ∧
      s2.trace = s.trace ++ [.created ty s.next] := by
    simp [Bind.create, hcap, Future.copyAll, Future.getParents, Future.getParent, Node.connect,
      State.alloc, State.write, Future.create, release, Obj.rc, Obj.setRc, Nat.add_assoc]
    intro b hb
    have e0 : b ≠ s.next := by omega
    have e1 : b ≠ s.next + 1 := by omega
    have e2 : b ≠ s.next + 2 := by omega
    have e3 : b ≠ s.next + 3 := by omega
    have e4 : b ≠ s.next + 4 := by omega
    have e5 : b ≠ s.next + 5 := by omega
    simp [e0, e1, e2, e3, e4, e5]
  obtain ⟨s2, hb, h0, h1, h2, h3, h4, h5, hlow, hnext, hinst, htrace⟩ := hb
  refine ⟨s2, hb, by simp [Future.ready, h5], by simp [State.slots, h2, Obj.slotsOf], ?_⟩
  have hfuel : fuel + (s.instances ty).length + 12 = (fuel + 11 + (s.instances ty).length) + 1 := by
    omega
  rw [hfuel, Receive.deliver, hinst, Receive.deliverLoop_dead]
  · simp [Receive.deliverLoop, h0, h1, h2, h3, h4, h5, hnext, htrace, Future.mk, State.alloc,
      State.write, Node.propagate, Node.setChildren, Observer.set, Node.set, State.emit, release,
      Obj.rc, Obj.setRc, Obj.refs, Kind.captures, hcap, hbody, Prog.run, Future.ready,
      Future.get, Nat.add_assoc]
  · intro i hi
    obtain ⟨g1, g2⟩ := hreg i hi
    show s2.heap i = none
    rw [hlow i g1]
    exact g2

end sameFuture

/-! ## The fixture `AltBindMixedTest` -/

section mixed

set_option maxHeartbeats 8000000 in
theorem mixedRun_before (a0 b0 c0 : List Nat) :
    mixedRun [(0, a0), (1, b0), (2, c0)] = some ([0, 0, 0], false, []) := by
  simp [mixedRun, mixedSetup, mixedCode, Receive.deliverAll, Prog.run, Receive.create,
    Bind.create, Alt.create, Future.create, Future.copyAll, Future.getParents, Future.getParent,
    Node.connect, State.alloc, State.emit, State.write, release, Obj.rc, Obj.setRc, Obj.refs,
    Kind.captures, State.init, Node.set, Alt.resetParents, List.range, List.range.loop,
    Future.mk, Node.propagate, Node.setChildren, Observer.set, Future.drop, Node.reparent,
    Receive.deliver, Receive.deliverLoop, acquire, Future.ready, Future.get]
  rfl

set_option maxHeartbeats 8000000 in
theorem mixedRun_interrupted (a0 b0 c0 a b c : List Nat) :
    mixedRun [(0, a0), (1, b0), (2, c0), (5, [0]), (1, b), (0, a), (2, c)] =
      some ([0, 0, 0, 1, 1, 1, 0], true, Msg.val1 4 a) := by
  simp [mixedRun, mixedSetup, mixedCode, Receive.deliverAll, Prog.run, Receive.create,
    Bind.create, Alt.create, Future.create, Future.copyAll, Future.getParents, Future.getParent,
    Node.connect, State.alloc, State.emit, State.write, release, Obj.rc, Obj.setRc, Obj.refs,
    Kind.captures, State.init, Node.set, Alt.resetParents, List.range, List.range.loop,
    Future.mk, Node.propagate, Node.setChildren, Observer.set, Future.drop, Node.reparent,
    Receive.deliver, Receive.deliverLoop, acquire, Future.ready, Future.get]

theorem mixedRun_tests :
    mixedRun [(5, [0]), (1, Msg.val0 1), (0, Msg.val0 0), (2, Msg.val0 2)] =
      some ([1, 1, 1, 0], true, Msg.val1 4 (Msg.val0 0)) ∧
    mixedRun [(5, [0]), (1, Msg.val0 1)] = some ([1, 1], false, []) ∧
    mixedRun [(0, Msg.val0 0), (1, Msg.val0 1), (2, Msg.val0 2), (5, [0]), (1, Msg.val0 1),
      (2, Msg.val0 2), (0, Msg.val0 0)] =
      some ([0, 0, 0, 1, 1, 1, 0], true,
        Msg.val1 4 (Msg.val2 0 (Msg.val0 1) (Msg.val0 2))) := by
  refine ⟨?_, ?_, ?_⟩ <;> decide!

/-- C13: the fixture `AltBindMixedTest`,
`x = bind<T, int>(receive<int>(), i -> if i == 0 then alt(bind(receive<B>(),
receive<C>(), (b, c) -> A(b, c)), receive<A>(), a -> T(a), a -> T(a)) else ...)`.
For all delivered values: before an `int` is delivered, `deliver` of an `A`, of a
`B` and of a `C` return 0 and `x` is not ready; after `deliver<int>(0)`, which
returns 1, the delivery of a `B` returns 1, the delivery of `a` returns 1 and
leaves `x` ready with `T(a)`, and the subsequent delivery of a `C` returns 0.
With the values of the tests: the sequence of `branch0_interruptedBind` gives
`T(A())`, `x` is still unready after `deliver<int>(0)` and `deliver(B())`, and
when `B()` and `C()` are delivered before `A()` the inner bind wins, `x` is
`T(A(B(), C()))` and `deliver(A())` returns 0 (`branch0_finishedBind`). -/
theorem mixed_interrupted_bind (a0 b0 c0 a b c : List Nat) :
    mixedRun [(0, a0), (1, b0), (2, c0)] = some ([0, 0, 0], false, []) ∧
    mixedRun [(0, a0), (1, b0), (2, c0), (5, [0]), (1, b), (0, a), (2, c)] =
      some ([0, 0, 0, 1, 1, 1, 0], true, Msg.val1 4 a) ∧
    mixedRun [(5, [0]), (1, Msg.val0 1), (0, Msg.val0 0), (2, Msg.val0 2)] =
      some ([1, 1, 1, 0], true, Msg.val1 4 (Msg.val0 0)) ∧
    mixedRun [(5, [0]), (1, Msg.val0 1)] = some ([1, 1], false, []) ∧
    mixedRun [(0, Msg.val0 0), (1, Msg.val0 1), (2, Msg.val0 2), (5, [0]), (1, Msg.val0 1),
      (2, Msg.val0 2), (0, Msg.val0 0)] =
      some ([0, 0, 0, 1, 1, 1, 0], true,
        Msg.val1 4 (Msg.val2 0 (Msg.val0 1) (Msg.val0 2))) :=
  ⟨mixedRun_before a0 b0 c0, mixedRun_interrupted a0 b0 c0 a b c, mixedRun_tests⟩

end mixed

/-! ## Unsubscription before the callback of an alt -/

section altReset
variable {C V : Type} [Inhabited V]

/-- C17: `Alt::set<i>(v)` on an alt node whose parents slot `i` is still
occupied, in a state that satisfies the graph invariant. The loop over the
parents runs first and leaves every parents entry of the alt null, without any
callback invocation; the callback `f_i` then runs from that state. In the state
reached, and in every later state in which the alt node is alive, every parents
entry of the alt is null and no node of a registry (no pending `Receive`) has a
child observer that targets the alt: a `Receive` constructed by `f_i` is not
connected to it. -/
theorem alt_resets_before_callback (code : Code C V) (s : State C V) (hi : Inv s) (t rc : Nat)
    (fs : List C) (ps : List (Option Nat)) (cs : List Nat)
    (ht : s.heap t = some (.node rc (.alt fs) ps cs)) (i o : Nat)
    (hslot : ps.get? i = some (some o)) (v : V) (fuel : Nat) (s1 : State C V)
    (h : Node.set code fuel t i v s = .ok s1) :
    (∃ s2 f x s3, Alt.resetParents code (fuel - 1) t (List.range ps.length) s = .ok s2 ∧
      s2.trace = s.trace ∧ (∀ j o1, (s2.slots t).get? j ≠ some (some o1)) ∧
      fs.get? i = some f ∧
      Prog.run code (fuel - 1) (code.body f [v]) (s2.emit (.call t i [v])) = .ok (x, s3)) ∧
    Inv s1 ∧
    ∀ s4 : State C V, Inv s4 → (∃ evs, s4.trace = s1.trace ++ evs) →
      ∀ fs1, s4.kind t = some (.alt fs1) →
        (∀ j o1, (s4.slots t).get? j ≠ some (some o1)) ∧
        ∀ ty, ∀ r ∈ s4.instances ty, ∀ o1 ∈ s4.kids r, ∀ rc1 j,
          s4.arg o1 ≠ some (rc1, t, j) := by
  have hkind := State.kind_node ht
  have hslots := State.slots_node ht
  have hslot0 : (s.slots t).get? i = some (some o) := by rw [hslots]; exact hslot
  have hnc : ¬ s.called t := fun hcl => hi.1.calledAlt t fs hkind hcl i o hslot0
  have hnf : ¬ s.fired t := fun hf => hi.1.firedSlots t hf i o hslot0
  have hreg : ∀ ty, t ∉ s.instances ty := by
    intro ty hty
    rw [hi.1.regSlots ty t hty] at hslot0
    simp at hslot0
  cases fuel with
  | zero => simp [Node.set] at h
  | succ fuel =>
    rw [Node.set] at h
    split at h
    · rename_i _ _ _ _ _ _ ht1
      rw [ht] at ht1
      cases ht1
    · rename_i rc1 fs1 ps1 cs1 ht1
      rw [ht] at ht1
      simp only [Option.some.injEq, Obj.node.injEq, Kind.alt.injEq] at ht1
      obtain ⟨_, rfl, rfl, _⟩ := ht1
      split at h
      · rename_i s2 h2
        obtain ⟨i2, f2, htr, hin, hnx, hsl, hkd⟩ := Alt.resetParents_inv code fuel t _ hi h2
        split at h
        · rename_i f hf
          split at h
          · rename_i x s3 h3
            split at h
            · rename_i s4 h4
              have hsl2 : ∀ j o1, (s2.slots t).get? j ≠ some (some o1) := by
                intro j o1 hs
                obtain ⟨g1, g2⟩ := hsl j o1 hs
                rw [hslots, List.get?_eq_getElem?] at g1
                have hlt : j < ps.length := by
                  by_contra hge
                  rw [List.getElem?_eq_none (not_lt.1 hge)] at g1
                  cases g1
                exact g2 (List.mem_range.2 hlt)
              have hnc2 : ¬ s2.called t := fun hcl => hnc ((State.called_congr htr t).1 hcl)
              obtain ⟨i5, f5, ⟨evs, he⟩, _⟩ := (keeps code fuel).fire i2
                (by rw [hnx]; exact State.heap_lt hi.1 ht) hnc2
                (fun hf => hnf ((State.fired_congr htr t).1 hf))
                (by rw [hin]; exact hreg) hsl2
                (by
                  intro r ar f0 hk
                  have := hkd _ hk
                  rw [hkind] at this
                  cases this)
                h3 h4 h
              refine ⟨⟨s2, f, x, s3, h2, htr, hsl2, hf, h3⟩, i5, ?_⟩
              intro s6 i6 ⟨evs6, he6⟩ fs6 hk6
              have hcalled : s6.called t := by
                refine ⟨i, [v], ?_⟩
                rw [he6, he]
                simp
              have hs6 : ∀ j o1, (s6.slots t).get? j ≠ some (some o1) :=
                i6.1.calledAlt t fs6 hk6 hcalled
              refine ⟨hs6, ?_⟩
              intro ty r hr o1 ho1 rc1 j harg
              have hnfr : ¬ s6.fired r := i6.1.regUnfired ty r hr
              have hns : ¬ s6.wasSet o1 := i6.1.unfiredUnset r o1 ho1 hnfr
              rcases (i6.2 o1 rc1 t j harg hns).2 (by rw [hk6]; simp) with g | ⟨g, _⟩
              · exact hs6 j o1 g
              · cases g
            · cases h
          · cases h
        · cases h
      · cases h
    · cases h

end altReset

section altResetWitness

theorem nestedSetRun_eq :
    nestedSetRun = some ⟨7, true, [none, none], [0, 8], [9, 13]⟩ := by
  decide!

theorem nestedRun_case0 :
    nestedRun [(0, Msg.val0 0), (1, Msg.val0 1), (0, Msg.val0 0), (2, Msg.val0 2)] =
      some ([1, 0, 1, 0], true, Msg.val2 4 (Msg.val0 0) (Msg.val0 0)) := by
  decide!

/-- C17 on the fixture `AltAltNested` (the test `case0`): `Alt::set<0>(A())` on
the outer alt (at 4) leaves both of its parents entries null; the callback has
constructed a new `Receive<A>` (at 8), which is in the registry of `A` and has no
child observer that targets the outer alt. In the test, `deliver(A())` returns 1,
`deliver(B())` returns 0, `deliver(A())` returns 1, `deliver(C())` returns 0, and
`x` is `T(A(), A())`. -/
theorem alt_resets_before_callback_witness :
    ∃ s s1 : State NestedC (List Nat),
      Prog.run nestedCode 8 nestedSetup State.init = .ok (7, s) ∧
      Node.set nestedCode 12 4 0 (Msg.val0 0)
        (s.write 4 (some (.node 2 (.alt [.nestA, .nestB]) [some 5, some 6] [7]))) = .ok s1 ∧
      s1.slots 4 = [none, none] ∧ 8 ∈ s1.instances 0 ∧ s1.kids 8 = [9, 13] ∧
      (∀ o1 ∈ s1.kids 8, ∀ rc1 j, s1.arg o1 ≠ some (rc1, 4, j)) ∧
      nestedRun [(0, Msg.val0 0), (1, Msg.val0 1), (0, Msg.val0 0), (2, Msg.val0 2)] =
        some ([1, 0, 1, 0], true, Msg.val2 4 (Msg.val0 0) (Msg.val0 0)) := by
  have h0 : ∃ s : State NestedC (List Nat),
      Prog.run nestedCode 8 nestedSetup State.init = .ok (7, s) ∧
      s.heap 4 = some (.node 1 (.alt [.nestA, .nestB]) [some 5, some 6] [7]) := by
    simp [nestedSetup, Prog.run, Receive.create, Alt.create, Future.create, Future.copyAll,
      Future.getParents, Future.getParent, Node.connect, State.alloc, State.emit, State.write,
      release, Obj.rc, Obj.setRc, Obj.refs, Kind.captures, nestedCode, State.init, Future.drop]
  obtain ⟨s, hs, ht⟩ := h0
  have h := nestedSetRun_eq
  unfold nestedSetRun at h
  rw [hs] at h
  simp only at h
  split at h
  · rename_i s1 h1
    simp only [Option.some.injEq, NestedObs.mk.injEq, true_and] at h
    obtain ⟨hk, hsl, hreg, hkids⟩ := h
    have hi : Inv s := ((keeps nestedCode 8).run inv_init hs).1
    have q : Quiet s (s.write 4 (some (.node 2 (.alt [.nestA, .nestB]) [some 5, some 6] [7]))) :=
      quiet_write s 4 _ _ ht (by simp [Obj.SameView]) (fun _ => by simp [Obj.ArgLe])
    have hi1 := inv_quiet hi q
    obtain ⟨_, i1, hlater⟩ := alt_resets_before_callback nestedCode _ hi1 4 2
      [.nestA, .nestB] [some 5, some 6] [7] (by simp) 0 5 (by simp) (Msg.val0 0) 12 s1 h1
    have hk1 : ∃ fs1, s1.kind 4 = some (.alt fs1) := by
      cases hh : s1.kind 4 with
      | none => rw [hh] at hk; cases hk
      | some k =>
        cases k with
        | alt fs1 => exact ⟨fs1, rfl⟩
        | receive => rw [hh] at hk; cases hk
        | bind r a f => rw [hh] at hk; cases hk
    obtain ⟨fs1, hk1⟩ := hk1
    obtain ⟨_, g2⟩ := hlater s1 i1 ⟨[], by simp⟩ fs1 hk1
    have h8 : 8 ∈ s1.instances 0 := by rw [hreg]; simp
    exact ⟨s, s1, hs, h1, hsl, h8, hkids, g2 0 8 h8, nestedRun_case0⟩
  · cases h

end altResetWitness

section keepsKids
variable {C V : Type} [Inhabited V]

omit [Inhabited V] in
theorem keepsKids_refl (s : State C V) : KeepsKids s s :=
  ⟨fun _ h => h, fun _ _ _ _ _ h => Or.inr ⟨_, _, _, h⟩⟩

omit [Inhabited V] in
theorem keepsKids_trans {a b c : State C V} (h1 : KeepsKids a b) (h2 : KeepsKids b c) :
    KeepsKids a c := by
  refine ⟨fun x hx => h2.1 x (h1.1 x hx), fun m rc k ps cs hm => ?_⟩
  rcases h1.2 m rc k ps cs hm with h | ⟨rc1, k1, ps1, h⟩
  · exact Or.inl (h2.1 m h)
  · exact h2.2 m rc1 k1 ps1 cs h

omit [Inhabited V] in
theorem keepsKids_of_shrinks {s s1 : State C V} (h : Shrinks s s1) : KeepsKids s s1 := by
  refine ⟨fun x hx => ?_, fun m rc k ps cs hm => ?_⟩
  · rcases h.2.2.2 x with h1 | ⟨o, ho, _⟩
    · exact h1
    · rw [hx] at ho; cases ho
  · rcases h.2.2.2 m with h1 | ⟨o, ho, n, _, h1⟩
    · exact Or.inl h1
    · rw [hm] at ho
      cases ho
      exact Or.inr ⟨n, k, ps, h1⟩

omit [Inhabited V] in
/-- Overwriting an object keeps the children lists when the object is not a node
or is a node that keeps its children list. -/
theorem keepsKids_write (s : State C V) (a : Nat) (o o1 : Obj C V) (ho : s.heap a = some o)
    (h : o1.kidsOf = o.kidsOf) (hn : ∀ rc k ps cs, o = .node rc k ps cs →
      ∃ rc1 k1 ps1 cs1, o1 = .node rc1 k1 ps1 cs1) :
    KeepsKids s (s.write a (some o1)) := by
  refine ⟨fun x hx => ?_, fun m rc k ps cs hm => ?_⟩
  · have : x ≠ a := by rintro rfl; rw [ho] at hx; cases hx
    simp [this, hx]
  · by_cases e : m = a
    · subst e
      rw [ho] at hm
      cases hm
      obtain ⟨rc1, k1, ps1, cs1, rfl⟩ := hn rc k ps cs rfl
      simp only [Obj.kidsOf] at h
      subst h
      exact Or.inr ⟨rc1, k1, ps1, by simp⟩
    · exact Or.inr ⟨rc, k, ps, by simp [e, hm]⟩

omit [Inhabited V] in
theorem keepsKids_emit (s : State C V) (e : Event V) : KeepsKids s (s.emit e) :=
  ⟨fun _ h => h, fun _ _ _ _ _ h => Or.inr ⟨_, _, _, h⟩⟩

omit [Inhabited V] in
theorem noCalls_append {a b : List (Event V)} (h : noCalls (a ++ b)) : noCalls a ∧ noCalls b :=
  ⟨fun t i x hx => h t i x (List.mem_append_left _ hx),
    fun t i x hx => h t i x (List.mem_append_right _ hx)⟩

omit [Inhabited V] in
/-- The loop of `Alt::set` over the parents leaves the children lists alone. -/
theorem resetParents_keepsKids (code : Code C V) (fuel t : Nat) (ks : List Nat) :
    ∀ {s s1 : State C V}, Alt.resetParents code fuel t ks s = .ok s1 →
      KeepsKids s s1 ∧ s1.trace = s.trace := by
  induction ks with
  | nil =>
    intro s s1 h
    cases h
    exact ⟨keepsKids_refl _, rfl⟩
  | cons k ks ih =>
    intro s s1 h
    rw [Alt.resetParents] at h
    split at h
    · rename_i rc kd ps cs ht
      split at h
      · rename_i sb hb
        obtain ⟨g1, g2⟩ := ih h
        have sh := release_shrinks code fuel _ hb
        refine ⟨keepsKids_trans (keepsKids_trans
          (keepsKids_write s t _ (.node rc kd (ps.set k none) cs) ht rfl
            (fun _ _ _ _ _ => ⟨_, _, _, _, rfl⟩))
          (keepsKids_of_shrinks sh)) g1, ?_⟩
        rw [g2, sh.2.2.1]
        rfl
      · cases h
    · cases h

omit [Inhabited V] in
/-- The trace of a run from a well-formed state extends the trace it started
with, and the state reached is well-formed. -/
theorem evolves_trace {s s1 : State C V} (h : Evolves s s1) (hw : s.WF) :
    s1.WF ∧ ∃ evs, s1.trace = s.trace ++ evs := by
  obtain ⟨w, _, _, _, e⟩ := h hw
  exact ⟨w, e⟩

/-- `Bind::set` and `Alt::set` that invoke no callback leave the children lists
alone. -/
theorem nodeSet_keepsKids (code : Code C V) (fuel t i : Nat) (v : V) {s s1 : State C V}
    (hw : s.WF) (h : Node.set code fuel t i v s = .ok s1) {evs : List (Event V)}
    (ht : s1.trace = s.trace ++ evs) (hn : noCalls evs) : KeepsKids s s1 := by
  have E := Closed.upto (evolves_closed (C := C) (V := V)) code (Code.delivers_true code)
  have fired : ∀ {s2 s3 s4 : State C V} {idx x : Nat} {args : List V} {f : C},
      s2.WF → s2.trace = s.trace →
      Prog.run code (fuel - 1) (code.body f args) (s2.emit (.call t idx args)) = .ok (x, s3) →
      Node.propagate code (fuel - 1) t x s3 = .ok s4 →
      release code (fuel - 1) [x] s4 = .ok s1 → False := by
    intro s2 s3 s4 idx x args f w2 t2 h3 h4 h5
    have w2e : (s2.emit (.call t idx args)).WF :=
      (evolves_trace (evolves_closed.call s2 t idx args) w2).1
    obtain ⟨w3, e3, he3⟩ := evolves_trace ((E (fuel - 1)).run (Code.delivers_true code f args) h3)
      w2e
    obtain ⟨w4, e4, he4⟩ := evolves_trace ((E (fuel - 1)).propagate h4) w3
    obtain ⟨_, e5, he5⟩ := evolves_trace (evolves_closed.release code (fuel - 1) [x] h5) w4
    have : s1.trace = s.trace ++ (Event.call t idx args :: (e3 ++ e4 ++ e5)) := by
      rw [he5, he4, he3]
      simp [State.emit, t2]
    rw [ht] at this
    have := List.append_cancel_left this
    exact hn t idx args (by rw [this]; simp)
  cases fuel with
  | zero => simp [Node.set] at h
  | succ fuel =>
    rw [Node.set] at h
    split at h
    · rename_i rc ready args f ps cs htn
      simp only at h
      split at h
      · rename_i s2 h2
        have sh := release_shrinks code fuel _ h2
        have k2 : KeepsKids s s2 := keepsKids_trans
          (keepsKids_write s t _ (.node rc (.bind (ready.set i true) (args.set i v) f)
            (ps.set i none) cs) htn rfl (fun _ _ _ _ _ => ⟨_, _, _, _, rfl⟩))
          (keepsKids_of_shrinks sh)
        split at h
        · exfalso
          have w2 : s2.WF := by
            have e1 : Evolves s (s.write t (some (.node rc
                (.bind (ready.set i true) (args.set i v) f) (ps.set i none) cs))) :=
              evolves_closed.write s t _ _ htn (by simp [Obj.SameClass])
            exact (evolves_trace (evolves_closed.release code fuel _ h2)
              (evolves_trace e1 hw).1).1
          split at h
          · rename_i x s3 h3
            split at h
            · rename_i s4 h4
              exact fired w2 (by rw [sh.2.2.1]; rfl) h3 h4 h
            · cases h
          · cases h
        · cases h
          exact k2
      · cases h
    · rename_i rc fs ps cs htn
      split at h
      · rename_i s2 h2
        obtain ⟨k2, t2⟩ := resetParents_keepsKids code fuel t _ h2
        have w2 : s2.WF := (evolves_trace (evolves_closed.resetParents code fuel t _ h2) hw).1
        split at h
        · rename_i f hf
          exfalso
          split at h
          · rename_i x s3 h3
            split at h
            · rename_i s4 h4
              exact fired w2 t2 h3 h4 h
            · cases h
          · cases h
        · cases h
      · cases h
    · cases h

/-- A call of `set` on an observer that leads to no callback invocation leaves
the children lists alone. -/
theorem observerSet_keepsKids (code : Code C V) (fuel o : Nat) (v : V) {s s1 : State C V}
    (hw : s.WF) (h : Observer.set code fuel o v s = .ok s1) {evs : List (Event V)}
    (ht : s1.trace = s.trace ++ evs) (hn : noCalls evs) : KeepsKids s s1 := by
  cases fuel with
  | zero => simp [Observer.set] at h
  | succ fuel =>
    rw [Observer.set] at h
    split at h
    · rename_i rc r w p ho
      exact keepsKids_trans
        (keepsKids_write s o _ (.data rc true v none) ho rfl (fun _ _ _ _ e => by cases e))
        (keepsKids_of_shrinks (release_shrinks code fuel _ h))
    · rename_i rc p t i ho
      split at h
      · rename_i rct k ps cs htn
        split at h
        · rename_i s2 h2
          have sh := release_shrinks code fuel _ h
          have e1 : Evolves s (s.write t (some (.node (rct + 1) k ps cs))) :=
            evolves_closed.write s t _ _ htn (by cases k <;> simp [Obj.SameClass])
          have k2 := nodeSet_keepsKids code fuel t i v (evolves_trace e1 hw).1 h2
            (by rw [← sh.2.2.1, ht]; rfl) hn
          exact keepsKids_trans (keepsKids_trans
            (keepsKids_write s t _ (.node (rct + 1) k ps cs) htn rfl
              (fun _ _ _ _ _ => ⟨_, _, _, _, rfl⟩)) k2) (keepsKids_of_shrinks sh)
        · cases h
      · cases h
      · cases h
        exact keepsKids_refl _
    · cases h

/-- The loop of the ready branch of `propagate`, when no callback is invoked
during it, leaves the children lists alone. -/
theorem setChildren_keepsKids (code : Code C V) (v : V) (cs : List Nat) :
    ∀ (fuel : Nat) {s s1 : State C V}, s.WF → Node.setChildren code fuel cs v s = .ok s1 →
      ∀ {evs : List (Event V)}, s1.trace = s.trace ++ evs → noCalls evs → KeepsKids s s1 := by
  have E := Closed.upto (evolves_closed (C := C) (V := V)) code (Code.delivers_true code)
  induction cs with
  | nil =>
    intro fuel s s1 _ h evs _ _
    cases fuel with
    | zero => simp [Node.setChildren] at h
    | succ fuel =>
      simp [Node.setChildren] at h
      subst h
      exact keepsKids_refl _
  | cons c cs ih =>
    intro fuel s s1 hw h evs ht hn
    cases fuel with
    | zero => simp [Node.setChildren] at h
    | succ fuel =>
      rw [Node.setChildren] at h
      split at h
      · exact ih fuel hw h ht hn
      · cases h
      · rename_i o hnot ho
        split at h
        · rename_i sb hb
          split at h
          · rename_i sc hcc
            have we : (s.emit (.set c v)).WF :=
              (evolves_trace (evolves_closed.set s c v) hw).1
            have e1 : Evolves (s.emit (.set c v))
                ((s.emit (.set c v)).write c (some (o.setRc (o.rc + 1)))) :=
              evolves_closed.write _ c _ _ ho (sameClass_setRc _ _)
            have wl := (evolves_trace e1 we).1
            obtain ⟨wb, eb, heb⟩ := evolves_trace ((E fuel).observerSet hb) wl
            have shc := release_shrinks code fuel _ hcc
            have wc : sc.WF := (evolves_trace (evolves_closed.release code fuel _ hcc) wb).1
            obtain ⟨_, er, her⟩ := evolves_trace ((E fuel).setChildren h) wc
            have htc : sc.trace = s.trace ++ (Event.set c v :: eb) := by
              rw [shc.2.2.1, heb]
              simp [State.emit]
            have hev : evs = Event.set c v :: eb ++ er := by
              rw [her, htc, List.append_assoc] at ht
              exact (List.append_cancel_left ht).symm
            have hn1 : noCalls eb ∧ noCalls er := by
              rw [hev] at hn
              have h1 := noCalls_append (a := Event.set c v :: eb) (b := er) hn
              exact ⟨fun t i a hm => h1.1 t i a (List.mem_cons_of_mem _ hm), h1.2⟩
            have kb := observerSet_keepsKids code fuel c v wl hb heb hn1.1
            have kr := ih fuel wc h her hn1.2
            have kl : KeepsKids s ((s.emit (.set c v)).write c (some (o.setRc (o.rc + 1)))) := by
              refine keepsKids_trans (keepsKids_emit s _)
                (keepsKids_write _ c o _ ho (by cases o <;> rfl) (fun rc k ps cs e => ?_))
              subst e
              exact ⟨_, _, _, _, rfl⟩
            exact keepsKids_trans (keepsKids_trans (keepsKids_trans kl kb)
              (keepsKids_of_shrinks shc)) kr
          · cases h
        · cases h

end keepsKids

section traversalClaim
variable {C V : Type} [Inhabited V]

/-- C19: the ready branch of `propagate(x)`, for `x` ready with value `v`, on a
node `n` that has not propagated before, in a state that satisfies the graph
invariant. The observers of the children list `cs` on which `set` is called
form a sublist of `cs` in the order of the calls, so the children are taken in
registration order. A child is skipped when it is dead in the state in which the
loop reaches it, that is after the loop over the children before it, and `set`
is called on it exactly once, with `v`, when it is alive in that state. When no
callback is invoked during the loop (a callback may subscribe to any node and
graft onto it), every node that is alive afterwards, the node `n` among them,
has the children list it had. -/
theorem propagate_ready_sets_children (code : Code C V) (fuel n x : Nat) (s s1 : State C V)
    (hi : Inv s) (hd : s.Dormant n) (rcx : Nat) (v : V) (q : Option Nat)
    (hx : s.heap x = some (.data rcx true v q)) (rcn : Nat) (k : Kind C V)
    (ps : List (Option Nat)) (cs : List Nat) (hn : s.heap n = some (.node rcn k ps cs))
    (h : Node.propagate code fuel n x s = .ok s1) :
    ∃ evs, s1.trace = s.trace ++ .propagate n x :: evs ∧ (childSets cs evs).Sublist cs ∧
      (∀ pre d post, cs = pre ++ d :: post →
        ∃ sm, Node.setChildren code (fuel - 1) pre v (s.emit (.propagate n x)) = .ok sm ∧
          (sm.heap d = none → setsOf d evs = []) ∧ (sm.heap d ≠ none → setsOf d evs = [v])) ∧
      (∀ d ∈ cs, s.heap d = none → setsOf d evs = []) ∧
      (noCalls evs → ∀ m rc km pm cm, s.heap m = some (.node rc km pm cm) →
        s1.heap m = none ∨ ∃ rc1 km1 pm1, s1.heap m = some (.node rc1 km1 pm1 cm)) := by
  cases fuel with
  | zero => simp [Node.propagate] at h
  | succ fuel =>
    rw [Node.propagate] at h
    simp only [hx, hn] at h
    have hkn := State.kids_node hn
    have i0 := hd.emit_propagate hi x
    have hpre : ∀ c ∈ cs, (s.emit (.propagate n x)).Detached c ∧
        ¬ (s.emit (.propagate n x)).wasSet c := by
      intro c hc
      have hc1 : c ∈ s.kids n := by rw [hkn]; exact hc
      refine ⟨⟨hi.1.childBound n c hc1, fun m hm => ?_⟩, fun hw => ?_⟩
      · have : m = n := hi.1.childDisjoint m n c hm hc1
        rw [this]
        exact (State.fired_emit s _ n).2 (Or.inr ⟨x, rfl⟩)
      · rcases (State.wasSet_emit s _ c).1 hw with g | ⟨y, g⟩
        · exact hi.1.unfiredUnset n c hc1 hd.2.1 g
        · cases g
    have hnd : cs.Nodup := by rw [← hkn]; exact hi.1.childNodup n
    obtain ⟨evs, ht, g1, g2, g3, g4, g5, _⟩ := setChildren_order code v cs fuel i0 hnd hpre h
    refine ⟨evs, ?_, g1, ?_, ?_, ?_⟩
    · rw [ht]
      simp [State.emit]
    · intro pre d post hcs
      rw [Nat.add_sub_cancel]
      exact setChildren_reached code v fuel i0 hnd hpre h ht pre d post hcs
    · intro d hd1 hdead
      exact g3 d hd1 (g4 d hd1 hdead)
    · intro hnc m rc km pm cm hm
      have hw : (s.emit (.propagate n x)).WF := ⟨i0.1.heapBound, i0.1.regBound⟩
      exact (setChildren_keepsKids code v cs fuel hw h ht hnc).2 m rc km pm cm hm

theorem skipDeadRun_eq :
    skipDeadRun = some ⟨8, [1, 3, 6], true, 9, true, true, [0], true⟩ := by
  decide!

/-- C19 on the `Receive` node of `skipDead` once `deliver` has moved the
registry out: the children are 1, 3 and 6, of which 3 is dead. `set(9)` is called
once on 1 and once on 6, in this order, and not on 3. -/
theorem propagate_ready_sets_children_witness :
    ∃ (s s1 : State (List Nat → Nat) Nat) (evs : List (Event Nat)),
      Prog.run pureCode 12 skipDead State.init = .ok (8, s) ∧ s.kids 0 = [1, 3, 6] ∧
      Node.propagate pureCode 12 0 8
        { s with instances := fun t => if t = 0 then [] else s.instances t } = .ok s1 ∧
      s1.trace = s.trace ++ .propagate 0 8 :: evs ∧
      (childSets [1, 3, 6] evs).Sublist [1, 3, 6] ∧
      setsOf 1 evs = [9] ∧ setsOf 3 evs = [] ∧ setsOf 6 evs = [9] := by
  have h := skipDeadRun_eq
  unfold skipDeadRun at h
  split at h
  · rename_i z s h1
    split at h
    · rename_i s1 hp
      split at h
      · rename_i sm hsm
        simp only [Option.some.injEq, SkipObs.mk.injEq] at h
        obtain ⟨rfl, hk, hr, hv, h3, a1, hreg, a6⟩ := h
        have h3 : s.heap 3 = none := by simpa using h3
        have a1 : s.heap 1 ≠ none := by
          intro e
          rw [e] at a1
          cases a1
        have a6 : sm.heap 6 ≠ none := by
          intro e
          rw [e] at a6
          cases a6
        have h0 : ∃ rc k ps, s.heap 0 = some (.node rc k ps [1, 3, 6]) := by
          unfold State.kids at hk
          cases hh : s.heap 0 with
          | none => rw [hh] at hk; cases hk
          | some o =>
            rw [hh] at hk
            cases o with
            | node rc k ps cs => exact ⟨rc, k, ps, by rw [show cs = [1, 3, 6] from hk]⟩
            | data rc r v p => cases hk
            | arg rc p t i => cases hk
        obtain ⟨rc0, k0, ps0, h0⟩ := h0
        have h8 : ∃ rc q, s.heap 8 = some (.data rc true 9 q) := by
          unfold Future.ready at hr
          unfold Future.get at hv
          cases hh : s.heap 8 with
          | none => rw [hh] at hr; cases hr
          | some o =>
            rw [hh] at hr hv
            cases o with
            | node rc k ps cs => cases hr
            | data rc r v p =>
              simp only at hr hv
              subst hr hv
              exact ⟨rc, p, rfl⟩
            | arg rc p t i => cases hr
        obtain ⟨rc8, q8, h8⟩ := h8
        have hi : Inv s := ((keeps pureCode 12).run inv_init h1).1
        have hm : 0 ∈ s.instances 0 := by rw [hreg]; simp
        have hi0 : Inv { s with instances := fun t => if t = 0 then [] else s.instances t } :=
          ⟨core_clear hi.1 0, hi.2⟩
        have hd : State.Dormant
            { s with instances := fun t => if t = 0 then [] else s.instances t } 0 := by
          refine ⟨hi.1.regBound 0 0 hm, hi.1.regUnfired 0 0 hm, fun u hu => ?_, fun j o hs => ?_⟩
          · have hu : 0 ∈ (if u = 0 then [] else s.instances u) := hu
            by_cases e : u = 0
            · rw [if_pos e] at hu
              cases hu
            · rw [if_neg e] at hu
              exact e (hi.1.regDisjoint u 0 0 hu hm)
          · have hs : (s.slots 0).get? j = some (some o) := hs
            rw [hi.1.regSlots 0 0 hm] at hs
            simp at hs
        obtain ⟨evs, ht, g1, g2, g3, _⟩ := propagate_ready_sets_children pureCode 12 0 8 _ s1
          hi0 hd rc8 9 q8 h8 rc0 k0 ps0 [1, 3, 6] h0 hp
        refine ⟨s, s1, evs, h1, hk, hp, ht, g1, ?_, g3 3 (by simp) h3, ?_⟩
        · obtain ⟨sm1, e1, _, k1⟩ := g2 [] 1 [3, 6] rfl
          simp [Node.setChildren] at e1
          subst e1
          exact k1 a1
        · obtain ⟨sm6, e6, _, k6⟩ := g2 [1, 3] 6 [] rfl
          have e6 : Node.setChildren pureCode 11 [1, 3] 9
              (State.emit { s with instances := fun t => if t = 0 then [] else s.instances t }
                (.propagate 0 8)) = .ok sm6 := e6
          rw [hsm] at e6
          cases e6
          exact k6 a6
      · cases h
    · cases h
  · cases h

end traversalClaim

/-! ## The count of a delivery, entry by entry -/

section arrival
variable {C V : Type} [Inhabited V]

/-- The count the delivery loop starts from is carried through unchanged. -/
theorem Receive.deliverLoop_shift (code : Code C V) (ty : Nat) (v : V) (d : Nat) :
    ∀ (fuel : Nat) (is : List Nat) (n : Nat) (s : State C V),
      Receive.deliverLoop code fuel ty is v (n + d) s =
        match Receive.deliverLoop code fuel ty is v n s with
        | .ok (m, s1) => .ok (m + d, s1)
        | .error e => .error e := by
  intro fuel
  induction fuel with
  | zero => intro is n s; simp [Receive.deliverLoop]
  | succ fuel ih =>
    intro is n s
    cases is with
    | nil => simp [Receive.deliverLoop]
    | cons i is =>
      rw [Receive.deliverLoop, Receive.deliverLoop]
      split
      · simp only [Future.mk]
        split
        · split
          · have e : n + d + 1 = n + 1 + d := by omega
            rw [e]
            exact ih is (n + 1) _
          · rfl
        · rfl
      · rfl
      · exact ih is n s

/-- The state the delivery loop ends in does not depend on the count it starts
from. -/
theorem Receive.deliverLoop_from_zero (code : Code C V) (ty : Nat) (v : V) (fuel : Nat)
    (is : List Nat) (n : Nat) (s : State C V) :
    Receive.deliverLoop code fuel ty is v n s =
      match Receive.deliverLoop code fuel ty is v 0 s with
      | .ok (m, s1) => .ok (m + n, s1)
      | .error e => .error e := by
  have := Receive.deliverLoop_shift code ty v n fuel is 0 s
  rwa [Nat.zero_add] at this

/-- The delivery loop counts the entries of its snapshot that are alive in the
state in which it reaches them; it reaches every entry, and the state in which
it would reach an entry after the last one is the state it ends in. -/
theorem Receive.deliverLoop_arrival (code : Code C V) (ty : Nat) (v : V) :
    ∀ (fuel : Nat) (is : List Nat) (n m : Nat) (s s1 : State C V),
      Receive.deliverLoop code fuel ty is v n s = .ok (m, s1) →
      m = n + (List.range is.length).countP (Receive.liveOnArrival code fuel ty is v s) ∧
        (∀ j, j ≤ is.length → ∃ sm, Receive.arrival code fuel ty is v s j = some sm) ∧
        Receive.arrival code fuel ty is v s is.length = some s1 := by
  intro fuel
  induction fuel with
  | zero => intro is n m s s1 h; simp [Receive.deliverLoop] at h
  | succ fuel ih =>
    intro is n m s s1 h
    cases is with
    | nil =>
      simp [Receive.deliverLoop] at h
      obtain ⟨rfl, rfl⟩ := h
      refine ⟨by simp, fun j _ => ⟨s, by simp [Receive.arrival, Receive.deliverLoop]⟩,
        by simp [Receive.arrival, Receive.deliverLoop]⟩
    | cons i is =>
      have h0 : Receive.arrival code (fuel + 1) ty (i :: is) v s 0 = some s := by
        simp [Receive.arrival, Receive.deliverLoop]
      rw [Receive.deliverLoop] at h
      split at h
      · rename_i rc k ps cs ho
        simp only [Future.mk] at h
        split at h
        · rename_i s2 h2
          split at h
          · rename_i s3 h3
            obtain ⟨g1, g2, g3⟩ := ih is (n + 1) m s3 s1 h
            have ha : ∀ j, Receive.arrival code (fuel + 1) ty (i :: is) v s (j + 1) =
                Receive.arrival code fuel ty is v s3 j := by
              intro j
              unfold Receive.arrival
              rw [List.take_succ_cons, Receive.deliverLoop]
              simp only [ho, Future.mk, h2, h3]
              rw [Receive.deliverLoop_from_zero]
              cases Receive.deliverLoop code fuel ty (List.take j is) v 0 s3 with
              | error e => rfl
              | ok p => rfl
            have hl : ∀ j, Receive.liveOnArrival code (fuel + 1) ty (i :: is) v s (j + 1) =
                Receive.liveOnArrival code fuel ty is v s3 j := by
              intro j
              unfold Receive.liveOnArrival
              rw [ha j]
              rfl
            have hl0 : Receive.liveOnArrival code (fuel + 1) ty (i :: is) v s 0 = true := by
              unfold Receive.liveOnArrival
              rw [h0]
              simp [ho]
            refine ⟨?_, ?_, ?_⟩
            · rw [List.length_cons, List.range_succ_eq_map, List.countP_cons, List.countP_map,
                hl0, g1]
              have : (Receive.liveOnArrival code (fuel + 1) ty (i :: is) v s ∘ Nat.succ) =
                  Receive.liveOnArrival code fuel ty is v s3 := by
                funext j
                exact hl j
              rw [this]
              simp
              omega
            · intro j hj
              cases j with
              | zero => exact ⟨s, h0⟩
              | succ j =>
                rw [ha j]
                exact g2 j (by simpa using hj)
            · rw [List.length_cons, ha]
              exact g3
          · cases h
        · cases h
      · cases h
      · rename_i ho
        obtain ⟨g1, g2, g3⟩ := ih is n m s s1 h
        have ha : ∀ j, Receive.arrival code (fuel + 1) ty (i :: is) v s (j + 1) =
            Receive.arrival code fuel ty is v s j := by
          intro j
          unfold Receive.arrival
          rw [List.take_succ_cons, Receive.deliverLoop]
          simp only [ho]
        have hl : ∀ j, Receive.liveOnArrival code (fuel + 1) ty (i :: is) v s (j + 1) =
            Receive.liveOnArrival code fuel ty is v s j := by
          intro j
          unfold Receive.liveOnArrival
          rw [ha j]
          rfl
        have hl0 : Receive.liveOnArrival code (fuel + 1) ty (i :: is) v s 0 = false := by
          unfold Receive.liveOnArrival
          rw [h0]
          simp [ho]
        refine ⟨?_, ?_, ?_⟩
        · rw [List.length_cons, List.range_succ_eq_map, List.countP_cons, List.countP_map,
            hl0, g1]
          have : (Receive.liveOnArrival code (fuel + 1) ty (i :: is) v s ∘ Nat.succ) =
              Receive.liveOnArrival code fuel ty is v s := by
            funext j
            exact hl j
          rw [this]
          simp
        · intro j hj
          cases j with
          | zero => exact ⟨s, h0⟩
          | succ j =>
            rw [ha j]
            exact g2 j (by simpa using hj)
        · rw [List.length_cons, ha]
          exact g3

/-- The delivery loop over a snapshot is the loop over a first part of the
snapshot followed by the loop over the rest, which starts from the count and
the state the first loop ends with. -/
theorem Receive.deliverLoop_append (code : Code C V) (ty : Nat) (v : V) (pre rest : List Nat) :
    ∀ (fuel n : Nat) {s s1 : State C V} {m : Nat},
      Receive.deliverLoop code fuel ty (pre ++ rest) v n s = .ok (m, s1) →
      ∃ k sm, Receive.deliverLoop code fuel ty pre v n s = .ok (k, sm) ∧
        Receive.deliverLoop code (fuel - pre.length) ty rest v k sm = .ok (m, s1) := by
  induction pre with
  | nil =>
    intro fuel n s s1 m h
    cases fuel with
    | zero => simp [Receive.deliverLoop] at h
    | succ fuel => exact ⟨n, s, by simp [Receive.deliverLoop], by simpa using h⟩
  | cons i pre ih =>
    intro fuel n s s1 m h
    cases fuel with
    | zero => simp [Receive.deliverLoop] at h
    | succ fuel =>
      rw [List.cons_append, Receive.deliverLoop] at h
      rw [Receive.deliverLoop]
      have e : fuel + 1 - (i :: pre).length = fuel - pre.length := by simp
      rw [e]
      split at h
      · simp only [Future.mk] at h ⊢
        split at h
        · split at h
          · exact ih fuel (n + 1) h
          · cases h
        · cases h
      · cases h
      · exact ih fuel n h

/-- Whether an entry is alive on arrival depends only on the entries up to it. -/
theorem Receive.liveOnArrival_take (code : Code C V) (fuel ty : Nat) (is : List Nat) (v : V)
    (s : State C V) {i j : Nat} (h : i < j) :
    Receive.liveOnArrival code fuel ty (is.take j) v s i =
      Receive.liveOnArrival code fuel ty is v s i := by
  unfold Receive.liveOnArrival Receive.arrival
  have e1 : (is.take j).take i = is.take i := by
    rw [List.take_take, Nat.min_eq_left (Nat.le_of_lt h)]
  have e2 : (is.take j).get? i = is.get? i := by
    simp [List.getElem?_take, h]
  rw [e1, e2]

/-- The delivery loop passes through the state in which it reaches the entry
number `j`: the count so far is the number of entries before it that were alive
on arrival, and the loop over the remaining entries, run from that count and
that state, gives the result of the whole loop. -/
theorem Receive.deliverLoop_reach (code : Code C V) (ty : Nat) (v : V) (fuel : Nat)
    (is : List Nat) (n : Nat) (s s1 : State C V)
    (h : Receive.deliverLoop code fuel ty is v 0 s = .ok (n, s1)) (j : Nat) (hj : j ≤ is.length) :
    ∃ k sm, Receive.arrival code fuel ty is v s j = some sm ∧
      k = (List.range j).countP (Receive.liveOnArrival code fuel ty is v s) ∧
      Receive.deliverLoop code (fuel - j) ty (is.drop j) v k sm = .ok (n, s1) := by
  have hsplit : is = is.take j ++ is.drop j := (List.take_append_drop j is).symm
  have h1 := h
  rw [hsplit] at h1
  obtain ⟨k, sm, hA, hB⟩ := Receive.deliverLoop_append code ty v (is.take j) (is.drop j) fuel 0 h1
  have hlen : (is.take j).length = j := by simp [hj]
  rw [hlen] at hB
  refine ⟨k, sm, ?_, ?_, hB⟩
  · unfold Receive.arrival
    rw [hA]
  · have g := (Receive.deliverLoop_arrival code ty v fuel (is.take j) 0 k s sm hA).1
    rw [hlen, Nat.zero_add] at g
    rw [g]
    apply List.countP_congr
    intro i hi
    rw [Receive.liveOnArrival_take code fuel ty is v s (List.mem_range.1 hi)]

end arrival

section arrivalClaim
variable {C V : Type} [Inhabited V]

/-- C2, amended: `deliver<T>(x)` returns exactly the number of entries of the
registry snapshot whose `Receive<T>` node is alive in the state in which the
loop reaches the entry, that is the state at the end of the loop over the
entries before it. The loop reaches every entry, in snapshot order: when it
reaches the entry number `j` its count is the number of entries before it that
were alive on arrival, and the rest of the loop, run from that count and that
state, gives the result of the call. The count returned is at most the number
of `Receive<T>` nodes that are alive when the snapshot is taken. -/
theorem deliver_counts_live_on_arrival (code : Code C V) (fuel ty : Nat) (v : V) (n : Nat)
    (s s1 : State C V) (hs : s.WF) (h : Receive.deliver code fuel ty v s = .ok (n, s1)) :
    n = (List.range (s.instances ty).length).countP
        (Receive.liveOnArrival code (fuel - 1) ty (s.instances ty) v
          { s with instances := fun t => if t = ty then [] else s.instances t }) ∧
      (∀ j, j ≤ (s.instances ty).length →
        ∃ k sm, Receive.arrival code (fuel - 1) ty (s.instances ty) v
            { s with instances := fun t => if t = ty then [] else s.instances t } j = some sm ∧
          k = (List.range j).countP
            (Receive.liveOnArrival code (fuel - 1) ty (s.instances ty) v
              { s with instances := fun t => if t = ty then [] else s.instances t }) ∧
          Receive.deliverLoop code (fuel - 1 - j) ty ((s.instances ty).drop j) v k sm =
            .ok (n, s1)) ∧
      Receive.arrival code (fuel - 1) ty (s.instances ty) v
        { s with instances := fun t => if t = ty then [] else s.instances t }
        (s.instances ty).length = some s1 ∧
      n ≤ s.liveCount (s.instances ty) := by
  cases fuel with
  | zero => simp [Receive.deliver] at h
  | succ fuel =>
    rw [Receive.deliver] at h
    rw [Nat.add_sub_cancel]
    obtain ⟨g1, g2, g3⟩ := Receive.deliverLoop_arrival code ty v fuel _ 0 n _ s1 h
    refine ⟨by simpa using g1,
      fun j hj => Receive.deliverLoop_reach code ty v fuel _ n _ s1 h j hj, g3, ?_⟩
    have hc := (evolves_closed (C := C) (V := V)).clear s ty trivial hs
    have := Receive.deliverLoop_le code ty v fuel _ 0 n _ s1 hc.1 (fun i hi => hs.2 ty i hi) h
    simpa [State.liveCount] using this

/-- The setup `altOverTwoReceives` leaves a well-formed state well-formed. -/
theorem altOverTwoReceives_wf (code : Code C V) (fuel ty : Nat) (f g : C) {s s1 : State C V}
    {x : Nat} (hs : s.WF) (h : altOverTwoReceives code fuel ty f g s = .ok (x, s1)) : s1.WF := by
  have hE := evolves_closed (C := C) (V := V)
  unfold altOverTwoReceives at h
  simp only [bind, Except.bind, pure, Except.pure] at h
  split at h
  · cases h
  · rename_i p1 h1
    obtain ⟨t1, sa⟩ := p1
    simp only at h
    split at h
    · cases h
    · rename_i p2 h2
      obtain ⟨t2, sb⟩ := p2
      simp only at h
      split at h
      · cases h
      · rename_i p3 h3
        obtain ⟨y, sc⟩ := p3
        simp only at h
        split at h
        · cases h
        · rename_i sd h4
          split at h
          · cases h
          · rename_i se h5
            cases h
            have e : Evolves s s1 :=
              hE.trans (hE.receiveCreate code fuel ty h1)
                (hE.trans (hE.receiveCreate code fuel ty h2)
                  (hE.trans (hE.altCreate code fuel _ _ h3)
                    (hE.trans (hE.drop code fuel h4) (hE.drop code fuel h5))))
            exact (e hs).1

theorem altOverTwoReceivesArrival_eq : altOverTwoReceivesArrival = some (1, 2, [true, false]) := by
  decide!

/-- C2, amended, on `x = alt<T, A, A>(receive<A>(), receive<A>(), f, f)` followed
by `deliver<A>(5)`: both entries of the snapshot are alive when it is taken; the
first is alive when the loop reaches it and the second is not; the count
returned is 1. With two held `receive<T>()` futures instead, the count is 2. -/
theorem deliver_counts_live_on_arrival_witness :
    ∃ x s n s1, altOverTwoReceives pureCode 10 0 (fun l => l.headD 0) (fun l => l.headD 0)
        (State.init (V := Nat)) = .ok (x, s) ∧ s.WF ∧
      Receive.deliver pureCode 12 0 5 s = .ok (n, s1) ∧
      n = (List.range (s.instances 0).length).countP
        (Receive.liveOnArrival pureCode 11 0 (s.instances 0) 5
          { s with instances := fun t => if t = 0 then [] else s.instances t }) ∧
      (List.range (s.instances 0).length).map
        (Receive.liveOnArrival pureCode 11 0 (s.instances 0) 5
          { s with instances := fun t => if t = 0 then [] else s.instances t }) = [true, false] ∧
      n = 1 ∧ s.liveCount (s.instances 0) = 2 ∧ n ≤ s.liveCount (s.instances 0) ∧
      twoReceivesRun (5 : Nat) = some (2, 5, 5) := by
  have h := altOverTwoReceivesArrival_eq
  unfold altOverTwoReceivesArrival at h
  split at h
  · rename_i x s hs
    split at h
    · rename_i n s1 hd
      simp only [Option.some.injEq, Prod.mk.injEq] at h
      have hw := altOverTwoReceives_wf pureCode 10 0 _ _ State.init_wf hs
      obtain ⟨g1, _, _, g4⟩ := deliver_counts_live_on_arrival pureCode 12 0 5 n s s1 hw hd
      exact ⟨x, s, n, s1, hs, hw, hd, g1, h.2.2, h.1, h.2.1, g4, twoReceivesRun_eq 5⟩
    · cases h
  · cases h

end arrivalClaim

/-! ## Runs in which a graft drops subscribers -/

section dropped

theorem shadowedReceiveRun_eq : shadowedReceiveRun 5 = some ⟨[3], false, 2, true, false, true, 5⟩ := by
  decide!

theorem heldResultLate_eq : heldResultLate 5 = some ⟨[6], false, 1, true, false, true, 5⟩ := by
  decide!

theorem droppedObserversRun_eq :
    droppedObserversRun 7 =
      some ⟨[1, 3, 4], [some 3, some 4], 1, [10], false, 1, [], [], [], true, false, 7⟩ := by
  decide!

theorem sameTwiceRun_eq :
    sameTwiceRun = some ⟨5, [1, 3, 4], true, 7, [0], some ([false, false], [0, 0], 14), [5],
      some (1, 2, 0), true, some (1, 2, 1), true, true⟩ := by
  decide!

theorem bindOfBindRun_eq :
    bindOfBindRun 3 = some ⟨[4, 6, 7], 1, [4], [4], [(0, [4, 4])], true, 8⟩ := by
  decide!

end dropped

/-! ## Resolution of a receive future -/

section resolved
variable {C V : Type} [Inhabited V]

omit [Inhabited V] in
/-- A value cell that holds `(true, v)` answers `ready()` with true and `get()`
with `v`. -/
theorem State.cell_ready {s : State C V} {c : Nat} {v : V} (h : s.cell c = some (true, v)) :
    Future.ready s c = true := by
  unfold State.cell at h
  split at h
  · rename_i o ho
    cases o <;> simp [Obj.cellOf] at h
    simp [Future.ready, ho, h]
  · cases h

/-- A value cell that holds `(true, v)` answers `get()` with `v`. -/
theorem State.cell_get {s : State C V} {c : Nat} {v : V} (h : s.cell c = some (true, v)) :
    Future.get s c = v := by
  unfold State.cell at h
  split at h
  · rename_i o ho
    cases o <;> simp [Obj.cellOf] at h
    simp [Future.get, ho, h]
  · cases h

/-- From a state that satisfies the graph invariant, `deliver<T>(v)` reaches
every entry `r` of its snapshot, after the loop over the entries `pre` before
it. When the node of `r` is then alive, it is counted, and every value cell that
is then among its children is resolved to `v` for as long as it is alive. -/
theorem deliver_resolves_children (code : Code C V) (ty : Nat) (v : V) (fuel n : Nat)
    (s s1 : State C V) (hi : Inv s) (pre : List Nat) (r : Nat) (post : List Nat)
    (hreg : s.instances ty = pre ++ r :: post)
    (h : Receive.deliver code fuel ty v s = .ok (n, s1)) :
    ∃ k sm, Receive.deliverLoop code (fuel - 1) ty pre v 0
        { s with instances := fun t => if t = ty then [] else s.instances t } = .ok (k, sm) ∧
      (sm.heap r ≠ none →
        ∃ sm1, Receive.deliverLoop code (fuel - 1 - pre.length) ty [r] v k sm = .ok (k + 1, sm1) ∧
          k + 1 ≤ n) ∧
      ∀ x ∈ sm.kids r, ∀ rv, sm.cell x = some rv →
        s1.heap x = none ∨ s1.cell x = some (true, v) := by
  cases fuel with
  | zero => simp [Receive.deliver] at h
  | succ fuel =>
    rw [Receive.deliver, hreg] at h
    obtain ⟨k, sm, h1, h2⟩ := Receive.deliverLoop_append code ty v pre (r :: post) fuel 0 h
    refine ⟨k, sm, by rw [Nat.add_sub_cancel]; exact h1, ?_⟩
    have c0 := core_clear hi.1 ty
    have a0 : ArgsHeld [] { s with instances := fun t => if t = ty then [] else s.instances t } :=
      hi.2
    have hpre : ∀ i ∈ s.instances ty,
        State.Dormant { s with instances := fun t => if t = ty then [] else s.instances t } i := by
      intro i hm
      refine ⟨hi.1.regBound ty i hm, hi.1.regUnfired ty i hm, fun u hu => ?_, fun j o hs => ?_⟩
      · have hu : i ∈ (if u = ty then [] else s.instances u) := hu
        by_cases e : u = ty
        · rw [if_pos e] at hu
          cases hu
        · rw [if_neg e] at hu
          exact e (hi.1.regDisjoint u ty i hu hm)
      · have hs : (s.slots i).get? j = some (some o) := hs
        rw [hi.1.regSlots ty i hm] at hs
        simp at hs
    have hnd : (pre ++ r :: post).Nodup := by
      rw [← hreg]
      exact hi.1.regNodup ty
    have hnd1 : pre.Nodup := (List.nodup_append.1 hnd).1
    have hnd2 : (r :: post).Nodup := (List.nodup_append.1 hnd).2.1
    have hdis : ∀ c ∈ r :: post, c ∉ pre := fun c hc hp => (List.nodup_append.1 hnd).2.2 hp hc
    have hr_post : r ∉ post := (List.nodup_cons.1 hnd2).1
    obtain ⟨im, fm⟩ := (keeps code fuel).deliverLoop ⟨c0, a0⟩ hnd1
      (fun i hm => hpre i (by rw [hreg]; exact List.mem_append_left _ hm)) h1
    have hdorm : ∀ j ∈ r :: post, sm.Dormant j := fun j hj =>
      fm.node j (hpre j (by rw [hreg]; exact List.mem_append_right _ hj)) (hdis j hj)
    have hge : ∀ (f : Nat) (is : List Nat) (a b : Nat) (t t1 : State C V),
        Receive.deliverLoop code f ty is v a t = .ok (b, t1) → a ≤ b := by
      intro f is a b t t1 hh
      have := (Receive.deliverLoop_arrival code ty v f is a b t t1 hh).1
      omega
    cases hf : fuel - pre.length with
    | zero =>
      rw [hf] at h2
      cases post <;> simp [Receive.deliverLoop] at h2
    | succ f =>
      rw [hf] at h2
      rw [Nat.add_sub_cancel, hf]
      rw [Receive.deliverLoop] at h2
      split at h2
      · rename_i rc kd ps cs hnode
        simp only at h2
        split at h2
        · rename_i s2 hp2
          split at h2
          · rename_i s3 h3
            have hcnt : k + 1 ≤ n := hge f post (k + 1) n s3 s1 h2
            have hone : Receive.deliverLoop code (f + 1) ty [r] v k sm = .ok (k + 1, s3) := by
              rw [Receive.deliverLoop]
              simp only [hnode, hp2, h3]
              cases f with
              | zero => simp [Receive.deliverLoop] at h2
              | succ f => simp [Receive.deliverLoop]
            refine ⟨fun _ => ⟨s3, hone, hcnt⟩, ?_⟩
            intro x hx rv hrv
            have hdr := hdorm r (List.mem_cons_self _ _)
            have ce : Core (sm.emit (.fulfil ty r)) :=
              core_emit im.1 _ (by intro a b e; cases e) (by intro a b e; cases e)
                (by intro a b c e; cases e)
            have ae := argsHeld_emit im.2 (Event.fulfil ty r)
            have f0 : Frame (fun _ => False) (fun _ => False) sm (sm.emit (.fulfil ty r)) :=
              frame_emit _ _ sm _ (by intro a b e; cases e) (by intro a b e; cases e)
            have q1 : Quiet (sm.emit (.fulfil ty r))
                ((sm.emit (.fulfil ty r)).write r (some (.node (rc + 1) kd ps cs))) :=
              quiet_write _ r _ _ hnode (by simp [Obj.SameView]) (fun _ => by simp [Obj.ArgLe])
            have i1 := inv_quiet ⟨ce, ae⟩ q1
            obtain ⟨i1b, f1b⟩ := Future.mk_inv i1 v (fun _ => False) (fun _ => False)
            have fpre : Frame (fun _ => False) (fun _ => False) sm
                (Future.mk v ((sm.emit (.fulfil ty r)).write r
                  (some (.node (rc + 1) kd ps cs)))).2 :=
              frame_trans f0 (frame_trans (frame_quiet _ _ q1) f1b)
            obtain ⟨i2, f2, p2⟩ := (keeps code f).propagate i1b (fpre.node r hdr (fun y => y)) hp2
            obtain ⟨i3, q3⟩ := release_inv code f _ i2.1 (argsHeld_nil i2.2) h3
            have fi : Frame (fun _ => False) (fun j => j = r) sm s3 :=
              frame_trans (frame_weaken fpre (fun c hc _ => hc) (fun j hj _ => hj.elim))
                (frame_trans f2 (frame_quiet _ _ q3))
            have hpre3 : ∀ j ∈ post, s3.Dormant j := by
              intro j hj
              refine fi.node j (hdorm j (List.mem_cons_of_mem _ hj)) ?_
              rintro rfl
              exact hr_post hj
            obtain ⟨i4, f4⟩ := (keeps code f).deliverLoop i3 (List.nodup_cons.1 hnd2).2 hpre3 h2
            -- the cell `x` in the state in which `propagate` is entered
            have hxk : x ∈ cs := by
              rw [State.kids_node hnode] at hx
              exact hx
            have hxlt : x < sm.next := im.1.childBound r x hx
            have hxr : x ≠ r := by
              rintro rfl
              unfold State.cell at hrv
              rw [hnode] at hrv
              cases hrv
            have hheap : (Future.mk v ((sm.emit (.fulfil ty r)).write r
                (some (.node (rc + 1) kd ps cs)))).2.heap x = sm.heap x := by
              have e1 : x ≠ sm.next := by omega
              simp [Future.mk, State.alloc, State.write, State.emit, e1, hxr]
            have hcA : (Future.mk v ((sm.emit (.fulfil ty r)).write r
                (some (.node (rc + 1) kd ps cs)))).2.cell x = some rv := by
              unfold State.cell
              rw [hheap]
              exact hrv
            have hkA : x ∈ (Future.mk v ((sm.emit (.fulfil ty r)).write r
                (some (.node (rc + 1) kd ps cs)))).2.kids r := by
              have e1 : r ≠ sm.next := by
                have := hdr.1
                omega
              simp [State.kids, Future.mk, State.alloc, State.write, State.emit, e1, Obj.kidsOf, hxk]
            have hyA : (Future.mk v ((sm.emit (.fulfil ty r)).write r
                (some (.node (rc + 1) kd ps cs)))).2.heap (Future.mk v ((sm.emit (.fulfil ty r)).write r
                (some (.node (rc + 1) kd ps cs)))).1 = some (.data 1 true v none) := by
              simp [Future.mk, State.alloc, State.write, State.emit]
            have hlt3 : x < s3.next := lt_of_lt_of_le hxlt fi.next_le
            rcases p2 1 v none hyA x hkA rv hcA with g | g
            · exact Or.inl (f4.dead x hlt3 (calm_dead q3.1 x g))
            · rcases calm_cell_keep q3.1 x _ g with g1 | g1
              · exact Or.inl (f4.dead x hlt3 g1)
              · have hd3 : s3.Detached x := (detached_of_ready i3 (State.cell_ready g1)).1
                exact (f4.cell x hd3 (fun y => y)).2.2 _ g1
          · cases h2
        · cases h2
      · cases h2
      · rename_i hdead
        refine ⟨fun hne => absurd hdead hne, ?_⟩
        intro x hx
        unfold State.kids at hx
        rw [hdead] at hx
        cases hx

end resolved

section resolvedClaim
variable {C V : Type} [Inhabited V]

/-- C1, amended. First part: in a state where no other `Receive<T>` is pending,
`x = receive<T>()` is not ready, its node is the last entry of the registry of
`T` and has the cell of `x` as its only child; `x` stays unready under any
number `k` of handle copies, and `deliver<T>(v)` then returns 1 and leaves the
cell shared by all the handles ready with value `v`. Second part, for every state that satisfies the graph
invariant and every entry `r` of the registry of `T`: the children of the node
`r` are not ready before the delivery; `deliver<T>(v)` reaches the entry after
the loop over the entries `pre` before it, and if the node is alive then, the
entry adds one to the count, and every value cell that is then among the
children of the node is ready with value `v` afterwards, as long as it is
alive. -/
theorem receive_resolved_by_deliver (code : Code C V) (ty : Nat) (v : V) :
    (∀ (s : State C V) (fuel k : Nat), (∀ i ∈ s.instances ty, i < s.next ∧ s.heap i = none) →
      ∃ x s1, Receive.create code (fuel + 1) ty s = .ok (x, s1) ∧ Future.ready s1 x = false ∧
        s1.instances ty = s.instances ty ++ [s.next] ∧ s1.kids s.next = [x] ∧
        ∃ s2, Future.copyAll (List.replicate k x) s1 = .ok s2 ∧ Future.ready s2 x = false ∧
          ∃ s3, Receive.deliver code (fuel + (s.instances ty).length + 6) ty v s2 = .ok (1, s3) ∧
            Future.ready s3 x = true ∧ Future.get s3 x = v) ∧
    ∀ (s : State C V) (pre : List Nat) (r : Nat) (post : List Nat), Inv s →
      s.instances ty = pre ++ r :: post →
      (∀ x ∈ s.kids r, Future.ready s x = false) ∧
      ∀ (fuel n : Nat) (s1 : State C V), Receive.deliver code fuel ty v s = .ok (n, s1) →
        ∃ k sm, Receive.deliverLoop code (fuel - 1) ty pre v 0
            { s with instances := fun t => if t = ty then [] else s.instances t } = .ok (k, sm) ∧
          (sm.heap r ≠ none →
            ∃ sm1, Receive.deliverLoop code (fuel - 1 - pre.length) ty [r] v k sm =
                .ok (k + 1, sm1) ∧ k + 1 ≤ n) ∧
          ∀ x ∈ sm.kids r, (∃ rv, sm.cell x = some rv) →
            s1.heap x = none ∨ (Future.ready s1 x = true ∧ Future.get s1 x = v) := by
  refine ⟨fun s fuel k hreg => ?_, ?_⟩
  · obtain ⟨x, s1, h1, h2, h3⟩ := receive_fresh_resolves code s ty v fuel k hreg
    have e := Receive.create_eq code fuel ty s
    rw [e] at h1
    cases h1
    exact ⟨_, _, e, h2, by simp, by simp [State.kids, Obj.kidsOf], h3⟩
  intro s pre r post hi hreg
  have hm : r ∈ s.instances ty := by
    rw [hreg]
    simp
  refine ⟨?_, ?_⟩
  · intro x hx
    unfold Future.ready
    split
    · rename_i rc b w p hc
      exact hi.1.unfiredUnready r x hx (hi.1.regUnfired ty r hm) b w (State.cell_data hc)
    · rfl
  · intro fuel n s1 h
    obtain ⟨k, sm, h1, h2, h3⟩ := deliver_resolves_children code ty v fuel n s s1 hi pre r post
      hreg h
    refine ⟨k, sm, h1, h2, ?_⟩
    rintro x hx ⟨rv, hrv⟩
    rcases h3 x hx rv hrv with g | g
    · exact Or.inl g
    · exact Or.inr ⟨State.cell_ready g, State.cell_get g⟩

/-- C1, as stated, fails. After `a = receive<T>(); r = receive<T>();
x = bind<T, T>(a, [r](T) { return r; })`, the held `r` (cell 3, the only child of
its `Receive` node 2) is not ready; `deliver<T>(5)` returns 2, and afterwards
the cell of `r` is alive and `r` is still not ready, while `x` is ready with 5:
the callback, run through the entry of `a`, grafted the children of the `Bind`
node onto the node of `r` before the loop reached it. The same holds when the
graft happens between `r = receive<T>()` and the delivery: after
`r = receive<T>(); x = bind<T, A>(receive<A>(), [r](A) { return r; })` and
`deliver<A>(7)`, the call `deliver<T>(5)` returns 1 and leaves `r` unready. -/
theorem receive_unresolved_after_deliver :
    (∃ x s n s1, Prog.run (retCode 3) 12 shadowedReceive (State.init (V := Nat)) = .ok (x, s) ∧
      s.kids 2 = [3] ∧ Future.ready s 3 = false ∧
      Receive.deliver (retCode 3) 20 0 5 s = .ok (n, s1) ∧ n = 2 ∧
      s1.heap 3 ≠ none ∧ Future.ready s1 3 = false ∧
      Future.ready s1 x = true ∧ Future.get s1 x = 5) ∧
    ∃ r x s m s1 n s2, heldResult (retCode 1) 4 () (State.init (V := Nat)) = .ok ((r, x), s) ∧
      Receive.deliver (retCode 1) 20 1 7 s = .ok (m, s1) ∧ Future.ready s1 r = false ∧
      Receive.deliver (retCode 1) 20 0 5 s1 = .ok (n, s2) ∧ n = 1 ∧
      s2.heap r ≠ none ∧ Future.ready s2 r = false ∧
      Future.ready s2 x = true ∧ Future.get s2 x = 5 := by
  constructor
  · have h := shadowedReceiveRun_eq
    unfold shadowedReceiveRun at h
    split at h
    · rename_i x s hs
      split at h
      · rename_i n s1 hd
        simp only [Option.some.injEq, LostObs.mk.injEq] at h
        obtain ⟨h1, h2, h3, h4, h5, h6, h7⟩ := h
        refine ⟨x, s, n, s1, hs, h1, h2, hd, h3, ?_, h5, h6, h7⟩
        intro e
        rw [e] at h4
        cases h4
      · cases h
    · cases h
  · have h := heldResultLate_eq
    unfold heldResultLate at h
    split at h
    · rename_i r x s hs
      split at h
      · rename_i m s1 hd1
        split at h
        · rename_i n s2 hd2
          simp only [Option.some.injEq, LostObs.mk.injEq] at h
          obtain ⟨_, h2, h3, h4, h5, h6, h7⟩ := h
          refine ⟨r, x, s, m, s1, n, s2, hs, hd1, h2, hd2, h3, ?_, h5, h6, h7⟩
          intro e
          rw [e] at h4
          cases h4
        · cases h
      · cases h
    · cases h

/-- C1, amended, at the start of a program, with `T = int` as tag 0 and the value
1: with one copy of the handle (the tests `deliverSetsFuturesCreatedByReceive`
and `futuresAreShared`) the delivery returns 1 and the shared cell is ready with
1; and in the state `oneReceive` after `x = receive<T>()`, whose registry holds
the node 0 with the cell 1 as its child, the delivery counts the node and leaves
the cell ready with 1. -/
theorem receive_resolved_by_deliver_witness :
    (∃ x s1, Receive.create (noCode (V := Nat)) 1 0 State.init = .ok (x, s1) ∧
      Future.ready s1 x = false ∧ s1.instances 0 = [0] ∧ s1.kids 0 = [x] ∧
      ∃ s2, Future.copyAll (List.replicate 1 x) s1 = .ok s2 ∧ Future.ready s2 x = false ∧
        ∃ s3, Receive.deliver noCode 6 0 1 s2 = .ok (1, s3) ∧
          Future.ready s3 x = true ∧ Future.get s3 x = 1) ∧
    ∃ n s1, Inv (oneReceive (C := Empty) (V := Nat)) ∧
      (oneReceive (C := Empty) (V := Nat)).instances 0 = [] ++ 0 :: [] ∧
      Future.ready (oneReceive (C := Empty) (V := Nat)) 1 = false ∧
      Receive.deliver noCode 6 0 1 (oneReceive (C := Empty) (V := Nat)) = .ok (n, s1) ∧
      1 ≤ n ∧ Future.ready s1 1 = true ∧ Future.get s1 1 = 1 := by
  have hw := receive_resolved_by_deliver (noCode (V := Nat)) 0 1
  refine ⟨hw.1 State.init 0 1 (by intro i hi; simp [State.init] at hi), ?_⟩
  have hi : Inv (oneReceive (C := Empty) (V := Nat)) :=
    (Receive.create_keeps_inv noCode 1 0 inv_init (oneReceive_eq noCode 0)).1
  have hreg : (oneReceive (C := Empty) (V := Nat)).instances 0 = [] ++ 0 :: [] := by
    simp [oneReceive]
  have hd : ∃ s1, Receive.deliver noCode 6 0 1 (oneReceive (C := Empty) (V := Nat)) =
      .ok (1, s1) ∧ s1.heap 1 ≠ none := by
    simp [oneReceive, Receive.deliver, Receive.deliverLoop, Future.mk, State.alloc, State.write,
      Node.propagate, Node.setChildren, Observer.set, State.emit, release, Obj.rc, Obj.setRc,
      Obj.refs, Kind.captures]
  obtain ⟨s1, h1, hne⟩ := hd
  obtain ⟨g1, g2⟩ := hw.2 oneReceive [] 0 [] hi hreg
  obtain ⟨k, sm, e1, e2, e3⟩ := g2 6 1 s1 h1
  have e1 : sm = { (oneReceive (C := Empty) (V := Nat)) with
      instances := fun t => if t = 0 then [] else (oneReceive (C := Empty) (V := Nat)).instances t } ∧
      k = 0 := by
    simp [Receive.deliverLoop] at e1
    exact ⟨e1.2.symm, e1.1.symm⟩
  obtain ⟨rfl, rfl⟩ := e1
  have hk : (1 : Nat) ∈ State.kids { (oneReceive (C := Empty) (V := Nat)) with
      instances := fun t => if t = 0 then [] else (oneReceive (C := Empty) (V := Nat)).instances t }
      0 := by
    simp [State.kids, oneReceive, Obj.kidsOf]
  have hc : ∃ rv, State.cell { (oneReceive (C := Empty) (V := Nat)) with
      instances := fun t => if t = 0 then [] else (oneReceive (C := Empty) (V := Nat)).instances t }
      1 = some rv := by
    simp [State.cell, oneReceive, Obj.cellOf]
  have hr := g1 1 (by simp [State.kids, oneReceive, Obj.kidsOf])
  rcases e3 1 hk hc with g | ⟨g3, g4⟩
  · exact absurd g hne
  · exact ⟨1, s1, hi, hreg, hr, h1, le_refl _, g3, g4⟩

end resolvedClaim

/-! ## The same future in two positions, for any producer -/

section observerStep
variable {C V : Type} [Inhabited V]

/-- One round of the loop of the ready branch of `propagate` on an argument
observer `o` that is alive and whose target node `t` is alive: `o` and `t` are
held, `t->set<i>(v)` is called, then the two references are released and the
loop goes on with the other children. -/
theorem setChildren_arg_step (code : Code C V) (F : Nat) {o : Nat} {rest : List Nat} {v : V}
    {s s1 : State C V} {r : Nat} {p : Option Nat} {t i rt : Nat} {kd : Kind C V}
    {pt : List (Option Nat)} {cs : List Nat} (hi : Inv s) (hnd : (o :: rest).Nodup)
    (hpre : ∀ d ∈ o :: rest, s.Detached d ∧ ¬ s.wasSet d)
    (ho : s.heap o = some (.arg r p t i)) (ht : s.heap t = some (.node rt kd pt cs))
    (h : Node.setChildren code (F + 1) (o :: rest) v s = .ok s1) :
    ∃ sN sc,
      Inv (((s.emit (.set o v)).write o (some (.arg (r + 1) p t i))).write t
        (some (.node (rt + 1) kd pt cs))) ∧
      pt.get? i = some (some o) ∧
      Node.set code (F - 1) t i v (((s.emit (.set o v)).write o (some (.arg (r + 1) p t i))).write t
        (some (.node (rt + 1) kd pt cs))) = .ok sN ∧
      Inv sN ∧ Quiet sN sc ∧ Inv sc ∧ Frame (fun d => d = o) (fun _ => False) s sc ∧
      Node.setChildren code F rest v sc = .ok s1 := by
  have hto : t ≠ o := by
    rintro rfl
    rw [ho] at ht
    cases ht
  obtain ⟨hdc, hwc⟩ := hpre o (List.mem_cons_self _ _)
  have hsl : pt.get? i = some (some o) := by
    rcases (hi.2 o r t i (State.arg_arg ho) hwc).2 (by rw [State.kind_node ht]; simp) with g | ⟨g, _⟩
    · rw [State.slots_node ht] at g
      exact g
    · cases g
  rw [Node.setChildren] at h
  split at h
  · rename_i hc
    rw [ho] at hc
    cases hc
  · rename_i hc
    rw [ho] at hc
    cases hc
  · rename_i o1 hnot ho1
    rw [ho] at ho1
    cases ho1
    split at h
    · rename_i sb hb
      split at h
      · rename_i sc hcc
        have c0 : Core (s.emit (.set o v)) :=
          core_emit hi.1 _ (by intro n x e; cases e)
            (by
              intro d w e
              cases e
              exact ⟨hdc, hwc⟩)
            (by intro t i a e; cases e)
        have a0 := argsHeld_emit hi.2 (Event.set o v)
        have hwe : (s.emit (.set o v)).wasSet o :=
          (State.wasSet_emit s _ o).2 (Or.inr ⟨v, rfl⟩)
        have q1 : Quiet (s.emit (.set o v))
            ((s.emit (.set o v)).write o (some (.arg (r + 1) p t i))) :=
          quiet_write _ o (.arg r p t i) _ ho (by simp [Obj.SameView])
            (fun hn => absurd hwe hn)
        have i1 := inv_quiet ⟨c0, a0⟩ q1
        have htl : ((s.emit (.set o v)).write o (some (.arg (r + 1) p t i))).heap t =
            some (.node rt kd pt cs) := by
          simp [hto, ht]
        have q2 : Quiet ((s.emit (.set o v)).write o (some (.arg (r + 1) p t i)))
            (((s.emit (.set o v)).write o (some (.arg (r + 1) p t i))).write t
              (some (.node (rt + 1) kd pt cs))) :=
          quiet_write _ t _ _ htl (by simp [Obj.SameView]) (fun _ => by simp [Obj.ArgLe])
        have i2 := inv_quiet i1 q2
        simp only [Obj.setRc, Obj.rc] at hb
        cases F with
        | zero => simp [Observer.set] at hb
        | succ F =>
          rw [Observer.set] at hb
          simp only [State.write_heap, if_true, State.emit_heap, if_neg hto, ht] at hb
          split at hb
          · rename_i sN hN
            have hslN : ∃ o1, ((((s.emit (.set o v)).write o (some (.arg (r + 1) p t i))).write t
                (some (.node (rt + 1) kd pt cs))).slots t).get? i = some (some o1) := by
              refine ⟨o, ?_⟩
              rw [State.slots_write, if_pos rfl]
              exact hsl
            obtain ⟨iN, fN⟩ := (keeps code F).nodeSet i2 hslN hN
            obtain ⟨ib, qb⟩ := release_inv code F _ iN.1 (argsHeld_nil iN.2) hb
            obtain ⟨ic, qc⟩ := release_inv code (F + 1) _ ib.1 (argsHeld_nil ib.2) hcc
            have fc : Frame (fun d => d = o) (fun _ => False) s sc :=
              frame_trans (frame_emit _ _ s _ (by intro n x e; cases e)
                  (by intro d w e; cases e; rfl))
                (frame_trans (frame_quiet _ _ q1) (frame_trans (frame_quiet _ _ q2)
                  (frame_trans (frame_weaken fN (fun c hc _ => hc.elim) (fun n hn _ => hn))
                    (frame_trans (frame_quiet _ _ qb) (frame_quiet _ _ qc)))))
            exact ⟨sN, sc, i2, hsl, hN, iN, quiet_trans qb qc, ic, fc, h⟩
          · cases hb
      · cases h
    · cases h

end observerStep

section bothObservers
variable {C V : Type} [Inhabited V]

omit [Inhabited V] in
/-- A value cell is still a value cell in a later state, unless it was
destroyed. -/
theorem evolves_cell {a b : State C V} (h : Evolves a b) (hw : a.WF) {c : Nat} {rv : Bool × V}
    (hc : a.cell c = some rv) : b.heap c = none ∨ ∃ rv1, b.cell c = some rv1 := by
  obtain ⟨_, _, _, hal, _⟩ := h hw
  unfold State.cell at hc
  cases ho : a.heap c with
  | none =>
    rw [ho] at hc
    cases hc
  | some o =>
    rw [ho] at hc
    rcases hal c o ho with g | ⟨o1, g1, g2⟩
    · exact Or.inl g
    · right
      cases o with
      | node rc k ps cs => cases hc
      | arg rc p t i => cases hc
      | data rc r w p =>
        cases o1 with
        | node rc1 k1 ps1 cs1 => cases k1 <;> exact g2.elim
        | arg rc1 p1 t1 i1 => exact g2.elim
        | data rc1 r1 w1 p1 => exact ⟨(r1, w1), State.cell_data g1⟩

omit [Inhabited V] in
/-- The heap object behind an argument observer. -/
theorem State.arg_heap {s : State C V} {o rc t i : Nat} (h : s.arg o = some (rc, t, i)) :
    ∃ p, s.heap o = some (.arg rc p t i) := by
  unfold State.arg at h
  cases ho : s.heap o with
  | none =>
    rw [ho] at h
    cases h
  | some ob =>
    rw [ho] at h
    cases ob with
    | node rc k ps cs => cases h
    | data rc r w p => cases h
    | arg rc1 p t1 i1 =>
      simp only [Obj.argOf, Option.some.injEq, Prod.mk.injEq] at h
      obtain ⟨rfl, rfl, rfl⟩ := h
      exact ⟨p, rfl⟩

/-- The ready branch of `propagate(x)`, for `x` ready with value `v`, on a node
`n` whose children list holds two argument observers `o0` and `o1` next to each
other, after the children `pre`. If, when the loop reaches `o0`, it is the
observer of position 0 of a `Bind` node `t` with two inputs, none of which has
arrived, and if, when the loop reaches `o1`, it is the observer of position 1 of
`t` and `t` is alive, then `set` is called once on each of the two observers,
with `v`, and the callback of `t` is invoked exactly once, with `(v, v)`, which
is its only invocation so far. If the callback returns the ready future
`Future<T>(w)`, every value cell subscribed to `t` is ready with value `w`
afterwards, as long as it is alive. -/
theorem propagate_sets_both_observers (code : Code C V) (fuel n x : Nat) (s s1 : State C V)
    (hi : Inv s) (hd : s.Dormant n) (rcx : Nat) (v : V) (q : Option Nat)
    (hx : s.heap x = some (.data rcx true v q)) (rcn : Nat) (k : Kind C V)
    (ps : List (Option Nat)) (pre : List Nat) (o0 o1 : Nat) (post : List Nat)
    (hn : s.heap n = some (.node rcn k ps (pre ++ o0 :: o1 :: post)))
    (h : Node.propagate code fuel n x s = .ok s1) :
    ∃ evs sm sm1, s1.trace = s.trace ++ .propagate n x :: evs ∧
      Node.setChildren code (fuel - 1) pre v (s.emit (.propagate n x)) = .ok sm ∧
      Node.setChildren code (fuel - 1) (pre ++ [o0]) v (s.emit (.propagate n x)) = .ok sm1 ∧
      ∀ (t rt : Nat) (a0 a1 : V) (f : C) (pt : List (Option Nat)) (cs : List Nat) (r0 r1 : Nat),
        sm.heap t = some (.node rt (.bind [false, false] [a0, a1] f) pt cs) →
        sm.arg o0 = some (r0, t, 0) → sm1.arg o1 = some (r1, t, 1) → sm1.kind t ≠ none →
        setsOf o0 evs = [v] ∧ setsOf o1 evs = [v] ∧ callsOf t evs = [(0, [v, v])] ∧
        callsOf t s1.trace = [(0, [v, v])] ∧
        ∀ w, code.body f [v, v] = .value w .ret → ∀ c ∈ cs, (∃ rv, sm.cell c = some rv) →
          s1.heap c = none ∨ (Future.ready s1 c = true ∧ Future.get s1 c = w) := by
  cases fuel with
  | zero => simp [Node.propagate] at h
  | succ fuel =>
    rw [Node.propagate] at h
    simp only [hx, hn] at h
    rw [Nat.add_sub_cancel]
    have hkn := State.kids_node hn
    have i0 := hd.emit_propagate hi x
    have hpre : ∀ c ∈ pre ++ o0 :: o1 :: post, (s.emit (.propagate n x)).Detached c ∧
        ¬ (s.emit (.propagate n x)).wasSet c := by
      intro c hc
      have hc1 : c ∈ s.kids n := by rw [hkn]; exact hc
      refine ⟨⟨hi.1.childBound n c hc1, fun m hm => ?_⟩, fun hw => ?_⟩
      · have : m = n := hi.1.childDisjoint m n c hm hc1
        rw [this]
        exact (State.fired_emit s _ n).2 (Or.inr ⟨x, rfl⟩)
      · rcases (State.wasSet_emit s _ c).1 hw with g | ⟨y, g⟩
        · exact hi.1.unfiredUnset n c hc1 hd.2.1 g
        · cases g
    have hnd : (pre ++ o0 :: o1 :: post).Nodup := by rw [← hkn]; exact hi.1.childNodup n
    have hE := evolves_closed (C := C) (V := V)
    have hU := fun fuel => Closed.upto hE code code.delivers_true fuel
    obtain ⟨i1, f1, _⟩ := (keeps code fuel).setChildren i0 hnd hpre h
    obtain ⟨evs, hevs⟩ := f1.trace
    have hsplit : pre ++ o0 :: o1 :: post = (pre ++ [o0]) ++ o1 :: post := by simp
    have h' := h
    rw [hsplit] at h'
    obtain ⟨sm1, hA1, hB1⟩ := setChildren_append code v (pre ++ [o0]) (o1 :: post) fuel h'
    obtain ⟨sm, hA, hC⟩ := setChildren_append code v pre [o0] fuel hA1
    have htr : s1.trace = s.trace ++ .propagate n x :: evs := by
      rw [hevs]
      simp [State.emit]
    refine ⟨evs, sm, sm1, htr, hA, hA1, ?_⟩
    intro t rt a0 a1 f pt cs r0 r1 ht ha0 ha1 hk1
    -- the states in which the loop reaches the two observers
    have hndA : pre.Nodup := (List.nodup_append.1 hnd).1
    have hndR : (o0 :: o1 :: post).Nodup := (List.nodup_append.1 hnd).2.1
    have hdisA : ∀ c ∈ o0 :: o1 :: post, c ∉ pre :=
      fun c hc hp => (List.nodup_append.1 hnd).2.2 hp hc
    obtain ⟨im, fm, _⟩ := (keeps code fuel).setChildren i0 hndA
      (fun c hc => hpre c (List.mem_append_left _ hc)) hA
    have hprem : ∀ c ∈ o0 :: o1 :: post, sm.Detached c ∧ ¬ sm.wasSet c := by
      intro c hc
      obtain ⟨k1, k2⟩ := hpre c (List.mem_append_right _ hc)
      obtain ⟨j1, j2, _⟩ := fm.cell c k1 (hdisA c hc)
      exact ⟨j1, fun hw => k2 (j2 hw)⟩
    have hnd1 : ((pre ++ [o0]) ++ o1 :: post).Nodup := by rw [← hsplit]; exact hnd
    have hndA1 : (pre ++ [o0]).Nodup := (List.nodup_append.1 hnd1).1
    have hndR1 : (o1 :: post).Nodup := (List.nodup_append.1 hnd1).2.1
    have hdisA1 : ∀ c ∈ o1 :: post, c ∉ pre ++ [o0] :=
      fun c hc hp => (List.nodup_append.1 hnd1).2.2 hp hc
    obtain ⟨im1, fm1, _⟩ := (keeps code fuel).setChildren i0 hndA1
      (fun c hc => hpre c (by rw [hsplit]; exact List.mem_append_left _ hc)) hA1
    have hprem1 : ∀ c ∈ o1 :: post, sm1.Detached c ∧ ¬ sm1.wasSet c := by
      intro c hc
      obtain ⟨k1, k2⟩ := hpre c (by rw [hsplit]; exact List.mem_append_right _ hc)
      obtain ⟨j1, j2, _⟩ := fm1.cell c k1 (hdisA1 c hc)
      exact ⟨j1, fun hw => k2 (j2 hw)⟩
    obtain ⟨p0, ho0⟩ := State.arg_heap ha0
    obtain ⟨p1, ho1⟩ := State.arg_heap ha1
    -- the calls of `set`
    have hs0 : setsOf o0 evs = [v] := by
      obtain ⟨sm', e1, _, e3⟩ := setChildren_reached code v fuel i0 hnd hpre h hevs pre o0
        (o1 :: post) rfl
      rw [hA] at e1
      cases e1
      exact e3 (by rw [ho0]; simp)
    have hs1 : setsOf o1 evs = [v] := by
      obtain ⟨sm', e1, _, e3⟩ := setChildren_reached code v fuel i0 hnd hpre h hevs (pre ++ [o0])
        o1 post hsplit
      rw [hA1] at e1
      cases e1
      exact e3 (by rw [ho1]; simp)
    refine ⟨hs0, hs1, ?_⟩
    -- the round of the loop on `o0`
    cases hF : fuel - pre.length with
    | zero =>
      rw [hF] at hC
      simp [Node.setChildren] at hC
    | succ F0 =>
      rw [hF] at hC
      obtain ⟨sN, sc, iY, hsl0, hN, iN, qNc, ic, fc, hrest⟩ := setChildren_arg_step code F0 im
        (List.nodup_singleton o0) (fun d hd1 => hprem d (by
          rw [List.mem_singleton.1 hd1]
          exact List.mem_cons_self _ _)) ho0 ht hC
      have hsc : sc = sm1 := by
        cases F0 with
        | zero => simp [Node.setChildren] at hrest
        | succ F0 =>
          simp [Node.setChildren] at hrest
          exact hrest
      subst hsc
      obtain ⟨_, _, hinc, _⟩ := Node.set_bind_spec code _ iY t (rt + 1) [false, false]
        [a0, a1] f pt cs (by simp) 0 o0 hsl0 v _ sN hN
      obtain ⟨_, hdis⟩ := hinc (by simp)
      have ht1 : ∃ rc2, sc.heap t =
          some (.node rc2 (.bind [true, false] [v, a1] f) (pt.set 0 none) cs) := by
        rcases qNc.1.2.2.2 t with g | ⟨ob, ob1, hob, hob1, hv⟩
        · exfalso
          apply hk1
          unfold State.kind
          rw [g]
        · rcases hdis with g | ⟨rc1, g⟩
          · rw [g] at hob
            cases hob
          · rw [g] at hob
            cases hob
            cases ob1 <;> simp only [Obj.SameView] at hv
            obtain ⟨rfl, rfl, rfl⟩ := hv
            exact ⟨_, by simpa using hob1⟩
      obtain ⟨rc2, ht1⟩ := ht1
      -- the round of the loop on `o1`
      cases hF1 : fuel - (pre ++ [o0]).length with
      | zero =>
        rw [hF1] at hB1
        simp [Node.setChildren] at hB1
      | succ F1 =>
        rw [hF1] at hB1
        obtain ⟨sN1, sc1, iY1, hsl1, hN1, iN1, qNc1, ic1, fc1, hrest1⟩ :=
          setChildren_arg_step code F1 im1 hndR1 hprem1 ho1 ht1 hB1
        obtain ⟨hcY, _, _, hcomp⟩ := Node.set_bind_spec code _ iY1 t (rc2 + 1) [true, false]
          [v, a1] f (pt.set 0 none) cs (by simp) 1 o1 hsl1 v _ sN1 hN1
        obtain ⟨hcalls, hpersist, hres⟩ := hcomp (by simp)
        have hprep : ∀ d ∈ post, sc1.Detached d ∧ ¬ sc1.wasSet d := by
          intro d hd1
          obtain ⟨g1, g2⟩ := hprem1 d (List.mem_cons_of_mem _ hd1)
          have hne : ¬ d = o1 := by
            rintro rfl
            exact (List.nodup_cons.1 hndR1).1 hd1
          obtain ⟨j1, j2, _⟩ := fc1.cell d g1 hne
          exact ⟨j1, fun hw => g2 (j2 hw)⟩
        obtain ⟨_, f4, _⟩ := (keeps code F1).setChildren ic1 (List.nodup_cons.1 hndR1).2 hprep
          hrest1
        have hext : ∃ e, s1.trace = sN1.trace ++ e := by
          obtain ⟨e, he⟩ := f4.trace
          exact ⟨e, by rw [he, qNc1.1.2.2.1]⟩
        have hc1 := hpersist s1 i1 hext
        refine ⟨?_, by simpa using hc1, ?_⟩
        · -- the invocation of the callback
          obtain ⟨e1, he1⟩ := fm1.trace
          have hnil : callsOf t s.trace = [] := by
            have e : ((((sc.emit (.set o1 v)).write o1 (some (.arg (r1 + 1) p1 t 1))).write t
                (some (.node (rc2 + 1) (.bind [true, false] [v, a1] f) (pt.set 0 none) cs))).trace) =
                s.trace ++ ([Event.propagate n x] ++ e1 ++ [Event.set o1 v]) := by
              simp [State.emit, he1]
            rw [e, callsOf_append, List.append_eq_nil] at hcY
            exact hcY.1
          rw [htr, callsOf_append, hnil, List.nil_append] at hc1
          have e2 : callsOf t (Event.propagate n x :: evs) = callsOf t evs := by
            simp [callsOf]
          rw [e2] at hc1
          simpa using hc1
        · -- the result
          intro w hbody c hc hrv
          obtain ⟨rv, hrv⟩ := hrv
          have hclt : c < sm.next := im.1.childBound t c (by rw [State.kids_node ht]; exact hc)
          have wfm : sm.WF := ⟨im.1.heapBound, im.1.regBound⟩
          have wf1 : sc.WF := ⟨im1.1.heapBound, im1.1.regBound⟩
          have eC : Evolves sm sc := (hU _).setChildren hC
          have eB : Evolves sc s1 := (hU _).setChildren hB1
          have hlt1 : c < sc.next := lt_of_lt_of_le hclt (eC wfm).2.1
          have hnotpost : c ∉ post := by
            intro hcp
            obtain ⟨k1, _⟩ := hpre c (List.mem_append_right _
              (List.mem_cons_of_mem _ (List.mem_cons_of_mem _ hcp)))
            have hcn : c ∉ pre := hdisA c (List.mem_cons_of_mem _ (List.mem_cons_of_mem _ hcp))
            have hdm : sm.Detached c := (fm.cell c k1 hcn).1
            have hft : sm.fired t := hdm.2 t (by rw [State.kids_node ht]; exact hc)
            apply im.1.firedSlots t hft 0 o0
            rw [State.slots_node ht]
            exact hsl0
          rcases evolves_cell eC wfm hrv with g | ⟨rv1, g⟩
          · exact Or.inl ((eB wf1).2.2.1 c hlt1 g)
          · have hco : c ≠ o1 := by
              rintro rfl
              rw [State.cell_arg ho1] at g
              cases g
            have hct : c ≠ t := by
              rintro rfl
              rw [State.cell_node ht1] at g
              cases g
            have hcY1 : ((((sc.emit (.set o1 v)).write o1 (some (.arg (r1 + 1) p1 t 1))).write t
                (some (.node (rc2 + 1) (.bind [true, false] [v, a1] f) (pt.set 0 none) cs))).cell c) =
                some rv1 := by
              rw [State.cell_write, if_neg hct, State.cell_write, if_neg hco]
              exact g
            have hlt2 : c < sc1.next := lt_of_lt_of_le hlt1 fc1.next_le
            rcases hres w (by simpa using hbody) c hc rv1 hcY1 with g2 | g2
            · exact Or.inl (f4.dead c hlt2 (calm_dead qNc1.1 c g2))
            · rcases calm_cell_keep qNc1.1 c _ g2 with g3 | g3
              · exact Or.inl (f4.dead c hlt2 g3)
              · have hd3 : sc1.Detached c := (detached_of_ready ic1 (State.cell_ready g3)).1
                rcases (f4.cell c hd3 hnotpost).2.2 _ g3 with g4 | g4
                · exact Or.inl g4
                · exact Or.inr ⟨State.cell_ready g4, State.cell_get g4⟩

end bothObservers

section sameFutureClaim
variable {C V : Type} [Inhabited V]

/-- C14, amended. First part: in a state where no other `Receive<A>` is pending,
`a = receive<A>()` followed by `x = bind<T, A, A>(a, a, f)`, for a callback `f`
without captures that returns the ready future `Future<T>(w)` on `(v, v)`. One
`deliver<A>(v)` returns 1; during it `set(v)` is called once on the cell of `a`
and once on each of the two argument observers, `f` is invoked exactly once,
with `(v, v)`, and `x` is left ready with the value `w`. Second part, for every
state that satisfies the graph invariant, every node `n` that has not
propagated, of any class, and every callback `f`: when `n` propagates a future
that is ready with `v` and the two argument observers `o0` and `o1` are next to
each other in its children list, after the children `pre`, then, provided that
the loop finds `o0` alive as the observer of position 0 of a `Bind` node `t`
with two inputs none of which has arrived, and finds `o1` alive as the observer
of position 1 of `t` with `t` alive, `set(v)` is called once on each of the two
observers and `f` is invoked exactly once, with `(v, v)`, this being its only
invocation so far; if `f` returns the ready future `Future<T>(w)`, every value
cell subscribed to `t` is ready with `w` afterwards, as long as it is alive. -/
theorem bind_same_future_once_each (code : Code C V) (v : V) :
    (∀ (s : State C V) (ty : Nat) (w : V) (f : C) (fuel : Nat),
      (∀ i ∈ s.instances ty, i < s.next ∧ s.heap i = none) → code.captures f = [] →
      code.body f [v, v] = .value w .ret →
      ∃ s1, Receive.create code (fuel + 1) ty s = .ok (s.next + 1, s1) ∧
        ∃ s2, Bind.create code (fuel + 1) [s.next + 1, s.next + 1] f s1 = .ok (s.next + 5, s2) ∧
          Future.ready s2 (s.next + 5) = false ∧
          s2.slots (s.next + 2) = [some (s.next + 3), some (s.next + 4)] ∧
          ∃ s3, Receive.deliver code (fuel + (s.instances ty).length + 12) ty v s2 = .ok (1, s3) ∧
            s3.trace = s.trace ++ [.created ty s.next, .fulfil ty s.next,
              .propagate s.next (s.next + 6), .set (s.next + 1) v, .set (s.next + 3) v,
              .set (s.next + 4) v, .call (s.next + 2) 0 [v, v],
              .propagate (s.next + 2) (s.next + 7), .set (s.next + 5) w] ∧
            Future.ready s3 (s.next + 5) = true ∧ Future.get s3 (s.next + 5) = w) ∧
    ∀ (fuel n x : Nat) (s s1 : State C V) (rcx : Nat) (q : Option Nat) (rcn : Nat)
      (k : Kind C V) (ps : List (Option Nat)) (pre : List Nat) (o0 o1 : Nat) (post : List Nat),
      Inv s → s.Dormant n → s.heap x = some (.data rcx true v q) →
      s.heap n = some (.node rcn k ps (pre ++ o0 :: o1 :: post)) →
      Node.propagate code fuel n x s = .ok s1 →
      ∃ evs sm sm1, s1.trace = s.trace ++ .propagate n x :: evs ∧
        Node.setChildren code (fuel - 1) pre v (s.emit (.propagate n x)) = .ok sm ∧
        Node.setChildren code (fuel - 1) (pre ++ [o0]) v (s.emit (.propagate n x)) = .ok sm1 ∧
        ∀ (t rt : Nat) (a0 a1 : V) (f : C) (pt : List (Option Nat)) (cs : List Nat) (r0 r1 : Nat),
          sm.heap t = some (.node rt (.bind [false, false] [a0, a1] f) pt cs) →
          sm.arg o0 = some (r0, t, 0) → sm1.arg o1 = some (r1, t, 1) → sm1.kind t ≠ none →
          setsOf o0 evs = [v] ∧ setsOf o1 evs = [v] ∧ callsOf t evs = [(0, [v, v])] ∧
          callsOf t s1.trace = [(0, [v, v])] ∧
          ∀ w, code.body f [v, v] = .value w .ret → ∀ c ∈ cs, (∃ rv, sm.cell c = some rv) →
            s1.heap c = none ∨ (Future.ready s1 c = true ∧ Future.get s1 c = w) :=
  ⟨fun s ty w f fuel hreg hcap hbody => bind_same_future_fresh code s ty v w f fuel hreg hcap hbody,
    fun fuel n x s s1 rcx q rcn k ps pre o0 o1 post hi hd hx hn h =>
      propagate_sets_both_observers code fuel n x s s1 hi hd rcx v q hx rcn k ps pre o0 o1 post
        hn h⟩

/-- C14, as stated, fails. After `a = receive<A>(); x = bind<T, A, A>(a, a, f)`
the two argument observers 3 and 4 of the `Bind` node 2 are children of the
`Receive<A>` node 0. Then `z = bind<A, B>(receive<B>(), [a](B) { return a; })`
and `deliver<B>(1)`: the callback returns the unready `a`, and the graft makes
the cell of `z` the only child of the node 0. The future `a` is still
unresolved, and `deliver<A>(7)` returns 1 and resolves `z`, but `set` is called
on neither observer, `f` is not invoked and `x`, whose cell is alive, is not
ready. -/
theorem bind_same_future_dropped_by_graft :
    ∃ x s nb s1 na s2, Prog.run droppedCode 12 droppedObservers (State.init (V := Nat)) =
        .ok (x, s) ∧
      s.kids 0 = [1, 3, 4] ∧ s.slots 2 = [some 3, some 4] ∧
      Receive.deliver droppedCode 20 1 1 s = .ok (nb, s1) ∧ nb = 1 ∧
      s1.kids 0 = [10] ∧ Future.ready s1 1 = false ∧
      Receive.deliver droppedCode 20 0 7 s1 = .ok (na, s2) ∧ na = 1 ∧
      setsOf 3 s2.trace = [] ∧ setsOf 4 s2.trace = [] ∧ callsOf 2 s2.trace = [] ∧
      s2.heap x ≠ none ∧ Future.ready s2 x = false ∧ Future.get s2 10 = 7 := by
  have h := droppedObserversRun_eq
  unfold droppedObserversRun at h
  split at h
  · rename_i x s hs
    split at h
    · rename_i nb s1 hb
      split at h
      · rename_i na s2 ha
        simp only [Option.some.injEq, DroppedObs.mk.injEq] at h
        obtain ⟨h1, h2, h3, h4, h5, h6, h7, h8, h9, h10, h11, h12⟩ := h
        refine ⟨x, s, nb, s1, na, s2, hs, h1, h2, hb, h3, h4, h5, ha, h6, h7, h8, h9, ?_, h11,
          h12⟩
        intro e
        rw [e] at h10
        cases h10
      · cases h
    · cases h
  · cases h

/-- C14, amended, at the start of a program (the test `bindWithTwoSameArguments`),
with the value 7 and `f(a, b) = a + b`. First part: the delivery returns 1,
`set(7)` is called once on each of the observers 3 and 4, `f` is invoked once,
with `(7, 7)`, and `x` is ready with 14. Second part, on the `Receive` node of
`sameTwice` once `deliver` has moved the registry out: the children are the cell
1 and the observers 3 and 4; `set(7)` is called once on each observer, `f` is
invoked once, with `(7, 7)`, and `x` is ready with 14. When the future passed
twice is the one of a bind, `a = bind<A, B>(receive<B>(), g)` with `g(b) = b + 1`,
the run of `deliver<B>(3)` calls `set(4)` once on each observer, invokes `f`
once, with `(4, 4)`, and leaves `x` ready with 8. -/
theorem bind_same_future_once_each_witness :
    (∃ s1 s2 s3 : State (List Nat → Nat) Nat,
      Receive.create pureCode 1 0 State.init = .ok (1, s1) ∧
      Bind.create pureCode 1 [1, 1] (fun l => l.headD 0 + l.getD 1 0) s1 = .ok (5, s2) ∧
      Receive.deliver pureCode 12 0 7 s2 = .ok (1, s3) ∧
      setsOf 3 s3.trace = [7] ∧ setsOf 4 s3.trace = [7] ∧
      callsOf 2 s3.trace = [(0, [7, 7])] ∧ Future.ready s3 5 = true ∧ Future.get s3 5 = 14) ∧
    ∃ (s s1 : State (List Nat → Nat) Nat) (evs : List (Event Nat)),
      Prog.run pureCode 12 sameTwice State.init = .ok (5, s) ∧ s.kids 0 = [1, 3, 4] ∧
      Node.propagate pureCode 12 0 6
        { s with instances := fun t => if t = 0 then [] else s.instances t } = .ok s1 ∧
      s1.trace = s.trace ++ .propagate 0 6 :: evs ∧
      setsOf 3 evs = [7] ∧ setsOf 4 evs = [7] ∧ callsOf 2 evs = [(0, [7, 7])] ∧
      Future.ready s1 5 = true ∧ Future.get s1 5 = 14 ∧
      bindOfBindRun 3 = some ⟨[4, 6, 7], 1, [4], [4], [(0, [4, 4])], true, 8⟩ := by
  have hw := bind_same_future_once_each (pureCode (V := Nat)) 7
  constructor
  · obtain ⟨s1, h1, s2, h2, _, _, s3, h3, ht, hr, hg⟩ := hw.1
      (State.init : State (List Nat → Nat) Nat) 0 14 (fun l => l.headD 0 + l.getD 1 0) 0
      (by simp [State.init]) rfl rfl
    refine ⟨s1, s2, s3, h1, h2, h3, ?_, ?_, ?_, hr, hg⟩
    · rw [ht]; rfl
    · rw [ht]; rfl
    · rw [ht]; rfl
  · have h := sameTwiceRun_eq
    unfold sameTwiceRun at h
    split at h
    · rename_i z s h1
      split at h
      · rename_i s1 hp
        split at h
        · rename_i sm hsm
          split at h
          · rename_i sm1 hsm1
            simp only [Option.some.injEq, TwiceObs.mk.injEq] at h
            obtain ⟨rfl, hk, hr, hv, hreg, hb, hbk, ha0, hxc, ha1, hal, hxa⟩ := h
            have h0 : ∃ rc k ps, s.heap 0 = some (.node rc k ps ([1] ++ 3 :: 4 :: [])) := by
              unfold State.kids at hk
              cases hh : s.heap 0 with
              | none => rw [hh] at hk; cases hk
              | some o =>
                rw [hh] at hk
                cases o with
                | node rc k ps cs => exact ⟨rc, k, ps, by rw [show cs = [1, 3, 4] from hk]; rfl⟩
                | data rc r v p => cases hk
                | arg rc p t i => cases hk
            obtain ⟨rc0, k0, ps0, h0⟩ := h0
            have h6 : ∃ rc q, s.heap 6 = some (.data rc true 7 q) := by
              unfold Future.ready at hr
              unfold Future.get at hv
              cases hh : s.heap 6 with
              | none => rw [hh] at hr; cases hr
              | some o =>
                rw [hh] at hr hv
                cases o with
                | node rc k ps cs => cases hr
                | data rc r v p =>
                  simp only at hr hv
                  subst hr hv
                  exact ⟨rc, p, rfl⟩
                | arg rc p t i => cases hr
            obtain ⟨rc6, q6, h6⟩ := h6
            have hi : Inv s := ((keeps pureCode 12).run inv_init h1).1
            have hm : 0 ∈ s.instances 0 := by rw [hreg]; simp
            have hi0 : Inv { s with instances := fun t => if t = 0 then [] else s.instances t } :=
              ⟨core_clear hi.1 0, hi.2⟩
            have hd : State.Dormant
                { s with instances := fun t => if t = 0 then [] else s.instances t } 0 := by
              refine ⟨hi.1.regBound 0 0 hm, hi.1.regUnfired 0 0 hm, fun u hu => ?_,
                fun j o hs => ?_⟩
              · have hu : 0 ∈ (if u = 0 then [] else s.instances u) := hu
                by_cases e : u = 0
                · rw [if_pos e] at hu
                  cases hu
                · rw [if_neg e] at hu
                  exact e (hi.1.regDisjoint u 0 0 hu hm)
              · have hs : (s.slots 0).get? j = some (some o) := hs
                rw [hi.1.regSlots 0 0 hm] at hs
                simp at hs
            obtain ⟨evs, tm, tm1, ht, e1, e2, g⟩ := hw.2 12 0 6 _ s1 rc6 q6 rc0 k0 ps0 [1] 3 4 []
              hi0 hd h6 h0 hp
            have e1 : Node.setChildren pureCode 11 [1] 7
                (State.emit { s with instances := fun t => if t = 0 then [] else s.instances t }
                  (.propagate 0 6)) = .ok tm := e1
            have e2 : Node.setChildren pureCode 11 ([1] ++ [3]) 7
                (State.emit { s with instances := fun t => if t = 0 then [] else s.instances t }
                  (.propagate 0 6)) = .ok tm1 := e2
            rw [hsm] at e1
            rw [hsm1] at e2
            cases e1
            cases e2
            -- the `Bind` node in the state in which the loop reaches its first observer
            have hb2 : ∃ rt f pt, sm.heap 2 =
                some (.node rt (.bind [false, false] [0, 0] f) pt [5]) ∧ f [7, 7] = 14 := by
              unfold State.kind at hb
              unfold State.kids at hbk
              cases hh : sm.heap 2 with
              | none => rw [hh] at hb; cases hb
              | some o =>
                rw [hh] at hb hbk
                cases o with
                | node rc k ps cs =>
                  cases k with
                  | receive => cases hb
                  | alt fs => cases hb
                  | bind r a f =>
                    simp only [Obj.kindOf, Kind.bindView, Option.some.injEq, Prod.mk.injEq] at hb
                    obtain ⟨rfl, rfl, hf⟩ := hb
                    exact ⟨rc, f, ps, by rw [show cs = [5] from hbk], hf⟩
                | data rc r v p => cases hb
                | arg rc p t i => cases hb
            obtain ⟨rt, f, pt, hb2, hf⟩ := hb2
            have hal1 : sm1.kind 2 ≠ none := by
              intro e
              rw [e] at hal
              cases hal
            have hxc1 : ∃ rv, sm.cell 5 = some rv := by
              cases hc : sm.cell 5 with
              | none => rw [hc] at hxc; cases hxc
              | some rv => exact ⟨rv, rfl⟩
            obtain ⟨g1, g2, g3, _, g4⟩ := g 2 rt 0 0 f pt [5] 1 1 hb2 ha0 ha1 hal1
            have hbody : pureCode.body f [7, 7] = .value 14 .ret := by
              simp [pureCode, hf]
            refine ⟨s, s1, evs, h1, hk, hp, ht, g1, g2, g3, ?_⟩
            rcases g4 14 hbody 5 (by simp) hxc1 with g5 | g5
            · rw [g5] at hxa
              cases hxa
            · exact ⟨g5.1, g5.2, bindOfBindRun_eq⟩
          · cases h
        · cases h
      · cases h
    · cases h

end sameFutureClaim

end lftree
